import Mathlib

/-!
# MLFQ scheduler of `kernel/proc.c`

A shallow embedding of the multi-level feedback queue scheduler and of the
process lifecycle hooks of `kernel/proc.c`, followed by theorems about them.

Conventions of the embedding.

* A `struct proc *` is an `Option Nat`: `none` is the null pointer and
  `some i` is `&proc[i]`.  Where the source dereferences a pointer without a
  null test the embedded function takes the slot `i : Nat` itself.
* The process table `proc[NPROC]` and the ring array `procs[NPROC]` of a queue
  are total functions on `Nat`; every loop over them ranges over
  `List.range NPROC`.
* `NPROC` comes from `param.h`, which is not part of the sources at hand, and
  is a parameter of every function that uses it.
* The scheduler is read on one CPU, every function as one atomic step.
  `acquire`/`release`, `push_off`/`pop_off` and `swtch` do not touch the data
  modelled here and are left out; the results of the memory layer are
  arguments.  The section on the scheduler lock follows `mlfq_lock` through
  `age_boost` in functions of their own, named `..._with_lock`.
* Where the source would dereference a null `myproc()`, which C leaves
  undefined, the embedded function returns the state as it is; the step
  relation takes no such step.
* The queue operations are described on the entries of a ring, the list
  `entries` read from `front` on, under the well-formedness `wf_queue` of the
  ring; every state reachable from boot has well-formed rings with room, which
  is part of the invariant `kernel_inv`.
-/

namespace Mlfq

/-! ## Data model -/

/-- Modelled from the spec: `NMLFQ` of the missing `param.h`; the spec fixes
N = 5 queues and `queue_time_slice` has five initialisers. -/
def NMLFQ : Nat := 5

/-- Process states, `enum procstate` of the missing `proc.h`, with the six
names that `procdump` lists. -/
inductive procstate where
  | UNUSED
  | USED
  | SLEEPING
  | RUNNABLE
  | RUNNING
  | ZOMBIE
  deriving DecidableEq, Repr

open procstate

/-- A wait channel (`void *chan`): null, the address of a process-table slot
(what `wait` sleeps on and `exit` wakes), or any other kernel address. -/
inductive Chan where
  | null
  | procAddr (slot : Nat)
  | addr (a : Nat)
  deriving DecidableEq, Repr

/-- The channel value of a `struct proc *` cast to `void *`. -/
def Chan.ofPtr : Option Nat → Chan
  | none => Chan.null
  | some i => Chan.procAddr i

/-- The one register of `struct trapframe` that the scheduling claims speak
of, the saved `a0`; the other saved registers are not modelled. -/
structure trapframe where
  a0 : Nat
  deriving DecidableEq, Repr

/-- The fields of `struct proc` that bear on scheduling.  `trapframe` is `none`
for a null pointer, `pagetable` says whether the pointer is non-null; the
kernel stack, the saved context, the size of the address space, the open files
and the working directory are not modelled. -/
structure proc where
  state : procstate
  chan : Chan
  killed : Int
  xstate : Int
  pid : Int
  parent : Option Nat
  pagetable : Bool
  trapframe : Option trapframe
  name : String
  priority : Int
  ticks_in_queue : Int
  entry_time : Nat
  deriving DecidableEq, Repr

/-- One level of the MLFQ: `struct mlfq_queue`, a ring of process pointers.
`front`, `rear` and `count` are C `int`s that only ever hold values in
`0..NPROC`, so they are natural numbers here. -/
structure mlfq_queue where
  procs : Nat → Option Nat
  front : Nat
  rear : Nat
  count : Nat

/-- The global variables of `proc.c`, with `cpu_proc` standing for
`mycpu()->proc` of the one CPU. -/
structure kernel where
  proc : Nat → proc
  mlfq_queues : Nat → mlfq_queue
  ticks : Nat
  nextpid : Int
  idleproc : Option Nat
  initproc : Option Nat
  cpu_proc : Option Nat

/-- Array assignment `f[i] = v`. -/
def setAt {α : Type} (f : Nat → α) (i : Nat) (v : α) : Nat → α :=
  fun j => if j = i then v else f j

/-- A zero-initialised `struct proc`. -/
def proc_zero : proc :=
  { state := UNUSED, chan := Chan.null, killed := 0, xstate := 0, pid := 0,
    parent := none, pagetable := false, trapframe := none, name := "",
    priority := 0, ticks_in_queue := 0, entry_time := 0 }

/-- The statics of `proc.c` before `main` runs: all zero, except
`nextpid = 1`. -/
def kernel_zero : kernel :=
  { proc := fun _ => proc_zero,
    mlfq_queues := fun _ => { procs := fun _ => none, front := 0, rear := 0, count := 0 },
    ticks := 0, nextpid := 1, idleproc := none, initproc := none, cpu_proc := none }

/-- Assignment to fields of `proc[p]`: the slot becomes `v`. -/
def set_proc (s : kernel) (p : Nat) (v : proc) : kernel :=
  { s with proc := setAt s.proc p v }

/-- Assignment `p->state = st`. -/
def set_state (s : kernel) (p : Nat) (st : procstate) : kernel :=
  set_proc s p { s.proc p with state := st }

/-! ## MLFQ queues -/

/-- The time slices `queue_time_slice[NMLFQ] = {1, 2, 4, 8, 16}`. -/
def queue_time_slice : List Nat := [1, 2, 4, 8, 16]

/-- The body of `mlfq_init`: `front = rear = count = 0` for each of the
`NMLFQ` queues; the ring arrays are not touched. -/
def mlfq_init (s : kernel) : kernel :=
  (List.range NMLFQ).foldl
    (fun s j =>
      { s with mlfq_queues :=
          setAt s.mlfq_queues j { s.mlfq_queues j with front := 0, rear := 0, count := 0 } })
    s

/-- The two clamping statements at the head of `mlfq_enqueue`. -/
def clamp_priority (priority : Int) : Int :=
  let priority := if priority < 0 then 0 else priority
  if priority ≥ (NMLFQ : Int) then (NMLFQ : Int) - 1 else priority

/-- The function `mlfq_enqueue(priority, p)`. -/
def mlfq_enqueue (NPROC : Nat) (s : kernel) (priority : Int) (p : Nat) : kernel :=
  let priority := clamp_priority priority
  if (s.proc p).state ≠ RUNNABLE then s
  else
    let q := s.mlfq_queues priority.toNat
    if q.count < NPROC then
      { s with
        mlfq_queues := setAt s.mlfq_queues priority.toNat
          { procs := setAt q.procs q.rear (some p),
            front := q.front,
            rear := (q.rear + 1) % NPROC,
            count := q.count + 1 },
        proc := setAt s.proc p
          { s.proc p with priority := priority, ticks_in_queue := 0, entry_time := s.ticks } }
    else s

/-- The function `mlfq_dequeue(priority)`: the pointer returned and the new
state. -/
def mlfq_dequeue (NPROC : Nat) (s : kernel) (priority : Nat) : Option Nat × kernel :=
  let q := s.mlfq_queues priority
  if q.count > 0 then
    (q.procs q.front,
     { s with
       mlfq_queues := setAt s.mlfq_queues priority
         { q with front := (q.front + 1) % NPROC, count := q.count - 1 } })
  else (none, s)

/-- The inner loop of `mlfq_remove`:
`for(j = j0; j < j0 + n; j++) procs[(front+j) % NPROC] = procs[(front+j+1) % NPROC]`. -/
def shift_entries (NPROC front : Nat) : Nat → Nat → (Nat → Option Nat) → (Nat → Option Nat)
  | _, 0, procs => procs
  | j, n + 1, procs =>
    shift_entries NPROC front (j + 1) n
      (setAt procs ((front + j) % NPROC) (procs ((front + j + 1) % NPROC)))

/-- The function `mlfq_remove(p)`.  The outer loop stops at the first position
`i < count` whose entry is `p`.  `(rear - 1 + NPROC) % NPROC` is written
`(rear + NPROC - 1) % NPROC`, the same number for `0 ≤ rear`.  A `p->priority`
outside `0..NMLFQ-1` would index outside `mlfq_queues`, which C leaves
undefined; the embedding leaves the state alone there. -/
def mlfq_remove (NPROC : Nat) (s : kernel) (p : Option Nat) : kernel :=
  match p with
  | none => s
  | some i =>
    if some i = s.idleproc then s
    else
      let pr := (s.proc i).priority
      if pr < 0 ∨ pr ≥ (NMLFQ : Int) then s
      else
        let q := s.mlfq_queues pr.toNat
        match (List.range q.count).find? (fun k => q.procs ((q.front + k) % NPROC) == some i) with
        | none => s
        | some k =>
          { s with
            mlfq_queues := setAt s.mlfq_queues pr.toNat
              { procs := shift_entries NPROC q.front k (q.count - 1 - k) q.procs,
                front := q.front,
                rear := (q.rear + NPROC - 1) % NPROC,
                count := q.count - 1 } }

/-- The collecting loop of `age_boost` for queue `prio`: `boost_list`, in
queue order, at most `NPROC` long.  `ticks` and `entry_time` are unsigned and
`entry_time` is always an earlier value of `ticks`, so the difference is the
natural-number one.  A null entry, which the source would dereference, is
skipped. -/
def age_boost_collect (NPROC : Nat) (s : kernel) (prio : Nat) : List Nat :=
  let q := s.mlfq_queues prio
  (List.range q.count).foldl
    (fun boost_list i =>
      if boost_list.length < NPROC then
        match q.procs ((q.front + i) % NPROC) with
        | some p => if s.ticks - (s.proc p).entry_time > 200 then boost_list ++ [p] else boost_list
        | none => boost_list
      else boost_list)
    []

/-- One pass of the outer loop of `age_boost`, for queue `prio`: collect, then
remove and re-enqueue one level up each collected process. -/
def age_boost_level (NPROC : Nat) (s : kernel) (prio : Nat) : kernel :=
  (age_boost_collect NPROC s prio).foldl
    (fun s p => mlfq_enqueue NPROC (mlfq_remove NPROC s (some p)) ((prio : Int) - 1) p)
    s

/-- The function `age_boost()` on the queues, the lock aside:
`for(prio = NMLFQ - 1; prio > 0; prio--)`. -/
def age_boost (NPROC : Nat) (s : kernel) : kernel :=
  ((List.range (NMLFQ - 1)).reverse.map (fun j => j + 1)).foldl (age_boost_level NPROC) s

/-! ## Dispatcher -/

/-- First part of `schedule()`: a current process that is `RUNNING` and is not
the idle process becomes `RUNNABLE` and is enqueued at its own priority. -/
def schedule_requeue (NPROC : Nat) (s : kernel) : kernel :=
  match s.cpu_proc with
  | none => s
  | some prev =>
    if (s.proc prev).state = RUNNING ∧ some prev ≠ s.idleproc then
      let s1 := set_state s prev RUNNABLE
      mlfq_enqueue NPROC s1 (s1.proc prev).priority prev
    else s

/-- The selection loop of `schedule()` over the priorities still to scan: the
value of `next` at label `found` and the state there. -/
def schedule_pick (NPROC : Nat) : List Nat → kernel → Option Nat × kernel
  | [], s => (none, s)
  | prio :: rest, s =>
    match mlfq_dequeue NPROC s prio with
    | (some next, s1) =>
      if (s1.proc next).state = RUNNABLE then (some next, s1)
      else schedule_pick NPROC rest (mlfq_enqueue NPROC s1 (s1.proc next).priority next)
    | (none, s1) => schedule_pick NPROC rest s1

/-- Last part of `schedule()` and of the zombie branch of `yield()`: fall back
to the idle process, mark the chosen process `RUNNING` and make it current.
With nothing chosen and `idleproc` still null the source dereferences a null
pointer; the embedding leaves the state as it is. -/
def schedule_switch (s : kernel) (next : Option Nat) : kernel :=
  let next := match next with
    | none => s.idleproc
    | some n => some n
  match next with
  | none => s
  | some n => { set_state s n RUNNING with cpu_proc := some n }

/-- The function `schedule()` up to the context switch. -/
def schedule (NPROC : Nat) (s : kernel) : kernel :=
  let r := schedule_pick NPROC (List.range NMLFQ) (schedule_requeue NPROC s)
  schedule_switch r.2 r.1

/-! ## Process table and lifecycle hooks -/

/-- The first loop of `procinit()`: every slot of the table is reset. -/
def procinit_reset (NPROC : Nat) (s : kernel) : kernel :=
  (List.range NPROC).foldl
    (fun s p =>
      set_proc s p
        { s.proc p with state := UNUSED, priority := 0, ticks_in_queue := 0, entry_time := 0 })
    s

/-- The function `procinit()`: reset every slot, set up the idle process in
slot 0, enqueue it, and only then run `mlfq_init()`, in the order of the
source. -/
def procinit (NPROC : Nat) (s : kernel) : kernel :=
  let s1 := procinit_reset NPROC s
  let s2 := { s1 with idleproc := some 0 }
  let s3 := set_proc s2 0
      { s2.proc 0 with state := RUNNABLE, pid := 0, priority := (NMLFQ : Int) - 1, name := "idle" }
  let s4 := mlfq_enqueue NPROC s3 (s3.proc 0).priority 0
  mlfq_init s4

/-- The function `allocpid()`, counting in unbounded integers: this is the C
`int nextpid` as long as the counter has not overflowed; `allocpid_int` has
the arithmetic of the 32-bit `int`. -/
def allocpid (s : kernel) : Int × kernel :=
  (s.nextpid, { s with nextpid := s.nextpid + 1 })

/-- The function `freeproc(p)`. -/
def freeproc (s : kernel) (p : Nat) : kernel :=
  set_proc s p
      { s.proc p with trapframe := none, pagetable := false, pid := 0, parent := none,
                      name := "", chan := Chan.null, killed := 0, xstate := 0, state := UNUSED }

/-- The function `allocproc()`.  `kalloc` is the result of the call to
`kalloc()` for the trapframe page (`none` when it fails), `pagetable_ok` says
whether `proc_pagetable` succeeds. -/
def allocproc (NPROC : Nat) (s : kernel) (kalloc : Option trapframe) (pagetable_ok : Bool) :
    Option Nat × kernel :=
  match (List.range NPROC).find? (fun p => some p != s.idleproc && (s.proc p).state == UNUSED) with
  | none => (none, s)
  | some p =>
    let r := allocpid s
    let s1 := set_proc r.2 p { r.2.proc p with pid := r.1, state := USED }
    let s2 := set_proc s1 p { s1.proc p with trapframe := kalloc }
    if kalloc = none then (none, freeproc s2 p)
    else
      let s3 := set_proc s2 p { s2.proc p with pagetable := pagetable_ok }
      if pagetable_ok = false then (none, freeproc s3 p)
      else
        (some p,
         set_proc s3 p
            { s3.proc p with priority := 0, ticks_in_queue := 0, entry_time := s3.ticks })

/-- The function `userinit()`. -/
def userinit (NPROC : Nat) (s : kernel) (kalloc : Option trapframe) (pagetable_ok : Bool) :
    kernel :=
  match allocproc NPROC s kalloc pagetable_ok with
  | (none, s1) => { s1 with initproc := none }
  | (some p, s1) =>
    let s2 := { s1 with initproc := some p }
    let s3 := set_proc s2 p { s2.proc p with name := "initcode" }
    let s4 := set_state s3 p RUNNABLE
    mlfq_enqueue NPROC s4 (s4.proc p).priority p

/-- The function `fork()`: the value returned and the new state.
`uvmcopy_ok` says whether `uvmcopy` succeeds. -/
def fork (NPROC : Nat) (s : kernel) (kalloc : Option trapframe)
    (pagetable_ok uvmcopy_ok : Bool) : Int × kernel :=
  match allocproc NPROC s kalloc pagetable_ok with
  | (none, s1) => (-1, s1)
  | (some np, s1) =>
    match s1.cpu_proc with
    | none => (-1, s1)
    | some p =>
      if uvmcopy_ok = false then (-1, freeproc s1 np)
      else
        let s2 := set_proc s1 np
            { s1.proc np with trapframe := some { a0 := 0 },
                              name := (s1.proc p).name,
                              priority := (s1.proc p).priority,
                              ticks_in_queue := 0,
                              entry_time := s1.ticks }
        let pid := (s2.proc np).pid
        let s3 := set_proc s2 np { s2.proc np with parent := some p }
        let s4 := set_state s3 np RUNNABLE
        (pid, mlfq_enqueue NPROC s4 (s4.proc np).priority np)

/-- The body of the loop of `wakeup(chan)` for the slot `p`. -/
def wakeup_step (NPROC : Nat) (chan : Chan) (s : kernel) (p : Nat) : kernel :=
  if some p ≠ s.cpu_proc ∧ some p ≠ s.idleproc then
    if (s.proc p).state = SLEEPING ∧ (s.proc p).chan = chan then
      mlfq_enqueue NPROC (set_state s p RUNNABLE) 0 p
    else s
  else s

/-- The function `wakeup(chan)`. -/
def wakeup (NPROC : Nat) (s : kernel) (chan : Chan) : kernel :=
  (List.range NPROC).foldl (wakeup_step NPROC chan) s

/-- The function `reparent(p)`. -/
def reparent (NPROC : Nat) (s : kernel) (p : Nat) : kernel :=
  (List.range NPROC).foldl
    (fun s pp =>
      if (s.proc pp).parent = some p then
        wakeup NPROC (set_proc s pp { s.proc pp with parent := s.initproc })
          (Chan.ofPtr s.initproc)
      else s)
    s

/-- The function `exit(status)` up to the context switch; `none` is the panic
"init exiting" (a null `myproc()` ends there too, or in a null dereference). -/
def exit (NPROC : Nat) (s : kernel) (status : Int) : Option kernel :=
  match s.cpu_proc with
  | none => none
  | some p =>
    let s1 := mlfq_remove NPROC s (some p)
    if some p = s1.initproc then none
    else
      let s2 := reparent NPROC s1 p
      let s3 := wakeup NPROC s2 (Chan.ofPtr (s2.proc p).parent)
      let s4 := set_proc s3 p
          { s3.proc p with xstate := status, state := ZOMBIE }
      some (schedule NPROC s4)

/-- The function `sleep(chan, lk)` up to the context switch. -/
def sleep (NPROC : Nat) (s : kernel) (chan : Chan) : kernel :=
  match s.cpu_proc with
  | none => s
  | some p =>
    schedule NPROC (set_proc s p { s.proc p with chan := chan, state := SLEEPING })

/-- The rest of `sleep(chan, lk)`, run by the sleeper once it is current
again: `p->chan = 0`. -/
def sleep_resume (s : kernel) : kernel :=
  match s.cpu_proc with
  | none => s
  | some p => set_proc s p { s.proc p with chan := Chan.null }

/-- What one pass of `wait(addr)` yields: the value returned (`none` when the
caller went to sleep instead), the status copied out to `addr`, if any, and
the new state. -/
structure wait_result where
  ret : Option Int
  copied : Option Int
  k : kernel

/-- One pass of the `for(;;)` loop of `wait(addr)`.  The scan changes nothing
before it returns, so it is read as: take the first `ZOMBIE` child in table
order, if there is one; otherwise look at `havekids` and `killed(p)`.
`copyout_ok` says whether `copyout` succeeds. -/
def wait (NPROC : Nat) (s : kernel) (addr : Nat) (copyout_ok : Bool) : wait_result :=
  match s.cpu_proc with
  | none => { ret := none, copied := none, k := s }
  | some p =>
    match (List.range NPROC).find?
        (fun pp => (s.proc pp).parent == some p && (s.proc pp).state == ZOMBIE) with
    | some pp =>
      if addr ≠ 0 ∧ copyout_ok = false then { ret := some (-1), copied := none, k := s }
      else
        { ret := some (s.proc pp).pid,
          copied := if addr ≠ 0 then some (s.proc pp).xstate else none,
          k := freeproc s pp }
    | none =>
      let havekids := (List.range NPROC).any (fun pp => (s.proc pp).parent == some p)
      if havekids = false ∨ (s.proc p).killed ≠ 0 then
        { ret := some (-1), copied := none, k := s }
      else { ret := none, copied := none, k := sleep NPROC s (Chan.procAddr p) }

/-- The selection loop of the zombie branch of `yield()`: the first non-null
pointer that `mlfq_dequeue` returns, whatever its state. -/
def yield_pick (NPROC : Nat) : List Nat → kernel → Option Nat × kernel
  | [], s => (none, s)
  | prio :: rest, s =>
    match mlfq_dequeue NPROC s prio with
    | (some next, s1) => (some next, s1)
    | (none, s1) => yield_pick NPROC rest s1

/-- The function `yield()` up to the context switch. -/
def yield (NPROC : Nat) (s : kernel) : kernel :=
  match s.cpu_proc with
  | none => s
  | some p =>
    if (s.proc p).state = ZOMBIE then
      let r := yield_pick NPROC (List.range NMLFQ) s
      schedule_switch r.2 r.1
    else schedule NPROC s

/-- The function `kill(pid)`: the value returned and the new state.  The loop
changes nothing before it meets the first slot, the idle one apart, whose
`pid` is the argument. -/
def kill (NPROC : Nat) (s : kernel) (pid : Int) : Int × kernel :=
  match (List.range NPROC).find? (fun p => some p != s.idleproc && (s.proc p).pid == pid) with
  | none => (-1, s)
  | some p =>
    let s1 := set_proc s p { s.proc p with killed := 1 }
    if (s1.proc p).state = SLEEPING then
      let s2 := set_state s1 p RUNNABLE
      (0, mlfq_enqueue NPROC s2 (s2.proc p).priority p)
    else (0, s1)

/-- Entry of `scheduler()`: `c->proc = idleproc`. -/
def scheduler_entry (s : kernel) : kernel :=
  { s with cpu_proc := s.idleproc }

/-- One turn of the idle loop of `scheduler()`: the idle process is put back
to `RUNNABLE`. -/
def scheduler_loop (s : kernel) : kernel :=
  match s.idleproc with
  | none => s
  | some i => if (s.proc i).state ≠ RUNNABLE then set_state s i RUNNABLE else s

/-- Modelled from the spec: the timer interrupt of the missing trap layer,
which increments the monotonic counter `ticks`. -/
def clock_tick (s : kernel) : kernel :=
  { s with ticks := s.ticks + 1 }

/-! ## Abstraction of a ring and reachable states -/

/-- The entries of a queue from `front` on, oldest first. -/
def entries (NPROC : Nat) (q : mlfq_queue) : List (Option Nat) :=
  (List.range q.count).map (fun j => q.procs ((q.front + j) % NPROC))

/-- Well-formedness of a ring: indices inside the array, `count` within the
capacity, and `rear` where `front` and `count` put it. -/
def wf_queue (NPROC : Nat) (q : mlfq_queue) : Prop :=
  q.front < NPROC ∧ q.rear < NPROC ∧ q.count ≤ NPROC ∧ q.rear = (q.front + q.count) % NPROC

instance (NPROC : Nat) (q : mlfq_queue) : Decidable (wf_queue NPROC q) := by
  unfold wf_queue
  infer_instance

/-- The entries of queue `k` of a state, oldest first. -/
def queue_entries (NPROC : Nat) (s : kernel) (k : Nat) : List (Option Nat) :=
  entries NPROC (s.mlfq_queues k)

/-- Every one of the `NMLFQ` queues of the state is a well-formed ring. -/
def wf_queues (NPROC : Nat) (s : kernel) : Prop :=
  ∀ k, k < NMLFQ → wf_queue NPROC (s.mlfq_queues k)

instance (NPROC : Nat) (s : kernel) : Decidable (wf_queues NPROC s) := by
  unfold wf_queues
  infer_instance

/-- A queue entry that points to a RUNNABLE descriptor. -/
def entry_runnable (s : kernel) : Option Nat → Prop
  | some i => (s.proc i).state = RUNNABLE
  | none => False

instance (s : kernel) (x : Option Nat) : Decidable (entry_runnable s x) := by
  cases x with
  | none => exact isFalse (fun h => h)
  | some i => exact inferInstanceAs (Decidable ((s.proc i).state = RUNNABLE))

/-- Every entry of every queue points to a RUNNABLE descriptor. -/
def queued_runnable (NPROC : Nat) (s : kernel) : Prop :=
  ∀ k, k < NMLFQ → ∀ x ∈ queue_entries NPROC s k, entry_runnable s x

instance (NPROC : Nat) (s : kernel) : Decidable (queued_runnable NPROC s) := by
  unfold queued_runnable
  infer_instance

/-- The test of the loop of `wakeup(chan)` on slot `p`: not the caller, not the
idle task, SLEEPING, and `chan` its wait channel. -/
def wakes (s : kernel) (chan : Chan) (p : Nat) : Prop :=
  some p ≠ s.cpu_proc ∧ some p ≠ s.idleproc ∧ (s.proc p).state = SLEEPING ∧ (s.proc p).chan = chan

instance (s : kernel) (chan : Chan) (p : Nat) : Decidable (wakes s chan p) := by
  unfold wakes
  infer_instance

/-- The slots that `wakeup(chan)` is to wake, in process-table order. -/
def wakeup_targets (NPROC : Nat) (s : kernel) (chan : Chan) : List Nat :=
  (List.range NPROC).filter (fun p => decide (wakes s chan p))

/-- The state after `mlfq_enqueue(priority, d)` for each `d` of `ds` in turn. -/
def enqueue_all (NPROC : Nat) (s : kernel) (priority : Int) (ds : List Nat) : kernel :=
  ds.foldl (fun s d => mlfq_enqueue NPROC s priority d) s

/-- The pointers returned by `n` calls of `mlfq_dequeue(priority)` in a row, and
the state after them. -/
def dequeue_n (NPROC : Nat) (priority : Nat) : Nat → kernel → List (Option Nat) × kernel
  | 0, s => ([], s)
  | n + 1, s =>
    let r := mlfq_dequeue NPROC s priority
    let r2 := dequeue_n NPROC priority n r.2
    (r.1 :: r2.1, r2.2)

/-- An example state for `NPROC = 4`: the idle process in slot 0, three
`RUNNABLE` processes of priority 0 in slots 1 to 3, queued in a ring of queue 0
that wraps around index 3 (`front = 3`, entries at indices 3, 0, 1). -/
def demo_wrapped : kernel :=
  { proc := fun i =>
      if i = 0 then { proc_zero with state := RUNNABLE, priority := 4, name := "idle" }
      else if i < 4 then { proc_zero with state := RUNNABLE, pid := i }
      else proc_zero,
    mlfq_queues := fun k =>
      if k = 0 then
        { procs := fun j =>
            if j = 3 then some 1 else if j = 0 then some 2 else if j = 1 then some 3 else none,
          front := 3, rear := 2, count := 3 }
      else { procs := fun _ => none, front := 0, rear := 0, count := 0 },
    ticks := 7, nextpid := 4, idleproc := some 0, initproc := some 1, cpu_proc := some 0 }

/-- An example state: slot 1 is the current process, RUNNING at
priority 0 with five ticks used there, more than `queue_time_slice[0] = 1`;
the idle process is in slot 0 and every queue is empty. -/
def demo_running : kernel :=
  { proc := fun i =>
      if i = 0 then { proc_zero with state := RUNNABLE, priority := 4, name := "idle" }
      else if i = 1 then
        { proc_zero with state := RUNNING, pid := 1, priority := 0, ticks_in_queue := 5 }
      else proc_zero,
    mlfq_queues := fun _ => { procs := fun _ => none, front := 0, rear := 0, count := 0 },
    ticks := 9, nextpid := 2, idleproc := some 0, initproc := some 1, cpu_proc := some 1 }

/-- An example state: the idle process of slot 0 is current and
RUNNABLE, as the idle loop of `scheduler()` leaves it, slot 1 sleeps and every
queue is empty. -/
def demo_idle : kernel :=
  { proc := fun i =>
      if i = 0 then { proc_zero with state := RUNNABLE, priority := 4, name := "idle" }
      else if i = 1 then
        { proc_zero with state := SLEEPING, pid := 1, priority := 0, chan := Chan.addr 1 }
      else proc_zero,
    mlfq_queues := fun _ => { procs := fun _ => none, front := 0, rear := 0, count := 0 },
    ticks := 9, nextpid := 2, idleproc := some 0, initproc := some 1, cpu_proc := some 0 }

/-- The scheduling invariant: the idle process is slot 0, every queue is a
well-formed ring without repetitions whose entries point to RUNNABLE
descriptors of the table, other than the idle one, of the priority of the
queue, and every RUNNABLE descriptor of the table other than the idle one is
queued.  Inside an operation one descriptor `hole` may be RUNNABLE and not yet
queued; it is then in no queue. -/
structure sched_inv (NPROC : Nat) (s : kernel) (hole : Option Nat) : Prop where
  idle : s.idleproc = some 0
  wf : wf_queues NPROC s
  entry : ∀ k, k < NMLFQ → ∀ x ∈ queue_entries NPROC s k,
    ∃ i, x = some i ∧ i < NPROC ∧ i ≠ 0 ∧ (s.proc i).state = RUNNABLE ∧
      (s.proc i).priority = (k : Int)
  nodup : ∀ k, k < NMLFQ → (queue_entries NPROC s k).Nodup
  queued : ∀ i, i < NPROC → i ≠ 0 → (s.proc i).state = RUNNABLE → some i ≠ hole →
    ∃ k, k < NMLFQ ∧ some i ∈ queue_entries NPROC s k
  hole_out : ∀ k, k < NMLFQ → ∀ h, hole = some h → some h ∉ queue_entries NPROC s k

/-- The current process is a slot of the table and, unless it is the idle
one, is RUNNING. -/
def cur_ok (NPROC : Nat) (s : kernel) : Prop :=
  ∀ c, s.cpu_proc = some c → c < NPROC ∧ (c ≠ 0 → (s.proc c).state = RUNNING)

/-- The invariant of the reachable states. -/
def kernel_inv (NPROC : Nat) (s : kernel) : Prop :=
  sched_inv NPROC s none ∧ cur_ok NPROC s

/-- The invariant of the process table: every priority field is in
`0..NMLFQ-1`, `nextpid` is positive, and among the slots of the table other
than the idle one the UNUSED ones have pid 0 while the ones in use have
distinct pids in `1..nextpid-1`. -/
structure table_inv (NPROC : Nat) (s : kernel) : Prop where
  prio : ∀ i, 0 ≤ (s.proc i).priority ∧ (s.proc i).priority < (NMLFQ : Int)
  nextpid_pos : 1 ≤ s.nextpid
  unused_pid : ∀ i, i < NPROC → i ≠ 0 → (s.proc i).state = UNUSED → (s.proc i).pid = 0
  used_pid : ∀ i, i < NPROC → i ≠ 0 → (s.proc i).state ≠ UNUSED →
    1 ≤ (s.proc i).pid ∧ (s.proc i).pid < s.nextpid
  uniq : ∀ i j, i < NPROC → j < NPROC → i ≠ 0 → j ≠ 0 → (s.proc i).state ≠ UNUSED →
    (s.proc j).state ≠ UNUSED → (s.proc i).pid = (s.proc j).pid → i = j

/-- The state after boot: `procinit()` then `userinit()` on the zeroed
statics, the allocations of `userinit` succeeding. -/
def boot (NPROC : Nat) (tf : trapframe) : kernel :=
  userinit NPROC (procinit NPROC kernel_zero) (some tf) true

/-- One atomic step of the kernel on a single CPU. -/
inductive Step (NPROC : Nat) : kernel → kernel → Prop where
  | scheduler_entry (s : kernel) (h : s.cpu_proc = none) : Step NPROC s (scheduler_entry s)
  | scheduler_loop (s : kernel) (h : s.cpu_proc = s.idleproc) : Step NPROC s (scheduler_loop s)
  | clock_tick (s : kernel) : Step NPROC s (clock_tick s)
  | fork (s : kernel) (kalloc : Option trapframe) (pagetable_ok uvmcopy_ok : Bool)
      (h : s.cpu_proc ≠ none) : Step NPROC s (fork NPROC s kalloc pagetable_ok uvmcopy_ok).2
  | sleep (s : kernel) (chan : Chan) (h : s.cpu_proc ≠ none) : Step NPROC s (sleep NPROC s chan)
  | sleep_resume (s : kernel) (h : s.cpu_proc ≠ none) : Step NPROC s (sleep_resume s)
  | wakeup (s : kernel) (chan : Chan) : Step NPROC s (wakeup NPROC s chan)
  | kill (s : kernel) (pid : Int) : Step NPROC s (kill NPROC s pid).2
  | exit (s t : kernel) (status : Int) (h : exit NPROC s status = some t) : Step NPROC s t
  | wait (s : kernel) (addr : Nat) (copyout_ok : Bool) (h : s.cpu_proc ≠ none) :
      Step NPROC s (wait NPROC s addr copyout_ok).k
  | yield (s : kernel) (h : s.cpu_proc ≠ none) : Step NPROC s (yield NPROC s)
  | schedule (s : kernel) : Step NPROC s (schedule NPROC s)
  | age_boost (s : kernel) : Step NPROC s (age_boost NPROC s)

/-- States reachable from boot. -/
inductive Reachable (NPROC : Nat) : kernel → Prop where
  | boot (tf : trapframe) : Reachable NPROC (boot NPROC tf)
  | step (s t : kernel) (hs : Reachable NPROC s) (h : Step NPROC s t) : Reachable NPROC t



/-! ## Further notions for the lifecycle claims -/

/-- The search of `allocproc` stops at `np`: the first slot of the table, the
idle one apart, whose state is UNUSED. -/
def first_free (NPROC : Nat) (s : kernel) (np : Nat) : Prop :=
  (List.range NPROC).find? (fun p => some p != s.idleproc && (s.proc p).state == UNUSED) = some np

instance (NPROC : Nat) (s : kernel) (np : Nat) : Decidable (first_free NPROC s np) := by
  unfold first_free
  infer_instance

/-- The passage from `s` to `t` has written no pid and no exit status and has
not advanced the pid counter. -/
def keeps_ids (s t : kernel) : Prop :=
  t.nextpid = s.nextpid ∧
  ∀ j, (t.proc j).pid = (s.proc j).pid ∧ (t.proc j).xstate = (s.proc j).xstate

/-- The passage from `s` to `t` has not switched: the current and the idle
process are the same, no descriptor is newly RUNNING and the state of the idle
one is untouched. -/
def quiet (s t : kernel) : Prop :=
  t.cpu_proc = s.cpu_proc ∧ t.idleproc = s.idleproc ∧
  (∀ j, (t.proc j).state = RUNNING → (s.proc j).state = RUNNING) ∧
  (∀ i, s.idleproc = some i → (t.proc i).state = (s.proc i).state)

/-- Every RUNNING descriptor of the table, the idle one apart, is the one the
CPU runs. -/
def running_is_current (NPROC : Nat) (s : kernel) : Prop :=
  ∀ i, i < NPROC → some i ≠ s.idleproc → (s.proc i).state = RUNNING → s.cpu_proc = some i

/-- Every priority field is in `0..NMLFQ-1`. -/
def prio_ok (s : kernel) : Prop :=
  ∀ i, 0 ≤ (s.proc i).priority ∧ (s.proc i).priority < (NMLFQ : Int)

/-- One step of the kind that the claim on priorities lists: a step of the
kernel, a `userinit()`, or a bare call `mlfq_enqueue(priority, p)` with any
integer priority and any slot. -/
inductive PrioStep (NPROC : Nat) : kernel → kernel → Prop where
  | step (s t : kernel) (h : Step NPROC s t) : PrioStep NPROC s t
  | userinit (s : kernel) (kalloc : Option trapframe) (pagetable_ok : Bool) :
      PrioStep NPROC s (userinit NPROC s kalloc pagetable_ok)
  | mlfq_enqueue (s : kernel) (priority : Int) (p : Nat) :
      PrioStep NPROC s (mlfq_enqueue NPROC s priority p)

/-- States reachable from `procinit()` on the zeroed statics by such steps. -/
inductive PrioReachable (NPROC : Nat) : kernel → Prop where
  | procinit : PrioReachable NPROC (procinit NPROC kernel_zero)
  | step (s t : kernel) (hs : PrioReachable NPROC s) (h : PrioStep NPROC s t) :
      PrioReachable NPROC t

/-- One atomic step of the kernel in which the operations that only a process
calls (`fork`, `sleep` and its resumption, `exit`, `wait`) are called by a
current process other than the idle task: the idle task runs the loop of
`scheduler()`, which calls none of them.  Interrupt handlers run on top of any
current process, the idle one included: `wakeup`, `kill`, `yield`, `schedule`,
`age_boost` and the clock tick. -/
inductive ProcStep (NPROC : Nat) : kernel → kernel → Prop where
  | scheduler_entry (s : kernel) (h : s.cpu_proc = none) : ProcStep NPROC s (scheduler_entry s)
  | scheduler_loop (s : kernel) (h : s.cpu_proc = s.idleproc) :
      ProcStep NPROC s (scheduler_loop s)
  | clock_tick (s : kernel) : ProcStep NPROC s (clock_tick s)
  | fork (s : kernel) (kalloc : Option trapframe) (pagetable_ok uvmcopy_ok : Bool)
      (h : s.cpu_proc ≠ none) (hi : s.cpu_proc ≠ s.idleproc) :
      ProcStep NPROC s (fork NPROC s kalloc pagetable_ok uvmcopy_ok).2
  | sleep (s : kernel) (chan : Chan) (h : s.cpu_proc ≠ none) (hi : s.cpu_proc ≠ s.idleproc) :
      ProcStep NPROC s (sleep NPROC s chan)
  | sleep_resume (s : kernel) (h : s.cpu_proc ≠ none) (hi : s.cpu_proc ≠ s.idleproc) :
      ProcStep NPROC s (sleep_resume s)
  | wakeup (s : kernel) (chan : Chan) : ProcStep NPROC s (wakeup NPROC s chan)
  | kill (s : kernel) (pid : Int) : ProcStep NPROC s (kill NPROC s pid).2
  | exit (s t : kernel) (status : Int) (hi : s.cpu_proc ≠ s.idleproc)
      (h : exit NPROC s status = some t) : ProcStep NPROC s t
  | wait (s : kernel) (addr : Nat) (copyout_ok : Bool) (h : s.cpu_proc ≠ none)
      (hi : s.cpu_proc ≠ s.idleproc) : ProcStep NPROC s (wait NPROC s addr copyout_ok).k
  | yield (s : kernel) (h : s.cpu_proc ≠ none) : ProcStep NPROC s (yield NPROC s)
  | schedule (s : kernel) : ProcStep NPROC s (schedule NPROC s)
  | age_boost (s : kernel) : ProcStep NPROC s (age_boost NPROC s)

/-- States reachable from boot by such steps. -/
inductive ProcReachable (NPROC : Nat) : kernel → Prop where
  | boot (tf : trapframe) : ProcReachable NPROC (boot NPROC tf)
  | step (s t : kernel) (hs : ProcReachable NPROC s) (h : ProcStep NPROC s t) :
      ProcReachable NPROC t

/-- A run of steps of the kernel from `s` to `u` after each of which the
descriptor `c` is ZOMBIE: what can happen between the `exit` of `c` and the
`wait` that frees it. -/
inductive zombie_run (NPROC : Nat) (c : Nat) : kernel → kernel → Prop where
  | refl (s : kernel) : zombie_run NPROC c s s
  | step (s t u : kernel) (h : zombie_run NPROC c s t) (hst : Step NPROC t u)
      (hz : (u.proc c).state = ZOMBIE) : zombie_run NPROC c s u

/-- An example run with `NPROC = 64`: after boot the first process (slot 1,
pid 1) is scheduled, forks a child (slot 2, pid 2) and calls `wait`, which finds
no ZOMBIE and sleeps, so that `schedule()` makes the child current. -/
def demo_child_running : kernel :=
  (wait 64
    (fork 64 (schedule 64 (scheduler_entry (boot 64 { a0 := 0 }))) (some { a0 := 0 }) true
      true).2 8 true).k

/-- The example run one step on: the child of slot 2 has called `exit(7)`. -/
def demo_child_exited : kernel :=
  (exit 64 demo_child_running 7).getD demo_child_running

/-! ## Notions for `age_boost` -/

/-- The test of `age_boost` on the descriptor `p`:
`ticks - p->entry_time > 200`. -/
def aged (s : kernel) (p : Nat) : Prop :=
  s.ticks - (s.proc p).entry_time > 200

instance (s : kernel) (p : Nat) : Decidable (aged s p) := by
  unfold aged
  infer_instance

/-- The test of `age_boost` on a queue entry. -/
def aged_entry (s : kernel) : Option Nat → Bool
  | some p => decide (aged s p)
  | none => false

/-- What the collecting loop of `age_boost` does with a queue entry: it keeps
the pointer when the test holds. -/
def boost_pick (s : kernel) : Option Nat → Option Nat
  | some p => if aged s p then some p else none
  | none => none

/-- An entry of queue `k` as the scheduler keeps it: a slot of the table, not
the idle one, RUNNABLE, of priority `k`, entered at a tick that is not in the
future. -/
def entry_ok (NPROC : Nat) (s : kernel) (k : Nat) : Option Nat → Prop
  | some i => i < NPROC ∧ some i ≠ s.idleproc ∧ (s.proc i).state = RUNNABLE ∧
      (s.proc i).priority = (k : Int) ∧ (s.proc i).entry_time ≤ s.ticks
  | none => False

instance (NPROC : Nat) (s : kernel) (k : Nat) (x : Option Nat) :
    Decidable (entry_ok NPROC s k x) := by
  cases x with
  | none => exact isFalse (fun h => h)
  | some i =>
    unfold entry_ok
    infer_instance

/-- The queues as the scheduler keeps them: well-formed rings without
repetition, every entry as `entry_ok` says. -/
def queues_ok (NPROC : Nat) (s : kernel) : Prop :=
  wf_queues NPROC s ∧
  ∀ k, k < NMLFQ → (queue_entries NPROC s k).Nodup ∧
    ∀ x ∈ queue_entries NPROC s k, entry_ok NPROC s k x

instance (NPROC : Nat) (s : kernel) : Decidable (queues_ok NPROC s) := by
  unfold queues_ok
  infer_instance

/-- The entries that `age_boost` moves out of queue `k`: for `k` in
`1..NMLFQ-1` those that pass its test, in queue order; none for another `k`. -/
def boosted (NPROC : Nat) (s : kernel) (k : Nat) : List (Option Nat) :=
  if 1 ≤ k ∧ k < NMLFQ then (queue_entries NPROC s k).filter (aged_entry s) else []

/-- The entries that `age_boost` leaves in queue `k`: all of queue 0, and in
the other queues those that fail its test, in queue order. -/
def staying (NPROC : Nat) (s : kernel) (k : Nat) : List (Option Nat) :=
  if k = 0 then queue_entries NPROC s 0
  else (queue_entries NPROC s k).filter (fun x => !aged_entry s x)

/-- The state of `age_boost` once the queues above `m` have been gone
through, `a`, in terms of the state `s` at its entry. -/
structure boost_upto (NPROC : Nat) (s : kernel) (m : Nat) (a : kernel) : Prop where
  ok : queues_ok NPROC a
  ticks : a.ticks = s.ticks
  idle : a.idleproc = s.idleproc
  above : ∀ k, m < k → k < NMLFQ →
    queue_entries NPROC a k = staying NPROC s k ++ boosted NPROC s (k + 1)
  at_m : queue_entries NPROC a m = queue_entries NPROC s m ++ boosted NPROC s (m + 1)
  below : ∀ k, k < m → a.mlfq_queues k = s.mlfq_queues k
  moved : ∀ p k, m < k → k < NMLFQ → some p ∈ boosted NPROC s k →
    a.proc p = { s.proc p with priority := (k : Int) - 1, ticks_in_queue := 0,
                               entry_time := s.ticks }
  kept : ∀ p, (∀ k, m < k → k < NMLFQ → some p ∉ boosted NPROC s k) → a.proc p = s.proc p

/-- No descriptor has an entry time in the future. -/
def time_ok (s : kernel) : Prop :=
  ∀ i, (s.proc i).entry_time ≤ s.ticks

/-- An example state with `NPROC = 64` and `ticks = 500`: queue 4 holds slot 5
(entered at tick 0), queue 2 holds slots 1, 2, 3 (entered at ticks 100, 300 and
299: waiting for 400, exactly 200 and 201 ticks), queue 1 holds slot 4 (entered
at tick 450); the idle task of slot 0 is current. -/
def demo_aged : kernel :=
  { proc := fun i =>
      if i = 0 then { proc_zero with state := RUNNABLE, priority := 4, name := "idle" }
      else if i = 1 then { proc_zero with state := RUNNABLE, pid := 1, priority := 2,
                                          entry_time := 100 }
      else if i = 2 then { proc_zero with state := RUNNABLE, pid := 2, priority := 2,
                                          entry_time := 300 }
      else if i = 3 then { proc_zero with state := RUNNABLE, pid := 3, priority := 2,
                                          entry_time := 299 }
      else if i = 4 then { proc_zero with state := RUNNABLE, pid := 4, priority := 1,
                                          entry_time := 450 }
      else if i = 5 then { proc_zero with state := RUNNABLE, pid := 5, priority := 4,
                                          entry_time := 0 }
      else proc_zero,
    mlfq_queues := fun k =>
      if k = 4 then
        { procs := fun j => if j = 0 then some 5 else none, front := 0, rear := 1, count := 1 }
      else if k = 2 then
        { procs := fun j =>
            if j = 62 then some 1 else if j = 63 then some 2 else if j = 0 then some 3 else none,
          front := 62, rear := 1, count := 3 }
      else if k = 1 then
        { procs := fun j => if j = 7 then some 4 else none, front := 7, rear := 8, count := 1 }
      else { procs := fun _ => none, front := 0, rear := 0, count := 0 },
    ticks := 500, nextpid := 6, idleproc := some 0, initproc := some 1, cpu_proc := some 0 }

/-- An example state with `NPROC = 64` that holds a stale queue entry: queue 0
is `[1, 2]` and queue 1 is `[3]`, slots 2 and 3 are RUNNABLE, and slot 1, the
head of queue 0, is SLEEPING.  The idle process of slot 0 is current. -/
def demo_stale : kernel :=
  { proc := fun i =>
      if i = 0 then { proc_zero with state := RUNNABLE, priority := 4, name := "idle" }
      else if i = 1 then
        { proc_zero with state := SLEEPING, pid := 1, priority := 0, chan := Chan.addr 1 }
      else if i = 2 then { proc_zero with state := RUNNABLE, pid := 2, priority := 0 }
      else if i = 3 then { proc_zero with state := RUNNABLE, pid := 3, priority := 1 }
      else proc_zero,
    mlfq_queues := fun k =>
      if k = 0 then
        { procs := fun j => if j = 0 then some 1 else if j = 1 then some 2 else none,
          front := 0, rear := 2, count := 2 }
      else if k = 1 then
        { procs := fun j => if j = 0 then some 3 else none, front := 0, rear := 1, count := 1 }
      else { procs := fun _ => none, front := 0, rear := 0, count := 0 },
    ticks := 9, nextpid := 4, idleproc := some 0, initproc := some 1, cpu_proc := some 0 }

/-! ## The full-queue branch of `mlfq_enqueue`

For every function that calls `mlfq_enqueue`, directly or through another
function, a companion with the suffix `_drops` says whether a run of the
function from the given state takes, at one of its calls of `mlfq_enqueue`,
the branch on which a RUNNABLE descriptor finds `q->count < NPROC` false and
is not queued.  Each companion follows the control flow of its function and
takes the states from the function itself. -/

/-- The call `mlfq_enqueue(priority, p)` in state `s` takes the full-queue
branch: `p->state` is RUNNABLE and the test `q->count < NPROC` fails, so the
function returns without having queued the descriptor. -/
def enqueue_drops (NPROC : Nat) (s : kernel) (priority : Int) (p : Nat) : Bool :=
  let priority := clamp_priority priority
  if (s.proc p).state ≠ RUNNABLE then false
  else
    let q := s.mlfq_queues priority.toNat
    if q.count < NPROC then false else true

/-- Some turn of a loop takes the full-queue branch: `step` is the body of
the loop as a function of the state and of the loop variable, and `drops` says
whether the body, run in a state, takes the branch. -/
def loop_drops {β : Type} (step : kernel → β → kernel) (drops : kernel → β → Bool) :
    List β → kernel → Bool
  | [], _ => false
  | x :: l, s => drops s x || loop_drops step drops l (step s x)

/-- The call of `mlfq_enqueue` in the boosting loop of `age_boost` for queue
`prio`, for each collected process in turn. -/
def age_boost_level_drops (NPROC : Nat) (s : kernel) (prio : Nat) : Bool :=
  loop_drops
    (fun s p => mlfq_enqueue NPROC (mlfq_remove NPROC s (some p)) ((prio : Int) - 1) p)
    (fun s p => enqueue_drops NPROC (mlfq_remove NPROC s (some p)) ((prio : Int) - 1) p)
    (age_boost_collect NPROC s prio) s

/-- The calls of `mlfq_enqueue` in `age_boost()`. -/
def age_boost_drops (NPROC : Nat) (s : kernel) : Bool :=
  loop_drops (age_boost_level NPROC) (age_boost_level_drops NPROC)
    ((List.range (NMLFQ - 1)).reverse.map (fun j => j + 1)) s

/-- The call of `mlfq_enqueue` in the first part of `schedule()`. -/
def schedule_requeue_drops (NPROC : Nat) (s : kernel) : Bool :=
  match s.cpu_proc with
  | none => false
  | some prev =>
    if (s.proc prev).state = RUNNING ∧ some prev ≠ s.idleproc then
      let s1 := set_state s prev RUNNABLE
      enqueue_drops NPROC s1 (s1.proc prev).priority prev
    else false

/-- The call of `mlfq_enqueue` in the selection loop of `schedule()`, over the
priorities still to scan. -/
def schedule_pick_drops (NPROC : Nat) : List Nat → kernel → Bool
  | [], _ => false
  | prio :: rest, s =>
    match mlfq_dequeue NPROC s prio with
    | (some next, s1) =>
      if (s1.proc next).state = RUNNABLE then false
      else
        enqueue_drops NPROC s1 (s1.proc next).priority next ||
          schedule_pick_drops NPROC rest (mlfq_enqueue NPROC s1 (s1.proc next).priority next)
    | (none, s1) => schedule_pick_drops NPROC rest s1

/-- The calls of `mlfq_enqueue` in `schedule()`. -/
def schedule_drops (NPROC : Nat) (s : kernel) : Bool :=
  schedule_requeue_drops NPROC s ||
    schedule_pick_drops NPROC (List.range NMLFQ) (schedule_requeue NPROC s)

/-- The call of `mlfq_enqueue` in `procinit()`. -/
def procinit_drops (NPROC : Nat) (s : kernel) : Bool :=
  let s1 := procinit_reset NPROC s
  let s2 := { s1 with idleproc := some 0 }
  let s3 := set_proc s2 0
      { s2.proc 0 with state := RUNNABLE, pid := 0, priority := (NMLFQ : Int) - 1, name := "idle" }
  enqueue_drops NPROC s3 (s3.proc 0).priority 0

/-- The call of `mlfq_enqueue` in `userinit()`. -/
def userinit_drops (NPROC : Nat) (s : kernel) (kalloc : Option trapframe)
    (pagetable_ok : Bool) : Bool :=
  match allocproc NPROC s kalloc pagetable_ok with
  | (none, _) => false
  | (some p, s1) =>
    let s2 := { s1 with initproc := some p }
    let s3 := set_proc s2 p { s2.proc p with name := "initcode" }
    let s4 := set_state s3 p RUNNABLE
    enqueue_drops NPROC s4 (s4.proc p).priority p

/-- The call of `mlfq_enqueue` in `fork()`. -/
def fork_drops (NPROC : Nat) (s : kernel) (kalloc : Option trapframe)
    (pagetable_ok uvmcopy_ok : Bool) : Bool :=
  match allocproc NPROC s kalloc pagetable_ok with
  | (none, _) => false
  | (some np, s1) =>
    match s1.cpu_proc with
    | none => false
    | some p =>
      if uvmcopy_ok = false then false
      else
        let s2 := set_proc s1 np
            { s1.proc np with trapframe := some { a0 := 0 },
                              name := (s1.proc p).name,
                              priority := (s1.proc p).priority,
                              ticks_in_queue := 0,
                              entry_time := s1.ticks }
        let s3 := set_proc s2 np { s2.proc np with parent := some p }
        let s4 := set_state s3 np RUNNABLE
        enqueue_drops NPROC s4 (s4.proc np).priority np

/-- The call of `mlfq_enqueue` in the body of the loop of `wakeup(chan)` for
the slot `p`. -/
def wakeup_step_drops (NPROC : Nat) (chan : Chan) (s : kernel) (p : Nat) : Bool :=
  if some p ≠ s.cpu_proc ∧ some p ≠ s.idleproc then
    if (s.proc p).state = SLEEPING ∧ (s.proc p).chan = chan then
      enqueue_drops NPROC (set_state s p RUNNABLE) 0 p
    else false
  else false

/-- The calls of `mlfq_enqueue` in `wakeup(chan)`. -/
def wakeup_drops (NPROC : Nat) (s : kernel) (chan : Chan) : Bool :=
  loop_drops (wakeup_step NPROC chan) (wakeup_step_drops NPROC chan) (List.range NPROC) s

/-- The calls of `mlfq_enqueue` in `reparent(p)`, through `wakeup(initproc)`. -/
def reparent_drops (NPROC : Nat) (s : kernel) (p : Nat) : Bool :=
  loop_drops
    (fun s pp =>
      if (s.proc pp).parent = some p then
        wakeup NPROC (set_proc s pp { s.proc pp with parent := s.initproc })
          (Chan.ofPtr s.initproc)
      else s)
    (fun s pp =>
      if (s.proc pp).parent = some p then
        wakeup_drops NPROC (set_proc s pp { s.proc pp with parent := s.initproc })
          (Chan.ofPtr s.initproc)
      else false)
    (List.range NPROC) s

/-- The calls of `mlfq_enqueue` in `exit(status)`, through `reparent`,
`wakeup` and `schedule`. -/
def exit_drops (NPROC : Nat) (s : kernel) (status : Int) : Bool :=
  match s.cpu_proc with
  | none => false
  | some p =>
    let s1 := mlfq_remove NPROC s (some p)
    if some p = s1.initproc then false
    else
      let s2 := reparent NPROC s1 p
      let s3 := wakeup NPROC s2 (Chan.ofPtr (s2.proc p).parent)
      let s4 := set_proc s3 p
          { s3.proc p with xstate := status, state := ZOMBIE }
      reparent_drops NPROC s1 p || wakeup_drops NPROC s2 (Chan.ofPtr (s2.proc p).parent) ||
        schedule_drops NPROC s4

/-- The calls of `mlfq_enqueue` in `sleep(chan, lk)`, through `schedule`. -/
def sleep_drops (NPROC : Nat) (s : kernel) (chan : Chan) : Bool :=
  match s.cpu_proc with
  | none => false
  | some p =>
    schedule_drops NPROC (set_proc s p { s.proc p with chan := chan, state := SLEEPING })

/-- The calls of `mlfq_enqueue` in one pass of the loop of `wait(addr)`,
through `sleep`. -/
def wait_drops (NPROC : Nat) (s : kernel) : Bool :=
  match s.cpu_proc with
  | none => false
  | some p =>
    match (List.range NPROC).find?
        (fun pp => (s.proc pp).parent == some p && (s.proc pp).state == ZOMBIE) with
    | some _ => false
    | none =>
      let havekids := (List.range NPROC).any (fun pp => (s.proc pp).parent == some p)
      if havekids = false ∨ (s.proc p).killed ≠ 0 then false
      else sleep_drops NPROC s (Chan.procAddr p)

/-- The calls of `mlfq_enqueue` in `yield()`, through `schedule`. -/
def yield_drops (NPROC : Nat) (s : kernel) : Bool :=
  match s.cpu_proc with
  | none => false
  | some p =>
    if (s.proc p).state = ZOMBIE then false
    else schedule_drops NPROC s

/-- The call of `mlfq_enqueue` in `kill(pid)`. -/
def kill_drops (NPROC : Nat) (s : kernel) (pid : Int) : Bool :=
  match (List.range NPROC).find? (fun p => some p != s.idleproc && (s.proc p).pid == pid) with
  | none => false
  | some p =>
    let s1 := set_proc s p { s.proc p with killed := 1 }
    if (s1.proc p).state = SLEEPING then
      let s2 := set_state s1 p RUNNABLE
      enqueue_drops NPROC s2 (s2.proc p).priority p
    else false

/-! ## The scheduler lock -/

/-- Modelled from the spec: `acquire(&mlfq_lock)` of the missing spinlock
layer, on the lock as a held/free flag (`true` is held).  Acquiring a lock
that the caller already holds fails, which is the kernel panic, and is `none`;
otherwise the lock becomes held. -/
def acquire (held : Bool) : Option Bool :=
  if held then none else some true

/-- Modelled from the spec: `release(&mlfq_lock)` of the missing spinlock
layer: the lock becomes free. -/
def release (_held : Bool) : Bool :=
  false

/-- The function `mlfq_enqueue(priority, p)` with its locking: the clamping,
`acquire(&mlfq_lock)`, the statements that `mlfq_enqueue` of the embedding
describes, and `release(&mlfq_lock)` on both ways out.  `held` is the lock on
entry; the result is the state and the lock on return, or `none` for the
panic of `acquire`. -/
def mlfq_enqueue_with_lock (NPROC : Nat) (s : kernel) (held : Bool) (priority : Int)
    (p : Nat) : Option (kernel × Bool) :=
  (acquire held).bind fun held1 =>
    some (mlfq_enqueue NPROC s priority p, release held1)

/-- The function `mlfq_remove(p)` with its locking: it returns at once, the
lock untouched, for a null pointer and for the idle process, and otherwise
runs `acquire(&mlfq_lock)`, the search, and `release(&mlfq_lock)`. -/
def mlfq_remove_with_lock (NPROC : Nat) (s : kernel) (held : Bool) (p : Option Nat) :
    Option (kernel × Bool) :=
  if p = none ∨ p = s.idleproc then some (s, held)
  else
    (acquire held).bind fun held1 =>
      some (mlfq_remove NPROC s p, release held1)

/-- The body of the boosting loop of `age_boost` with the locking of the
functions it calls: `mlfq_remove(p); mlfq_enqueue(prio - 1, p);`. -/
def boost_move_with_lock (NPROC : Nat) (prio : Nat) (a : kernel × Bool) (p : Nat) :
    Option (kernel × Bool) :=
  (mlfq_remove_with_lock NPROC a.1 a.2 (some p)).bind fun b =>
    mlfq_enqueue_with_lock NPROC b.1 b.2 ((prio : Int) - 1) p

/-- One pass of the outer loop of `age_boost` with the locking of the
functions it calls: collect, then move each collected process, stopping at
the first panic. -/
def age_boost_level_with_lock (NPROC : Nat) (a : kernel × Bool) (prio : Nat) :
    Option (kernel × Bool) :=
  (age_boost_collect NPROC a.1 prio).foldl
    (fun r p => r.bind fun b => boost_move_with_lock NPROC prio b p)
    (some a)

/-- The function `age_boost()` with its locking: `acquire(&mlfq_lock)`, the
loop `for(prio = NMLFQ - 1; prio > 0; prio--)`, and `release(&mlfq_lock)`. -/
def age_boost_with_lock (NPROC : Nat) (s : kernel) (held : Bool) : Option (kernel × Bool) :=
  (acquire held).bind fun held1 =>
    (((List.range (NMLFQ - 1)).reverse.map (fun j => j + 1)).foldl
      (fun r prio => r.bind fun a => age_boost_level_with_lock NPROC a prio)
      (some (s, held1))).bind fun a =>
        some (a.1, release a.2)

/-! ## The pid counter as a C `int`

`allocpid`, `allocproc` and `fork` above count pids in unbounded integers,
which is what the C `int nextpid` does as long as it has not overflowed.  The
functions below repeat them with the arithmetic of the 32-bit `int` of the
target, on which `nextpid + 1` wraps from `INT_MAX` to `INT_MIN`. -/

/-- The largest value of a C `int` on the target, `INT_MAX`. -/
def INT_MAX : Int := 2147483647

/-- The value that a 32-bit two's complement `int` holds after an arithmetic
result `x`: `x` itself inside `INT_MIN..INT_MAX`, wrapped around outside. -/
def int_wrap (x : Int) : Int :=
  (x + 2147483648) % 4294967296 - 2147483648

/-- An example run with `NPROC = 64`: after boot the first process (slot 1,
pid 1) is scheduled and forks a child (slot 2, pid 2); it is about to call
`wait`. -/
def demo_forked : kernel :=
  (fork 64 (schedule 64 (scheduler_entry (boot 64 { a0 := 0 }))) (some { a0 := 0 }) true true).2

/-- The example run of `demo_child_running`, in which the first process has
called `wait` from `demo_forked` and sleeps, three steps on: the child calls
`kill(1)` and then sleeps on a channel of its own, and the first process,
current again, finishes its `sleep`.  It is about to go through the loop of
`wait` a second time. -/
def demo_wait_killed : kernel :=
  sleep_resume (sleep 64 (kill 64 demo_child_running 1).2 (Chan.addr 5))



/-! ## Arrays and rings -/

@[simp] theorem setAt_same {α : Type} (f : Nat → α) (i : Nat) (v : α) : setAt f i v i = v := by
  simp [setAt]

theorem setAt_ne {α : Type} (f : Nat → α) {i j : Nat} (v : α) (h : j ≠ i) :
    setAt f i v j = f j := by
  simp [setAt, h]

theorem setAt_apply {α : Type} (f : Nat → α) (i j : Nat) (v : α) :
    setAt f i v j = if j = i then v else f j := rfl

/-- Two offsets below the capacity that land on the same ring index are equal. -/
theorem ring_index_inj {N f a b : Nat} (ha : a < N) (hb : b < N)
    (h : (f + a) % N = (f + b) % N) : a = b := by
  have h1 : f + a ≡ f + b [MOD N] := h
  exact (Nat.ModEq.add_left_cancel' f h1).eq_of_lt_of_lt ha hb

theorem NMLFQ_eq : NMLFQ = 5 := rfl

theorem clamp_priority_range (pr : Int) :
    0 ≤ clamp_priority pr ∧ clamp_priority pr < (NMLFQ : Int) := by
  unfold clamp_priority
  simp only [NMLFQ_eq]
  split_ifs <;> omega

theorem clamp_priority_toNat_lt (pr : Int) : (clamp_priority pr).toNat < NMLFQ := by
  have h := clamp_priority_range pr
  omega

theorem clamp_priority_of_range {pr : Int} (h0 : 0 ≤ pr) (h1 : pr < (NMLFQ : Int)) :
    clamp_priority pr = pr := by
  unfold clamp_priority
  simp only [NMLFQ_eq] at *
  split_ifs <;> omega

theorem clamp_priority_natCast {k : Nat} (h : k < NMLFQ) : clamp_priority (k : Int) = (k : Int) :=
  clamp_priority_of_range (by omega) (by exact_mod_cast h)

@[simp] theorem entries_length (N : Nat) (q : mlfq_queue) : (entries N q).length = q.count := by
  simp [entries]

theorem entries_getElem (N : Nat) (q : mlfq_queue) (j : Nat) (h : j < (entries N q).length) :
    (entries N q)[j] = q.procs ((q.front + j) % N) := by
  simp [entries]

theorem mem_entries {N : Nat} {q : mlfq_queue} {x : Option Nat} :
    x ∈ entries N q ↔ ∃ j, j < q.count ∧ q.procs ((q.front + j) % N) = x := by
  simp [entries]

theorem entries_eq_nil {N : Nat} {q : mlfq_queue} : entries N q = [] ↔ q.count = 0 := by
  rw [← List.length_eq_zero, entries_length]

/-- Writing at `rear` of a well-formed ring with room appends to its entries. -/
theorem entries_push {N : Nat} {q : mlfq_queue} (hw : wf_queue N q) (hc : q.count < N)
    (x : Option Nat) :
    entries N { procs := setAt q.procs q.rear x, front := q.front,
                rear := (q.rear + 1) % N, count := q.count + 1 } = entries N q ++ [x] := by
  obtain ⟨_, _, _, hr⟩ := hw
  simp only [entries, List.range_succ, List.map_append, List.map_cons, List.map_nil]
  congr 1
  · apply List.map_congr_left
    intro j hj
    rw [List.mem_range] at hj
    apply setAt_ne
    intro h
    rw [hr] at h
    have := ring_index_inj (by omega) hc h
    omega
  · rw [hr, setAt_same]

theorem wf_push {N : Nat} {q : mlfq_queue} (hN : 0 < N) (hw : wf_queue N q) (hc : q.count < N)
    (x : Option Nat) :
    wf_queue N { procs := setAt q.procs q.rear x, front := q.front,
                 rear := (q.rear + 1) % N, count := q.count + 1 } := by
  obtain ⟨hf, _, _, hr⟩ := hw
  refine ⟨hf, Nat.mod_lt _ hN, hc, ?_⟩
  show (q.rear + 1) % N = (q.front + (q.count + 1)) % N
  rw [hr, ← Nat.add_assoc]
  exact Nat.mod_add_mod _ _ _ |>.symm ▸ rfl

/-- Advancing `front` of a well-formed non-empty ring drops its first entry. -/
theorem entries_pop {N : Nat} {q : mlfq_queue} (hw : wf_queue N q) (hc : 0 < q.count) :
    entries N q = q.procs q.front ::
      entries N { q with front := (q.front + 1) % N, count := q.count - 1 } := by
  obtain ⟨hf, _, _, _⟩ := hw
  obtain ⟨n, hn⟩ : ∃ n, q.count = n + 1 := ⟨q.count - 1, by omega⟩
  simp only [entries, hn, List.range_succ_eq_map, List.map_cons, List.map_map,
    Nat.add_sub_cancel, Nat.add_zero, Nat.mod_eq_of_lt hf]
  congr 1
  apply List.map_congr_left
  intro j _
  simp only [Function.comp]
  congr 1
  rw [Nat.mod_add_mod]
  congr 1
  omega

theorem wf_pop {N : Nat} {q : mlfq_queue} (hN : 0 < N) (hw : wf_queue N q) (hc : 0 < q.count) :
    wf_queue N { q with front := (q.front + 1) % N, count := q.count - 1 } := by
  obtain ⟨hf, hr, hcn, hre⟩ := hw
  refine ⟨Nat.mod_lt _ hN, hr, by show q.count - 1 ≤ N; omega, ?_⟩
  show q.rear = ((q.front + 1) % N + (q.count - 1)) % N
  rw [hre, Nat.mod_add_mod]
  congr 1
  omega



theorem entries_getElem? (N : Nat) (q : mlfq_queue) (j : Nat) :
    (entries N q)[j]? = if j < q.count then some (q.procs ((q.front + j) % N)) else none := by
  simp only [entries, List.getElem?_map, List.getElem?_range]
  split_ifs with h
  · simp [List.getElem?_range h]
  · simp [List.getElem?_eq_none (l := List.range q.count) (by simpa using h)]

/-- What the shifting loop of `mlfq_remove` leaves at every ring offset. -/
theorem shift_entries_spec {N f : Nat} (n : Nat) :
    ∀ (j : Nat) (procs : Nat → Option Nat), j + n < N → ∀ m, m < N →
      shift_entries N f j n procs ((f + m) % N) =
        if j ≤ m ∧ m < j + n then procs ((f + m + 1) % N) else procs ((f + m) % N) := by
  induction n with
  | zero =>
    intro j procs _ m _
    have : ¬ (j ≤ m ∧ m < j + 0) := by omega
    rw [shift_entries, if_neg this]
  | succ n ih =>
    intro j procs h m hm
    rw [shift_entries, ih (j + 1) _ (by omega) m hm]
    by_cases h1 : j + 1 ≤ m ∧ m < j + 1 + n
    · have h2 : j ≤ m ∧ m < j + (n + 1) := by omega
      rw [if_pos h1, if_pos h2]
      apply setAt_ne
      intro he
      have he2 : (f + (m + 1)) % N = (f + j) % N := by rw [← Nat.add_assoc]; exact he
      have := ring_index_inj (by omega) (by omega) he2
      omega
    · rw [if_neg h1]
      by_cases h3 : m = j
      · subst h3
        have h2 : m ≤ m ∧ m < m + (n + 1) := by omega
        rw [if_pos h2, setAt_same]
      · have h2 : ¬ (j ≤ m ∧ m < j + (n + 1)) := by omega
        rw [if_neg h2]
        apply setAt_ne
        intro he
        exact h3 (ring_index_inj hm (by omega) he)

/-- The entries of a well-formed ring after the shifting loop has closed the
gap at position `k`. -/
theorem entries_shift {N : Nat} {q : mlfq_queue} (hw : wf_queue N q) {k : Nat}
    (hk : k < q.count) :
    entries N { procs := shift_entries N q.front k (q.count - 1 - k) q.procs,
                front := q.front, rear := (q.rear + N - 1) % N, count := q.count - 1 }
      = (entries N q).eraseIdx k := by
  obtain ⟨_, _, hcn, _⟩ := hw
  apply List.ext_getElem?
  intro m
  rw [List.getElem?_eraseIdx, entries_getElem?, entries_getElem?, entries_getElem?]
  simp only
  by_cases hm : m < q.count - 1
  · rw [if_pos hm, shift_entries_spec _ _ _ (by omega) m (by omega)]
    by_cases hmk : m < k
    · have h2 : ¬ (k ≤ m ∧ m < k + (q.count - 1 - k)) := by omega
      rw [if_neg h2, if_pos hmk, if_pos (by omega)]
    · have h2 : k ≤ m ∧ m < k + (q.count - 1 - k) := by omega
      rw [if_pos h2, if_neg hmk, if_pos (by omega), Nat.add_assoc]
  · rw [if_neg hm]
    by_cases hmk : m < k
    · omega
    · rw [if_neg hmk, if_neg (by omega)]

theorem wf_shift {N : Nat} {q : mlfq_queue} (hN : 0 < N) (hw : wf_queue N q)
    (hc : 0 < q.count) (procs : Nat → Option Nat) :
    wf_queue N { procs := procs, front := q.front, rear := (q.rear + N - 1) % N,
                 count := q.count - 1 } := by
  obtain ⟨hf, hr, hcn, hre⟩ := hw
  refine ⟨hf, Nat.mod_lt _ hN, by show q.count - 1 ≤ N; omega, ?_⟩
  show (q.rear + N - 1) % N = (q.front + (q.count - 1)) % N
  have h1 : q.rear + N - 1 = (q.front + q.count) % N + (N - 1) := by omega
  rw [h1, Nat.mod_add_mod]
  have h2 : q.front + q.count + (N - 1) = q.front + (q.count - 1) + N := by omega
  rw [h2, Nat.add_mod_right]

/-- Erasing a value is erasing the first position that holds it. -/
theorem erase_eq_eraseIdx_first {α : Type} [BEq α] [LawfulBEq α] (x : α) :
    ∀ (l : List α) (k : Nat), l[k]? = some x → (∀ j, j < k → l[j]? ≠ some x) →
      l.erase x = l.eraseIdx k := by
  intro l
  induction l with
  | nil => intro k h; simp at h
  | cons a l ih =>
    intro k h hfirst
    cases k with
    | zero =>
      simp only [List.getElem?_cons_zero, Option.some.injEq] at h
      subst h
      simp
    | succ k =>
      have ha : a ≠ x := by
        have := hfirst 0 (by omega)
        simpa using this
      simp only [List.getElem?_cons_succ] at h
      rw [List.erase_cons_tail (by simpa using ha), List.eraseIdx_cons_succ]
      congr 1
      apply ih k h
      intro j hj
      have := hfirst (j + 1) (by omega)
      simpa using this

/-- The search loop of `mlfq_remove` finds nothing exactly when the pointer
is not an entry. -/
theorem search_none {N : Nat} {q : mlfq_queue} {i : Nat} :
    (List.range q.count).find? (fun k => q.procs ((q.front + k) % N) == some i) = none ↔
      some i ∉ entries N q := by
  rw [List.find?_range_eq_none, mem_entries]
  constructor
  · rintro h ⟨j, hj, he⟩
    have := h j hj
    simp [he] at this
  · intro h j hj
    simp only [Bool.not_eq_eq_eq_not, Bool.not_true, beq_eq_false_iff_ne, ne_eq]
    intro he
    exact h ⟨j, hj, he⟩

/-- The search loop of `mlfq_remove` stops at the first position holding the
pointer. -/
theorem search_some {N : Nat} {q : mlfq_queue} {i k : Nat}
    (h : (List.range q.count).find? (fun k => q.procs ((q.front + k) % N) == some i) = some k) :
    k < q.count ∧ (entries N q).eraseIdx k = (entries N q).erase (some i) := by
  rw [List.find?_range_eq_some] at h
  obtain ⟨hk, hr, hfirst⟩ := h
  rw [List.mem_range] at hr
  refine ⟨hr, (erase_eq_eraseIdx_first (some i) _ k ?_ ?_).symm⟩
  · rw [entries_getElem?, if_pos hr]
    simpa using hk
  · intro j hj
    rw [entries_getElem?, if_pos (by omega)]
    have := hfirst j hj
    simpa using this



/-! ## The queue operations on a kernel state -/

@[simp] theorem set_proc_proc_same (s : kernel) (p : Nat) (v : proc) :
    (set_proc s p v).proc p = v := by
  simp [set_proc]

theorem set_proc_proc_ne (s : kernel) {p j : Nat} (v : proc) (h : j ≠ p) :
    (set_proc s p v).proc j = s.proc j := by
  simp [set_proc, setAt_ne _ _ h]

theorem set_proc_proc (s : kernel) (p j : Nat) (v : proc) :
    (set_proc s p v).proc j = if j = p then v else s.proc j := rfl

@[simp] theorem set_proc_queues (s : kernel) (p : Nat) (v : proc) :
    (set_proc s p v).mlfq_queues = s.mlfq_queues := rfl

@[simp] theorem set_proc_idleproc (s : kernel) (p : Nat) (v : proc) :
    (set_proc s p v).idleproc = s.idleproc := rfl

@[simp] theorem set_proc_cpu_proc (s : kernel) (p : Nat) (v : proc) :
    (set_proc s p v).cpu_proc = s.cpu_proc := rfl

@[simp] theorem set_proc_initproc (s : kernel) (p : Nat) (v : proc) :
    (set_proc s p v).initproc = s.initproc := rfl

@[simp] theorem set_proc_nextpid (s : kernel) (p : Nat) (v : proc) :
    (set_proc s p v).nextpid = s.nextpid := rfl

@[simp] theorem set_proc_queue_entries (N : Nat) (s : kernel) (p : Nat) (v : proc) (k : Nat) :
    queue_entries N (set_proc s p v) k = queue_entries N s k := rfl

@[simp] theorem set_proc_wf_queues (N : Nat) (s : kernel) (p : Nat) (v : proc) :
    wf_queues N (set_proc s p v) ↔ wf_queues N s := Iff.rfl

@[simp] theorem set_state_proc_same (s : kernel) (p : Nat) (st : procstate) :
    (set_state s p st).proc p = { s.proc p with state := st } := by
  simp [set_state]

theorem set_state_proc_ne (s : kernel) {p j : Nat} (st : procstate) (h : j ≠ p) :
    (set_state s p st).proc j = s.proc j := by
  simp [set_state, set_proc_proc_ne _ _ h]

@[simp] theorem set_state_queues (s : kernel) (p : Nat) (st : procstate) :
    (set_state s p st).mlfq_queues = s.mlfq_queues := rfl

@[simp] theorem set_state_idleproc (s : kernel) (p : Nat) (st : procstate) :
    (set_state s p st).idleproc = s.idleproc := rfl

@[simp] theorem set_state_cpu_proc (s : kernel) (p : Nat) (st : procstate) :
    (set_state s p st).cpu_proc = s.cpu_proc := rfl

@[simp] theorem set_state_initproc (s : kernel) (p : Nat) (st : procstate) :
    (set_state s p st).initproc = s.initproc := rfl

@[simp] theorem set_state_ticks (s : kernel) (p : Nat) (st : procstate) :
    (set_state s p st).ticks = s.ticks := rfl

@[simp] theorem set_state_nextpid (s : kernel) (p : Nat) (st : procstate) :
    (set_state s p st).nextpid = s.nextpid := rfl

@[simp] theorem set_state_queue_entries (N : Nat) (s : kernel) (p : Nat) (st : procstate)
    (k : Nat) : queue_entries N (set_state s p st) k = queue_entries N s k := rfl

/-! ### `mlfq_enqueue` -/

theorem mlfq_enqueue_not_runnable (N : Nat) (s : kernel) (pr : Int) (p : Nat)
    (h : (s.proc p).state ≠ RUNNABLE) : mlfq_enqueue N s pr p = s := by
  simp [mlfq_enqueue, h]

theorem mlfq_enqueue_full (N : Nat) (s : kernel) (pr : Int) (p : Nat)
    (h : ¬ (s.mlfq_queues (clamp_priority pr).toNat).count < N) : mlfq_enqueue N s pr p = s := by
  simp only [mlfq_enqueue]
  split_ifs <;> rfl

/-- The state after an enqueue that goes through. -/
theorem mlfq_enqueue_done (N : Nat) (s : kernel) (pr : Int) (p : Nat)
    (hr : (s.proc p).state = RUNNABLE)
    (hc : (s.mlfq_queues (clamp_priority pr).toNat).count < N) :
    mlfq_enqueue N s pr p =
      { s with
        mlfq_queues := setAt s.mlfq_queues (clamp_priority pr).toNat
          { procs := setAt (s.mlfq_queues (clamp_priority pr).toNat).procs
              (s.mlfq_queues (clamp_priority pr).toNat).rear (some p),
            front := (s.mlfq_queues (clamp_priority pr).toNat).front,
            rear := ((s.mlfq_queues (clamp_priority pr).toNat).rear + 1) % N,
            count := (s.mlfq_queues (clamp_priority pr).toNat).count + 1 },
        proc := setAt s.proc p
          { s.proc p with priority := clamp_priority pr, ticks_in_queue := 0,
                          entry_time := s.ticks } } := by
  simp [mlfq_enqueue, hr, hc]

@[simp] theorem mlfq_enqueue_idleproc (N : Nat) (s : kernel) (pr : Int) (p : Nat) :
    (mlfq_enqueue N s pr p).idleproc = s.idleproc := by
  simp only [mlfq_enqueue]; split_ifs <;> rfl

@[simp] theorem mlfq_enqueue_cpu_proc (N : Nat) (s : kernel) (pr : Int) (p : Nat) :
    (mlfq_enqueue N s pr p).cpu_proc = s.cpu_proc := by
  simp only [mlfq_enqueue]; split_ifs <;> rfl

@[simp] theorem mlfq_enqueue_initproc (N : Nat) (s : kernel) (pr : Int) (p : Nat) :
    (mlfq_enqueue N s pr p).initproc = s.initproc := by
  simp only [mlfq_enqueue]; split_ifs <;> rfl

@[simp] theorem mlfq_enqueue_ticks (N : Nat) (s : kernel) (pr : Int) (p : Nat) :
    (mlfq_enqueue N s pr p).ticks = s.ticks := by
  simp only [mlfq_enqueue]; split_ifs <;> rfl

@[simp] theorem mlfq_enqueue_nextpid (N : Nat) (s : kernel) (pr : Int) (p : Nat) :
    (mlfq_enqueue N s pr p).nextpid = s.nextpid := by
  simp only [mlfq_enqueue]; split_ifs <;> rfl

theorem mlfq_enqueue_proc_ne (N : Nat) (s : kernel) (pr : Int) {p j : Nat} (h : j ≠ p) :
    (mlfq_enqueue N s pr p).proc j = s.proc j := by
  simp only [mlfq_enqueue]
  split_ifs
  · rfl
  · exact setAt_ne _ _ h
  · rfl

/-- An enqueue rewrites at most the three queue fields of the descriptor. -/
theorem mlfq_enqueue_proc_same (N : Nat) (s : kernel) (pr : Int) (p : Nat) :
    (mlfq_enqueue N s pr p).proc p = s.proc p ∨
    (mlfq_enqueue N s pr p).proc p =
      { s.proc p with priority := clamp_priority pr, ticks_in_queue := 0,
                      entry_time := s.ticks } := by
  simp only [mlfq_enqueue]
  split_ifs
  · exact Or.inl rfl
  · exact Or.inr (setAt_same _ _ _)
  · exact Or.inl rfl

@[simp] theorem mlfq_enqueue_state (N : Nat) (s : kernel) (pr : Int) (p j : Nat) :
    ((mlfq_enqueue N s pr p).proc j).state = (s.proc j).state := by
  by_cases h : j = p
  · subst h
    rcases mlfq_enqueue_proc_same N s pr j with h | h <;> rw [h]
  · rw [mlfq_enqueue_proc_ne N s pr h]

theorem mlfq_enqueue_queue_ne (N : Nat) (s : kernel) (pr : Int) (p : Nat) {k : Nat}
    (h : k ≠ (clamp_priority pr).toNat) :
    (mlfq_enqueue N s pr p).mlfq_queues k = s.mlfq_queues k := by
  simp only [mlfq_enqueue]
  split_ifs
  · rfl
  · exact setAt_ne _ _ h
  · rfl

theorem mlfq_enqueue_wf (N : Nat) (hN : 0 < N) (s : kernel) (pr : Int) (p : Nat) (k : Nat)
    (hw : wf_queue N (s.mlfq_queues k)) :
    wf_queue N ((mlfq_enqueue N s pr p).mlfq_queues k) := by
  simp only [mlfq_enqueue]
  split_ifs with h1 h2
  · exact hw
  · by_cases hk : k = (clamp_priority pr).toNat
    · subst hk
      simp only [setAt_same]
      exact wf_push hN hw h2 _
    · simp only [setAt_ne _ _ hk]
      exact hw
  · exact hw

theorem mlfq_enqueue_wf_queues (N : Nat) (hN : 0 < N) (s : kernel) (pr : Int) (p : Nat)
    (hw : wf_queues N s) : wf_queues N (mlfq_enqueue N s pr p) :=
  fun k hk => mlfq_enqueue_wf N hN s pr p k (hw k hk)

/-- The entries of every queue after an enqueue. -/
theorem mlfq_enqueue_entries (N : Nat) (s : kernel) (pr : Int) (p : Nat) (k : Nat)
    (hw : wf_queue N (s.mlfq_queues (clamp_priority pr).toNat)) :
    queue_entries N (mlfq_enqueue N s pr p) k =
      if k = (clamp_priority pr).toNat ∧ (s.proc p).state = RUNNABLE ∧
          (s.mlfq_queues (clamp_priority pr).toNat).count < N
      then queue_entries N s k ++ [some p] else queue_entries N s k := by
  by_cases hk : k = (clamp_priority pr).toNat
  · by_cases hr : (s.proc p).state = RUNNABLE
    · by_cases hc : (s.mlfq_queues (clamp_priority pr).toNat).count < N
      · rw [if_pos ⟨hk, hr, hc⟩, mlfq_enqueue_done N s pr p hr hc]
        subst hk
        simp only [queue_entries, setAt_same]
        exact entries_push hw hc _
      · rw [if_neg (fun h => hc h.2.2), mlfq_enqueue_full N s pr p hc]
    · rw [if_neg (fun h => hr h.2.1), mlfq_enqueue_not_runnable N s pr p hr]
  · rw [if_neg (fun h => hk h.1)]
    simp only [queue_entries, mlfq_enqueue_queue_ne N s pr p hk]

/-! ### `mlfq_dequeue` -/

theorem mlfq_dequeue_empty (N : Nat) (s : kernel) (k : Nat)
    (h : (s.mlfq_queues k).count = 0) : mlfq_dequeue N s k = (none, s) := by
  simp [mlfq_dequeue, h]

theorem mlfq_dequeue_nonempty (N : Nat) (s : kernel) (k : Nat)
    (h : 0 < (s.mlfq_queues k).count) :
    mlfq_dequeue N s k =
      ((s.mlfq_queues k).procs (s.mlfq_queues k).front,
       { s with
         mlfq_queues := setAt s.mlfq_queues k
           { s.mlfq_queues k with front := ((s.mlfq_queues k).front + 1) % N,
                                  count := (s.mlfq_queues k).count - 1 } }) := by
  simp [mlfq_dequeue, h]

@[simp] theorem mlfq_dequeue_proc (N : Nat) (s : kernel) (k : Nat) :
    (mlfq_dequeue N s k).2.proc = s.proc := by
  simp only [mlfq_dequeue]; split_ifs <;> rfl

@[simp] theorem mlfq_dequeue_idleproc (N : Nat) (s : kernel) (k : Nat) :
    (mlfq_dequeue N s k).2.idleproc = s.idleproc := by
  simp only [mlfq_dequeue]; split_ifs <;> rfl

@[simp] theorem mlfq_dequeue_cpu_proc (N : Nat) (s : kernel) (k : Nat) :
    (mlfq_dequeue N s k).2.cpu_proc = s.cpu_proc := by
  simp only [mlfq_dequeue]; split_ifs <;> rfl

@[simp] theorem mlfq_dequeue_initproc (N : Nat) (s : kernel) (k : Nat) :
    (mlfq_dequeue N s k).2.initproc = s.initproc := by
  simp only [mlfq_dequeue]; split_ifs <;> rfl

@[simp] theorem mlfq_dequeue_ticks (N : Nat) (s : kernel) (k : Nat) :
    (mlfq_dequeue N s k).2.ticks = s.ticks := by
  simp only [mlfq_dequeue]; split_ifs <;> rfl

@[simp] theorem mlfq_dequeue_nextpid (N : Nat) (s : kernel) (k : Nat) :
    (mlfq_dequeue N s k).2.nextpid = s.nextpid := by
  simp only [mlfq_dequeue]; split_ifs <;> rfl

theorem mlfq_dequeue_queue_ne (N : Nat) (s : kernel) (k : Nat) {j : Nat} (h : j ≠ k) :
    (mlfq_dequeue N s k).2.mlfq_queues j = s.mlfq_queues j := by
  simp only [mlfq_dequeue]
  split_ifs
  · exact setAt_ne _ _ h
  · rfl

theorem mlfq_dequeue_wf (N : Nat) (hN : 0 < N) (s : kernel) (k j : Nat)
    (hw : wf_queue N (s.mlfq_queues j)) :
    wf_queue N ((mlfq_dequeue N s k).2.mlfq_queues j) := by
  simp only [mlfq_dequeue]
  split_ifs with h
  · by_cases hj : j = k
    · subst hj
      simp only [setAt_same]
      exact wf_pop hN hw h
    · simp only [setAt_ne _ _ hj]
      exact hw
  · exact hw

theorem mlfq_dequeue_wf_queues (N : Nat) (hN : 0 < N) (s : kernel) (k : Nat)
    (hw : wf_queues N s) : wf_queues N (mlfq_dequeue N s k).2 :=
  fun j hj => mlfq_dequeue_wf N hN s k j (hw j hj)

/-- On a well-formed queue `mlfq_dequeue` returns the first entry and leaves
the others, in order; on an empty one it returns null. -/
theorem mlfq_dequeue_entries (N : Nat) (s : kernel) (k : Nat)
    (hw : wf_queue N (s.mlfq_queues k)) :
    (queue_entries N s k = [] ∧ mlfq_dequeue N s k = (none, s)) ∨
    (queue_entries N s k =
        (mlfq_dequeue N s k).1 :: queue_entries N (mlfq_dequeue N s k).2 k) := by
  by_cases h : (s.mlfq_queues k).count = 0
  · exact Or.inl ⟨entries_eq_nil.mpr h, mlfq_dequeue_empty N s k h⟩
  · right
    have hc : 0 < (s.mlfq_queues k).count := Nat.pos_of_ne_zero h
    rw [mlfq_dequeue_nonempty N s k hc]
    simp only [queue_entries, setAt_same]
    exact entries_pop hw hc

theorem mlfq_dequeue_entries_ne (N : Nat) (s : kernel) (k : Nat) {j : Nat} (h : j ≠ k) :
    queue_entries N (mlfq_dequeue N s k).2 j = queue_entries N s j := by
  simp only [queue_entries, mlfq_dequeue_queue_ne N s k h]



/-! ### `mlfq_remove` -/

theorem mlfq_remove_frame (N : Nat) (s : kernel) (p : Option Nat) :
    ∃ Q, mlfq_remove N s p = { s with mlfq_queues := Q } := by
  cases p with
  | none => exact ⟨s.mlfq_queues, rfl⟩
  | some i =>
    simp only [mlfq_remove]
    split_ifs
    · exact ⟨_, rfl⟩
    · exact ⟨_, rfl⟩
    · split
      · exact ⟨_, rfl⟩
      · exact ⟨_, rfl⟩

@[simp] theorem mlfq_remove_proc (N : Nat) (s : kernel) (p : Option Nat) :
    (mlfq_remove N s p).proc = s.proc := by
  obtain ⟨Q, h⟩ := mlfq_remove_frame N s p
  rw [h]

@[simp] theorem mlfq_remove_idleproc (N : Nat) (s : kernel) (p : Option Nat) :
    (mlfq_remove N s p).idleproc = s.idleproc := by
  obtain ⟨Q, h⟩ := mlfq_remove_frame N s p
  rw [h]

@[simp] theorem mlfq_remove_cpu_proc (N : Nat) (s : kernel) (p : Option Nat) :
    (mlfq_remove N s p).cpu_proc = s.cpu_proc := by
  obtain ⟨Q, h⟩ := mlfq_remove_frame N s p
  rw [h]

@[simp] theorem mlfq_remove_initproc (N : Nat) (s : kernel) (p : Option Nat) :
    (mlfq_remove N s p).initproc = s.initproc := by
  obtain ⟨Q, h⟩ := mlfq_remove_frame N s p
  rw [h]

@[simp] theorem mlfq_remove_ticks (N : Nat) (s : kernel) (p : Option Nat) :
    (mlfq_remove N s p).ticks = s.ticks := by
  obtain ⟨Q, h⟩ := mlfq_remove_frame N s p
  rw [h]

@[simp] theorem mlfq_remove_nextpid (N : Nat) (s : kernel) (p : Option Nat) :
    (mlfq_remove N s p).nextpid = s.nextpid := by
  obtain ⟨Q, h⟩ := mlfq_remove_frame N s p
  rw [h]

theorem mlfq_remove_null (N : Nat) (s : kernel) : mlfq_remove N s none = s := rfl

theorem mlfq_remove_idle (N : Nat) (s : kernel) (i : Nat) (h : some i = s.idleproc) :
    mlfq_remove N s (some i) = s := by
  simp [mlfq_remove, h]

/-- A pointer that is not an entry of the queue searched leaves the state as
it is. -/
theorem mlfq_remove_absent (N : Nat) (s : kernel) (i : Nat)
    (h : some i ∉ queue_entries N s (s.proc i).priority.toNat) :
    mlfq_remove N s (some i) = s := by
  unfold mlfq_remove
  simp only
  split_ifs
  · rfl
  · rfl
  · rw [search_none.mpr h]

theorem mlfq_remove_out_of_range (N : Nat) (s : kernel) (i : Nat)
    (h : (s.proc i).priority < 0 ∨ (s.proc i).priority ≥ (NMLFQ : Int)) :
    mlfq_remove N s (some i) = s := by
  unfold mlfq_remove
  simp only
  split_ifs
  · rfl
  · rfl

/-- The state after a removal that finds the pointer at position `k`. -/
theorem mlfq_remove_found (N : Nat) (s : kernel) (i k : Nat) (hi : some i ≠ s.idleproc)
    (h0 : 0 ≤ (s.proc i).priority) (h1 : (s.proc i).priority < (NMLFQ : Int))
    (hk : (List.range (s.mlfq_queues (s.proc i).priority.toNat).count).find?
            (fun k => (s.mlfq_queues (s.proc i).priority.toNat).procs
              (((s.mlfq_queues (s.proc i).priority.toNat).front + k) % N) == some i) = some k) :
    mlfq_remove N s (some i) =
      { s with
        mlfq_queues := setAt s.mlfq_queues (s.proc i).priority.toNat
          { procs := shift_entries N (s.mlfq_queues (s.proc i).priority.toNat).front k
              ((s.mlfq_queues (s.proc i).priority.toNat).count - 1 - k)
              (s.mlfq_queues (s.proc i).priority.toNat).procs,
            front := (s.mlfq_queues (s.proc i).priority.toNat).front,
            rear := ((s.mlfq_queues (s.proc i).priority.toNat).rear + N - 1) % N,
            count := (s.mlfq_queues (s.proc i).priority.toNat).count - 1 } } := by
  unfold mlfq_remove
  simp only
  rw [if_neg hi, if_neg (by omega), hk]

theorem mlfq_remove_queue_ne (N : Nat) (s : kernel) (i : Nat) {k : Nat}
    (h : k ≠ (s.proc i).priority.toNat) :
    (mlfq_remove N s (some i)).mlfq_queues k = s.mlfq_queues k := by
  unfold mlfq_remove
  simp only
  split_ifs
  · rfl
  · rfl
  · split
    · rfl
    · exact setAt_ne _ _ h

theorem mlfq_remove_wf (N : Nat) (hN : 0 < N) (s : kernel) (p : Option Nat) (k : Nat)
    (hw : wf_queue N (s.mlfq_queues k)) :
    wf_queue N ((mlfq_remove N s p).mlfq_queues k) := by
  cases p with
  | none => exact hw
  | some i =>
    by_cases hk : k = (s.proc i).priority.toNat
    · unfold mlfq_remove
      simp only
      split_ifs
      · exact hw
      · exact hw
      · split
        · exact hw
        · rename_i j hj
          subst hk
          simp only [setAt_same]
          exact wf_shift hN hw (by have := (search_some hj).1; omega) _
    · rw [mlfq_remove_queue_ne N s i hk]
      exact hw

theorem mlfq_remove_wf_queues (N : Nat) (hN : 0 < N) (s : kernel) (p : Option Nat)
    (hw : wf_queues N s) : wf_queues N (mlfq_remove N s p) :=
  fun k hk => mlfq_remove_wf N hN s p k (hw k hk)

/-- The entries of the queue searched after `mlfq_remove` of a descriptor that
is not the idle one: the first occurrence of the pointer is gone. -/
theorem mlfq_remove_entries (N : Nat) (s : kernel) (i : Nat) (hi : some i ≠ s.idleproc)
    (h0 : 0 ≤ (s.proc i).priority) (h1 : (s.proc i).priority < (NMLFQ : Int))
    (hw : wf_queue N (s.mlfq_queues (s.proc i).priority.toNat)) :
    queue_entries N (mlfq_remove N s (some i)) (s.proc i).priority.toNat =
      (queue_entries N s (s.proc i).priority.toNat).erase (some i) := by
  by_cases hm : some i ∈ queue_entries N s (s.proc i).priority.toNat
  · cases hf : (List.range (s.mlfq_queues (s.proc i).priority.toNat).count).find?
            (fun k => (s.mlfq_queues (s.proc i).priority.toNat).procs
              (((s.mlfq_queues (s.proc i).priority.toNat).front + k) % N) == some i) with
    | none => exact absurd hm (search_none.mp hf)
    | some k =>
      rw [mlfq_remove_found N s i k hi h0 h1 hf]
      simp only [queue_entries, setAt_same]
      rw [entries_shift hw (search_some hf).1, (search_some hf).2]
  · rw [mlfq_remove_absent N s i hm, List.erase_of_not_mem hm]

theorem mlfq_remove_entries_ne (N : Nat) (s : kernel) (i : Nat) {k : Nat}
    (h : k ≠ (s.proc i).priority.toNat) :
    queue_entries N (mlfq_remove N s (some i)) k = queue_entries N s k := by
  simp only [queue_entries, mlfq_remove_queue_ne N s i h]



/-! ### Runs of enqueues and dequeues -/

theorem enqueue_all_state (N : Nat) (pr : Int) (ds : List Nat) :
    ∀ (s : kernel) (j : Nat), ((enqueue_all N s pr ds).proc j).state = (s.proc j).state := by
  induction ds with
  | nil => intro s j; rfl
  | cons d ds ih =>
    intro s j
    simp only [enqueue_all, List.foldl_cons] at ih ⊢
    rw [ih, mlfq_enqueue_state]

theorem enqueue_all_entries (N : Nat) (hN : 0 < N) (pr : Int) (ds : List Nat) :
    ∀ (s : kernel), wf_queue N (s.mlfq_queues (clamp_priority pr).toNat) →
      (∀ d ∈ ds, (s.proc d).state = RUNNABLE) →
      (s.mlfq_queues (clamp_priority pr).toNat).count + ds.length ≤ N →
      wf_queue N ((enqueue_all N s pr ds).mlfq_queues (clamp_priority pr).toNat) ∧
      queue_entries N (enqueue_all N s pr ds) (clamp_priority pr).toNat =
        queue_entries N s (clamp_priority pr).toNat ++ ds.map some := by
  induction ds with
  | nil => intro s hw _ _; exact ⟨hw, by simp [enqueue_all]⟩
  | cons d ds ih =>
    intro s hw hrun hlen
    simp only [List.length_cons] at hlen
    have hd : (s.proc d).state = RUNNABLE := hrun d (List.mem_cons_self _ _)
    have hc : (s.mlfq_queues (clamp_priority pr).toNat).count < N := by omega
    have hw1 := mlfq_enqueue_wf N hN s pr d _ hw
    have he1 := mlfq_enqueue_entries N s pr d (clamp_priority pr).toNat hw
    rw [if_pos ⟨rfl, hd, hc⟩] at he1
    have hcount : ((mlfq_enqueue N s pr d).mlfq_queues (clamp_priority pr).toNat).count =
        (s.mlfq_queues (clamp_priority pr).toNat).count + 1 := by
      have := congrArg List.length he1
      simpa [queue_entries] using this
    have := ih (mlfq_enqueue N s pr d) hw1
      (fun x hx => by rw [mlfq_enqueue_state]; exact hrun x (List.mem_cons_of_mem _ hx))
      (by omega)
    simp only [enqueue_all, List.foldl_cons] at this ⊢
    refine ⟨this.1, ?_⟩
    rw [this.2, he1]
    simp

theorem dequeue_n_entries (N : Nat) (hN : 0 < N) (k : Nat) (l : List (Option Nat)) :
    ∀ (s : kernel) (rest : List (Option Nat)), wf_queue N (s.mlfq_queues k) →
      queue_entries N s k = l ++ rest →
      (dequeue_n N k l.length s).1 = l ∧ queue_entries N (dequeue_n N k l.length s).2 k = rest := by
  induction l with
  | nil => intro s rest _ h; exact ⟨rfl, by simpa [dequeue_n] using h⟩
  | cons x l ih =>
    intro s rest hw h
    rcases mlfq_dequeue_entries N s k hw with ⟨h1, _⟩ | h1
    · rw [h1] at h; simp at h
    · rw [h1] at h
      simp only [List.cons_append, List.cons.injEq] at h
      have := ih (mlfq_dequeue N s k).2 rest (mlfq_dequeue_wf N hN s k k hw) h.2
      simp only [dequeue_n, List.length_cons]
      exact ⟨by rw [this.1, h.1], this.2⟩



/-! ### The dispatcher -/

/-- The selection loop of `schedule()` writes no descriptor: its re-enqueue of
a stale entry is refused by `mlfq_enqueue`, the entry not being RUNNABLE. -/
theorem schedule_pick_frame (N : Nat) (l : List Nat) :
    ∀ s : kernel, ∃ Q, (schedule_pick N l s).2 = { s with mlfq_queues := Q } := by
  induction l with
  | nil => intro s; exact ⟨s.mlfq_queues, rfl⟩
  | cons k l ih =>
    intro s
    have hd : ∃ Q, (mlfq_dequeue N s k).2 = { s with mlfq_queues := Q } := by
      simp only [mlfq_dequeue]
      split_ifs
      · exact ⟨_, rfl⟩
      · exact ⟨_, rfl⟩
    obtain ⟨Q1, h1⟩ := hd
    rw [schedule_pick]
    rcases hr : mlfq_dequeue N s k with ⟨next, s1⟩
    rw [hr] at h1
    simp only at h1
    subst h1
    cases next with
    | none =>
      simp only
      obtain ⟨Q, h⟩ := ih { s with mlfq_queues := Q1 }
      exact ⟨Q, h⟩
    | some n =>
      simp only
      split_ifs with hst
      · exact ⟨Q1, rfl⟩
      · rw [mlfq_enqueue_not_runnable N { s with mlfq_queues := Q1 } _ n hst]
        obtain ⟨Q, h⟩ := ih { s with mlfq_queues := Q1 }
        exact ⟨Q, h⟩

@[simp] theorem schedule_pick_proc (N : Nat) (l : List Nat) (s : kernel) :
    (schedule_pick N l s).2.proc = s.proc := by
  obtain ⟨Q, h⟩ := schedule_pick_frame N l s
  rw [h]

@[simp] theorem schedule_pick_idleproc (N : Nat) (l : List Nat) (s : kernel) :
    (schedule_pick N l s).2.idleproc = s.idleproc := by
  obtain ⟨Q, h⟩ := schedule_pick_frame N l s
  rw [h]

@[simp] theorem schedule_pick_cpu_proc (N : Nat) (l : List Nat) (s : kernel) :
    (schedule_pick N l s).2.cpu_proc = s.cpu_proc := by
  obtain ⟨Q, h⟩ := schedule_pick_frame N l s
  rw [h]

@[simp] theorem schedule_pick_initproc (N : Nat) (l : List Nat) (s : kernel) :
    (schedule_pick N l s).2.initproc = s.initproc := by
  obtain ⟨Q, h⟩ := schedule_pick_frame N l s
  rw [h]

@[simp] theorem schedule_pick_ticks (N : Nat) (l : List Nat) (s : kernel) :
    (schedule_pick N l s).2.ticks = s.ticks := by
  obtain ⟨Q, h⟩ := schedule_pick_frame N l s
  rw [h]

@[simp] theorem schedule_pick_nextpid (N : Nat) (l : List Nat) (s : kernel) :
    (schedule_pick N l s).2.nextpid = s.nextpid := by
  obtain ⟨Q, h⟩ := schedule_pick_frame N l s
  rw [h]

/-- With every queue to scan empty the selection loop finds nothing. -/
theorem schedule_pick_empty (N : Nat) (l : List Nat) (s : kernel)
    (h : ∀ k ∈ l, (s.mlfq_queues k).count = 0) : schedule_pick N l s = (none, s) := by
  induction l with
  | nil => rfl
  | cons k l ih =>
    rw [schedule_pick, mlfq_dequeue_empty N s k (h k (List.mem_cons_self _ _))]
    exact ih (fun j hj => h j (List.mem_cons_of_mem _ hj))

/-- Scanning priorities in increasing order, the selection loop stops at the
first non-empty queue when the head of that queue is RUNNABLE. -/
theorem schedule_pick_first (N : Nat) (l : List Nat) (s : kernel) (k n : Nat)
    (rest : List (Option Nat)) (hl : l.Pairwise (· < ·)) (hk : k ∈ l)
    (hempty : ∀ j ∈ l, j < k → (s.mlfq_queues j).count = 0)
    (hw : wf_queue N (s.mlfq_queues k))
    (he : queue_entries N s k = some n :: rest) (hrun : (s.proc n).state = RUNNABLE) :
    schedule_pick N l s = (some n, (mlfq_dequeue N s k).2) ∧
    queue_entries N (mlfq_dequeue N s k).2 k = rest := by
  have hdq : (mlfq_dequeue N s k).1 = some n ∧ queue_entries N (mlfq_dequeue N s k).2 k = rest := by
    rcases mlfq_dequeue_entries N s k hw with ⟨h1, _⟩ | h1
    · rw [h1] at he; simp at he
    · rw [h1] at he
      simp only [List.cons.injEq] at he
      exact he
  refine ⟨?_, hdq.2⟩
  induction l with
  | nil => simp at hk
  | cons a l ih =>
    rw [schedule_pick]
    by_cases hak : a = k
    · subst hak
      rcases hr : mlfq_dequeue N s a with ⟨next, s1⟩
      rw [hr] at hdq
      simp only at hdq
      rw [hdq.1]
      simp only
      have hp : s1.proc = s.proc := by
        have := mlfq_dequeue_proc N s a
        rw [hr] at this
        exact this
      rw [hp, if_pos hrun]
    · have hk2 : k ∈ l := by
        rcases List.mem_cons.mp hk with h | h
        · exact absurd h.symm hak
        · exact h
      have hlt : a < k := (List.pairwise_cons.mp hl).1 k hk2
      rw [mlfq_dequeue_empty N s a (hempty a (List.mem_cons_self _ _) hlt)]
      exact ih (List.pairwise_cons.mp hl).2 hk2
        (fun j hj hjk => hempty j (List.mem_cons_of_mem _ hj) hjk)

theorem range_pairwise_lt (n : Nat) : (List.range n).Pairwise (· < ·) :=
  List.pairwise_lt_range n

/-! ### `schedule_requeue` and `schedule_switch` -/

@[simp] theorem schedule_requeue_idleproc (N : Nat) (s : kernel) :
    (schedule_requeue N s).idleproc = s.idleproc := by
  unfold schedule_requeue
  split
  · rfl
  · split_ifs
    · simp
    · rfl

@[simp] theorem schedule_requeue_cpu_proc (N : Nat) (s : kernel) :
    (schedule_requeue N s).cpu_proc = s.cpu_proc := by
  unfold schedule_requeue
  split
  · rfl
  · split_ifs
    · simp
    · rfl

@[simp] theorem schedule_requeue_initproc (N : Nat) (s : kernel) :
    (schedule_requeue N s).initproc = s.initproc := by
  unfold schedule_requeue
  split
  · rfl
  · split_ifs
    · simp
    · rfl

@[simp] theorem schedule_requeue_ticks (N : Nat) (s : kernel) :
    (schedule_requeue N s).ticks = s.ticks := by
  unfold schedule_requeue
  split
  · rfl
  · split_ifs
    · simp
    · rfl

/-- When the current descriptor is null, idle or not RUNNING the first part of
`schedule()` does nothing. -/
theorem schedule_requeue_skip (N : Nat) (s : kernel)
    (h : ∀ p, s.cpu_proc = some p → (s.proc p).state ≠ RUNNING ∨ some p = s.idleproc) :
    schedule_requeue N s = s := by
  unfold schedule_requeue
  split
  · rfl
  · rename_i prev hp
    rcases h prev hp with h1 | h1
    · rw [if_neg (fun hc => h1 hc.1)]
    · rw [if_neg (fun hc => hc.2 h1)]

/-- When the current descriptor is RUNNING and not idle the first part of
`schedule()` makes it RUNNABLE and enqueues it at its own priority. -/
theorem schedule_requeue_run (N : Nat) (s : kernel) (p : Nat) (hp : s.cpu_proc = some p)
    (hr : (s.proc p).state = RUNNING) (hi : some p ≠ s.idleproc) :
    schedule_requeue N s = mlfq_enqueue N (set_state s p RUNNABLE) (s.proc p).priority p := by
  unfold schedule_requeue
  rw [hp]
  simp only
  rw [if_pos ⟨hr, hi⟩]
  simp

theorem schedule_switch_some (s : kernel) (n : Nat) :
    schedule_switch s (some n) = { set_state s n RUNNING with cpu_proc := some n } := rfl

theorem schedule_switch_none (s : kernel) (i : Nat) (h : s.idleproc = some i) :
    schedule_switch s none = { set_state s i RUNNING with cpu_proc := some i } := by
  simp [schedule_switch, h]



theorem wf_queues_pos {N : Nat} {s : kernel} (hw : wf_queues N s) : 0 < N :=
  (hw 0 (by decide)).1.trans_le' (Nat.zero_le _)

theorem schedule_requeue_wf (N : Nat) (s : kernel) (hw : wf_queues N s) :
    wf_queues N (schedule_requeue N s) := by
  unfold schedule_requeue
  split
  · exact hw
  · split_ifs
    · exact mlfq_enqueue_wf_queues N (wf_queues_pos hw) _ _ _ hw
    · exact hw

/-- The states of the descriptors after the first part of `schedule()`. -/
theorem schedule_requeue_state (N : Nat) (s : kernel) (j : Nat) :
    ((schedule_requeue N s).proc j).state =
      if s.cpu_proc = some j ∧ (s.proc j).state = RUNNING ∧ some j ≠ s.idleproc
      then RUNNABLE else (s.proc j).state := by
  unfold schedule_requeue
  split
  · rename_i h; simp [h]
  · rename_i prev hp
    by_cases hc : (s.proc prev).state = RUNNING ∧ some prev ≠ s.idleproc
    · rw [if_pos hc, mlfq_enqueue_state]
      by_cases hj : j = prev
      · subst hj
        rw [if_pos ⟨hp, hc⟩]
        simp
      · rw [set_state_proc_ne _ _ hj, if_neg]
        rintro ⟨h1, _⟩
        rw [hp] at h1
        exact hj (Option.some.inj h1).symm
    · rw [if_neg hc, if_neg]
      rintro ⟨h1, h2⟩
      rw [hp] at h1
      have := Option.some.inj h1
      subst this
      exact hc h2

theorem schedule_requeue_queued_runnable (N : Nat) (s : kernel) (hw : wf_queues N s)
    (hq : queued_runnable N s) : queued_runnable N (schedule_requeue N s) := by
  intro k hk x hx
  have key : x ∈ queue_entries N s k ∨
      ∃ p, x = some p ∧ ((schedule_requeue N s).proc p).state = RUNNABLE := by
    by_cases hc : ∃ p, s.cpu_proc = some p ∧ (s.proc p).state = RUNNING ∧ some p ≠ s.idleproc
    · obtain ⟨p, hp, hr, hi⟩ := hc
      rw [schedule_requeue_run N s p hp hr hi] at hx ⊢
      rw [mlfq_enqueue_entries N (set_state s p RUNNABLE) (s.proc p).priority p k
        (hw _ (clamp_priority_toNat_lt _))] at hx
      split_ifs at hx
      · rcases List.mem_append.mp hx with h | h
        · exact Or.inl h
        · right
          refine ⟨p, by simpa using h, ?_⟩
          rw [mlfq_enqueue_state]
          simp
      · exact Or.inl hx
    · have hskip : ∀ p, s.cpu_proc = some p → (s.proc p).state ≠ RUNNING ∨ some p = s.idleproc := by
        intro p hp
        by_contra hcon
        push_neg at hcon
        exact hc ⟨p, hp, hcon.1, hcon.2⟩
      rw [schedule_requeue_skip N s hskip] at hx
      exact Or.inl hx
  rcases key with h | ⟨p, rfl, hp⟩
  · have h1 := hq k hk x h
    cases x with
    | none => exact h1
    | some i =>
      simp only [entry_runnable] at h1 ⊢
      rw [schedule_requeue_state]
      split_ifs
      · rfl
      · exact h1
  · exact hp



/-- One turn of the selection loop of `schedule()`: it stops with the pointer
dequeued when that is a RUNNABLE descriptor, and otherwise goes on from the
state the dequeue left. -/
theorem schedule_pick_cons (N : Nat) (k : Nat) (l : List Nat) (s : kernel) :
    schedule_pick N (k :: l) s =
      if entry_runnable s (mlfq_dequeue N s k).1 then mlfq_dequeue N s k
      else schedule_pick N l (mlfq_dequeue N s k).2 := by
  rw [schedule_pick]
  rcases hr : mlfq_dequeue N s k with ⟨next, s1⟩
  have hp : s1.proc = s.proc := by
    have := mlfq_dequeue_proc N s k
    rw [hr] at this
    exact this
  cases next with
  | none => simp [entry_runnable]
  | some n =>
    simp only [entry_runnable]
    rw [hp]
    split_ifs with h
    · rfl
    · rw [mlfq_enqueue_not_runnable N s1 _ n (by rw [hp]; exact h)]

/-- What the selection loop of `schedule()` returns is null or a RUNNABLE
descriptor. -/
theorem schedule_pick_runnable (N : Nat) (l : List Nat) :
    ∀ (s : kernel) (n : Nat), (schedule_pick N l s).1 = some n → (s.proc n).state = RUNNABLE := by
  induction l with
  | nil => intro s n h; simp [schedule_pick] at h
  | cons k l ih =>
    intro s n h
    rw [schedule_pick_cons] at h
    split_ifs at h with hc
    · rw [h] at hc
      exact hc
    · have := ih _ n h
      rwa [mlfq_dequeue_proc] at this

theorem schedule_pick_wf (N : Nat) (l : List Nat) :
    ∀ (s : kernel), wf_queues N s → wf_queues N (schedule_pick N l s).2 := by
  induction l with
  | nil => intro s hw; exact hw
  | cons k l ih =>
    intro s hw
    rw [schedule_pick_cons]
    split_ifs
    · exact mlfq_dequeue_wf_queues N (wf_queues_pos hw) s k hw
    · exact ih _ (mlfq_dequeue_wf_queues N (wf_queues_pos hw) s k hw)

theorem mlfq_dequeue_suffix (N : Nat) (s : kernel) (k j : Nat)
    (hw : wf_queue N (s.mlfq_queues k)) :
    queue_entries N (mlfq_dequeue N s k).2 j <:+ queue_entries N s j := by
  by_cases hj : j = k
  · subst hj
    rcases mlfq_dequeue_entries N s j hw with ⟨_, h2⟩ | h1
    · rw [h2]
    · rw [h1]
      exact List.suffix_cons _ _
  · rw [mlfq_dequeue_entries_ne N s k hj]

/-- The selection loop of `schedule()` only takes entries off the front of
the queues: it enqueues nothing. -/
theorem schedule_pick_suffix (N : Nat) (l : List Nat) :
    ∀ (s : kernel), wf_queues N s → (∀ k ∈ l, k < NMLFQ) → ∀ j,
      queue_entries N (schedule_pick N l s).2 j <:+ queue_entries N s j := by
  induction l with
  | nil => intro s _ _ j; exact List.suffix_refl _
  | cons k l ih =>
    intro s hw hl j
    have hk : k < NMLFQ := hl k (List.mem_cons_self _ _)
    rw [schedule_pick_cons]
    split_ifs
    · exact mlfq_dequeue_suffix N s k j (hw k hk)
    · exact (ih _ (mlfq_dequeue_wf_queues N (wf_queues_pos hw) s k hw)
        (fun x hx => hl x (List.mem_cons_of_mem _ hx)) j).trans
        (mlfq_dequeue_suffix N s k j (hw k hk))

/-- The selection loop of the zombie branch of `yield()` writes nothing but
the queues. -/
theorem yield_pick_frame (N : Nat) (l : List Nat) :
    ∀ s : kernel, ∃ Q, (yield_pick N l s).2 = { s with mlfq_queues := Q } := by
  induction l with
  | nil => intro s; exact ⟨s.mlfq_queues, rfl⟩
  | cons k l ih =>
    intro s
    have hd : ∃ Q, (mlfq_dequeue N s k).2 = { s with mlfq_queues := Q } := by
      simp only [mlfq_dequeue]
      split_ifs
      · exact ⟨_, rfl⟩
      · exact ⟨_, rfl⟩
    obtain ⟨Q1, h1⟩ := hd
    rw [yield_pick]
    rcases hr : mlfq_dequeue N s k with ⟨next, s1⟩
    rw [hr] at h1
    simp only at h1
    subst h1
    cases next with
    | none =>
      simp only
      obtain ⟨Q, h⟩ := ih { s with mlfq_queues := Q1 }
      exact ⟨Q, h⟩
    | some n => exact ⟨Q1, rfl⟩

@[simp] theorem yield_pick_proc (N : Nat) (l : List Nat) (s : kernel) :
    (yield_pick N l s).2.proc = s.proc := by
  obtain ⟨Q, h⟩ := yield_pick_frame N l s
  rw [h]

@[simp] theorem yield_pick_idleproc (N : Nat) (l : List Nat) (s : kernel) :
    (yield_pick N l s).2.idleproc = s.idleproc := by
  obtain ⟨Q, h⟩ := yield_pick_frame N l s
  rw [h]

@[simp] theorem yield_pick_nextpid (N : Nat) (l : List Nat) (s : kernel) :
    (yield_pick N l s).2.nextpid = s.nextpid := by
  obtain ⟨Q, h⟩ := yield_pick_frame N l s
  rw [h]

@[simp] theorem yield_pick_cpu_proc (N : Nat) (l : List Nat) (s : kernel) :
    (yield_pick N l s).2.cpu_proc = s.cpu_proc := by
  obtain ⟨Q, h⟩ := yield_pick_frame N l s
  rw [h]

/-- The pointer `schedule_switch` switches to: `next`, or the idle process when
`next` is null. -/
theorem schedule_switch_eq (s : kernel) (next : Option Nat) :
    schedule_switch s next =
      match (match next with | none => s.idleproc | some n => some n) with
      | none => s
      | some n => { set_state s n RUNNING with cpu_proc := some n } := rfl

/-- The descriptors after `schedule_switch`: only the state of the chosen one
is written. -/
theorem schedule_switch_proc (s : kernel) (next : Option Nat) (j : Nat) :
    (schedule_switch s next).proc j = s.proc j ∨
    ((schedule_switch s next).cpu_proc = some j ∧
     (schedule_switch s next).proc j = { s.proc j with state := RUNNING } ∧
     (next = some j ∨ (next = none ∧ s.idleproc = some j))) := by
  have key : ∀ t : Option Nat,
      (match t with
        | none => s
        | some n => { set_state s n RUNNING with cpu_proc := some n }).proc j = s.proc j ∨
      ((match t with
        | none => s
        | some n => { set_state s n RUNNING with cpu_proc := some n }).cpu_proc = some j ∧
       (match t with
        | none => s
        | some n => { set_state s n RUNNING with cpu_proc := some n }).proc j =
          { s.proc j with state := RUNNING } ∧ t = some j) := by
    intro t
    cases t with
    | none => exact Or.inl rfl
    | some n =>
      by_cases hj : j = n
      · subst hj
        exact Or.inr ⟨rfl, by simp [set_state, set_proc], rfl⟩
      · left
        show (set_state s n RUNNING).proc j = _
        exact set_state_proc_ne _ _ hj
  rw [schedule_switch_eq]
  rcases key (match next with | none => s.idleproc | some n => some n) with h | ⟨h1, h2, h3⟩
  · exact Or.inl h
  · refine Or.inr ⟨h1, h2, ?_⟩
    cases next with
    | none => exact Or.inr ⟨rfl, h3⟩
    | some n => exact Or.inl h3

@[simp] theorem schedule_switch_queues (s : kernel) (next : Option Nat) :
    (schedule_switch s next).mlfq_queues = s.mlfq_queues := by
  rw [schedule_switch_eq]
  generalize (match next with | none => s.idleproc | some n => some n) = t
  cases t <;> rfl

@[simp] theorem schedule_switch_idleproc (s : kernel) (next : Option Nat) :
    (schedule_switch s next).idleproc = s.idleproc := by
  rw [schedule_switch_eq]
  generalize (match next with | none => s.idleproc | some n => some n) = t
  cases t <;> rfl

@[simp] theorem schedule_switch_initproc (s : kernel) (next : Option Nat) :
    (schedule_switch s next).initproc = s.initproc := by
  rw [schedule_switch_eq]
  generalize (match next with | none => s.idleproc | some n => some n) = t
  cases t <;> rfl

@[simp] theorem schedule_switch_ticks (s : kernel) (next : Option Nat) :
    (schedule_switch s next).ticks = s.ticks := by
  rw [schedule_switch_eq]
  generalize (match next with | none => s.idleproc | some n => some n) = t
  cases t <;> rfl

@[simp] theorem schedule_switch_nextpid (s : kernel) (next : Option Nat) :
    (schedule_switch s next).nextpid = s.nextpid := by
  rw [schedule_switch_eq]
  generalize (match next with | none => s.idleproc | some n => some n) = t
  cases t <;> rfl

@[simp] theorem schedule_switch_queue_entries (N : Nat) (s : kernel) (next : Option Nat)
    (k : Nat) : queue_entries N (schedule_switch s next) k = queue_entries N s k := by
  simp [queue_entries]



theorem schedule_proc_priority (N : Nat) (s : kernel) (j : Nat) :
    ((schedule N s).proc j).priority = ((schedule_requeue N s).proc j).priority := by
  unfold schedule
  simp only
  rcases schedule_switch_proc (schedule_pick N (List.range NMLFQ) (schedule_requeue N s)).2
    (schedule_pick N (List.range NMLFQ) (schedule_requeue N s)).1 j with h | ⟨_, h, _⟩
  · rw [h, schedule_pick_proc]
  · rw [h, schedule_pick_proc]

/-- The first part of `schedule()` on a current descriptor that is RUNNING,
not idle, with its priority in range and room in its queue. -/
theorem schedule_requeue_appends (N : Nat) (s : kernel) (p : Nat) (hcur : s.cpu_proc = some p)
    (hrun : (s.proc p).state = RUNNING) (hidle : some p ≠ s.idleproc)
    (h0 : 0 ≤ (s.proc p).priority) (h1 : (s.proc p).priority < (NMLFQ : Int))
    (hw : wf_queue N (s.mlfq_queues (s.proc p).priority.toNat))
    (hroom : (s.mlfq_queues (s.proc p).priority.toNat).count < N) :
    queue_entries N (schedule_requeue N s) (s.proc p).priority.toNat =
      queue_entries N s (s.proc p).priority.toNat ++ [some p] ∧
    (∀ k, k ≠ (s.proc p).priority.toNat →
      (schedule_requeue N s).mlfq_queues k = s.mlfq_queues k) ∧
    (schedule_requeue N s).proc p =
      { s.proc p with state := RUNNABLE, ticks_in_queue := 0, entry_time := s.ticks } ∧
    (∀ j, j ≠ p → (schedule_requeue N s).proc j = s.proc j) := by
  have hcl : clamp_priority (s.proc p).priority = (s.proc p).priority :=
    clamp_priority_of_range h0 h1
  have hr1 : ((set_state s p RUNNABLE).proc p).state = RUNNABLE := by simp
  rw [schedule_requeue_run N s p hcur hrun hidle]
  refine ⟨?_, ?_, ?_, ?_⟩
  · rw [mlfq_enqueue_entries N (set_state s p RUNNABLE) _ p _ (by rw [hcl]; exact hw),
      if_pos ⟨by rw [hcl], hr1, by rw [hcl]; exact hroom⟩]
    rfl
  · intro k hk
    rw [mlfq_enqueue_queue_ne N _ _ p (by rw [hcl]; exact hk)]
    rfl
  · rw [mlfq_enqueue_done N _ _ p hr1 (by rw [hcl]; exact hroom)]
    simp [hcl]
  · intro j hj
    rw [mlfq_enqueue_proc_ne N _ _ hj, set_state_proc_ne _ _ hj]



/-! ### `wakeup` -/

theorem wakeup_step_skip (N : Nat) (chan : Chan) (s : kernel) (p : Nat)
    (h : ¬ wakes s chan p) : wakeup_step N chan s p = s := by
  unfold wakeup_step
  unfold wakes at h
  split_ifs with h1 h2
  · exact absurd ⟨h1.1, h1.2, h2.1, h2.2⟩ h
  · rfl
  · rfl

theorem wakeup_step_wake (N : Nat) (chan : Chan) (s : kernel) (p : Nat)
    (h : wakes s chan p) :
    wakeup_step N chan s p = mlfq_enqueue N (set_state s p RUNNABLE) 0 p := by
  unfold wakeup_step
  rw [if_pos ⟨h.1, h.2.1⟩, if_pos ⟨h.2.2.1, h.2.2.2⟩]

@[simp] theorem wakeup_step_cpu_proc (N : Nat) (chan : Chan) (s : kernel) (p : Nat) :
    (wakeup_step N chan s p).cpu_proc = s.cpu_proc := by
  by_cases h : wakes s chan p
  · rw [wakeup_step_wake N chan s p h]; simp
  · rw [wakeup_step_skip N chan s p h]

@[simp] theorem wakeup_step_idleproc (N : Nat) (chan : Chan) (s : kernel) (p : Nat) :
    (wakeup_step N chan s p).idleproc = s.idleproc := by
  by_cases h : wakes s chan p
  · rw [wakeup_step_wake N chan s p h]; simp
  · rw [wakeup_step_skip N chan s p h]

@[simp] theorem wakeup_step_initproc (N : Nat) (chan : Chan) (s : kernel) (p : Nat) :
    (wakeup_step N chan s p).initproc = s.initproc := by
  by_cases h : wakes s chan p
  · rw [wakeup_step_wake N chan s p h]; simp
  · rw [wakeup_step_skip N chan s p h]

@[simp] theorem wakeup_step_ticks (N : Nat) (chan : Chan) (s : kernel) (p : Nat) :
    (wakeup_step N chan s p).ticks = s.ticks := by
  by_cases h : wakes s chan p
  · rw [wakeup_step_wake N chan s p h]; simp
  · rw [wakeup_step_skip N chan s p h]

@[simp] theorem wakeup_step_nextpid (N : Nat) (chan : Chan) (s : kernel) (p : Nat) :
    (wakeup_step N chan s p).nextpid = s.nextpid := by
  by_cases h : wakes s chan p
  · rw [wakeup_step_wake N chan s p h]; simp
  · rw [wakeup_step_skip N chan s p h]

theorem wakeup_step_proc_ne (N : Nat) (chan : Chan) (s : kernel) {p j : Nat} (h : j ≠ p) :
    (wakeup_step N chan s p).proc j = s.proc j := by
  by_cases hwk : wakes s chan p
  · rw [wakeup_step_wake N chan s p hwk, mlfq_enqueue_proc_ne N _ _ h, set_state_proc_ne _ _ h]
  · rw [wakeup_step_skip N chan s p hwk]

theorem wakeup_step_queue_ne (N : Nat) (chan : Chan) (s : kernel) (p : Nat) {k : Nat}
    (h : k ≠ 0) : (wakeup_step N chan s p).mlfq_queues k = s.mlfq_queues k := by
  by_cases hwk : wakes s chan p
  · rw [wakeup_step_wake N chan s p hwk, mlfq_enqueue_queue_ne N _ _ p (by simpa using h)]
    rfl
  · rw [wakeup_step_skip N chan s p hwk]

theorem clamp_priority_zero : (clamp_priority 0).toNat = 0 := by decide

/-- A run of the loop of `wakeup(chan)` over distinct slots `l`, queue 0 having
room for all the sleepers among them. -/
theorem wakeup_fold (N : Nat) (hN : 0 < N) (chan : Chan) (l : List Nat) :
    ∀ (s : kernel), l.Nodup → wf_queue N (s.mlfq_queues 0) →
      (s.mlfq_queues 0).count + (l.filter (fun p => decide (wakes s chan p))).length ≤ N →
      wf_queue N ((l.foldl (wakeup_step N chan) s).mlfq_queues 0) ∧
      queue_entries N (l.foldl (wakeup_step N chan) s) 0 =
        queue_entries N s 0 ++ (l.filter (fun p => decide (wakes s chan p))).map some ∧
      (∀ k, k ≠ 0 → (l.foldl (wakeup_step N chan) s).mlfq_queues k = s.mlfq_queues k) ∧
      (∀ p, (l.foldl (wakeup_step N chan) s).proc p =
        if p ∈ l ∧ wakes s chan p then
          { s.proc p with state := RUNNABLE, priority := 0, ticks_in_queue := 0,
                          entry_time := s.ticks }
        else s.proc p) := by
  induction l with
  | nil =>
    intro s _ hw _
    exact ⟨hw, by simp, fun _ _ => rfl, fun p => by simp⟩
  | cons a l ih =>
    intro s hnd hw hroom
    have hal : a ∉ l := (List.nodup_cons.mp hnd).1
    have hnd2 : l.Nodup := (List.nodup_cons.mp hnd).2
    -- the test on the slots still to come is the same before and after slot `a`
    have hsame : ∀ p, p ≠ a → (wakes (wakeup_step N chan s a) chan p ↔ wakes s chan p) := by
      intro p hp
      unfold wakes
      rw [wakeup_step_cpu_proc, wakeup_step_idleproc, wakeup_step_proc_ne N chan s hp]
    have hfilter : l.filter (fun p => decide (wakes (wakeup_step N chan s a) chan p)) =
        l.filter (fun p => decide (wakes s chan p)) := by
      apply List.filter_congr
      intro p hp
      have hpa : p ≠ a := fun h => hal (h ▸ hp)
      simp only [decide_eq_decide]
      exact hsame p hpa
    simp only [List.foldl_cons]
    by_cases hwk : wakes s chan a
    · have hstep := wakeup_step_wake N chan s a hwk
      have hr1 : ((set_state s a RUNNABLE).proc a).state = RUNNABLE := by simp
      have hlen : (s.mlfq_queues 0).count +
          ((l.filter (fun p => decide (wakes s chan p))).length + 1) ≤ N := by
        simpa [List.filter_cons, hwk] using hroom
      have hc : ((set_state s a RUNNABLE).mlfq_queues (clamp_priority 0).toNat).count < N := by
        rw [clamp_priority_zero]
        show (s.mlfq_queues 0).count < N
        omega
      have hw0 : wf_queue N ((set_state s a RUNNABLE).mlfq_queues (clamp_priority 0).toNat) := by
        rw [clamp_priority_zero]; exact hw
      have hent : queue_entries N (wakeup_step N chan s a) 0 = queue_entries N s 0 ++ [some a] := by
        rw [hstep, mlfq_enqueue_entries N (set_state s a RUNNABLE) 0 a 0 hw0,
          if_pos ⟨clamp_priority_zero.symm, hr1, hc⟩]
        rfl
      have hwf1 : wf_queue N ((wakeup_step N chan s a).mlfq_queues 0) := by
        rw [hstep]
        exact mlfq_enqueue_wf N hN _ _ _ 0 hw
      have hcount : ((wakeup_step N chan s a).mlfq_queues 0).count = (s.mlfq_queues 0).count + 1 := by
        have := congrArg List.length hent
        simpa [queue_entries] using this
      have hproc : (wakeup_step N chan s a).proc a =
          { s.proc a with state := RUNNABLE, priority := 0, ticks_in_queue := 0,
                          entry_time := s.ticks } := by
        rw [hstep, mlfq_enqueue_done N _ _ a hr1 hc]
        simp [set_state, set_proc]
        decide
      obtain ⟨i1, i2, i3, i4⟩ := ih (wakeup_step N chan s a) hnd2 hwf1
        (by rw [hfilter, hcount]; omega)
      refine ⟨i1, ?_, ?_, ?_⟩
      · rw [i2, hfilter, hent]
        simp [List.filter_cons, hwk]
      · intro k hk
        rw [i3 k hk, wakeup_step_queue_ne N chan s a hk]
      · intro p
        rw [i4 p]
        by_cases hpa : p = a
        · subst hpa
          rw [if_neg (fun h => hal h.1), if_pos ⟨List.mem_cons_self _ _, hwk⟩, hproc]
        · have h1 : (p ∈ l ∧ wakes (wakeup_step N chan s a) chan p) ↔
              (p ∈ a :: l ∧ wakes s chan p) := by
            rw [hsame p hpa, List.mem_cons]
            constructor
            · rintro ⟨h, h2⟩; exact ⟨Or.inr h, h2⟩
            · rintro ⟨h | h, h2⟩
              · exact absurd h hpa
              · exact ⟨h, h2⟩
          simp only [h1, wakeup_step_proc_ne N chan s hpa, wakeup_step_ticks]
    · have hstep := wakeup_step_skip N chan s a hwk
      have hlen : (s.mlfq_queues 0).count +
          (l.filter (fun p => decide (wakes s chan p))).length ≤ N := by
        simpa [List.filter_cons, hwk] using hroom
      rw [hstep] at hfilter ⊢
      obtain ⟨i1, i2, i3, i4⟩ := ih s hnd2 hw hlen
      refine ⟨i1, ?_, i3, ?_⟩
      · rw [i2]
        simp [List.filter_cons, hwk]
      · intro p
        rw [i4 p]
        by_cases hpa : p = a
        · subst hpa
          rw [if_neg (fun h => hal h.1), if_neg (fun h => hwk h.2)]
        · have h1 : (p ∈ l ∧ wakes s chan p) ↔ (p ∈ a :: l ∧ wakes s chan p) := by
            rw [List.mem_cons]
            constructor
            · rintro ⟨h, h2⟩; exact ⟨Or.inr h, h2⟩
            · rintro ⟨h | h, h2⟩
              · exact absurd h hpa
              · exact ⟨h, h2⟩
          simp only [h1]



/-! ### `kill` -/

theorem kill_found (N : Nat) (s : kernel) (pid : Int) (a : Nat)
    (h : (List.range N).find? (fun p => some p != s.idleproc && (s.proc p).pid == pid) = some a) :
    kill N s pid =
      if (s.proc a).state = SLEEPING then
        (0, mlfq_enqueue N
              (set_state (set_proc s a { s.proc a with killed := 1 }) a RUNNABLE)
              (s.proc a).priority a)
      else (0, set_proc s a { s.proc a with killed := 1 }) := by
  unfold kill
  rw [h]
  simp only [set_proc_proc_same, set_state_proc_same]

theorem kill_not_found (N : Nat) (s : kernel) (pid : Int)
    (h : (List.range N).find? (fun p => some p != s.idleproc && (s.proc p).pid == pid) = none) :
    kill N s pid = (-1, s) := by
  unfold kill
  rw [h]



/-! ## The scheduling invariant -/

/-- The invariant reads only the table, the queues and `idleproc`. -/
theorem sched_inv_congr {N : Nat} {s t : kernel} {hole : Option Nat}
    (h : sched_inv N s hole) (hp : t.proc = s.proc) (hq : t.mlfq_queues = s.mlfq_queues)
    (hi : t.idleproc = s.idleproc) : sched_inv N t hole := by
  have he : ∀ k, queue_entries N t k = queue_entries N s k := by
    intro k; simp only [queue_entries, hq]
  refine ⟨by rw [hi]; exact h.idle, ?_, ?_, ?_, ?_, ?_⟩
  · intro k hk; rw [hq]; exact h.wf k hk
  · intro k hk x hx
    rw [he] at hx
    rw [hp]
    exact h.entry k hk x hx
  · intro k hk; rw [he]; exact h.nodup k hk
  · intro i hi1 hi0 hr hh
    rw [hp] at hr
    obtain ⟨k, hk, hm⟩ := h.queued i hi1 hi0 hr hh
    exact ⟨k, hk, by rw [he]; exact hm⟩
  · intro k hk x hx
    rw [he]
    exact h.hole_out k hk x hx

theorem sched_inv_pos {N : Nat} {s : kernel} {hole : Option Nat} (h : sched_inv N s hole) :
    0 < N := wf_queues_pos h.wf

/-- A descriptor that is not RUNNABLE, or is the idle one, is in no queue. -/
theorem not_queued_of_state {N : Nat} {s : kernel} {hole : Option Nat} (h : sched_inv N s hole)
    {p : Nat} (hp : (s.proc p).state ≠ RUNNABLE ∨ p = 0) :
    ∀ k, k < NMLFQ → some p ∉ queue_entries N s k := by
  intro k hk hm
  obtain ⟨i, hi, _, hi0, hr, _⟩ := h.entry k hk _ hm
  cases Option.some.inj hi
  rcases hp with hp | hp
  · exact hp hr
  · exact hi0 hp

/-- Changes to the table that keep the queues: the invariant survives when the
queued descriptors keep state and priority and the descriptors that become
RUNNABLE are accounted for by the new hole. -/
theorem sched_inv_proc {N : Nat} {s t : kernel} {hole hole2 : Option Nat}
    (h : sched_inv N s hole) (hq : t.mlfq_queues = s.mlfq_queues)
    (hi : t.idleproc = s.idleproc)
    (hkeep : ∀ i k, k < NMLFQ → some i ∈ queue_entries N s k →
      (t.proc i).state = (s.proc i).state ∧ (t.proc i).priority = (s.proc i).priority)
    (hnew : ∀ i, i < N → i ≠ 0 → (t.proc i).state = RUNNABLE → some i ≠ hole2 →
      (s.proc i).state = RUNNABLE ∧ some i ≠ hole)
    (hh : ∀ k, k < NMLFQ → ∀ x, hole2 = some x → some x ∉ queue_entries N s k) :
    sched_inv N t hole2 := by
  have he : ∀ k, queue_entries N t k = queue_entries N s k := by
    intro k; simp only [queue_entries, hq]
  refine ⟨by rw [hi]; exact h.idle, ?_, ?_, ?_, ?_, ?_⟩
  · intro k hk; rw [hq]; exact h.wf k hk
  · intro k hk x hx
    rw [he] at hx
    obtain ⟨i, rfl, h1, h2, h3, h4⟩ := h.entry k hk x hx
    have := hkeep i k hk hx
    exact ⟨i, rfl, h1, h2, by rw [this.1]; exact h3, by rw [this.2]; exact h4⟩
  · intro k hk; rw [he]; exact h.nodup k hk
  · intro i hi1 hi0 hr hne
    obtain ⟨h1, h2⟩ := hnew i hi1 hi0 hr hne
    obtain ⟨k, hk, hm⟩ := h.queued i hi1 hi0 h1 h2
    exact ⟨k, hk, by rw [he]; exact hm⟩
  · intro k hk x hx
    rw [he]
    exact hh k hk x hx

/-- Writing a descriptor that is in no queue: it becomes the hole. -/
theorem sched_inv_set_open {N : Nat} {s : kernel} {hole : Option Nat} (h : sched_inv N s hole)
    (p : Nat) (v : proc) (hhole : hole = none ∨ hole = some p)
    (hout : ∀ k, k < NMLFQ → some p ∉ queue_entries N s k) :
    sched_inv N (set_proc s p v) (some p) := by
  refine sched_inv_proc h rfl rfl ?_ ?_ ?_
  · intro i k hk hm
    have hip : i ≠ p := fun e => hout k hk (e ▸ hm)
    rw [set_proc_proc_ne _ _ hip]
    exact ⟨rfl, rfl⟩
  · intro i _ _ hr hne
    have hip : i ≠ p := fun e => hne (by rw [e])
    rw [set_proc_proc_ne _ _ hip] at hr
    refine ⟨hr, ?_⟩
    rcases hhole with e | e
    · rw [e]; simp
    · rw [e]; exact hne
  · intro k hk x hx
    cases Option.some.inj hx
    exact hout k hk

/-- A hole that is not RUNNABLE, or is not a descriptor the invariant speaks
of, can be closed. -/
theorem sched_inv_close {N : Nat} {s : kernel} {p : Nat} (h : sched_inv N s (some p))
    (hp : (s.proc p).state ≠ RUNNABLE ∨ p = 0 ∨ N ≤ p) : sched_inv N s none := by
  refine ⟨h.idle, h.wf, h.entry, h.nodup, ?_, ?_⟩
  · intro i hi1 hi0 hr _
    apply h.queued i hi1 hi0 hr
    intro e
    cases Option.some.inj e
    rcases hp with hp | hp | hp
    · exact hp hr
    · exact hi0 hp
    · omega
  · intro k _ x hx
    simp at hx

/-- Writing fields other than state and priority. -/
theorem sched_inv_set_same {N : Nat} {s : kernel} {hole : Option Nat} (h : sched_inv N s hole)
    (p : Nat) (v : proc) (hs : v.state = (s.proc p).state)
    (hpr : v.priority = (s.proc p).priority) : sched_inv N (set_proc s p v) hole := by
  have hst : ∀ i, ((set_proc s p v).proc i).state = (s.proc i).state ∧
      ((set_proc s p v).proc i).priority = (s.proc i).priority := by
    intro i
    by_cases hip : i = p
    · subst hip
      simp [hs, hpr]
    · rw [set_proc_proc_ne _ _ hip]
      exact ⟨rfl, rfl⟩
  refine sched_inv_proc h rfl rfl (fun i _ _ _ => hst i) ?_ h.hole_out
  intro i _ _ hr hne
  rw [(hst i).1] at hr
  exact ⟨hr, hne⟩

/-- Writing the idle descriptor. -/
theorem sched_inv_set_idle {N : Nat} {s : kernel} {hole : Option Nat} (h : sched_inv N s hole)
    (v : proc) : sched_inv N (set_proc s 0 v) hole := by
  refine sched_inv_proc h rfl rfl ?_ ?_ h.hole_out
  · intro i k hk hm
    have hi0 : i ≠ 0 := fun e => not_queued_of_state h (Or.inr e) k hk hm
    rw [set_proc_proc_ne _ _ hi0]
    exact ⟨rfl, rfl⟩
  · intro i _ hi0 hr hne
    rw [set_proc_proc_ne _ _ hi0] at hr
    exact ⟨hr, hne⟩

/-- Writing any field of a descriptor that is not RUNNABLE before or after. -/
theorem sched_inv_set_idle_state {N : Nat} {s : kernel} (h : sched_inv N s none)
    (p : Nat) (v : proc) (hs : (s.proc p).state ≠ RUNNABLE ∨ p = 0)
    (hv : v.state ≠ RUNNABLE ∨ p = 0) : sched_inv N (set_proc s p v) none := by
  have h1 := sched_inv_set_open h p v (Or.inl rfl) (not_queued_of_state h hs)
  apply sched_inv_close h1
  rcases hv with hv | hv
  · left; simpa using hv
  · exact Or.inr (Or.inl hv)

/-- A queue of the invariant has room for one more descriptor as long as some
descriptor of the table, not the idle one, is in none. -/
theorem queue_room {N : Nat} {s : kernel} {hole : Option Nat} (h : sched_inv N s hole)
    (k : Nat) (hk : k < NMLFQ) : (s.mlfq_queues k).count < N := by
  have hN := sched_inv_pos h
  have hsub : queue_entries N s k ⊆ (List.range' 1 (N - 1)).map some := by
    intro x hx
    obtain ⟨i, rfl, h1, h2, _, _⟩ := h.entry k hk x hx
    rw [List.mem_map]
    exact ⟨i, by rw [List.mem_range']; exact ⟨i - 1, by omega, by omega⟩, rfl⟩
  have hlen := ((h.nodup k hk).subperm hsub).length_le
  simp only [queue_entries, entries_length, List.length_map, List.length_range'] at hlen
  omega



/-- Enqueueing the hole closes it. -/
theorem sched_inv_enqueue {N : Nat} {s : kernel} {p : Nat} (h : sched_inv N s (some p))
    (hp : p < N) (hp0 : p ≠ 0) (pr : Int) : sched_inv N (mlfq_enqueue N s pr p) none := by
  by_cases hr : (s.proc p).state = RUNNABLE
  · have hcl := clamp_priority_toNat_lt pr
    have hc := queue_room h _ hcl
    have hent : ∀ k, queue_entries N (mlfq_enqueue N s pr p) k =
        if k = (clamp_priority pr).toNat then queue_entries N s k ++ [some p]
        else queue_entries N s k := by
      intro k
      rw [mlfq_enqueue_entries N s pr p k (h.wf _ hcl)]
      by_cases hk : k = (clamp_priority pr).toNat
      · rw [if_pos ⟨hk, hr, hc⟩, if_pos hk]
      · rw [if_neg (fun e => hk e.1), if_neg hk]
    have hsub : ∀ k x, x ∈ queue_entries N s k → x ∈ queue_entries N (mlfq_enqueue N s pr p) k := by
      intro k x hx
      rw [hent]
      split_ifs
      · exact List.mem_append_left _ hx
      · exact hx
    have hpp : ((mlfq_enqueue N s pr p).proc p).priority = clamp_priority pr := by
      rw [mlfq_enqueue_done N s pr p hr hc]
      simp
    refine ⟨by simpa using h.idle, mlfq_enqueue_wf_queues N (sched_inv_pos h) s pr p h.wf,
      ?_, ?_, ?_, ?_⟩
    · intro k hk x hx
      rw [hent] at hx
      have hold : x ∈ queue_entries N s k →
          ∃ i, x = some i ∧ i < N ∧ i ≠ 0 ∧ ((mlfq_enqueue N s pr p).proc i).state = RUNNABLE ∧
            ((mlfq_enqueue N s pr p).proc i).priority = (k : Int) := by
        intro hx
        obtain ⟨i, rfl, h1, h2, h3, h4⟩ := h.entry k hk x hx
        have hip : i ≠ p := fun e => h.hole_out k hk p rfl (e ▸ hx)
        exact ⟨i, rfl, h1, h2, by rw [mlfq_enqueue_state]; exact h3,
          by rw [mlfq_enqueue_proc_ne N s pr hip]; exact h4⟩
      split_ifs at hx with hkc
      · rcases List.mem_append.mp hx with hx | hx
        · exact hold hx
        · refine ⟨p, by simpa using hx, hp, hp0, by rw [mlfq_enqueue_state]; exact hr, ?_⟩
          rw [hpp, hkc]
          have := (clamp_priority_range pr).1
          omega
      · exact hold hx
    · intro k hk
      rw [hent]
      split_ifs
      · rw [List.nodup_append]
        refine ⟨h.nodup k hk, List.nodup_singleton _, ?_⟩
        intro x hx hx2
        rw [List.mem_singleton] at hx2
        subst hx2
        exact h.hole_out k hk p rfl hx
      · exact h.nodup k hk
    · intro i hi1 hi0 hri _
      rw [mlfq_enqueue_state] at hri
      by_cases hip : i = p
      · subst hip
        refine ⟨_, hcl, ?_⟩
        rw [hent, if_pos rfl]
        simp
      · obtain ⟨k, hk, hm⟩ := h.queued i hi1 hi0 hri (by simpa using hip)
        exact ⟨k, hk, hsub k _ hm⟩
    · intro k _ x hx
      simp at hx
  · rw [mlfq_enqueue_not_runnable N s pr p hr]
    exact sched_inv_close h (Or.inl hr)

/-- Making a descriptor that is not RUNNABLE (and not idle) RUNNABLE and
enqueueing it keeps the invariant. -/
theorem sched_inv_wake {N : Nat} {s : kernel} (h : sched_inv N s none) (p : Nat) (hp : p < N)
    (hp0 : p ≠ 0) (hs : (s.proc p).state ≠ RUNNABLE) (v : proc) (pr : Int) :
    sched_inv N (mlfq_enqueue N (set_proc s p v) pr p) none :=
  sched_inv_enqueue
    (sched_inv_set_open h p v (Or.inl rfl) (not_queued_of_state h (Or.inl hs))) hp hp0 pr

/-- Removing a descriptor opens a hole for it. -/
theorem sched_inv_remove {N : Nat} {s : kernel} (h : sched_inv N s none) (p : Nat)
    (hp0 : p ≠ 0) : sched_inv N (mlfq_remove N s (some p)) (some p) := by
  have hidle : some p ≠ s.idleproc := by rw [h.idle]; simpa using hp0
  by_cases hq : ∃ k, k < NMLFQ ∧ some p ∈ queue_entries N s k
  · obtain ⟨k, hk, hm⟩ := hq
    obtain ⟨i, hi, _, _, _, hpr⟩ := h.entry k hk _ hm
    cases Option.some.inj hi
    have hk2 : (s.proc p).priority.toNat = k := by rw [hpr]; simp
    have h0 : 0 ≤ (s.proc p).priority := by rw [hpr]; omega
    have h1 : (s.proc p).priority < (NMLFQ : Int) := by rw [hpr]; exact_mod_cast hk
    have hent : ∀ j, queue_entries N (mlfq_remove N s (some p)) j =
        if j = k then (queue_entries N s j).erase (some p) else queue_entries N s j := by
      intro j
      by_cases hj : j = k
      · rw [if_pos hj, hj]
        have := mlfq_remove_entries N s p hidle h0 h1 (by rw [hk2]; exact h.wf k hk)
        rw [hk2] at this
        exact this
      · rw [if_neg hj, mlfq_remove_entries_ne N s p (by rw [hk2]; exact hj)]
    have hsub : ∀ j x, x ∈ queue_entries N (mlfq_remove N s (some p)) j →
        x ∈ queue_entries N s j := by
      intro j x hx
      rw [hent] at hx
      split_ifs at hx
      · exact List.mem_of_mem_erase hx
      · exact hx
    refine ⟨by simpa using h.idle, mlfq_remove_wf_queues N (sched_inv_pos h) s _ h.wf,
      ?_, ?_, ?_, ?_⟩
    · intro j hj x hx
      rw [mlfq_remove_proc]
      exact h.entry j hj x (hsub j x hx)
    · intro j hj
      rw [hent]
      split_ifs
      · exact (h.nodup j hj).erase _
      · exact h.nodup j hj
    · intro i hi1 hi0 hr hne
      rw [mlfq_remove_proc] at hr
      obtain ⟨j, hj, hmj⟩ := h.queued i hi1 hi0 hr (by simp)
      refine ⟨j, hj, ?_⟩
      rw [hent]
      split_ifs
      · exact (List.mem_erase_of_ne hne).mpr hmj
      · exact hmj
    · intro j hj x hx
      cases Option.some.inj hx
      rw [hent]
      split_ifs with hjk
      · rw [(h.nodup j hj).mem_erase_iff]
        simp
      · intro hmj
        obtain ⟨i, hi, _, _, _, hpr2⟩ := h.entry j hj _ hmj
        cases Option.some.inj hi
        rw [hpr] at hpr2
        exact hjk (by exact_mod_cast hpr2.symm)
  · have hs : mlfq_remove N s (some p) = s := by
      by_cases hrange : (s.proc p).priority < 0 ∨ (s.proc p).priority ≥ (NMLFQ : Int)
      · exact mlfq_remove_out_of_range N s p hrange
      · exact mlfq_remove_absent N s p (fun hm => hq ⟨_, by omega, hm⟩)
    rw [hs]
    refine ⟨h.idle, h.wf, h.entry, h.nodup, fun i hi1 hi0 hr _ => h.queued i hi1 hi0 hr (by simp),
      ?_⟩
    intro k hk x hx hm
    cases Option.some.inj hx
    exact hq ⟨k, hk, hm⟩



/-- A dequeue from a queue of the invariant returns null and changes nothing,
or returns a RUNNABLE descriptor and leaves a hole for it. -/
theorem sched_inv_dequeue {N : Nat} {s : kernel} (h : sched_inv N s none) (k : Nat)
    (hk : k < NMLFQ) :
    mlfq_dequeue N s k = (none, s) ∨
    ∃ i, (mlfq_dequeue N s k).1 = some i ∧ i < N ∧ i ≠ 0 ∧ (s.proc i).state = RUNNABLE ∧
      sched_inv N (mlfq_dequeue N s k).2 (some i) := by
  rcases mlfq_dequeue_entries N s k (h.wf k hk) with ⟨_, h2⟩ | h1
  · exact Or.inl h2
  · right
    have hx : (mlfq_dequeue N s k).1 ∈ queue_entries N s k := by
      rw [h1]; exact List.mem_cons_self _ _
    obtain ⟨i, hi, hi1, hi0, hr, hpr⟩ := h.entry k hk _ hx
    refine ⟨i, hi, hi1, hi0, hr, ?_⟩
    have hnd := h.nodup k hk
    rw [h1, hi] at hnd
    have hsub : ∀ j x, x ∈ queue_entries N (mlfq_dequeue N s k).2 j → x ∈ queue_entries N s j :=
      fun j x hx => (mlfq_dequeue_suffix N s k j (h.wf k hk)).subset hx
    refine ⟨by simpa using h.idle, mlfq_dequeue_wf_queues N (sched_inv_pos h) s k h.wf,
      ?_, ?_, ?_, ?_⟩
    · intro j hj x hx
      rw [mlfq_dequeue_proc]
      exact h.entry j hj x (hsub j x hx)
    · intro j hj
      exact ((mlfq_dequeue_suffix N s k j (h.wf k hk)).sublist).nodup (h.nodup j hj)
    · intro i2 hi21 hi20 hr2 hne
      rw [mlfq_dequeue_proc] at hr2
      obtain ⟨j, hj, hm⟩ := h.queued i2 hi21 hi20 hr2 (by simp)
      refine ⟨j, hj, ?_⟩
      by_cases hjk : j = k
      · subst hjk
        rw [h1, hi] at hm
        rcases List.mem_cons.mp hm with e | e
        · exact absurd e hne
        · exact e
      · rw [mlfq_dequeue_entries_ne N s k hjk]
        exact hm
    · intro j hj x hx hm
      cases Option.some.inj hx
      by_cases hjk : j = k
      · subst hjk
        exact (List.nodup_cons.mp hnd).1 hm
      · rw [mlfq_dequeue_entries_ne N s k hjk] at hm
        obtain ⟨i3, hi3, _, _, _, hpr3⟩ := h.entry j hj _ hm
        cases Option.some.inj hi3
        rw [hpr] at hpr3
        exact hjk (by exact_mod_cast hpr3.symm)

/-- The selection loop of `schedule()` on a state of the invariant finds
nothing and changes nothing, or returns a descriptor and leaves a hole for
it. -/
theorem sched_inv_pick {N : Nat} (l : List Nat) (hl : ∀ k ∈ l, k < NMLFQ) :
    ∀ s : kernel, sched_inv N s none →
      schedule_pick N l s = (none, s) ∨
      ∃ i, (schedule_pick N l s).1 = some i ∧ i < N ∧ i ≠ 0 ∧
        sched_inv N (schedule_pick N l s).2 (some i) := by
  induction l with
  | nil => intro s _; exact Or.inl rfl
  | cons k l ih =>
    intro s h
    rw [schedule_pick_cons]
    rcases sched_inv_dequeue h k (hl k (List.mem_cons_self _ _)) with h1 | ⟨i, h1, h2, h3, h4, h5⟩
    · rw [h1]
      simp only [entry_runnable, if_false]
      exact ih (fun x hx => hl x (List.mem_cons_of_mem _ hx)) s h
    · rw [h1]
      simp only [entry_runnable, h4, if_true]
      exact Or.inr ⟨i, h1, h2, h3, h5⟩

/-- The same for the selection loop of the zombie branch of `yield()`. -/
theorem sched_inv_yield_pick {N : Nat} (l : List Nat) (hl : ∀ k ∈ l, k < NMLFQ) :
    ∀ s : kernel, sched_inv N s none →
      yield_pick N l s = (none, s) ∨
      ∃ i, (yield_pick N l s).1 = some i ∧ i < N ∧ i ≠ 0 ∧ (s.proc i).state = RUNNABLE ∧
        sched_inv N (yield_pick N l s).2 (some i) := by
  induction l with
  | nil => intro s _; exact Or.inl rfl
  | cons k l ih =>
    intro s h
    rw [yield_pick]
    rcases sched_inv_dequeue h k (hl k (List.mem_cons_self _ _)) with h1 | ⟨i, h1, h2, h3, h4, h5⟩
    · rw [h1]
      exact ih (fun x hx => hl x (List.mem_cons_of_mem _ hx)) s h
    · rcases hr : mlfq_dequeue N s k with ⟨next, s1⟩
      rw [hr] at h1 h5
      simp only at h1 h5
      subst h1
      exact Or.inr ⟨i, rfl, h2, h3, h4, h5⟩

/-- Switching to what a selection loop returned re-establishes the invariant
of the reachable states. -/
theorem kernel_inv_switch {N : Nat} {t : kernel} {next : Option Nat}
    (h : (next = none ∧ sched_inv N t none) ∨
         ∃ i, next = some i ∧ i < N ∧ i ≠ 0 ∧ sched_inv N t (some i)) :
    kernel_inv N (schedule_switch t next) := by
  rcases h with ⟨rfl, ht⟩ | ⟨i, rfl, hi1, hi0, ht⟩
  · rw [schedule_switch_none t 0 ht.idle]
    constructor
    · exact sched_inv_congr (sched_inv_set_idle ht { t.proc 0 with state := RUNNING })
        rfl rfl rfl
    · intro c hc
      cases Option.some.inj hc
      exact ⟨sched_inv_pos ht, fun e => absurd rfl e⟩
  · rw [schedule_switch_some]
    constructor
    · have h1 := sched_inv_set_open ht i { t.proc i with state := RUNNING } (Or.inr rfl)
        (fun k hk => ht.hole_out k hk i rfl)
      have h2 := sched_inv_close h1 (Or.inl (by simp))
      exact sched_inv_congr h2 rfl rfl rfl
    · intro c hc
      cases Option.some.inj hc
      exact ⟨hi1, fun _ => by simp [set_state, set_proc]⟩

/-- The first part of `schedule()` keeps the scheduling invariant. -/
theorem sched_inv_requeue {N : Nat} {s : kernel} (h : sched_inv N s none)
    (hc : ∀ c, s.cpu_proc = some c → c < N) : sched_inv N (schedule_requeue N s) none := by
  by_cases hrun : ∃ p, s.cpu_proc = some p ∧ (s.proc p).state = RUNNING ∧ some p ≠ s.idleproc
  · obtain ⟨p, hp, hr, hi⟩ := hrun
    rw [schedule_requeue_run N s p hp hr hi]
    have hp0 : p ≠ 0 := by
      intro e
      rw [h.idle, e] at hi
      exact hi rfl
    exact sched_inv_wake h p (hc p hp) hp0 (by rw [hr]; decide) _ _
  · rw [schedule_requeue_skip N s]
    · exact h
    · intro p hp
      by_contra hcon
      push_neg at hcon
      exact hrun ⟨p, hp, hcon.1, hcon.2⟩

/-- The function `schedule()` re-establishes the invariant of the reachable
states from the scheduling invariant, whatever the state of the caller. -/
theorem kernel_inv_schedule {N : Nat} {s : kernel} (h : sched_inv N s none)
    (hc : ∀ c, s.cpu_proc = some c → c < N) : kernel_inv N (schedule N s) := by
  unfold schedule
  simp only
  apply kernel_inv_switch
  rcases sched_inv_pick (List.range NMLFQ) (fun k hk => List.mem_range.mp hk) _
    (sched_inv_requeue h hc) with h1 | ⟨i, h1, h2, h3, h4⟩
  · rw [h1]
    exact Or.inl ⟨rfl, sched_inv_requeue h hc⟩
  · exact Or.inr ⟨i, h1, h2, h3, h4⟩

theorem kernel_inv_yield {N : Nat} {s : kernel} (h : kernel_inv N s) :
    kernel_inv N (yield N s) := by
  unfold yield
  split
  · exact h
  · split_ifs
    · simp only
      apply kernel_inv_switch
      rcases sched_inv_yield_pick (List.range NMLFQ) (fun k hk => List.mem_range.mp hk) s h.1
        with h1 | ⟨i, h1, h2, h3, _, h4⟩
      · rw [h1]
        exact Or.inl ⟨rfl, h.1⟩
      · exact Or.inr ⟨i, h1, h2, h3, h4⟩
    · exact kernel_inv_schedule h.1 (fun c hc => (h.2 c hc).1)



/-! ### The lifecycle hooks keep the invariant -/

theorem foldl_preserves {α β : Type} (P : α → Prop) (f : α → β → α) (l : List β)
    (hstep : ∀ a x, x ∈ l → P a → P (f a x)) : ∀ a, P a → P (l.foldl f a) := by
  induction l with
  | nil => intro a h; exact h
  | cons x l ih =>
    intro a h
    exact ih (fun a y hy => hstep a y (List.mem_cons_of_mem _ hy)) _
      (hstep a x (List.mem_cons_self _ _) h)

/-- The current process keeps satisfying `cur_ok` when it stays the same and,
unless idle, keeps its state. -/
theorem cur_ok_of {N : Nat} {s t : kernel} (h : cur_ok N s) (hc : t.cpu_proc = s.cpu_proc)
    (hst : ∀ c, s.cpu_proc = some c → c ≠ 0 → (t.proc c).state = (s.proc c).state) :
    cur_ok N t := by
  intro c hcc
  rw [hc] at hcc
  refine ⟨(h c hcc).1, fun h0 => ?_⟩
  rw [hst c hcc h0]
  exact (h c hcc).2 h0

theorem kernel_inv_congr {N : Nat} {s t : kernel} (h : kernel_inv N s) (hp : t.proc = s.proc)
    (hq : t.mlfq_queues = s.mlfq_queues) (hi : t.idleproc = s.idleproc)
    (hc : t.cpu_proc = s.cpu_proc) : kernel_inv N t :=
  ⟨sched_inv_congr h.1 hp hq hi, cur_ok_of h.2 hc (fun c _ _ => by rw [hp])⟩

/-- Writing fields other than state and priority keeps the invariant. -/
theorem kernel_inv_set_same {N : Nat} {s : kernel} (h : kernel_inv N s) (p : Nat) (v : proc)
    (hs : v.state = (s.proc p).state) (hpr : v.priority = (s.proc p).priority) :
    kernel_inv N (set_proc s p v) := by
  refine ⟨sched_inv_set_same h.1 p v hs hpr, cur_ok_of h.2 rfl ?_⟩
  intro c _ _
  by_cases hcp : c = p
  · subst hcp; simp [hs]
  · rw [set_proc_proc_ne _ _ hcp]

/-- Writing a descriptor that is neither RUNNABLE nor RUNNING, without making
it RUNNABLE, keeps the invariant. -/
theorem kernel_inv_set_idle_state {N : Nat} {s : kernel} (h : kernel_inv N s) (p : Nat)
    (v : proc) (hs : (s.proc p).state ≠ RUNNABLE) (hs2 : (s.proc p).state ≠ RUNNING)
    (hv : v.state ≠ RUNNABLE) : kernel_inv N (set_proc s p v) := by
  refine ⟨sched_inv_set_idle_state h.1 p v (Or.inl hs) (Or.inl hv), cur_ok_of h.2 rfl ?_⟩
  intro c hc h0
  have hcp : c ≠ p := by
    intro e
    subst e
    exact hs2 ((h.2 c hc).2 h0)
  rw [set_proc_proc_ne _ _ hcp]

/-- Waking a descriptor that is not RUNNABLE, not RUNNING and not idle keeps
the invariant. -/
theorem kernel_inv_wake {N : Nat} {s : kernel} (h : kernel_inv N s) (p : Nat) (hp : p < N)
    (hp0 : p ≠ 0) (hs : (s.proc p).state ≠ RUNNABLE) (hs2 : (s.proc p).state ≠ RUNNING)
    (v : proc) (pr : Int) : kernel_inv N (mlfq_enqueue N (set_proc s p v) pr p) := by
  refine ⟨sched_inv_wake h.1 p hp hp0 hs v pr, cur_ok_of h.2 (by simp) ?_⟩
  intro c hc h0
  have hcp : c ≠ p := by
    intro e
    subst e
    exact hs2 ((h.2 c hc).2 h0)
  rw [mlfq_enqueue_state, set_proc_proc_ne _ _ hcp]

theorem kernel_inv_wakeup_step {N : Nat} {s : kernel} (h : kernel_inv N s) (chan : Chan)
    (p : Nat) (hp : p < N) : kernel_inv N (wakeup_step N chan s p) := by
  by_cases hw : wakes s chan p
  · rw [wakeup_step_wake N chan s p hw]
    have hp0 : p ≠ 0 := by
      intro e
      have := hw.2.1
      rw [h.1.idle, e] at this
      exact this rfl
    exact kernel_inv_wake h p hp hp0 (by rw [hw.2.2.1]; decide) (by rw [hw.2.2.1]; decide) _ _
  · rw [wakeup_step_skip N chan s p hw]
    exact h

theorem kernel_inv_wakeup {N : Nat} {s : kernel} (h : kernel_inv N s) (chan : Chan) :
    kernel_inv N (wakeup N s chan) :=
  foldl_preserves (kernel_inv N) (wakeup_step N chan) (List.range N)
    (fun _ x hx ha => kernel_inv_wakeup_step ha chan x (List.mem_range.mp hx)) s h

@[simp] theorem wakeup_cpu_proc (N : Nat) (s : kernel) (chan : Chan) :
    (wakeup N s chan).cpu_proc = s.cpu_proc :=
  foldl_preserves (fun b => b.cpu_proc = s.cpu_proc) (wakeup_step N chan) (List.range N)
    (fun b x _ hb => by simpa using hb) s rfl

/-- The body of the loop of `reparent(p)` for the slot `pp`. -/
theorem reparent_eq (N : Nat) (s : kernel) (p : Nat) :
    reparent N s p = (List.range N).foldl
      (fun s pp =>
        if (s.proc pp).parent = some p then
          wakeup N (set_proc s pp { s.proc pp with parent := s.initproc }) (Chan.ofPtr s.initproc)
        else s) s := rfl

@[simp] theorem reparent_cpu_proc (N : Nat) (s : kernel) (p : Nat) :
    (reparent N s p).cpu_proc = s.cpu_proc := by
  rw [reparent_eq]
  refine foldl_preserves (fun b => b.cpu_proc = s.cpu_proc) _ (List.range N) ?_ s rfl
  intro a pp _ ha
  simp only
  split_ifs
  · simpa using ha
  · exact ha

theorem kernel_inv_reparent {N : Nat} {s : kernel} (h : kernel_inv N s) (p : Nat) :
    kernel_inv N (reparent N s p) := by
  rw [reparent_eq]
  refine foldl_preserves (kernel_inv N) _ (List.range N) ?_ s h
  intro a pp _ ha
  simp only
  split_ifs
  · exact kernel_inv_wakeup
      (kernel_inv_set_same ha pp { a.proc pp with parent := a.initproc } rfl rfl) _
  · exact ha

theorem kernel_inv_kill {N : Nat} {s : kernel} (h : kernel_inv N s) (pid : Int) :
    kernel_inv N (kill N s pid).2 := by
  cases hf : (List.range N).find? (fun p => some p != s.idleproc && (s.proc p).pid == pid) with
  | none => rw [kill_not_found N s pid hf]; exact h
  | some p =>
    rw [kill_found N s pid p hf]
    rw [List.find?_range_eq_some] at hf
    obtain ⟨hcond, hmem, _⟩ := hf
    have hp : p < N := List.mem_range.mp hmem
    have hp0 : p ≠ 0 := by
      intro e
      rw [h.1.idle, e] at hcond
      simp at hcond
    have h1 : kernel_inv N (set_proc s p { s.proc p with killed := 1 }) :=
      kernel_inv_set_same h p _ rfl rfl
    split_ifs with hs
    · simp only
      exact kernel_inv_wake h1 p hp hp0 (by simp [hs]) (by simp [hs]) _ _
    · exact h1

theorem kernel_inv_sleep {N : Nat} {s : kernel} (h : kernel_inv N s) (chan : Chan) :
    kernel_inv N (sleep N s chan) := by
  unfold sleep
  split
  · exact h
  · rename_i p hp
    apply kernel_inv_schedule
    · apply sched_inv_set_idle_state h.1 p _ _ (Or.inl (by simp))
      by_cases hp0 : p = 0
      · exact Or.inr hp0
      · left
        rw [(h.2 p hp).2 hp0]
        decide
    · intro c hc
      exact (h.2 c hc).1

theorem kernel_inv_sleep_resume {N : Nat} {s : kernel} (h : kernel_inv N s) :
    kernel_inv N (sleep_resume s) := by
  unfold sleep_resume
  split
  · exact h
  · exact kernel_inv_set_same h _ _ rfl rfl

/-- The current process is in no queue, so `mlfq_remove` of it does
nothing. -/
theorem mlfq_remove_cur {N : Nat} {s : kernel} (h : kernel_inv N s) (p : Nat)
    (hp : s.cpu_proc = some p) : mlfq_remove N s (some p) = s := by
  by_cases hp0 : p = 0
  · exact mlfq_remove_idle N s p (by rw [h.1.idle, hp0])
  · have hrun := (h.2 p hp).2 hp0
    by_cases hrange : (s.proc p).priority < 0 ∨ (s.proc p).priority ≥ (NMLFQ : Int)
    · exact mlfq_remove_out_of_range N s p hrange
    · exact mlfq_remove_absent N s p
        (not_queued_of_state h.1 (Or.inl (by rw [hrun]; decide)) _ (by omega))

theorem kernel_inv_exit {N : Nat} {s t : kernel} (h : kernel_inv N s) (status : Int)
    (he : exit N s status = some t) : kernel_inv N t := by
  unfold exit at he
  split at he
  · simp at he
  · rename_i p hp
    rw [mlfq_remove_cur h p hp] at he
    simp only at he
    split_ifs at he
    cases Option.some.inj he
    have h2 := kernel_inv_reparent h p
    have h3 := kernel_inv_wakeup h2 (Chan.ofPtr ((reparent N s p).proc p).parent)
    have hcpu3 : (wakeup N (reparent N s p)
        (Chan.ofPtr ((reparent N s p).proc p).parent)).cpu_proc = s.cpu_proc := by
      simp
    apply kernel_inv_schedule
    · apply sched_inv_set_idle_state h3.1 p _ _ (Or.inl (by simp))
      by_cases hp0 : p = 0
      · exact Or.inr hp0
      · left
        rw [(h3.2 p (by rw [hcpu3]; exact hp)).2 hp0]
        decide
    · intro c hc
      simp only [set_proc_cpu_proc] at hc
      exact (h3.2 c hc).1



theorem kernel_inv_freeproc {N : Nat} {s : kernel} (h : kernel_inv N s) (p : Nat)
    (hs : (s.proc p).state ≠ RUNNABLE) (hs2 : (s.proc p).state ≠ RUNNING) :
    kernel_inv N (freeproc s p) := by
  unfold freeproc
  exact kernel_inv_set_idle_state h p _ hs hs2 (by simp)

theorem kernel_inv_wait {N : Nat} {s : kernel} (h : kernel_inv N s) (addr : Nat)
    (copyout_ok : Bool) : kernel_inv N (wait N s addr copyout_ok).k := by
  unfold wait
  split
  · exact h
  · rename_i p hp
    split
    · rename_i pp hpp
      by_cases hfail : addr ≠ 0 ∧ copyout_ok = false
      · rw [if_pos hfail]
        exact h
      · rw [if_neg hfail]
        simp only
        rw [List.find?_range_eq_some] at hpp
        have hz : (s.proc pp).state = ZOMBIE := by
          have := hpp.1
          simp only [Bool.and_eq_true, beq_iff_eq] at this
          exact this.2
        exact kernel_inv_freeproc h pp (by rw [hz]; decide) (by rw [hz]; decide)
    · simp only
      split_ifs
      · exact h
      · exact kernel_inv_sleep h _

/-- The function `allocproc()` keeps the invariant and the current process;
the slot it returns is a slot of the table, not the idle one, in state
USED. -/
theorem kernel_inv_allocproc {N : Nat} {s : kernel} (h : kernel_inv N s)
    (kalloc : Option trapframe) (pagetable_ok : Bool) :
    kernel_inv N (allocproc N s kalloc pagetable_ok).2 ∧
    (allocproc N s kalloc pagetable_ok).2.cpu_proc = s.cpu_proc ∧
    ∀ np, (allocproc N s kalloc pagetable_ok).1 = some np →
      np < N ∧ np ≠ 0 ∧ ((allocproc N s kalloc pagetable_ok).2.proc np).state = USED := by
  unfold allocproc
  split
  · exact ⟨h, rfl, fun np hnp => by simp at hnp⟩
  · rename_i p hp
    rw [List.find?_range_eq_some] at hp
    obtain ⟨hcond, hmem, _⟩ := hp
    simp only [Bool.and_eq_true, bne_iff_ne, ne_eq, beq_iff_eq] at hcond
    have hpN : p < N := List.mem_range.mp hmem
    have hp0 : p ≠ 0 := by
      intro e
      apply hcond.1
      rw [h.1.idle, e]
    have hr : kernel_inv N (allocpid s).2 := kernel_inv_congr h rfl rfl rfl rfl
    have hst : ((allocpid s).2.proc p).state = UNUSED := hcond.2
    have h1 : kernel_inv N
        (set_proc (allocpid s).2 p
          { (allocpid s).2.proc p with pid := (allocpid s).1, state := USED }) :=
      kernel_inv_set_idle_state hr p _ (by rw [hst]; decide) (by rw [hst]; decide) (by simp)
    have h2 := kernel_inv_set_same h1 p
      { (set_proc (allocpid s).2 p
          { (allocpid s).2.proc p with pid := (allocpid s).1, state := USED }).proc p with
        trapframe := kalloc } rfl rfl
    simp only
    split_ifs with hk hpt
    · refine ⟨kernel_inv_freeproc h2 p (by simp) (by simp), rfl, fun np hnp => by simp at hnp⟩
    · have h3 := kernel_inv_set_same h2 p
        { (set_proc (set_proc (allocpid s).2 p
            { (allocpid s).2.proc p with pid := (allocpid s).1, state := USED }) p
            { (set_proc (allocpid s).2 p
                { (allocpid s).2.proc p with pid := (allocpid s).1, state := USED }).proc p with
              trapframe := kalloc }).proc p with pagetable := pagetable_ok } rfl rfl
      refine ⟨kernel_inv_freeproc h3 p (by simp) (by simp), rfl, fun np hnp => by simp at hnp⟩
    · have h3 := kernel_inv_set_same h2 p
        { (set_proc (set_proc (allocpid s).2 p
            { (allocpid s).2.proc p with pid := (allocpid s).1, state := USED }) p
            { (set_proc (allocpid s).2 p
                { (allocpid s).2.proc p with pid := (allocpid s).1, state := USED }).proc p with
              trapframe := kalloc }).proc p with pagetable := pagetable_ok } rfl rfl
      refine ⟨kernel_inv_set_idle_state h3 p _ (by simp) (by simp) (by simp), rfl, ?_⟩
      intro np hnp
      cases Option.some.inj hnp
      exact ⟨hpN, hp0, by simp⟩

theorem kernel_inv_fork {N : Nat} {s : kernel} (h : kernel_inv N s)
    (kalloc : Option trapframe) (pagetable_ok uvmcopy_ok : Bool) :
    kernel_inv N (fork N s kalloc pagetable_ok uvmcopy_ok).2 := by
  obtain ⟨h1, _, h3⟩ := kernel_inv_allocproc h kalloc pagetable_ok
  unfold fork
  rcases ha : allocproc N s kalloc pagetable_ok with ⟨r, s1⟩
  rw [ha] at h1 h3
  simp only at h1 h3
  cases r with
  | none => exact h1
  | some np =>
    obtain ⟨hnp, hnp0, hst⟩ := h3 np rfl
    simp only
    split
    · exact h1
    · rename_i p hp
      split_ifs
      · exact kernel_inv_freeproc h1 np (by rw [hst]; decide) (by rw [hst]; decide)
      · simp only
        have h4 := kernel_inv_set_idle_state h1 np
          { s1.proc np with trapframe := some { a0 := 0 },
                            name := (s1.proc p).name,
                            priority := (s1.proc p).priority,
                            ticks_in_queue := 0,
                            entry_time := s1.ticks }
          (by rw [hst]; decide) (by rw [hst]; decide) (by simp [hst])
        have h5 := kernel_inv_set_same h4 np
          { (set_proc s1 np
              { s1.proc np with trapframe := some { a0 := 0 },
                                name := (s1.proc p).name,
                                priority := (s1.proc p).priority,
                                ticks_in_queue := 0,
                                entry_time := s1.ticks }).proc np with parent := some p }
          rfl rfl
        exact kernel_inv_wake h5 np hnp hnp0 (by simp [hst]) (by simp [hst]) _ _

theorem kernel_inv_userinit {N : Nat} {s : kernel} (h : kernel_inv N s)
    (kalloc : Option trapframe) (pagetable_ok : Bool) :
    kernel_inv N (userinit N s kalloc pagetable_ok) := by
  obtain ⟨h1, _, h3⟩ := kernel_inv_allocproc h kalloc pagetable_ok
  unfold userinit
  rcases ha : allocproc N s kalloc pagetable_ok with ⟨r, s1⟩
  rw [ha] at h1 h3
  simp only at h1 h3
  cases r with
  | none => exact kernel_inv_congr h1 rfl rfl rfl rfl
  | some p =>
    obtain ⟨hp, hp0, hst⟩ := h3 p rfl
    simp only
    have h2 : kernel_inv N { s1 with initproc := some p } := kernel_inv_congr h1 rfl rfl rfl rfl
    have h4 := kernel_inv_set_same h2 p
      { ({ s1 with initproc := some p } : kernel).proc p with name := "initcode" } rfl rfl
    exact kernel_inv_wake h4 p hp hp0 (by simp [hst]) (by simp [hst]) _ _



/-- What `age_boost` collects from a queue are entries of that queue. -/
theorem age_boost_collect_mem (N : Nat) (s : kernel) (prio : Nat) :
    ∀ p ∈ age_boost_collect N s prio, some p ∈ queue_entries N s prio := by
  unfold age_boost_collect
  simp only
  refine foldl_preserves (fun acc : List Nat => ∀ p ∈ acc, some p ∈ queue_entries N s prio) _
    (List.range (s.mlfq_queues prio).count) ?_ [] (by simp)
  intro acc i hi hacc
  split_ifs
  · split
    · rename_i p hp
      split_ifs
      · intro q hq
        rcases List.mem_append.mp hq with hq | hq
        · exact hacc q hq
        · rw [List.mem_singleton] at hq
          subst hq
          exact mem_entries.mpr ⟨i, List.mem_range.mp hi, hp⟩
      · exact hacc
    · exact hacc
  · exact hacc

theorem kernel_inv_move {N : Nat} {s : kernel} (h : kernel_inv N s) (p : Nat) (hp : p < N)
    (hp0 : p ≠ 0) (pr : Int) :
    kernel_inv N (mlfq_enqueue N (mlfq_remove N s (some p)) pr p) :=
  ⟨sched_inv_enqueue (sched_inv_remove h.1 p hp0) hp hp0 pr,
   cur_ok_of h.2 (by simp) (fun c _ _ => by simp)⟩

theorem kernel_inv_age_boost_level {N : Nat} {s : kernel} (h : kernel_inv N s) (prio : Nat)
    (hprio : prio < NMLFQ) : kernel_inv N (age_boost_level N s prio) := by
  unfold age_boost_level
  refine foldl_preserves (kernel_inv N) _ (age_boost_collect N s prio) ?_ s h
  intro a p hp ha
  obtain ⟨i, hi, hi1, hi0, _, _⟩ := h.1.entry prio hprio _ (age_boost_collect_mem N s prio p hp)
  cases Option.some.inj hi
  exact kernel_inv_move ha p hi1 hi0 _

theorem kernel_inv_age_boost {N : Nat} {s : kernel} (h : kernel_inv N s) :
    kernel_inv N (age_boost N s) := by
  unfold age_boost
  refine foldl_preserves (kernel_inv N) _ _ ?_ s h
  intro a prio hprio ha
  refine kernel_inv_age_boost_level ha prio ?_
  simp only [List.mem_map, List.mem_reverse, List.mem_range] at hprio
  obtain ⟨j, hj, rfl⟩ := hprio
  simp only [NMLFQ_eq] at hj ⊢
  omega

theorem kernel_inv_scheduler_entry {N : Nat} {s : kernel} (h : kernel_inv N s) :
    kernel_inv N (scheduler_entry s) := by
  refine ⟨sched_inv_congr h.1 rfl rfl rfl, ?_⟩
  intro c hc
  have : some c = some 0 := by
    rw [← h.1.idle]
    exact hc.symm
  cases Option.some.inj this
  exact ⟨sched_inv_pos h.1, fun e => absurd rfl e⟩

theorem kernel_inv_scheduler_loop {N : Nat} {s : kernel} (h : kernel_inv N s) :
    kernel_inv N (scheduler_loop s) := by
  unfold scheduler_loop
  rw [h.1.idle]
  simp only
  split_ifs
  · refine ⟨sched_inv_set_idle h.1 _, cur_ok_of h.2 rfl ?_⟩
    intro c _ hc0
    show ((set_state s 0 RUNNABLE).proc c).state = _
    rw [set_state_proc_ne _ _ hc0]
  · exact h

theorem kernel_inv_clock_tick {N : Nat} {s : kernel} (h : kernel_inv N s) :
    kernel_inv N (clock_tick s) :=
  kernel_inv_congr h rfl rfl rfl rfl

/-! ### Boot -/

theorem range_NMLFQ : List.range NMLFQ = [0, 1, 2, 3, 4] := by decide

theorem mlfq_init_queues (s : kernel) (k : Nat) (hk : k < NMLFQ) :
    (mlfq_init s).mlfq_queues k = { s.mlfq_queues k with front := 0, rear := 0, count := 0 } := by
  unfold mlfq_init
  rw [range_NMLFQ]
  simp only [List.foldl]
  rw [NMLFQ_eq] at hk
  interval_cases k <;> simp [setAt]

@[simp] theorem mlfq_init_proc (s : kernel) : (mlfq_init s).proc = s.proc := by
  unfold mlfq_init
  rw [range_NMLFQ]
  rfl

@[simp] theorem mlfq_init_idleproc (s : kernel) : (mlfq_init s).idleproc = s.idleproc := by
  unfold mlfq_init
  rw [range_NMLFQ]
  rfl

@[simp] theorem mlfq_init_cpu_proc (s : kernel) : (mlfq_init s).cpu_proc = s.cpu_proc := by
  unfold mlfq_init
  rw [range_NMLFQ]
  rfl

theorem procinit_eq (N : Nat) (s : kernel) :
    procinit N s =
      mlfq_init
        (mlfq_enqueue N
          (set_proc { procinit_reset N s with idleproc := some 0 } 0
            { (procinit_reset N s).proc 0 with
              state := RUNNABLE, pid := 0, priority := (NMLFQ : Int) - 1, name := "idle" })
          ((NMLFQ : Int) - 1) 0) := by
  unfold procinit
  simp

theorem procinit_reset_state (N : Nat) (j : Nat) :
    ((procinit_reset N kernel_zero).proc j).state = UNUSED := by
  unfold procinit_reset
  refine foldl_preserves (fun a : kernel => (a.proc j).state = UNUSED) _ (List.range N) ?_
    kernel_zero rfl
  intro a p _ ha
  simp only
  by_cases hjp : j = p
  · subst hjp; simp
  · rw [set_proc_proc_ne _ _ hjp]; exact ha

theorem procinit_reset_cpu_proc (N : Nat) :
    (procinit_reset N kernel_zero).cpu_proc = none := by
  unfold procinit_reset
  refine foldl_preserves (fun a : kernel => a.cpu_proc = none) _ (List.range N) ?_
    kernel_zero rfl
  intro a p _ ha
  simpa using ha

theorem kernel_inv_procinit {N : Nat} (hN : 0 < N) : kernel_inv N (procinit N kernel_zero) := by
  have hq : ∀ k, k < NMLFQ →
      (procinit N kernel_zero).mlfq_queues k =
        { (mlfq_enqueue N
          (set_proc { procinit_reset N kernel_zero with idleproc := some 0 } 0
            { (procinit_reset N kernel_zero).proc 0 with
              state := RUNNABLE, pid := 0, priority := (NMLFQ : Int) - 1, name := "idle" })
          ((NMLFQ : Int) - 1) 0).mlfq_queues k with front := 0, rear := 0, count := 0 } := by
    intro k hk
    rw [procinit_eq, mlfq_init_queues _ k hk]
  have hent : ∀ k, k < NMLFQ → queue_entries N (procinit N kernel_zero) k = [] := by
    intro k hk
    apply entries_eq_nil.mpr
    rw [hq k hk]
  refine ⟨⟨?_, ?_, ?_, ?_, ?_, ?_⟩, ?_⟩
  · rw [procinit_eq]; simp
  · intro k hk
    rw [hq k hk]
    exact ⟨hN, hN, Nat.zero_le _, by simp⟩
  · intro k hk x hx
    rw [hent k hk] at hx
    simp at hx
  · intro k hk
    rw [hent k hk]
    exact List.nodup_nil
  · intro i _ hi0 hr _
    rw [procinit_eq, mlfq_init_proc, mlfq_enqueue_state, set_proc_proc_ne _ _ hi0] at hr
    have := procinit_reset_state N i
    rw [show ({ procinit_reset N kernel_zero with idleproc := some 0 } : kernel).proc i =
      (procinit_reset N kernel_zero).proc i from rfl] at hr
    rw [this] at hr
    exact absurd hr (by decide)
  · intro k _ x hx
    simp at hx
  · intro c hc
    rw [procinit_eq, mlfq_init_cpu_proc, mlfq_enqueue_cpu_proc, set_proc_cpu_proc] at hc
    rw [show ({ procinit_reset N kernel_zero with idleproc := some 0 } : kernel).cpu_proc =
      (procinit_reset N kernel_zero).cpu_proc from rfl, procinit_reset_cpu_proc] at hc
    simp at hc

theorem kernel_inv_boot {N : Nat} (hN : 0 < N) (tf : trapframe) : kernel_inv N (boot N tf) :=
  kernel_inv_userinit (kernel_inv_procinit hN) _ _

/-- An entry of a list without repetitions occurs once. -/
theorem count_eq_one_of_nodup {α : Type} [BEq α] [LawfulBEq α] (a : α) :
    ∀ (l : List α), l.Nodup → a ∈ l → l.count a = 1 := by
  intro l
  induction l with
  | nil => intro _ h; simp at h
  | cons b l ih =>
    intro hnd hm
    rw [List.nodup_cons] at hnd
    rw [List.count_cons]
    by_cases hab : b = a
    · subst hab
      rw [List.count_eq_zero_of_not_mem hnd.1]
      simp
    · have hm2 : a ∈ l := by
        rcases List.mem_cons.mp hm with e | e
        · exact absurd e.symm hab
        · exact e
      rw [ih hnd.2 hm2]
      simp [hab]

theorem kernel_inv_step {N : Nat} {s t : kernel} (h : kernel_inv N s) (hst : Step N s t) :
    kernel_inv N t := by
  cases hst with
  | scheduler_entry _ => exact kernel_inv_scheduler_entry h
  | scheduler_loop _ => exact kernel_inv_scheduler_loop h
  | clock_tick => exact kernel_inv_clock_tick h
  | fork kalloc pt uv _ => exact kernel_inv_fork h kalloc pt uv
  | sleep chan _ => exact kernel_inv_sleep h chan
  | sleep_resume _ => exact kernel_inv_sleep_resume h
  | wakeup chan => exact kernel_inv_wakeup h chan
  | kill pid => exact kernel_inv_kill h pid
  | exit _ status he => exact kernel_inv_exit h status he
  | wait addr ok _ => exact kernel_inv_wait h addr ok
  | yield _ => exact kernel_inv_yield h
  | schedule => exact kernel_inv_schedule h.1 (fun c hc => (h.2 c hc).1)
  | age_boost => exact kernel_inv_age_boost h

/-- Every state reachable from boot satisfies the invariant. -/
theorem kernel_inv_reachable {N : Nat} (hN : 0 < N) {s : kernel} (h : Reachable N s) :
    kernel_inv N s := by
  induction h with
  | boot tf => exact kernel_inv_boot hN tf
  | step s t _ hst ih => exact kernel_inv_step ih hst



/-! ### What the invariant gives in every reachable state

The preconditions under which the queue operations are described below (rings
well-formed, queued descriptors RUNNABLE, room in the queue) hold in every
state reachable from boot. -/

theorem reachable_wf_queues {N : Nat} (hN : 0 < N) {s : kernel} (h : Reachable N s) :
    wf_queues N s :=
  (kernel_inv_reachable hN h).1.wf

theorem reachable_queued_runnable {N : Nat} (hN : 0 < N) {s : kernel} (h : Reachable N s) :
    queued_runnable N s := by
  intro k hk x hx
  obtain ⟨i, rfl, _, _, hr, _⟩ := (kernel_inv_reachable hN h).1.entry k hk x hx
  exact hr

/-- In a reachable state queue 0 has room for all the sleepers that a
`wakeup` is to wake. -/
theorem reachable_wakeup_room {N : Nat} (hN : 0 < N) {s : kernel} (h : Reachable N s)
    (chan : Chan) : (s.mlfq_queues 0).count + (wakeup_targets N s chan).length ≤ N := by
  have hinv := (kernel_inv_reachable hN h).1
  have hk : (0 : Nat) < NMLFQ := by decide
  have hnd : (queue_entries N s 0 ++ (wakeup_targets N s chan).map some).Nodup := by
    rw [List.nodup_append]
    refine ⟨hinv.nodup 0 hk, ?_, ?_⟩
    · exact ((List.nodup_range N).filter _).map (Option.some_injective _)
    · intro x hx hx2
      obtain ⟨i, rfl, _, _, hr, _⟩ := hinv.entry 0 hk x hx
      rw [List.mem_map] at hx2
      obtain ⟨j, hj, hji⟩ := hx2
      cases Option.some.inj hji
      simp only [wakeup_targets, List.mem_filter, decide_eq_true_eq] at hj
      rw [hj.2.2.2.1] at hr
      exact absurd hr (by decide)
  have hsub : queue_entries N s 0 ++ (wakeup_targets N s chan).map some ⊆
      (List.range' 1 (N - 1)).map some := by
    intro x hx
    rw [List.mem_map]
    rcases List.mem_append.mp hx with hx | hx
    · obtain ⟨i, rfl, h1, h2, _, _⟩ := hinv.entry 0 hk x hx
      exact ⟨i, by rw [List.mem_range']; exact ⟨i - 1, by omega, by omega⟩, rfl⟩
    · rw [List.mem_map] at hx
      obtain ⟨j, hj, rfl⟩ := hx
      simp only [wakeup_targets, List.mem_filter, decide_eq_true_eq, List.mem_range] at hj
      have hj0 : j ≠ 0 := by
        intro e
        have := hj.2.2.1
        rw [hinv.idle, e] at this
        exact this rfl
      exact ⟨j, by rw [List.mem_range']; exact ⟨j - 1, by omega, by omega⟩, rfl⟩
  have hlen := (hnd.subperm hsub).length_le
  simp only [List.length_append, queue_entries, entries_length, List.length_map,
    List.length_range'] at hlen
  omega



/-! ## The invariant of the process table -/

theorem table_inv_congr {N : Nat} {s t : kernel} (h : table_inv N s) (hp : t.proc = s.proc)
    (hn : t.nextpid = s.nextpid) : table_inv N t := by
  refine ⟨?_, ?_, ?_, ?_, ?_⟩
  · rw [hp]; exact h.prio
  · rw [hn]; exact h.nextpid_pos
  · rw [hp]; exact h.unused_pid
  · rw [hp, hn]; exact h.used_pid
  · rw [hp]; exact h.uniq

/-- Writing a descriptor without touching its pid or whether it is UNUSED,
its priority staying in range. -/
theorem table_inv_set {N : Nat} {s : kernel} (h : table_inv N s) (p : Nat) (v : proc)
    (hpr : 0 ≤ v.priority ∧ v.priority < (NMLFQ : Int))
    (hk : p < N → p ≠ 0 →
      v.pid = (s.proc p).pid ∧ (v.state = UNUSED ↔ (s.proc p).state = UNUSED)) :
    table_inv N (set_proc s p v) := by
  have hsame : ∀ i, i < N → i ≠ 0 →
      ((set_proc s p v).proc i).pid = (s.proc i).pid ∧
      (((set_proc s p v).proc i).state = UNUSED ↔ (s.proc i).state = UNUSED) := by
    intro i hi hi0
    by_cases hip : i = p
    · subst hip
      rw [set_proc_proc_same]
      exact hk hi hi0
    · rw [set_proc_proc_ne _ _ hip]
      exact ⟨rfl, Iff.rfl⟩
  refine ⟨?_, h.nextpid_pos, ?_, ?_, ?_⟩
  · intro i
    by_cases hip : i = p
    · subst hip
      rw [set_proc_proc_same]
      exact hpr
    · rw [set_proc_proc_ne _ _ hip]
      exact h.prio i
  · intro i hi hi0 hu
    rw [(hsame i hi hi0).1]
    exact h.unused_pid i hi hi0 ((hsame i hi hi0).2.mp hu)
  · intro i hi hi0 hu
    rw [(hsame i hi hi0).1]
    exact h.used_pid i hi hi0 (fun e => hu ((hsame i hi hi0).2.mpr e))
  · intro i j hi hj hi0 hj0 hui huj hpid
    rw [(hsame i hi hi0).1, (hsame j hj hj0).1] at hpid
    exact h.uniq i j hi hj hi0 hj0 (fun e => hui ((hsame i hi hi0).2.mpr e))
      (fun e => huj ((hsame j hj hj0).2.mpr e)) hpid

/-- Writing fields other than pid, state and priority. -/
theorem table_inv_set_same {N : Nat} {s : kernel} (h : table_inv N s) (p : Nat) (v : proc)
    (hpr : v.priority = (s.proc p).priority) (hpid : v.pid = (s.proc p).pid)
    (hst : v.state = (s.proc p).state) : table_inv N (set_proc s p v) :=
  table_inv_set h p v (by rw [hpr]; exact h.prio p) (fun _ _ => ⟨hpid, by rw [hst]⟩)

/-- Changing the state of a descriptor in use to another state in use. -/
theorem table_inv_set_state {N : Nat} {s : kernel} (h : table_inv N s) (p : Nat)
    (st : procstate) (hst : st ≠ UNUSED) (hold : p < N → p ≠ 0 → (s.proc p).state ≠ UNUSED) :
    table_inv N (set_state s p st) := by
  unfold set_state
  refine table_inv_set h p _ (h.prio p) (fun hp hp0 => ⟨rfl, ?_⟩)
  constructor
  · intro e; exact absurd e hst
  · intro e; exact absurd e (hold hp hp0)

theorem table_inv_enqueue {N : Nat} {s : kernel} (h : table_inv N s) (pr : Int) (p : Nat) :
    table_inv N (mlfq_enqueue N s pr p) := by
  have hsame : ∀ i, ((mlfq_enqueue N s pr p).proc i).pid = (s.proc i).pid := by
    intro i
    by_cases hip : i = p
    · subst hip
      rcases mlfq_enqueue_proc_same N s pr i with e | e <;> rw [e]
    · rw [mlfq_enqueue_proc_ne N s pr hip]
  refine ⟨?_, by simpa using h.nextpid_pos, ?_, ?_, ?_⟩
  · intro i
    by_cases hip : i = p
    · subst hip
      rcases mlfq_enqueue_proc_same N s pr i with e | e <;> rw [e]
      · exact h.prio i
      · exact clamp_priority_range pr
    · rw [mlfq_enqueue_proc_ne N s pr hip]
      exact h.prio i
  · intro i hi hi0 hu
    rw [mlfq_enqueue_state] at hu
    rw [hsame]
    exact h.unused_pid i hi hi0 hu
  · intro i hi hi0 hu
    rw [mlfq_enqueue_state] at hu
    rw [hsame, mlfq_enqueue_nextpid]
    exact h.used_pid i hi hi0 hu
  · intro i j hi hj hi0 hj0 hui huj hpid
    rw [mlfq_enqueue_state] at hui huj
    rw [hsame, hsame] at hpid
    exact h.uniq i j hi hj hi0 hj0 hui huj hpid

theorem table_inv_freeproc {N : Nat} {s : kernel} (h : table_inv N s) (p : Nat) :
    table_inv N (freeproc s p) := by
  unfold freeproc
  refine ⟨?_, h.nextpid_pos, ?_, ?_, ?_⟩
  · intro i
    by_cases hip : i = p
    · subst hip
      rw [set_proc_proc_same]
      exact h.prio i
    · rw [set_proc_proc_ne _ _ hip]
      exact h.prio i
  · intro i hi hi0 hu
    by_cases hip : i = p
    · subst hip
      rw [set_proc_proc_same]
    · rw [set_proc_proc_ne _ _ hip] at hu ⊢
      exact h.unused_pid i hi hi0 hu
  · intro i hi hi0 hu
    by_cases hip : i = p
    · subst hip
      rw [set_proc_proc_same] at hu
      exact absurd rfl hu
    · rw [set_proc_proc_ne _ _ hip] at hu ⊢
      exact h.used_pid i hi hi0 hu
  · intro i j hi hj hi0 hj0 hui huj hpid
    have hip : i ≠ p := by
      intro e
      subst e
      rw [set_proc_proc_same] at hui
      exact hui rfl
    have hjp : j ≠ p := by
      intro e
      subst e
      rw [set_proc_proc_same] at huj
      exact huj rfl
    rw [set_proc_proc_ne _ _ hip] at hui hpid
    rw [set_proc_proc_ne _ _ hjp] at huj hpid
    exact h.uniq i j hi hj hi0 hj0 hui huj hpid

/-- Taking an UNUSED slot into use with the next pid. -/
theorem table_inv_alloc {N : Nat} {s : kernel} (h : table_inv N s) (p : Nat) :
    table_inv N
      (set_proc (allocpid s).2 p
        { (allocpid s).2.proc p with pid := (allocpid s).1, state := USED }) := by
  have hn : (allocpid s).2.nextpid = s.nextpid + 1 := rfl
  have hpid : (allocpid s).1 = s.nextpid := rfl
  have hproc : (allocpid s).2.proc = s.proc := rfl
  have hpos := h.nextpid_pos
  refine ⟨?_, ?_, ?_, ?_, ?_⟩
  · intro i
    by_cases hip : i = p
    · subst hip
      rw [set_proc_proc_same]
      exact h.prio i
    · rw [set_proc_proc_ne _ _ hip, hproc]
      exact h.prio i
  · show 1 ≤ s.nextpid + 1
    omega
  · intro i hi hi0 hui
    by_cases hip : i = p
    · subst hip
      rw [set_proc_proc_same] at hui
      have hui2 : USED = UNUSED := hui
      exact absurd hui2 (by decide)
    · rw [set_proc_proc_ne _ _ hip, hproc] at hui ⊢
      exact h.unused_pid i hi hi0 hui
  · intro i hi hi0 hui
    show _ ∧ _ < s.nextpid + 1
    by_cases hip : i = p
    · subst hip
      rw [set_proc_proc_same]
      show 1 ≤ s.nextpid ∧ s.nextpid < s.nextpid + 1
      omega
    · rw [set_proc_proc_ne _ _ hip, hproc] at hui ⊢
      have := h.used_pid i hi hi0 hui
      omega
  · intro i j hi hj hi0 hj0 hui huj hpidij
    by_cases hip : i = p
    · by_cases hjp : j = p
      · rw [hip, hjp]
      · exfalso
        subst hip
        rw [set_proc_proc_same] at hpidij
        rw [set_proc_proc_ne _ _ hjp, hproc] at huj hpidij
        have := h.used_pid j hj hj0 huj
        have e : s.nextpid = (s.proc j).pid := hpidij
        omega
    · by_cases hjp : j = p
      · exfalso
        subst hjp
        rw [set_proc_proc_same] at hpidij
        rw [set_proc_proc_ne _ _ hip, hproc] at hui hpidij
        have := h.used_pid i hi hi0 hui
        have e : (s.proc i).pid = s.nextpid := hpidij
        omega
      · rw [set_proc_proc_ne _ _ hip, hproc] at hui hpidij
        rw [set_proc_proc_ne _ _ hjp, hproc] at huj hpidij
        exact h.uniq i j hi hj hi0 hj0 hui huj hpidij



theorem table_inv_requeue {N : Nat} {s : kernel} (h : table_inv N s) :
    table_inv N (schedule_requeue N s) := by
  by_cases hrun : ∃ p, s.cpu_proc = some p ∧ (s.proc p).state = RUNNING ∧ some p ≠ s.idleproc
  · obtain ⟨p, hp, hr, hi⟩ := hrun
    rw [schedule_requeue_run N s p hp hr hi]
    exact table_inv_enqueue
      (table_inv_set_state h p RUNNABLE (by decide) (fun _ _ => by rw [hr]; decide)) _ _
  · rw [schedule_requeue_skip N s]
    · exact h
    · intro p hp
      by_contra hcon
      push_neg at hcon
      exact hrun ⟨p, hp, hcon.1, hcon.2⟩

/-- Switching keeps the table invariant when the descriptor chosen is in
use and the idle process is slot 0. -/
theorem table_inv_switch {N : Nat} {t : kernel} (h : table_inv N t) (next : Option Nat)
    (hidle : t.idleproc = some 0) (hnext : ∀ n, next = some n → (t.proc n).state ≠ UNUSED) :
    table_inv N (schedule_switch t next) := by
  cases next with
  | none =>
    rw [schedule_switch_none t 0 hidle]
    exact table_inv_congr
      (table_inv_set_state h 0 RUNNING (by decide) (fun _ h0 => absurd rfl h0)) rfl rfl
  | some n =>
    rw [schedule_switch_some]
    exact table_inv_congr
      (table_inv_set_state h n RUNNING (by decide) (fun _ _ => hnext n rfl)) rfl rfl

theorem table_inv_schedule {N : Nat} {s : kernel} (h : table_inv N s)
    (hidle : s.idleproc = some 0) : table_inv N (schedule N s) := by
  unfold schedule
  simp only
  apply table_inv_switch
  · exact table_inv_congr (table_inv_requeue h) (by simp) (by simp)
  · simpa using hidle
  · intro n hn
    have := schedule_pick_runnable N _ _ n hn
    rw [schedule_pick_proc, this]
    decide

theorem table_inv_yield {N : Nat} {s : kernel} (hk : kernel_inv N s) (h : table_inv N s) :
    table_inv N (yield N s) := by
  unfold yield
  split
  · exact h
  · split_ifs
    · simp only
      apply table_inv_switch
      · exact table_inv_congr h (by simp) (by simp)
      · simpa using hk.1.idle
      · intro n hn
        rcases sched_inv_yield_pick (List.range NMLFQ) (fun k hk => List.mem_range.mp hk) s
          hk.1 with h1 | ⟨i, h1, _, _, h4, _⟩
        · rw [h1] at hn
          simp at hn
        · rw [h1] at hn
          cases Option.some.inj hn
          rw [yield_pick_proc, h4]
          decide
    · exact table_inv_schedule h hk.1.idle

theorem table_inv_wakeup_step {N : Nat} {s : kernel} (h : table_inv N s) (chan : Chan)
    (p : Nat) : table_inv N (wakeup_step N chan s p) := by
  by_cases hw : wakes s chan p
  · rw [wakeup_step_wake N chan s p hw]
    exact table_inv_enqueue
      (table_inv_set_state h p RUNNABLE (by decide) (fun _ _ => by rw [hw.2.2.1]; decide)) _ _
  · rw [wakeup_step_skip N chan s p hw]
    exact h

theorem table_inv_wakeup {N : Nat} {s : kernel} (h : table_inv N s) (chan : Chan) :
    table_inv N (wakeup N s chan) :=
  foldl_preserves (table_inv N) (wakeup_step N chan) (List.range N)
    (fun _ x _ ha => table_inv_wakeup_step ha chan x) s h

theorem table_inv_reparent {N : Nat} {s : kernel} (h : table_inv N s) (p : Nat) :
    table_inv N (reparent N s p) := by
  rw [reparent_eq]
  refine foldl_preserves (table_inv N) _ (List.range N) ?_ s h
  intro a pp _ ha
  simp only
  split_ifs
  · exact table_inv_wakeup
      (table_inv_set_same ha pp { a.proc pp with parent := a.initproc } rfl rfl rfl) _
  · exact ha

theorem table_inv_kill {N : Nat} {s : kernel} (h : table_inv N s) (pid : Int) :
    table_inv N (kill N s pid).2 := by
  cases hf : (List.range N).find? (fun p => some p != s.idleproc && (s.proc p).pid == pid) with
  | none => rw [kill_not_found N s pid hf]; exact h
  | some p =>
    rw [kill_found N s pid p hf]
    have h1 : table_inv N (set_proc s p { s.proc p with killed := 1 }) :=
      table_inv_set_same h p _ rfl rfl rfl
    split_ifs with hs
    · simp only
      exact table_inv_enqueue
        (table_inv_set_state h1 p RUNNABLE (by decide) (fun _ _ => by simp [hs])) _ _
    · exact h1

theorem table_inv_sleep {N : Nat} {s : kernel} (hk : kernel_inv N s) (h : table_inv N s)
    (chan : Chan) : table_inv N (sleep N s chan) := by
  unfold sleep
  split
  · exact h
  · rename_i p hp
    apply table_inv_schedule _ (by simpa using hk.1.idle)
    refine table_inv_set h p _ (h.prio p) (fun _ hp0 => ⟨rfl, ?_⟩)
    rw [(hk.2 p hp).2 hp0]
    simp

theorem table_inv_sleep_resume {N : Nat} {s : kernel} (h : table_inv N s) :
    table_inv N (sleep_resume s) := by
  unfold sleep_resume
  split
  · exact h
  · exact table_inv_set_same h _ _ rfl rfl rfl

theorem table_inv_exit {N : Nat} {s t : kernel} (hk : kernel_inv N s) (h : table_inv N s)
    (status : Int) (he : exit N s status = some t) : table_inv N t := by
  unfold exit at he
  split at he
  · simp at he
  · rename_i p hp
    rw [mlfq_remove_cur hk p hp] at he
    simp only at he
    split_ifs at he
    cases Option.some.inj he
    have hk3 := kernel_inv_wakeup (kernel_inv_reparent hk p)
      (Chan.ofPtr ((reparent N s p).proc p).parent)
    have h3 := table_inv_wakeup (table_inv_reparent h p)
      (Chan.ofPtr ((reparent N s p).proc p).parent)
    have hcpu3 : (wakeup N (reparent N s p)
        (Chan.ofPtr ((reparent N s p).proc p).parent)).cpu_proc = s.cpu_proc := by
      simp
    apply table_inv_schedule _ (by simpa using hk3.1.idle)
    refine table_inv_set h3 p _ (h3.prio p) (fun _ hp0 => ⟨rfl, ?_⟩)
    rw [(hk3.2 p (by rw [hcpu3]; exact hp)).2 hp0]
    simp

theorem table_inv_wait {N : Nat} {s : kernel} (hk : kernel_inv N s) (h : table_inv N s)
    (addr : Nat) (copyout_ok : Bool) : table_inv N (wait N s addr copyout_ok).k := by
  unfold wait
  split
  · exact h
  · split
    · by_cases hfail : addr ≠ 0 ∧ copyout_ok = false
      · rw [if_pos hfail]
        exact h
      · rw [if_neg hfail]
        exact table_inv_freeproc h _
    · simp only
      split_ifs
      · exact h
      · exact table_inv_sleep hk h _

theorem table_inv_allocproc {N : Nat} {s : kernel} (h : table_inv N s)
    (kalloc : Option trapframe) (pagetable_ok : Bool) :
    table_inv N (allocproc N s kalloc pagetable_ok).2 := by
  unfold allocproc
  split
  · exact h
  · rename_i p hp
    have h1 := table_inv_alloc h p
    have h2 := table_inv_set_same h1 p
      { (set_proc (allocpid s).2 p
          { (allocpid s).2.proc p with pid := (allocpid s).1, state := USED }).proc p with
        trapframe := kalloc } rfl rfl rfl
    have h3 := table_inv_set_same h2 p
        { (set_proc (set_proc (allocpid s).2 p
            { (allocpid s).2.proc p with pid := (allocpid s).1, state := USED }) p
            { (set_proc (allocpid s).2 p
                { (allocpid s).2.proc p with pid := (allocpid s).1, state := USED }).proc p with
              trapframe := kalloc }).proc p with pagetable := pagetable_ok } rfl rfl rfl
    simp only
    split_ifs with hk hpt
    · exact table_inv_freeproc h2 p
    · exact table_inv_freeproc h3 p
    · refine table_inv_set h3 p _ ⟨by simp, by simp [NMLFQ_eq]⟩ (fun _ _ => ⟨by simp, by simp⟩)

theorem table_inv_fork {N : Nat} {s : kernel} (hk : kernel_inv N s) (h : table_inv N s)
    (kalloc : Option trapframe) (pagetable_ok uvmcopy_ok : Bool) :
    table_inv N (fork N s kalloc pagetable_ok uvmcopy_ok).2 := by
  obtain ⟨_, _, k3⟩ := kernel_inv_allocproc hk kalloc pagetable_ok
  have h1 := table_inv_allocproc h kalloc pagetable_ok
  unfold fork
  rcases ha : allocproc N s kalloc pagetable_ok with ⟨r, s1⟩
  rw [ha] at h1 k3
  simp only at h1 k3
  cases r with
  | none => exact h1
  | some np =>
    obtain ⟨_, _, hst⟩ := k3 np rfl
    simp only
    split
    · exact h1
    · rename_i p hp
      split_ifs
      · exact table_inv_freeproc h1 np
      · simp only
        have h4 := table_inv_set h1 np
          { s1.proc np with trapframe := some { a0 := 0 },
                            name := (s1.proc p).name,
                            priority := (s1.proc p).priority,
                            ticks_in_queue := 0,
                            entry_time := s1.ticks }
          (h1.prio p) (fun _ _ => ⟨rfl, Iff.rfl⟩)
        have h5 := table_inv_set_same h4 np
          { (set_proc s1 np
              { s1.proc np with trapframe := some { a0 := 0 },
                                name := (s1.proc p).name,
                                priority := (s1.proc p).priority,
                                ticks_in_queue := 0,
                                entry_time := s1.ticks }).proc np with parent := some p }
          rfl rfl rfl
        exact table_inv_enqueue
          (table_inv_set_state h5 np RUNNABLE (by decide) (fun _ _ => by simp [hst])) _ _

theorem table_inv_userinit {N : Nat} {s : kernel} (hk : kernel_inv N s) (h : table_inv N s)
    (kalloc : Option trapframe) (pagetable_ok : Bool) :
    table_inv N (userinit N s kalloc pagetable_ok) := by
  obtain ⟨_, _, k3⟩ := kernel_inv_allocproc hk kalloc pagetable_ok
  have h1 := table_inv_allocproc h kalloc pagetable_ok
  unfold userinit
  rcases ha : allocproc N s kalloc pagetable_ok with ⟨r, s1⟩
  rw [ha] at h1 k3
  simp only at h1 k3
  cases r with
  | none => exact table_inv_congr h1 rfl rfl
  | some p =>
    obtain ⟨_, _, hst⟩ := k3 p rfl
    simp only
    have h2 : table_inv N { s1 with initproc := some p } := table_inv_congr h1 rfl rfl
    have h4 := table_inv_set_same h2 p
      { ({ s1 with initproc := some p } : kernel).proc p with name := "initcode" } rfl rfl rfl
    exact table_inv_enqueue
      (table_inv_set_state h4 p RUNNABLE (by decide) (fun _ _ => by simp [hst])) _ _

theorem table_inv_age_boost {N : Nat} {s : kernel} (h : table_inv N s) :
    table_inv N (age_boost N s) := by
  unfold age_boost
  refine foldl_preserves (table_inv N) _ _ ?_ s h
  intro a prio _ ha
  unfold age_boost_level
  refine foldl_preserves (table_inv N) _ _ ?_ a ha
  intro b p _ hb
  exact table_inv_enqueue (table_inv_congr hb (by simp) (by simp)) _ _

theorem table_inv_scheduler_loop {N : Nat} {s : kernel} (hk : kernel_inv N s)
    (h : table_inv N s) : table_inv N (scheduler_loop s) := by
  unfold scheduler_loop
  rw [hk.1.idle]
  simp only
  split_ifs
  · exact table_inv_set_state h 0 RUNNABLE (by decide) (fun _ h0 => absurd rfl h0)
  · exact h

theorem table_inv_procinit (N : Nat) : table_inv N (procinit N kernel_zero) := by
  have hreset : ∀ j, ((procinit_reset N kernel_zero).proc j).state = UNUSED ∧
      ((procinit_reset N kernel_zero).proc j).pid = 0 ∧
      ((procinit_reset N kernel_zero).proc j).priority = 0 := by
    intro j
    unfold procinit_reset
    refine foldl_preserves
      (fun a : kernel => (a.proc j).state = UNUSED ∧ (a.proc j).pid = 0 ∧ (a.proc j).priority = 0)
      _ (List.range N) ?_ kernel_zero ⟨rfl, rfl, rfl⟩
    intro a p _ ha
    simp only
    by_cases hjp : j = p
    · subst hjp
      simp [ha.2.1]
    · rw [set_proc_proc_ne _ _ hjp]
      exact ha
  have hnext : (procinit_reset N kernel_zero).nextpid = 1 := by
    unfold procinit_reset
    refine foldl_preserves (fun a : kernel => a.nextpid = 1) _ (List.range N) ?_ kernel_zero rfl
    intro a p _ ha
    simpa using ha
  have h0 : table_inv N (procinit_reset N kernel_zero) := by
    refine ⟨?_, by rw [hnext], ?_, ?_, ?_⟩
    · intro i
      rw [(hreset i).2.2]
      simp [NMLFQ_eq]
    · intro i _ _ _
      exact (hreset i).2.1
    · intro i _ _ hu
      exact absurd (hreset i).1 hu
    · intro i j _ _ _ _ hu
      exact absurd (hreset i).1 hu
  have h1 : table_inv N ({ procinit_reset N kernel_zero with idleproc := some 0 } : kernel) :=
    table_inv_congr h0 rfl rfl
  have h2 := table_inv_set h1 0
    { (procinit_reset N kernel_zero).proc 0 with
      state := RUNNABLE, pid := 0, priority := (NMLFQ : Int) - 1, name := "idle" }
    ⟨by simp [NMLFQ_eq], by simp [NMLFQ_eq]⟩ (fun _ h00 => absurd rfl h00)
  have h3 := table_inv_enqueue h2 ((NMLFQ : Int) - 1) 0
  rw [procinit_eq]
  refine table_inv_congr h3 (by simp) ?_
  unfold mlfq_init
  rw [range_NMLFQ]
  rfl

theorem table_inv_step {N : Nat} {s t : kernel} (hk : kernel_inv N s) (h : table_inv N s)
    (hst : Step N s t) : table_inv N t := by
  cases hst with
  | scheduler_entry _ => exact table_inv_congr h rfl rfl
  | scheduler_loop _ => exact table_inv_scheduler_loop hk h
  | clock_tick => exact table_inv_congr h rfl rfl
  | fork kalloc pt uv _ => exact table_inv_fork hk h kalloc pt uv
  | sleep chan _ => exact table_inv_sleep hk h chan
  | sleep_resume _ => exact table_inv_sleep_resume h
  | wakeup chan => exact table_inv_wakeup h chan
  | kill pid => exact table_inv_kill h pid
  | exit _ status he => exact table_inv_exit hk h status he
  | wait addr ok _ => exact table_inv_wait hk h addr ok
  | yield _ => exact table_inv_yield hk h
  | schedule => exact table_inv_schedule h hk.1.idle
  | age_boost => exact table_inv_age_boost h

/-- Every state reachable from boot satisfies the invariant of the table. -/
theorem table_inv_reachable {N : Nat} (hN : 0 < N) {s : kernel} (h : Reachable N s) :
    table_inv N s := by
  induction h with
  | boot tf =>
    exact table_inv_userinit (kernel_inv_procinit hN) (table_inv_procinit N) _ _
  | step s t hs hst ih => exact table_inv_step (kernel_inv_reachable hN hs) ih hst

/-- What `wakeup(chan)` does when queue 0 is a well-formed ring with room for
the sleepers on `chan`. -/
theorem wakeup_spec (NPROC : Nat) (s : kernel) (chan : Chan)
    (hw : wf_queue NPROC (s.mlfq_queues 0))
    (hroom : (s.mlfq_queues 0).count + (wakeup_targets NPROC s chan).length ≤ NPROC) :
    (∀ p, (p ∈ wakeup_targets NPROC s chan ↔
        p < NPROC ∧ some p ≠ s.cpu_proc ∧ some p ≠ s.idleproc ∧
        (s.proc p).state = SLEEPING ∧ (s.proc p).chan = chan)) ∧
    (∀ p, p ∈ wakeup_targets NPROC s chan →
      ((wakeup NPROC s chan).proc p).state = RUNNABLE ∧
      ((wakeup NPROC s chan).proc p).priority = 0 ∧
      (wakeup NPROC s chan).proc p =
        { s.proc p with state := RUNNABLE, priority := 0, ticks_in_queue := 0,
                        entry_time := s.ticks }) ∧
    queue_entries NPROC (wakeup NPROC s chan) 0 =
      queue_entries NPROC s 0 ++ (wakeup_targets NPROC s chan).map some ∧
    (∀ k, k ≠ 0 → (wakeup NPROC s chan).mlfq_queues k = s.mlfq_queues k) ∧
    (∀ p, p ∉ wakeup_targets NPROC s chan → (wakeup NPROC s chan).proc p = s.proc p) := by
  have hN : 0 < NPROC := hw.1.trans_le' (Nat.zero_le _)
  obtain ⟨_, h2, h3, h4⟩ := wakeup_fold NPROC hN chan (List.range NPROC) s (List.nodup_range _)
    hw hroom
  have hmem : ∀ p, p ∈ wakeup_targets NPROC s chan ↔ p ∈ List.range NPROC ∧ wakes s chan p := by
    intro p
    simp [wakeup_targets]
  refine ⟨?_, ?_, h2, h3, ?_⟩
  · intro p
    rw [hmem, List.mem_range]
    rfl
  · intro p hp
    have := h4 p
    rw [if_pos ((hmem p).mp hp)] at this
    unfold wakeup
    rw [this]
    exact ⟨rfl, rfl, rfl⟩
  · intro p hp
    have := h4 p
    rw [if_neg (fun h => hp ((hmem p).mpr h))] at this
    exact this

/-- When no slot of the table other than the idle one carries `pid`, whatever
its state, `kill(pid)` returns -1 and leaves the state as it is. -/
theorem kill_no_slot (N : Nat) (s : kernel) (pid : Int)
    (h : ∀ j, j < N → some j ≠ s.idleproc → (s.proc j).pid ≠ pid) :
    kill N s pid = (-1, s) := by
  apply kill_not_found
  rw [List.find?_range_eq_none]
  intro j hj
  by_cases hi : some j = s.idleproc
  · simp [hi]
  · simp [h j hj hi]

/-- In a reachable state a pid other than 0 that no descriptor in use other
than the idle one carries is carried by no slot at all: `kill` of it returns
-1 and changes nothing. -/
theorem kill_unknown_pid {N : Nat} {s : kernel} (hs : Reachable N s) (pid : Int)
    (hpid : pid ≠ 0)
    (h : ∀ j, j < N → some j ≠ s.idleproc → (s.proc j).state ≠ UNUSED → (s.proc j).pid ≠ pid) :
    kill N s pid = (-1, s) := by
  rcases Nat.eq_zero_or_pos N with h0 | hN
  · subst h0
    rfl
  · apply kill_no_slot
    intro j hj hji
    by_cases hu : (s.proc j).state = UNUSED
    · have hj0 : j ≠ 0 := by
        intro e
        rw [(kernel_inv_reachable hN hs).1.idle, e] at hji
        exact hji rfl
      rw [(table_inv_reachable hN hs).unused_pid j hj hj0 hu]
      exact fun e => hpid e.symm
    · exact h j hj hji hu



/-! ### `allocproc` and `fork` when they succeed -/

theorem first_free_spec {N : Nat} {s : kernel} {np : Nat} (h : first_free N s np) :
    np < N ∧ some np ≠ s.idleproc ∧ (s.proc np).state = UNUSED := by
  unfold first_free at h
  rw [List.find?_range_eq_some] at h
  obtain ⟨hc, hm, _⟩ := h
  simp only [Bool.and_eq_true, bne_iff_ne, ne_eq, beq_iff_eq] at hc
  exact ⟨List.mem_range.mp hm, hc.1, hc.2⟩

/-- Both ways in which `allocproc` fails after it has taken a pid: the slot is
freed again and the counter `nextpid` stays advanced. -/
theorem allocproc_fail (N : Nat) (s : kernel) (kalloc : Option trapframe) (pagetable_ok : Bool)
    (np : Nat) (h : first_free N s np) (hfail : kalloc = none ∨ pagetable_ok = false) :
    (allocproc N s kalloc pagetable_ok).1 = none ∧
    (allocproc N s kalloc pagetable_ok).2.nextpid = s.nextpid + 1 ∧
    ((allocproc N s kalloc pagetable_ok).2.proc np).state = UNUSED ∧
    ((allocproc N s kalloc pagetable_ok).2.proc np).pid = 0 ∧
    ∀ j, j ≠ np → (allocproc N s kalloc pagetable_ok).2.proc j = s.proc j := by
  unfold first_free at h
  unfold allocproc
  rw [h]
  simp only
  split_ifs with h1 h2
  · refine ⟨rfl, rfl, by simp [freeproc], by simp [freeproc], ?_⟩
    intro j hj
    simp [freeproc, set_proc_proc_ne _ _ hj, allocpid]
  · refine ⟨rfl, rfl, by simp [freeproc], by simp [freeproc], ?_⟩
    intro j hj
    simp [freeproc, set_proc_proc_ne _ _ hj, allocpid]
  · exfalso
    rcases hfail with e | e
    · exact h1 e
    · exact h2 e

theorem foldl_rel {α β : Type} (R : α → α → Prop) (hrefl : ∀ a, R a a)
    (htrans : ∀ a b c, R a b → R b c → R a c) (f : α → β → α) (hf : ∀ a x, R a (f a x))
    (l : List β) (s : α) : R s (l.foldl f s) :=
  foldl_preserves (fun a => R s a) f l (fun a x _ ha => htrans s a _ ha (hf a x)) s (hrefl s)

theorem keeps_ids_refl (s : kernel) : keeps_ids s s := ⟨rfl, fun _ => ⟨rfl, rfl⟩⟩

theorem keeps_ids_trans (a b c : kernel) (h1 : keeps_ids a b) (h2 : keeps_ids b c) :
    keeps_ids a c :=
  ⟨h2.1.trans h1.1, fun j => ⟨((h2.2 j).1).trans (h1.2 j).1, ((h2.2 j).2).trans (h1.2 j).2⟩⟩

theorem keeps_ids_of_eq {s t : kernel} (hp : t.proc = s.proc) (hn : t.nextpid = s.nextpid) :
    keeps_ids s t := ⟨hn, fun j => by rw [hp]; exact ⟨rfl, rfl⟩⟩

theorem keeps_ids_set (s : kernel) (p : Nat) (v : proc) (h1 : v.pid = (s.proc p).pid)
    (h2 : v.xstate = (s.proc p).xstate) : keeps_ids s (set_proc s p v) := by
  refine ⟨rfl, fun j => ?_⟩
  by_cases hj : j = p
  · subst hj
    rw [set_proc_proc_same]
    exact ⟨h1, h2⟩
  · rw [set_proc_proc_ne _ _ hj]
    exact ⟨rfl, rfl⟩

theorem keeps_ids_set_state (s : kernel) (p : Nat) (st : procstate) :
    keeps_ids s (set_state s p st) := keeps_ids_set s p _ rfl rfl

theorem keeps_ids_enqueue (N : Nat) (s : kernel) (pr : Int) (p : Nat) :
    keeps_ids s (mlfq_enqueue N s pr p) := by
  refine ⟨mlfq_enqueue_nextpid N s pr p, fun j => ?_⟩
  by_cases hj : j = p
  · subst hj
    rcases mlfq_enqueue_proc_same N s pr j with e | e <;> rw [e] <;> exact ⟨rfl, rfl⟩
  · rw [mlfq_enqueue_proc_ne N s pr hj]
    exact ⟨rfl, rfl⟩

theorem keeps_ids_remove (N : Nat) (s : kernel) (p : Option Nat) :
    keeps_ids s (mlfq_remove N s p) :=
  keeps_ids_of_eq (mlfq_remove_proc N s p) (mlfq_remove_nextpid N s p)

theorem keeps_ids_requeue (N : Nat) (s : kernel) : keeps_ids s (schedule_requeue N s) := by
  unfold schedule_requeue
  split
  · exact keeps_ids_refl s
  · split_ifs
    · exact keeps_ids_trans _ _ _ (keeps_ids_set_state s _ RUNNABLE) (keeps_ids_enqueue N _ _ _)
    · exact keeps_ids_refl s

theorem keeps_ids_switch (s : kernel) (next : Option Nat) :
    keeps_ids s (schedule_switch s next) := by
  refine ⟨schedule_switch_nextpid s next, fun j => ?_⟩
  rcases schedule_switch_proc s next j with e | ⟨_, e, _⟩ <;> rw [e] <;> exact ⟨rfl, rfl⟩

theorem keeps_ids_schedule (N : Nat) (s : kernel) : keeps_ids s (schedule N s) := by
  unfold schedule
  simp only
  refine keeps_ids_trans _ _ _ (keeps_ids_requeue N s)
    (keeps_ids_trans _ _ _ (keeps_ids_of_eq (schedule_pick_proc N _ _)
      (schedule_pick_nextpid N _ _)) (keeps_ids_switch _ _))

theorem keeps_ids_yield (N : Nat) (s : kernel) : keeps_ids s (yield N s) := by
  unfold yield
  split
  · exact keeps_ids_refl s
  · split_ifs
    · simp only
      exact keeps_ids_trans _ _ _ (keeps_ids_of_eq (yield_pick_proc N _ _)
        (yield_pick_nextpid N _ _)) (keeps_ids_switch _ _)
    · exact keeps_ids_schedule N s

theorem keeps_ids_wakeup_step (N : Nat) (chan : Chan) (s : kernel) (p : Nat) :
    keeps_ids s (wakeup_step N chan s p) := by
  by_cases h : wakes s chan p
  · rw [wakeup_step_wake N chan s p h]
    exact keeps_ids_trans _ _ _ (keeps_ids_set_state s p RUNNABLE) (keeps_ids_enqueue N _ _ _)
  · rw [wakeup_step_skip N chan s p h]
    exact keeps_ids_refl s

theorem keeps_ids_wakeup (N : Nat) (s : kernel) (chan : Chan) : keeps_ids s (wakeup N s chan) :=
  foldl_rel keeps_ids keeps_ids_refl keeps_ids_trans _ (keeps_ids_wakeup_step N chan) _ s

theorem keeps_ids_reparent (N : Nat) (s : kernel) (p : Nat) : keeps_ids s (reparent N s p) := by
  rw [reparent_eq]
  refine foldl_rel keeps_ids keeps_ids_refl keeps_ids_trans _ ?_ _ s
  intro a pp
  simp only
  split_ifs
  · exact keeps_ids_trans _ _ _
      (keeps_ids_set a pp { a.proc pp with parent := a.initproc } rfl rfl)
      (keeps_ids_wakeup N _ _)
  · exact keeps_ids_refl a

theorem keeps_ids_kill (N : Nat) (s : kernel) (pid : Int) : keeps_ids s (kill N s pid).2 := by
  cases hf : (List.range N).find? (fun p => some p != s.idleproc && (s.proc p).pid == pid) with
  | none => rw [kill_not_found N s pid hf]; exact keeps_ids_refl s
  | some p =>
    rw [kill_found N s pid p hf]
    have h1 : keeps_ids s (set_proc s p { s.proc p with killed := 1 }) :=
      keeps_ids_set s p _ rfl rfl
    split_ifs
    · exact keeps_ids_trans _ _ _ h1
        (keeps_ids_trans _ _ _ (keeps_ids_set_state _ p RUNNABLE) (keeps_ids_enqueue N _ _ _))
    · exact h1

theorem keeps_ids_sleep (N : Nat) (s : kernel) (chan : Chan) : keeps_ids s (sleep N s chan) := by
  unfold sleep
  split
  · exact keeps_ids_refl s
  · rename_i p _
    exact keeps_ids_trans _ _ _
      (keeps_ids_set s p { s.proc p with chan := chan, state := SLEEPING } rfl rfl)
      (keeps_ids_schedule N _)

theorem keeps_ids_sleep_resume (s : kernel) : keeps_ids s (sleep_resume s) := by
  unfold sleep_resume
  split
  · exact keeps_ids_refl s
  · rename_i p _
    exact keeps_ids_set s p { s.proc p with chan := Chan.null } rfl rfl

theorem keeps_ids_age_boost_level (N : Nat) (s : kernel) (prio : Nat) :
    keeps_ids s (age_boost_level N s prio) := by
  unfold age_boost_level
  generalize age_boost_collect N s prio = l
  refine foldl_rel keeps_ids keeps_ids_refl keeps_ids_trans _ ?_ l s
  intro a p
  exact keeps_ids_trans _ _ _ (keeps_ids_remove N a (some p)) (keeps_ids_enqueue N _ _ _)

theorem keeps_ids_age_boost (N : Nat) (s : kernel) : keeps_ids s (age_boost N s) := by
  unfold age_boost
  exact foldl_rel keeps_ids keeps_ids_refl keeps_ids_trans _ (keeps_ids_age_boost_level N) _ s

theorem keeps_ids_scheduler_loop (s : kernel) : keeps_ids s (scheduler_loop s) := by
  unfold scheduler_loop
  split
  · exact keeps_ids_refl s
  · split_ifs
    · exact keeps_ids_set_state s _ RUNNABLE
    · exact keeps_ids_refl s



/-! ### Operations that do not switch -/

theorem quiet_refl (s : kernel) : quiet s s := ⟨rfl, rfl, fun _ h => h, fun _ _ => rfl⟩

theorem quiet_trans (a b c : kernel) (h1 : quiet a b) (h2 : quiet b c) : quiet a c := by
  obtain ⟨a1, a2, a3, a4⟩ := h1
  obtain ⟨b1, b2, b3, b4⟩ := h2
  refine ⟨b1.trans a1, b2.trans a2, fun j h => a3 j (b3 j h), fun i hi => ?_⟩
  rw [b4 i (by rw [a2]; exact hi), a4 i hi]

theorem quiet_of_eq {s t : kernel} (hp : t.proc = s.proc) (hc : t.cpu_proc = s.cpu_proc)
    (hi : t.idleproc = s.idleproc) : quiet s t :=
  ⟨hc, hi, fun j h => by rw [hp] at h; exact h, fun i _ => by rw [hp]⟩

/-- Writing the descriptor `p`, not to RUNNING, and not the state of the idle
one. -/
theorem quiet_set (s : kernel) (p : Nat) (v : proc)
    (hr : v.state = RUNNING → (s.proc p).state = RUNNING)
    (hi : some p = s.idleproc → v.state = (s.proc p).state) : quiet s (set_proc s p v) := by
  refine ⟨rfl, rfl, fun j h => ?_, fun i hidle => ?_⟩
  · by_cases hj : j = p
    · subst hj
      rw [set_proc_proc_same] at h
      exact hr h
    · rw [set_proc_proc_ne _ _ hj] at h
      exact h
  · by_cases hj : i = p
    · subst hj
      rw [set_proc_proc_same]
      exact hi hidle.symm
    · rw [set_proc_proc_ne _ _ hj]

theorem quiet_set_state (s : kernel) (p : Nat) (st : procstate) (hst : st ≠ RUNNING)
    (hp : some p ≠ s.idleproc) : quiet s (set_state s p st) :=
  quiet_set s p { s.proc p with state := st } (fun h => absurd h hst) (fun h => absurd h hp)

theorem quiet_enqueue (N : Nat) (s : kernel) (pr : Int) (p : Nat) :
    quiet s (mlfq_enqueue N s pr p) :=
  ⟨mlfq_enqueue_cpu_proc N s pr p, mlfq_enqueue_idleproc N s pr p,
   fun j h => by rw [mlfq_enqueue_state] at h; exact h,
   fun i _ => mlfq_enqueue_state N s pr p i⟩

theorem quiet_remove (N : Nat) (s : kernel) (p : Option Nat) : quiet s (mlfq_remove N s p) :=
  quiet_of_eq (mlfq_remove_proc N s p) (mlfq_remove_cpu_proc N s p) (mlfq_remove_idleproc N s p)

theorem quiet_requeue (N : Nat) (s : kernel) : quiet s (schedule_requeue N s) := by
  unfold schedule_requeue
  split
  · exact quiet_refl s
  · split_ifs with h
    · exact quiet_trans _ _ _ (quiet_set_state s _ RUNNABLE (by decide) h.2)
        (quiet_enqueue N _ _ _)
    · exact quiet_refl s

theorem quiet_pick (N : Nat) (l : List Nat) (s : kernel) : quiet s (schedule_pick N l s).2 :=
  quiet_of_eq (schedule_pick_proc N l s) (schedule_pick_cpu_proc N l s)
    (schedule_pick_idleproc N l s)

theorem quiet_yield_pick (N : Nat) (l : List Nat) (s : kernel) : quiet s (yield_pick N l s).2 :=
  quiet_of_eq (yield_pick_proc N l s) (yield_pick_cpu_proc N l s) (yield_pick_idleproc N l s)

theorem quiet_wakeup_step (N : Nat) (chan : Chan) (s : kernel) (p : Nat) :
    quiet s (wakeup_step N chan s p) := by
  by_cases h : wakes s chan p
  · rw [wakeup_step_wake N chan s p h]
    exact quiet_trans _ _ _ (quiet_set_state s p RUNNABLE (by decide) h.2.1)
      (quiet_enqueue N _ _ _)
  · rw [wakeup_step_skip N chan s p h]
    exact quiet_refl s

theorem quiet_wakeup (N : Nat) (s : kernel) (chan : Chan) : quiet s (wakeup N s chan) :=
  foldl_rel quiet quiet_refl quiet_trans _ (quiet_wakeup_step N chan) _ s

theorem quiet_reparent (N : Nat) (s : kernel) (p : Nat) : quiet s (reparent N s p) := by
  rw [reparent_eq]
  refine foldl_rel quiet quiet_refl quiet_trans _ ?_ _ s
  intro a pp
  simp only
  split_ifs
  · exact quiet_trans _ _ _
      (quiet_set a pp { a.proc pp with parent := a.initproc } (fun h => h) (fun _ => rfl))
      (quiet_wakeup N _ _)
  · exact quiet_refl a

theorem quiet_kill (N : Nat) (s : kernel) (pid : Int) : quiet s (kill N s pid).2 := by
  cases hf : (List.range N).find? (fun p => some p != s.idleproc && (s.proc p).pid == pid) with
  | none => rw [kill_not_found N s pid hf]; exact quiet_refl s
  | some p =>
    rw [kill_found N s pid p hf]
    rw [List.find?_range_eq_some] at hf
    have hp : some p ≠ s.idleproc := by
      have := hf.1
      simp only [Bool.and_eq_true, bne_iff_ne, ne_eq, beq_iff_eq] at this
      exact this.1
    have h1 : quiet s (set_proc s p { s.proc p with killed := 1 }) :=
      quiet_set s p { s.proc p with killed := 1 } (fun h => h) (fun _ => rfl)
    split_ifs
    · exact quiet_trans _ _ _ h1
        (quiet_trans _ _ _ (quiet_set_state _ p RUNNABLE (by decide) hp) (quiet_enqueue N _ _ _))
    · exact h1

theorem quiet_freeproc (s : kernel) (p : Nat) (hp : some p ≠ s.idleproc) :
    quiet s (freeproc s p) := by
  unfold freeproc
  exact quiet_set s p _ (fun h => absurd h (by simp)) (fun h => absurd h hp)

theorem quiet_sleep_resume (s : kernel) : quiet s (sleep_resume s) := by
  unfold sleep_resume
  split
  · exact quiet_refl s
  · rename_i p _
    exact quiet_set s p { s.proc p with chan := Chan.null } (fun h => h) (fun _ => rfl)

theorem quiet_age_boost_level (N : Nat) (s : kernel) (prio : Nat) :
    quiet s (age_boost_level N s prio) := by
  unfold age_boost_level
  generalize age_boost_collect N s prio = l
  refine foldl_rel quiet quiet_refl quiet_trans _ ?_ l s
  intro a p
  exact quiet_trans _ _ _ (quiet_remove N a (some p)) (quiet_enqueue N _ _ _)

theorem quiet_age_boost (N : Nat) (s : kernel) : quiet s (age_boost N s) := by
  unfold age_boost
  exact foldl_rel quiet quiet_refl quiet_trans _ (quiet_age_boost_level N) _ s

/-- The slot that `allocproc` returns is the first free one. -/
theorem allocproc_some {N : Nat} {s : kernel} {kalloc : Option trapframe} {pagetable_ok : Bool}
    {np : Nat} (h : (allocproc N s kalloc pagetable_ok).1 = some np) : first_free N s np := by
  unfold allocproc at h
  unfold first_free
  split at h
  · simp at h
  · rename_i p hp
    simp only at h
    split_ifs at h
    simp at h
    rw [← h]
    exact hp

/-- The function `allocproc` writes one slot only, the first free one, and
leaves it USED or UNUSED. -/
theorem allocproc_frame (N : Nat) (s : kernel) (kalloc : Option trapframe) (pagetable_ok : Bool) :
    (allocproc N s kalloc pagetable_ok).2.cpu_proc = s.cpu_proc ∧
    (allocproc N s kalloc pagetable_ok).2.idleproc = s.idleproc ∧
    (allocproc N s kalloc pagetable_ok).2.mlfq_queues = s.mlfq_queues ∧
    (allocproc N s kalloc pagetable_ok).2.ticks = s.ticks ∧
    (allocproc N s kalloc pagetable_ok).2.initproc = s.initproc ∧
    ∀ j, (allocproc N s kalloc pagetable_ok).2.proc j = s.proc j ∨
      (first_free N s j ∧
        (((allocproc N s kalloc pagetable_ok).2.proc j).state = UNUSED ∨
         ((allocproc N s kalloc pagetable_ok).2.proc j).state = USED)) := by
  unfold allocproc
  split
  · exact ⟨rfl, rfl, rfl, rfl, rfl, fun j => Or.inl rfl⟩
  · rename_i p hp
    have hff : first_free N s p := hp
    simp only
    split_ifs
    · refine ⟨rfl, rfl, rfl, rfl, rfl, fun j => ?_⟩
      by_cases hj : j = p
      · subst hj
        exact Or.inr ⟨hff, Or.inl (by simp [freeproc])⟩
      · left
        simp [freeproc, set_proc_proc_ne _ _ hj, allocpid]
    · refine ⟨rfl, rfl, rfl, rfl, rfl, fun j => ?_⟩
      by_cases hj : j = p
      · subst hj
        exact Or.inr ⟨hff, Or.inl (by simp [freeproc])⟩
      · left
        simp [freeproc, set_proc_proc_ne _ _ hj, allocpid]
    · refine ⟨rfl, rfl, rfl, rfl, rfl, fun j => ?_⟩
      by_cases hj : j = p
      · subst hj
        exact Or.inr ⟨hff, Or.inr (by simp)⟩
      · left
        simp [set_proc_proc_ne _ _ hj, allocpid]

theorem quiet_allocproc (N : Nat) (s : kernel) (kalloc : Option trapframe) (pagetable_ok : Bool) :
    quiet s (allocproc N s kalloc pagetable_ok).2 := by
  obtain ⟨h1, h2, _, _, _, h6⟩ := allocproc_frame N s kalloc pagetable_ok
  refine ⟨h1, h2, fun j h => ?_, fun i hi => ?_⟩
  · rcases h6 j with e | ⟨_, e | e⟩
    · rw [e] at h; exact h
    · rw [e] at h; exact absurd h (by decide)
    · rw [e] at h; exact absurd h (by decide)
  · rcases h6 i with e | ⟨hf, _⟩
    · rw [e]
    · exact absurd hi.symm (first_free_spec hf).2.1

theorem quiet_fork (N : Nat) (s : kernel) (kalloc : Option trapframe)
    (pagetable_ok uvmcopy_ok : Bool) : quiet s (fork N s kalloc pagetable_ok uvmcopy_ok).2 := by
  have h1 := quiet_allocproc N s kalloc pagetable_ok
  unfold fork
  rcases ha : allocproc N s kalloc pagetable_ok with ⟨r, s1⟩
  rw [ha] at h1
  simp only at h1
  cases r with
  | none => exact h1
  | some np =>
    have hff : first_free N s np := allocproc_some (by rw [ha])
    have hnp : some np ≠ s1.idleproc := by
      rw [h1.2.1]
      exact (first_free_spec hff).2.1
    simp only
    split
    · exact h1
    · rename_i p hp
      split_ifs
      · exact quiet_trans _ _ _ h1 (quiet_freeproc s1 np hnp)
      · simp only
        refine quiet_trans _ _ _ h1 (quiet_trans _ _ _
          (quiet_set s1 np
            { s1.proc np with trapframe := some { a0 := 0 },
                              name := (s1.proc p).name,
                              priority := (s1.proc p).priority,
                              ticks_in_queue := 0,
                              entry_time := s1.ticks } (fun h => h) (fun _ => rfl))
          (quiet_trans _ _ _
            (quiet_set _ np
              { (set_proc s1 np
                  { s1.proc np with trapframe := some { a0 := 0 },
                                    name := (s1.proc p).name,
                                    priority := (s1.proc p).priority,
                                    ticks_in_queue := 0,
                                    entry_time := s1.ticks }).proc np with parent := some p }
              (fun h => h) (fun _ => rfl))
            (quiet_trans _ _ _ (quiet_set_state _ np RUNNABLE (by decide) hnp)
              (quiet_enqueue N _ _ _))))



/-! ### The RUNNING descriptors -/

theorem running_quiet {N : Nat} {s t : kernel} (h : running_is_current N s) (hq : quiet s t) :
    running_is_current N t := by
  intro i hi hidle hr
  rw [hq.1]
  exact h i hi (by rw [← hq.2.1]; exact hidle) (hq.2.2.1 i hr)

theorem running_set {N : Nat} {s : kernel} (h : running_is_current N s) (p : Nat) (v : proc)
    (hv : v.state ≠ RUNNING) : running_is_current N (set_proc s p v) := by
  intro i hi hidle hr
  by_cases hip : i = p
  · subst hip
    rw [set_proc_proc_same] at hr
    exact absurd hr hv
  · rw [set_proc_proc_ne _ _ hip] at hr
    exact h i hi hidle hr

/-- Once `schedule()` has put the current process back, no descriptor of the
table other than the idle one is RUNNING. -/
theorem requeue_none_running {N : Nat} {s : kernel} (h : running_is_current N s) (i : Nat)
    (hi : i < N) (hidle : some i ≠ s.idleproc) :
    ((schedule_requeue N s).proc i).state ≠ RUNNING := by
  intro hr
  have hrs : (s.proc i).state = RUNNING := (quiet_requeue N s).2.2.1 i hr
  have hcur := h i hi hidle hrs
  rw [schedule_requeue_run N s i hcur hrs hidle, mlfq_enqueue_state, set_state_proc_same] at hr
  have hr2 : RUNNABLE = RUNNING := hr
  exact absurd hr2 (by decide)

/-- After the switch of `schedule()` or `yield()` from a state without RUNNING
descriptors other than the idle one, the current descriptor is the only one
that can be RUNNING besides the idle one. -/
theorem running_switch {N : Nat} {s : kernel} (next : Option Nat)
    (h : ∀ i, i < N → some i ≠ s.idleproc → (s.proc i).state ≠ RUNNING) :
    running_is_current N (schedule_switch s next) := by
  intro i hi hidle hr
  rw [schedule_switch_idleproc] at hidle
  rcases schedule_switch_proc s next i with e | ⟨e, _, _⟩
  · rw [e] at hr
    exact absurd hr (h i hi hidle)
  · exact e

theorem running_schedule {N : Nat} {s : kernel} (h : running_is_current N s) :
    running_is_current N (schedule N s) := by
  unfold schedule
  simp only
  apply running_switch
  intro i hi hidle
  rw [schedule_pick_idleproc, schedule_requeue_idleproc] at hidle
  rw [schedule_pick_proc]
  exact requeue_none_running h i hi hidle

theorem running_yield {N : Nat} {s : kernel} (h : running_is_current N s) :
    running_is_current N (yield N s) := by
  unfold yield
  split
  · exact h
  · rename_i p hp
    split_ifs with hz
    · simp only
      apply running_switch
      intro i hi hidle hr
      rw [yield_pick_idleproc] at hidle
      rw [yield_pick_proc] at hr
      have := h i hi hidle hr
      rw [hp] at this
      cases Option.some.inj this
      rw [hz] at hr
      exact absurd hr (by decide)
    · exact running_schedule h

theorem running_sleep {N : Nat} {s : kernel} (h : running_is_current N s) (chan : Chan) :
    running_is_current N (sleep N s chan) := by
  unfold sleep
  split
  · exact h
  · rename_i p _
    exact running_schedule
      (running_set h p { s.proc p with chan := chan, state := SLEEPING } (by simp))

theorem running_exit {N : Nat} {s t : kernel} (h : running_is_current N s) (status : Int)
    (he : exit N s status = some t) : running_is_current N t := by
  unfold exit at he
  split at he
  · simp at he
  · rename_i p hp
    simp only at he
    split_ifs at he
    cases Option.some.inj he
    apply running_schedule
    apply running_set _ p _ (by simp)
    exact running_quiet h
      (quiet_trans _ _ _ (quiet_remove N s (some p))
        (quiet_trans _ _ _ (quiet_reparent N _ p) (quiet_wakeup N _ _)))

theorem running_wait {N : Nat} {s : kernel} (h : running_is_current N s) (addr : Nat)
    (copyout_ok : Bool) : running_is_current N (wait N s addr copyout_ok).k := by
  unfold wait
  split
  · exact h
  · split
    · by_cases hfail : addr ≠ 0 ∧ copyout_ok = false
      · rw [if_pos hfail]
        exact h
      · rw [if_neg hfail]
        simp only
        unfold freeproc
        exact running_set h _ _ (by simp)
    · simp only
      split_ifs
      · exact h
      · exact running_sleep h _

theorem running_scheduler_loop {N : Nat} {s : kernel} (h : running_is_current N s) :
    running_is_current N (scheduler_loop s) := by
  unfold scheduler_loop
  split
  · exact h
  · split_ifs
    · unfold set_state
      exact running_set h _ _ (by simp)
    · exact h

theorem running_step {N : Nat} {s t : kernel} (h : running_is_current N s) (hst : Step N s t) :
    running_is_current N t := by
  cases hst with
  | scheduler_entry hc =>
    intro i hi hidle hr
    have := h i hi hidle hr
    rw [hc] at this
    simp at this
  | scheduler_loop _ => exact running_scheduler_loop h
  | clock_tick => exact running_quiet h (quiet_of_eq rfl rfl rfl)
  | fork kalloc pt uv _ => exact running_quiet h (quiet_fork N s kalloc pt uv)
  | sleep chan _ => exact running_sleep h chan
  | sleep_resume _ => exact running_quiet h (quiet_sleep_resume s)
  | wakeup chan => exact running_quiet h (quiet_wakeup N s chan)
  | kill pid => exact running_quiet h (quiet_kill N s pid)
  | exit _ status he => exact running_exit h status he
  | wait addr ok _ => exact running_wait h addr ok
  | yield _ => exact running_yield h
  | schedule => exact running_schedule h
  | age_boost => exact running_quiet h (quiet_age_boost N s)

theorem quiet_userinit (N : Nat) (s : kernel) (kalloc : Option trapframe) (pagetable_ok : Bool) :
    quiet s (userinit N s kalloc pagetable_ok) := by
  have h1 := quiet_allocproc N s kalloc pagetable_ok
  unfold userinit
  rcases ha : allocproc N s kalloc pagetable_ok with ⟨r, s1⟩
  rw [ha] at h1
  simp only at h1
  cases r with
  | none => exact quiet_trans _ _ _ h1 (quiet_of_eq rfl rfl rfl)
  | some p =>
    have hff : first_free N s p := allocproc_some (by rw [ha])
    have hp : some p ≠ s1.idleproc := by
      rw [h1.2.1]
      exact (first_free_spec hff).2.1
    simp only
    have h2 : quiet s1 ({ s1 with initproc := some p } : kernel) := quiet_of_eq rfl rfl rfl
    refine quiet_trans _ _ _ h1 (quiet_trans _ _ _ h2 (quiet_trans _ _ _
      (quiet_set _ p
        { ({ s1 with initproc := some p } : kernel).proc p with name := "initcode" }
        (fun h => h) (fun _ => rfl))
      (quiet_trans _ _ _ (quiet_set_state _ p RUNNABLE (by decide) hp) (quiet_enqueue N _ _ _))))

/-- After `procinit()` on the zeroed statics no descriptor is RUNNING. -/
theorem procinit_none_running (N : Nat) (j : Nat) :
    ((procinit N kernel_zero).proc j).state ≠ RUNNING := by
  have hreset : ((procinit_reset N kernel_zero).proc j).state = UNUSED := procinit_reset_state N j
  rw [procinit_eq]
  simp only [mlfq_init_proc, mlfq_enqueue_state]
  by_cases hj : j = 0
  · subst hj
    simp
  · rw [set_proc_proc_ne _ _ hj]
    show ((procinit_reset N kernel_zero).proc j).state ≠ RUNNING
    rw [hreset]
    decide

theorem running_reachable {N : Nat} {s : kernel} (h : Reachable N s) :
    running_is_current N s := by
  induction h with
  | boot tf =>
    apply running_quiet _ (quiet_userinit N _ _ _)
    intro i _ _ hr
    exact absurd hr (procinit_none_running N i)
  | step s t _ hst ih => exact running_step ih hst



/-! ### What `fork`, `exit` and `wait` write -/

/-- The function `fork()` writes at most one slot, the first free one, and
advances the pid counter by at most one. -/
theorem fork_frame (N : Nat) (s : kernel) (kalloc : Option trapframe)
    (pagetable_ok uvmcopy_ok : Bool) :
    ((fork N s kalloc pagetable_ok uvmcopy_ok).2.nextpid = s.nextpid ∨
     (fork N s kalloc pagetable_ok uvmcopy_ok).2.nextpid = s.nextpid + 1) ∧
    ∀ j, (fork N s kalloc pagetable_ok uvmcopy_ok).2.proc j = s.proc j ∨ first_free N s j := by
  have hfr := allocproc_frame N s kalloc pagetable_ok
  have hnx : (allocproc N s kalloc pagetable_ok).2.nextpid = s.nextpid ∨
      (allocproc N s kalloc pagetable_ok).2.nextpid = s.nextpid + 1 := by
    unfold allocproc
    split
    · exact Or.inl rfl
    · simp only
      split_ifs
      · exact Or.inr rfl
      · exact Or.inr rfl
      · exact Or.inr rfl
  unfold fork
  rcases ha : allocproc N s kalloc pagetable_ok with ⟨r, s1⟩
  rw [ha] at hfr hnx
  simp only at hfr hnx
  obtain ⟨_, _, _, _, _, h6⟩ := hfr
  have h6b : ∀ j, s1.proc j = s.proc j ∨ first_free N s j := by
    intro j
    rcases h6 j with e | ⟨e, _⟩
    · exact Or.inl e
    · exact Or.inr e
  cases r with
  | none => exact ⟨hnx, h6b⟩
  | some np =>
    have hff : first_free N s np := allocproc_some (by rw [ha])
    simp only
    split
    · exact ⟨hnx, h6b⟩
    · split_ifs
      · refine ⟨hnx, fun j => ?_⟩
        by_cases hj : j = np
        · subst hj; exact Or.inr hff
        · unfold freeproc
          rw [set_proc_proc_ne _ _ hj]
          exact h6b j
      · simp only
        refine ⟨by simpa using hnx, fun j => ?_⟩
        by_cases hj : j = np
        · subst hj; exact Or.inr hff
        · rw [mlfq_enqueue_proc_ne N _ _ hj, set_state_proc_ne _ _ hj, set_proc_proc_ne _ _ hj,
            set_proc_proc_ne _ _ hj]
          exact h6b j

/-- What `exit(status)` of a current process `p` other than the idle one
writes: pids and the pid counter stay, the exit status of `p` becomes `status`
and its state ZOMBIE, the exit status of the others stays. -/
theorem exit_frame {N : Nat} {s t : kernel} {p : Nat} (status : Int)
    (hcur : s.cpu_proc = some p) (he : exit N s status = some t) :
    t.nextpid = s.nextpid ∧
    (∀ j, (t.proc j).pid = (s.proc j).pid) ∧
    (∀ j, j ≠ p → (t.proc j).xstate = (s.proc j).xstate) ∧
    (t.proc p).xstate = status ∧
    (some p ≠ s.idleproc → (t.proc p).state = ZOMBIE) := by
  unfold exit at he
  rw [hcur] at he
  simp only at he
  split_ifs at he
  cases Option.some.inj he
  have hk := keeps_ids_trans _ _ _ (keeps_ids_remove N s (some p))
    (keeps_ids_trans _ _ _ (keeps_ids_reparent N (mlfq_remove N s (some p)) p)
      (keeps_ids_wakeup N (reparent N (mlfq_remove N s (some p)) p)
        (Chan.ofPtr ((reparent N (mlfq_remove N s (some p)) p).proc p).parent)))
  have hq := quiet_trans _ _ _ (quiet_remove N s (some p))
    (quiet_trans _ _ _ (quiet_reparent N (mlfq_remove N s (some p)) p)
      (quiet_wakeup N (reparent N (mlfq_remove N s (some p)) p)
        (Chan.ofPtr ((reparent N (mlfq_remove N s (some p)) p).proc p).parent)))
  generalize wakeup N (reparent N (mlfq_remove N s (some p)) p)
    (Chan.ofPtr ((reparent N (mlfq_remove N s (some p)) p).proc p).parent) = s3 at hk hq
  have hs := keeps_ids_schedule N
    (set_proc s3 p { s3.proc p with xstate := status, state := ZOMBIE })
  refine ⟨?_, ?_, ?_, ?_, ?_⟩
  · rw [hs.1]
    exact hk.1
  · intro j
    rw [(hs.2 j).1]
    by_cases hj : j = p
    · subst hj
      rw [set_proc_proc_same]
      exact (hk.2 j).1
    · rw [set_proc_proc_ne _ _ hj]
      exact (hk.2 j).1
  · intro j hj
    rw [(hs.2 j).2, set_proc_proc_ne _ _ hj]
    exact (hk.2 j).2
  · rw [(hs.2 p).2, set_proc_proc_same]
  · intro hidle
    have hz : ((set_proc s3 p { s3.proc p with xstate := status, state := ZOMBIE }).proc p).state
        = ZOMBIE := by simp
    unfold schedule
    simp only
    have hskip : schedule_requeue N
        (set_proc s3 p { s3.proc p with xstate := status, state := ZOMBIE }) =
        set_proc s3 p { s3.proc p with xstate := status, state := ZOMBIE } := by
      apply schedule_requeue_skip
      intro c hc
      simp only [set_proc_cpu_proc] at hc
      rw [hq.1, hcur] at hc
      cases Option.some.inj hc
      left
      rw [hz]
      decide
    rw [hskip]
    rcases schedule_switch_proc
      (schedule_pick N (List.range NMLFQ)
        (set_proc s3 p { s3.proc p with xstate := status, state := ZOMBIE })).2
      (schedule_pick N (List.range NMLFQ)
        (set_proc s3 p { s3.proc p with xstate := status, state := ZOMBIE })).1 p
      with e | ⟨_, _, e | e⟩
    · rw [e, schedule_pick_proc]
      exact hz
    · have := schedule_pick_runnable N _ _ p e
      rw [hz] at this
      exact absurd this (by decide)
    · exfalso
      have h2 := e.2
      rw [schedule_pick_idleproc, set_proc_idleproc, hq.2.1] at h2
      exact hidle h2.symm

/-- What one pass of `wait(addr)` writes: nothing, or the slot of the ZOMBIE
child it frees, or what going to sleep writes. -/
theorem wait_frame (N : Nat) (s : kernel) (addr : Nat) (copyout_ok : Bool) :
    (wait N s addr copyout_ok).k.nextpid = s.nextpid ∧
    ∀ j, (((wait N s addr copyout_ok).k.proc j).pid = (s.proc j).pid ∧
          ((wait N s addr copyout_ok).k.proc j).xstate = (s.proc j).xstate) ∨
         ((s.proc j).state = ZOMBIE ∧ (wait N s addr copyout_ok).k.proc j =
            { s.proc j with trapframe := none, pagetable := false, pid := 0, parent := none,
                            name := "", chan := Chan.null, killed := 0, xstate := 0,
                            state := UNUSED }) := by
  unfold wait
  split
  · exact ⟨rfl, fun j => Or.inl ⟨rfl, rfl⟩⟩
  · rename_i p hp
    split
    · rename_i pp hpp
      by_cases hfail : addr ≠ 0 ∧ copyout_ok = false
      · rw [if_pos hfail]
        exact ⟨rfl, fun j => Or.inl ⟨rfl, rfl⟩⟩
      · rw [if_neg hfail]
        simp only
        rw [List.find?_range_eq_some] at hpp
        have hz : (s.proc pp).state = ZOMBIE := by
          have := hpp.1
          simp only [Bool.and_eq_true, beq_iff_eq] at this
          exact this.2
        refine ⟨rfl, fun j => ?_⟩
        by_cases hj : j = pp
        · subst hj
          right
          exact ⟨hz, by unfold freeproc; rw [set_proc_proc_same]⟩
        · left
          unfold freeproc
          rw [set_proc_proc_ne _ _ hj]
          exact ⟨rfl, rfl⟩
    · simp only
      split_ifs
      · exact ⟨rfl, fun j => Or.inl ⟨rfl, rfl⟩⟩
      · have := keeps_ids_sleep N s (Chan.procAddr p)
        exact ⟨this.1, fun j => Or.inl (this.2 j)⟩



/-! ### The pid counter and the pid of the idle task -/

/-- A step that is not one of `fork`, `exit`, `wait` writes no pid, no exit
status and does not touch the pid counter. -/
theorem step_keeps_ids {N : Nat} {s t : kernel} (hst : Step N s t) :
    keeps_ids s t ∨
    (∃ kalloc pt uv, t = (fork N s kalloc pt uv).2) ∨
    (∃ status, exit N s status = some t) ∨
    (∃ addr ok, t = (wait N s addr ok).k) := by
  cases hst with
  | scheduler_entry _ => exact Or.inl (keeps_ids_of_eq rfl rfl)
  | scheduler_loop _ => exact Or.inl (keeps_ids_scheduler_loop s)
  | clock_tick => exact Or.inl (keeps_ids_of_eq rfl rfl)
  | fork kalloc pt uv _ => exact Or.inr (Or.inl ⟨kalloc, pt, uv, rfl⟩)
  | sleep chan _ => exact Or.inl (keeps_ids_sleep N s chan)
  | sleep_resume _ => exact Or.inl (keeps_ids_sleep_resume s)
  | wakeup chan => exact Or.inl (keeps_ids_wakeup N s chan)
  | kill pid => exact Or.inl (keeps_ids_kill N s pid)
  | exit _ status he => exact Or.inr (Or.inr (Or.inl ⟨status, he⟩))
  | wait addr ok _ => exact Or.inr (Or.inr (Or.inr ⟨addr, ok, rfl⟩))
  | yield _ => exact Or.inl (keeps_ids_yield N s)
  | schedule => exact Or.inl (keeps_ids_schedule N s)
  | age_boost => exact Or.inl (keeps_ids_age_boost N s)

theorem exit_cur {N : Nat} {s t : kernel} {status : Int} (he : exit N s status = some t) :
    ∃ p, s.cpu_proc = some p := by
  cases hc : s.cpu_proc with
  | none =>
    unfold exit at he
    rw [hc] at he
    simp at he
  | some p => exact ⟨p, rfl⟩

/-- Every step leaves the pid counter as it is or advances it by one. -/
theorem step_nextpid {N : Nat} {s t : kernel} (hst : Step N s t) :
    t.nextpid = s.nextpid ∨ t.nextpid = s.nextpid + 1 := by
  rcases step_keeps_ids hst with h | ⟨kalloc, pt, uv, rfl⟩ | ⟨status, he⟩ | ⟨addr, ok, rfl⟩
  · exact Or.inl h.1
  · exact (fork_frame N s kalloc pt uv).1
  · obtain ⟨p, hp⟩ := exit_cur he
    exact Or.inl (exit_frame status hp he).1
  · exact Or.inl (wait_frame N s addr ok).1

theorem step_idle_pid {N : Nat} {s t : kernel} (hidle : s.idleproc = some 0)
    (hst : Step N s t) (h : (s.proc 0).pid = 0) : (t.proc 0).pid = 0 := by
  rcases step_keeps_ids hst with hk | ⟨kalloc, pt, uv, rfl⟩ | ⟨status, he⟩ | ⟨addr, ok, rfl⟩
  · rw [(hk.2 0).1]; exact h
  · rcases (fork_frame N s kalloc pt uv).2 0 with e | e
    · rw [e]; exact h
    · exact absurd hidle.symm (first_free_spec e).2.1
  · obtain ⟨p, hp⟩ := exit_cur he
    rw [(exit_frame status hp he).2.1 0]
    exact h
  · rcases (wait_frame N s addr ok).2 0 with e | ⟨_, e⟩
    · rw [e.1]; exact h
    · rw [e]

/-- The function `userinit()` writes at most the first free slot. -/
theorem userinit_frame (N : Nat) (s : kernel) (kalloc : Option trapframe) (pagetable_ok : Bool) :
    ∀ j, (userinit N s kalloc pagetable_ok).proc j = s.proc j ∨ first_free N s j := by
  have hfr := allocproc_frame N s kalloc pagetable_ok
  unfold userinit
  rcases ha : allocproc N s kalloc pagetable_ok with ⟨r, s1⟩
  rw [ha] at hfr
  simp only at hfr
  obtain ⟨_, _, _, _, _, h6⟩ := hfr
  have h6b : ∀ j, s1.proc j = s.proc j ∨ first_free N s j := by
    intro j
    rcases h6 j with e | ⟨e, _⟩
    · exact Or.inl e
    · exact Or.inr e
  cases r with
  | none => exact h6b
  | some p =>
    have hff : first_free N s p := allocproc_some (by rw [ha])
    simp only
    intro j
    by_cases hj : j = p
    · subst hj; exact Or.inr hff
    · rw [mlfq_enqueue_proc_ne N _ _ hj, set_state_proc_ne _ _ hj, set_proc_proc_ne _ _ hj]
      exact h6b j

/-- In every reachable state the idle slot has pid 0. -/
theorem reachable_idle_pid {N : Nat} (hN : 0 < N) {s : kernel} (h : Reachable N s) :
    (s.proc 0).pid = 0 := by
  induction h with
  | boot tf =>
    have hp : ((procinit N kernel_zero).proc 0).pid = 0 := by
      rw [procinit_eq]
      simp only [mlfq_init_proc]
      rcases mlfq_enqueue_proc_same N
        (set_proc { procinit_reset N kernel_zero with idleproc := some 0 } 0
          { (procinit_reset N kernel_zero).proc 0 with
            state := RUNNABLE, pid := 0, priority := (NMLFQ : Int) - 1, name := "idle" })
        ((NMLFQ : Int) - 1) 0 with e | e <;> rw [e] <;> simp
    rcases userinit_frame N (procinit N kernel_zero) (some tf) true 0 with e | e
    · show ((userinit N (procinit N kernel_zero) (some tf) true).proc 0).pid = 0
      rw [e]
      exact hp
    · exact absurd (kernel_inv_procinit hN).1.idle.symm (first_free_spec e).2.1
  | step s t hs hst ih => exact step_idle_pid (kernel_inv_reachable hN hs).1.idle hst ih



/-! ### The range of the priority fields -/

theorem prio_ok_of_eq {s t : kernel} (h : prio_ok s) (hp : t.proc = s.proc) : prio_ok t := by
  intro i
  rw [hp]
  exact h i

theorem prio_ok_set {s : kernel} (h : prio_ok s) (p : Nat) (v : proc)
    (hv : 0 ≤ v.priority ∧ v.priority < (NMLFQ : Int)) : prio_ok (set_proc s p v) := by
  intro i
  by_cases hi : i = p
  · subst hi
    rw [set_proc_proc_same]
    exact hv
  · rw [set_proc_proc_ne _ _ hi]
    exact h i

theorem prio_ok_set_state {s : kernel} (h : prio_ok s) (p : Nat) (st : procstate) :
    prio_ok (set_state s p st) :=
  prio_ok_set h p { s.proc p with state := st } (h p)

/-- Whatever the integer passed, `mlfq_enqueue` keeps the priorities in
range: it writes the clamped value. -/
theorem prio_ok_enqueue {N : Nat} {s : kernel} (h : prio_ok s) (pr : Int) (p : Nat) :
    prio_ok (mlfq_enqueue N s pr p) := by
  intro i
  by_cases hip : i = p
  · subst hip
    rcases mlfq_enqueue_proc_same N s pr i with e | e <;> rw [e]
    · exact h i
    · exact clamp_priority_range pr
  · rw [mlfq_enqueue_proc_ne N s pr hip]
    exact h i

theorem prio_ok_requeue {N : Nat} {s : kernel} (h : prio_ok s) :
    prio_ok (schedule_requeue N s) := by
  unfold schedule_requeue
  split
  · exact h
  · split_ifs
    · exact prio_ok_enqueue (prio_ok_set_state h _ RUNNABLE) _ _
    · exact h

theorem prio_ok_switch {s : kernel} (h : prio_ok s) (next : Option Nat) :
    prio_ok (schedule_switch s next) := by
  intro j
  rcases schedule_switch_proc s next j with e | ⟨_, e, _⟩ <;> rw [e] <;> exact h j

theorem prio_ok_schedule {N : Nat} {s : kernel} (h : prio_ok s) : prio_ok (schedule N s) := by
  unfold schedule
  simp only
  exact prio_ok_switch (prio_ok_of_eq (prio_ok_requeue h) (schedule_pick_proc N _ _)) _

theorem prio_ok_yield {N : Nat} {s : kernel} (h : prio_ok s) : prio_ok (yield N s) := by
  unfold yield
  split
  · exact h
  · split_ifs
    · simp only
      exact prio_ok_switch (prio_ok_of_eq h (yield_pick_proc N _ _)) _
    · exact prio_ok_schedule h

theorem prio_ok_wakeup_step {N : Nat} {s : kernel} (h : prio_ok s) (chan : Chan) (p : Nat) :
    prio_ok (wakeup_step N chan s p) := by
  by_cases hw : wakes s chan p
  · rw [wakeup_step_wake N chan s p hw]
    exact prio_ok_enqueue (prio_ok_set_state h p RUNNABLE) _ _
  · rw [wakeup_step_skip N chan s p hw]
    exact h

theorem prio_ok_wakeup {N : Nat} {s : kernel} (h : prio_ok s) (chan : Chan) :
    prio_ok (wakeup N s chan) :=
  foldl_preserves prio_ok (wakeup_step N chan) (List.range N)
    (fun _ x _ ha => prio_ok_wakeup_step ha chan x) s h

theorem prio_ok_reparent {N : Nat} {s : kernel} (h : prio_ok s) (p : Nat) :
    prio_ok (reparent N s p) := by
  rw [reparent_eq]
  refine foldl_preserves prio_ok _ (List.range N) ?_ s h
  intro a pp _ ha
  simp only
  split_ifs
  · exact prio_ok_wakeup (prio_ok_set ha pp { a.proc pp with parent := a.initproc } (ha pp)) _
  · exact ha

theorem prio_ok_kill {N : Nat} {s : kernel} (h : prio_ok s) (pid : Int) :
    prio_ok (kill N s pid).2 := by
  cases hf : (List.range N).find? (fun p => some p != s.idleproc && (s.proc p).pid == pid) with
  | none => rw [kill_not_found N s pid hf]; exact h
  | some p =>
    rw [kill_found N s pid p hf]
    have h1 : prio_ok (set_proc s p { s.proc p with killed := 1 }) :=
      prio_ok_set h p { s.proc p with killed := 1 } (h p)
    split_ifs
    · exact prio_ok_enqueue (prio_ok_set_state h1 p RUNNABLE) _ _
    · exact h1

theorem prio_ok_sleep {N : Nat} {s : kernel} (h : prio_ok s) (chan : Chan) :
    prio_ok (sleep N s chan) := by
  unfold sleep
  split
  · exact h
  · rename_i p _
    exact prio_ok_schedule
      (prio_ok_set h p { s.proc p with chan := chan, state := SLEEPING } (h p))

theorem prio_ok_sleep_resume {s : kernel} (h : prio_ok s) : prio_ok (sleep_resume s) := by
  unfold sleep_resume
  split
  · exact h
  · rename_i p _
    exact prio_ok_set h p { s.proc p with chan := Chan.null } (h p)

theorem prio_ok_freeproc {s : kernel} (h : prio_ok s) (p : Nat) : prio_ok (freeproc s p) := by
  unfold freeproc
  exact prio_ok_set h p _ (h p)

theorem prio_ok_exit {N : Nat} {s t : kernel} (h : prio_ok s) (status : Int)
    (he : exit N s status = some t) : prio_ok t := by
  unfold exit at he
  split at he
  · simp at he
  · rename_i p hp
    simp only at he
    split_ifs at he
    cases Option.some.inj he
    have h3 : prio_ok (wakeup N (reparent N (mlfq_remove N s (some p)) p)
        (Chan.ofPtr ((reparent N (mlfq_remove N s (some p)) p).proc p).parent)) :=
      prio_ok_wakeup (prio_ok_reparent (prio_ok_of_eq h (mlfq_remove_proc N s (some p))) p) _
    exact prio_ok_schedule (prio_ok_set h3 p _ (h3 p))

theorem prio_ok_wait {N : Nat} {s : kernel} (h : prio_ok s) (addr : Nat) (copyout_ok : Bool) :
    prio_ok (wait N s addr copyout_ok).k := by
  unfold wait
  split
  · exact h
  · split
    · by_cases hfail : addr ≠ 0 ∧ copyout_ok = false
      · rw [if_pos hfail]
        exact h
      · rw [if_neg hfail]
        exact prio_ok_freeproc h _
    · simp only
      split_ifs
      · exact h
      · exact prio_ok_sleep h _

theorem prio_ok_allocproc {N : Nat} {s : kernel} (h : prio_ok s) (kalloc : Option trapframe)
    (pagetable_ok : Bool) : prio_ok (allocproc N s kalloc pagetable_ok).2 := by
  unfold allocproc
  split
  · exact h
  · rename_i p _
    have h0 : prio_ok (allocpid s).2 := prio_ok_of_eq h rfl
    have h1 := prio_ok_set h0 p
      { (allocpid s).2.proc p with pid := (allocpid s).1, state := USED } (h0 p)
    have h2 := prio_ok_set h1 p
      { (set_proc (allocpid s).2 p
          { (allocpid s).2.proc p with pid := (allocpid s).1, state := USED }).proc p with
        trapframe := kalloc } (h1 p)
    have h3 := prio_ok_set h2 p
      { (set_proc (set_proc (allocpid s).2 p
          { (allocpid s).2.proc p with pid := (allocpid s).1, state := USED }) p
          { (set_proc (allocpid s).2 p
              { (allocpid s).2.proc p with pid := (allocpid s).1, state := USED }).proc p with
            trapframe := kalloc }).proc p with pagetable := pagetable_ok } (h2 p)
    simp only
    split_ifs
    · exact prio_ok_freeproc h2 p
    · exact prio_ok_freeproc h3 p
    · exact prio_ok_set h3 p _ ⟨by simp, by simp [NMLFQ_eq]⟩

theorem prio_ok_fork {N : Nat} {s : kernel} (h : prio_ok s) (kalloc : Option trapframe)
    (pagetable_ok uvmcopy_ok : Bool) : prio_ok (fork N s kalloc pagetable_ok uvmcopy_ok).2 := by
  have h1 := prio_ok_allocproc (N := N) h kalloc pagetable_ok
  unfold fork
  rcases ha : allocproc N s kalloc pagetable_ok with ⟨r, s1⟩
  rw [ha] at h1
  simp only at h1
  cases r with
  | none => exact h1
  | some np =>
    simp only
    split
    · exact h1
    · rename_i p _
      split_ifs
      · exact prio_ok_freeproc h1 np
      · simp only
        have h4 := prio_ok_set h1 np
          { s1.proc np with trapframe := some { a0 := 0 },
                            name := (s1.proc p).name,
                            priority := (s1.proc p).priority,
                            ticks_in_queue := 0,
                            entry_time := s1.ticks } (h1 p)
        have h5 := prio_ok_set h4 np
          { (set_proc s1 np
              { s1.proc np with trapframe := some { a0 := 0 },
                                name := (s1.proc p).name,
                                priority := (s1.proc p).priority,
                                ticks_in_queue := 0,
                                entry_time := s1.ticks }).proc np with parent := some p }
          (h4 np)
        exact prio_ok_enqueue (prio_ok_set_state h5 np RUNNABLE) _ _

theorem prio_ok_userinit {N : Nat} {s : kernel} (h : prio_ok s) (kalloc : Option trapframe)
    (pagetable_ok : Bool) : prio_ok (userinit N s kalloc pagetable_ok) := by
  have h1 := prio_ok_allocproc (N := N) h kalloc pagetable_ok
  unfold userinit
  rcases ha : allocproc N s kalloc pagetable_ok with ⟨r, s1⟩
  rw [ha] at h1
  simp only at h1
  cases r with
  | none => exact prio_ok_of_eq h1 rfl
  | some p =>
    simp only
    have h2 : prio_ok ({ s1 with initproc := some p } : kernel) := prio_ok_of_eq h1 rfl
    have h4 := prio_ok_set h2 p
      { ({ s1 with initproc := some p } : kernel).proc p with name := "initcode" } (h2 p)
    exact prio_ok_enqueue (prio_ok_set_state h4 p RUNNABLE) _ _

theorem prio_ok_age_boost {N : Nat} {s : kernel} (h : prio_ok s) : prio_ok (age_boost N s) := by
  unfold age_boost
  refine foldl_preserves prio_ok _ _ ?_ s h
  intro a prio _ ha
  unfold age_boost_level
  refine foldl_preserves prio_ok _ _ ?_ a ha
  intro b p _ hb
  exact prio_ok_enqueue (prio_ok_of_eq hb (mlfq_remove_proc N b (some p))) _ _

theorem prio_ok_scheduler_loop {s : kernel} (h : prio_ok s) : prio_ok (scheduler_loop s) := by
  unfold scheduler_loop
  split
  · exact h
  · split_ifs
    · exact prio_ok_set_state h _ RUNNABLE
    · exact h

theorem prio_ok_procinit (N : Nat) : prio_ok (procinit N kernel_zero) :=
  (table_inv_procinit N).prio

theorem prio_ok_step {N : Nat} {s t : kernel} (h : prio_ok s) (hst : Step N s t) :
    prio_ok t := by
  cases hst with
  | scheduler_entry _ => exact prio_ok_of_eq h rfl
  | scheduler_loop _ => exact prio_ok_scheduler_loop h
  | clock_tick => exact prio_ok_of_eq h rfl
  | fork kalloc pt uv _ => exact prio_ok_fork h kalloc pt uv
  | sleep chan _ => exact prio_ok_sleep h chan
  | sleep_resume _ => exact prio_ok_sleep_resume h
  | wakeup chan => exact prio_ok_wakeup h chan
  | kill pid => exact prio_ok_kill h pid
  | exit _ status he => exact prio_ok_exit h status he
  | wait addr ok _ => exact prio_ok_wait h addr ok
  | yield _ => exact prio_ok_yield h
  | schedule => exact prio_ok_schedule h
  | age_boost => exact prio_ok_age_boost h

theorem prio_ok_prio_step {N : Nat} {s t : kernel} (h : prio_ok s) (hst : PrioStep N s t) :
    prio_ok t := by
  cases hst with
  | step _ h1 => exact prio_ok_step h h1
  | userinit kalloc pt => exact prio_ok_userinit h kalloc pt
  | mlfq_enqueue pr p => exact prio_ok_enqueue h pr p

theorem prio_ok_reachable {N : Nat} {s : kernel} (h : PrioReachable N s) : prio_ok s := by
  induction h with
  | procinit => exact prio_ok_procinit N
  | step s t _ hst ih => exact prio_ok_prio_step ih hst

theorem prio_reachable_of_reachable {N : Nat} {s : kernel} (h : Reachable N s) :
    PrioReachable N s := by
  induction h with
  | boot tf =>
    exact PrioReachable.step _ _ PrioReachable.procinit (PrioStep.userinit _ _ _)
  | step s t _ hst ih => exact PrioReachable.step _ _ ih (PrioStep.step _ _ hst)



/-! ### The state of the idle task -/

theorem step_of_proc_step {N : Nat} {s t : kernel} (h : ProcStep N s t) : Step N s t := by
  cases h with
  | scheduler_entry h => exact Step.scheduler_entry _ h
  | scheduler_loop h => exact Step.scheduler_loop _ h
  | clock_tick => exact Step.clock_tick _
  | fork kalloc pt uv h _ => exact Step.fork _ kalloc pt uv h
  | sleep chan h _ => exact Step.sleep _ chan h
  | sleep_resume h _ => exact Step.sleep_resume _ h
  | wakeup chan => exact Step.wakeup _ chan
  | kill pid => exact Step.kill _ pid
  | exit _ status _ h => exact Step.exit _ _ status h
  | wait addr ok h _ => exact Step.wait _ addr ok h
  | yield h => exact Step.yield _ h
  | schedule => exact Step.schedule _
  | age_boost => exact Step.age_boost _

theorem reachable_of_proc_reachable {N : Nat} {s : kernel} (h : ProcReachable N s) :
    Reachable N s := by
  induction h with
  | boot tf => exact Reachable.boot tf
  | step s t _ hst ih => exact Reachable.step _ _ ih (step_of_proc_step hst)

/-- The switch of `schedule()` and `yield()` leaves the state of the idle task
as it is or sets it to RUNNING. -/
theorem idle_switch (s : kernel) (next : Option Nat) (i : Nat) :
    ((schedule_switch s next).proc i).state = (s.proc i).state ∨
    ((schedule_switch s next).proc i).state = RUNNING := by
  rcases schedule_switch_proc s next i with e | ⟨_, e, _⟩
  · rw [e]; exact Or.inl rfl
  · rw [e]; exact Or.inr rfl

theorem idle_schedule (N : Nat) (s : kernel) (i : Nat) (hi : s.idleproc = some i) :
    ((schedule N s).proc i).state = (s.proc i).state ∨
    ((schedule N s).proc i).state = RUNNING := by
  have hq := quiet_trans _ _ _ (quiet_requeue N s)
    (quiet_pick N (List.range NMLFQ) (schedule_requeue N s))
  unfold schedule
  simp only
  rcases idle_switch (schedule_pick N (List.range NMLFQ) (schedule_requeue N s)).2
    (schedule_pick N (List.range NMLFQ) (schedule_requeue N s)).1 i with e | e
  · rw [e, hq.2.2.2 i hi]
    exact Or.inl rfl
  · exact Or.inr e

theorem idle_yield (N : Nat) (s : kernel) (i : Nat) (hi : s.idleproc = some i) :
    ((yield N s).proc i).state = (s.proc i).state ∨ ((yield N s).proc i).state = RUNNING := by
  unfold yield
  split
  · exact Or.inl rfl
  · split_ifs
    · simp only
      rcases idle_switch (yield_pick N (List.range NMLFQ) s).2
        (yield_pick N (List.range NMLFQ) s).1 i with e | e
      · rw [e, yield_pick_proc]
        exact Or.inl rfl
      · exact Or.inr e
    · exact idle_schedule N s i hi

theorem idle_sleep (N : Nat) (s : kernel) (chan : Chan) (i : Nat) (hi : s.idleproc = some i)
    (hcur : s.cpu_proc ≠ s.idleproc) :
    ((sleep N s chan).proc i).state = (s.proc i).state ∨
    ((sleep N s chan).proc i).state = RUNNING := by
  unfold sleep
  split
  · exact Or.inl rfl
  · rename_i p hp
    have hpi : p ≠ i := by
      intro e
      apply hcur
      rw [hp, hi, e]
    rcases idle_schedule N (set_proc s p { s.proc p with chan := chan, state := SLEEPING }) i
      (by simpa using hi) with e | e
    · rw [e, set_proc_proc_ne _ _ (Ne.symm hpi)]
      exact Or.inl rfl
    · exact Or.inr e

theorem idle_exit {N : Nat} {s t : kernel} (status : Int) (i : Nat) (hi : s.idleproc = some i)
    (hcur : s.cpu_proc ≠ s.idleproc) (he : exit N s status = some t) :
    (t.proc i).state = (s.proc i).state ∨ (t.proc i).state = RUNNING := by
  unfold exit at he
  split at he
  · simp at he
  · rename_i p hp
    have hpi : p ≠ i := by
      intro e
      apply hcur
      rw [hp, hi, e]
    simp only at he
    split_ifs at he
    cases Option.some.inj he
    have hq := quiet_trans _ _ _ (quiet_remove N s (some p))
      (quiet_trans _ _ _ (quiet_reparent N (mlfq_remove N s (some p)) p)
        (quiet_wakeup N (reparent N (mlfq_remove N s (some p)) p)
          (Chan.ofPtr ((reparent N (mlfq_remove N s (some p)) p).proc p).parent)))
    generalize wakeup N (reparent N (mlfq_remove N s (some p)) p)
      (Chan.ofPtr ((reparent N (mlfq_remove N s (some p)) p).proc p).parent) = s3 at hq
    rcases idle_schedule N
      (set_proc s3 p { s3.proc p with xstate := status, state := ZOMBIE }) i
      (by rw [set_proc_idleproc, hq.2.1]; exact hi) with e | e
    · rw [e, set_proc_proc_ne _ _ (Ne.symm hpi), hq.2.2.2 i hi]
      exact Or.inl rfl
    · exact Or.inr e

theorem idle_wait (N : Nat) (s : kernel) (addr : Nat) (copyout_ok : Bool) (i : Nat)
    (hi : s.idleproc = some i) (hcur : s.cpu_proc ≠ s.idleproc)
    (hz : (s.proc i).state ≠ ZOMBIE) :
    ((wait N s addr copyout_ok).k.proc i).state = (s.proc i).state ∨
    ((wait N s addr copyout_ok).k.proc i).state = RUNNING := by
  unfold wait
  split
  · exact Or.inl rfl
  · rename_i p hp
    split
    · rename_i pp hpp
      by_cases hfail : addr ≠ 0 ∧ copyout_ok = false
      · rw [if_pos hfail]
        exact Or.inl rfl
      · rw [if_neg hfail]
        simp only
        rw [List.find?_range_eq_some] at hpp
        have hzz : (s.proc pp).state = ZOMBIE := by
          have := hpp.1
          simp only [Bool.and_eq_true, beq_iff_eq] at this
          exact this.2
        have hne : i ≠ pp := by
          intro e
          rw [e] at hz
          exact hz hzz
        unfold freeproc
        rw [set_proc_proc_ne _ _ hne]
        exact Or.inl rfl
    · simp only
      split_ifs
      · exact Or.inl rfl
      · exact idle_sleep N s _ i hi hcur

/-- A step in which no process operation is called by the idle task leaves
the idle task RUNNABLE or RUNNING. -/
theorem idle_step {N : Nat} {s t : kernel} (hidle : s.idleproc = some 0)
    (h : (s.proc 0).state = RUNNABLE ∨ (s.proc 0).state = RUNNING) (hst : ProcStep N s t) :
    (t.proc 0).state = RUNNABLE ∨ (t.proc 0).state = RUNNING := by
  have key : ∀ u : kernel, ((u.proc 0).state = (s.proc 0).state ∨ (u.proc 0).state = RUNNING) →
      ((u.proc 0).state = RUNNABLE ∨ (u.proc 0).state = RUNNING) := by
    intro u hu
    rcases hu with e | e
    · rw [e]; exact h
    · exact Or.inr e
  cases hst with
  | scheduler_entry _ => exact h
  | scheduler_loop _ =>
    unfold scheduler_loop
    rw [hidle]
    simp only
    split_ifs with hc
    · left; simp
    · left
      by_contra hcon
      exact hc hcon
  | clock_tick => exact h
  | fork kalloc pt uv _ _ =>
    exact key _ (Or.inl ((quiet_fork N s kalloc pt uv).2.2.2 0 hidle))
  | sleep chan _ hi => exact key _ (idle_sleep N s chan 0 hidle hi)
  | sleep_resume _ _ => exact key _ (Or.inl ((quiet_sleep_resume s).2.2.2 0 hidle))
  | wakeup chan => exact key _ (Or.inl ((quiet_wakeup N s chan).2.2.2 0 hidle))
  | kill pid => exact key _ (Or.inl ((quiet_kill N s pid).2.2.2 0 hidle))
  | exit _ status hi he => exact key _ (idle_exit status 0 hidle hi he)
  | wait addr ok _ hi =>
    apply key _ (idle_wait N s addr ok 0 hidle hi _)
    rcases h with e | e <;> rw [e] <;> decide
  | yield _ => exact key _ (idle_yield N s 0 hidle)
  | schedule => exact key _ (idle_schedule N s 0 hidle)
  | age_boost => exact key _ (Or.inl ((quiet_age_boost N s).2.2.2 0 hidle))

theorem idle_reachable {N : Nat} (hN : 0 < N) {s : kernel} (h : ProcReachable N s) :
    (s.proc 0).state = RUNNABLE ∨ (s.proc 0).state = RUNNING := by
  induction h with
  | boot tf =>
    left
    have hk := kernel_inv_procinit hN
    have hq := quiet_userinit N (procinit N kernel_zero) (some tf) true
    show ((userinit N (procinit N kernel_zero) (some tf) true).proc 0).state = RUNNABLE
    rw [hq.2.2.2 0 hk.1.idle, procinit_eq]
    simp
  | step s t hs hst ih =>
    exact idle_step (kernel_inv_reachable hN (reachable_of_proc_reachable hs)).1.idle ih hst

/-- With an idle process to fall back to, `schedule()` leaves a current
process, RUNNING. -/
theorem schedule_current (N : Nat) (s : kernel) (i : Nat) (hi : s.idleproc = some i) :
    ∃ n, (schedule N s).cpu_proc = some n ∧ ((schedule N s).proc n).state = RUNNING := by
  unfold schedule
  simp only
  cases (schedule_pick N (List.range NMLFQ) (schedule_requeue N s)).1 with
  | some n => exact ⟨n, by rw [schedule_switch_some], by rw [schedule_switch_some]; simp⟩
  | none =>
    have h2 : (schedule_pick N (List.range NMLFQ) (schedule_requeue N s)).2.idleproc = some i := by
      simpa using hi
    exact ⟨i, by rw [schedule_switch_none _ i h2], by rw [schedule_switch_none _ i h2]; simp⟩

/-- When `schedule()` chooses another descriptor than `i`, the state of `i` is
written only by the putting back of the current process. -/
theorem schedule_other (N : Nat) (s : kernel) (i : Nat) (h : (schedule N s).cpu_proc ≠ some i) :
    (schedule N s).proc i = (schedule_requeue N s).proc i := by
  unfold schedule at h ⊢
  simp only at h ⊢
  rcases schedule_switch_proc
    (schedule_pick N (List.range NMLFQ) (schedule_requeue N s)).2
    (schedule_pick N (List.range NMLFQ) (schedule_requeue N s)).1 i with e | ⟨e, _, _⟩
  · rw [e, schedule_pick_proc]
  · exact absurd e h

/-- With every queue empty once the current process is put back, `schedule()`
falls back to the idle task. -/
theorem schedule_fallback (N : Nat) (s : kernel) (i : Nat) (hi : s.idleproc = some i)
    (hempty : ∀ k, k < NMLFQ → queue_entries N (schedule_requeue N s) k = []) :
    (schedule N s).cpu_proc = some i := by
  have hpick := schedule_pick_empty N (List.range NMLFQ) (schedule_requeue N s)
    (fun k hk => entries_eq_nil.mp (hempty k (List.mem_range.mp hk)))
  unfold schedule
  simp only
  rw [hpick, schedule_switch_none _ i (by simpa using hi)]



/-! ### The scan of `wait` -/

/-- The scan of `wait` finds no ZOMBIE child when the caller `p` has none. -/
theorem wait_no_zombie (N : Nat) (s : kernel) (p : Nat)
    (h : ∀ pp, pp < N → (s.proc pp).parent = some p → (s.proc pp).state ≠ ZOMBIE) :
    (List.range N).find?
      (fun pp => (s.proc pp).parent == some p && (s.proc pp).state == ZOMBIE) = none := by
  rw [List.find?_range_eq_none]
  intro j hj
  by_cases hpar : (s.proc j).parent = some p
  · simp [hpar, h j hj hpar]
  · simp [hpar]

/-- The scan of `wait` stops at a ZOMBIE child whenever the caller has one. -/
theorem wait_some_zombie (N : Nat) (s : kernel) (p pp : Nat) (hpp : pp < N)
    (hpar : (s.proc pp).parent = some p) (hz : (s.proc pp).state = ZOMBIE) :
    ∃ c, (List.range N).find?
      (fun pp => (s.proc pp).parent == some p && (s.proc pp).state == ZOMBIE) = some c := by
  cases hf : (List.range N).find?
      (fun pp => (s.proc pp).parent == some p && (s.proc pp).state == ZOMBIE) with
  | some c => exact ⟨c, rfl⟩
  | none =>
    rw [List.find?_range_eq_none] at hf
    have := hf pp hpp
    simp [hpar, hz] at this

/-- The scan of `wait` stops at `c`, the first ZOMBIE child of `p` in table
order. -/
theorem wait_first_zombie (N : Nat) (s : kernel) (p c : Nat) (hc : c < N)
    (hpar : (s.proc c).parent = some p) (hz : (s.proc c).state = ZOMBIE)
    (hfirst : ∀ j, j < c → ¬ ((s.proc j).parent = some p ∧ (s.proc j).state = ZOMBIE)) :
    (List.range N).find?
      (fun pp => (s.proc pp).parent == some p && (s.proc pp).state == ZOMBIE) = some c := by
  rw [List.find?_range_eq_some]
  refine ⟨by simp [hpar, hz], List.mem_range.mpr hc, ?_⟩
  intro j hj
  have := hfirst j hj
  by_cases h1 : (s.proc j).parent = some p
  · have h2 : (s.proc j).state ≠ ZOMBIE := fun e => this ⟨h1, e⟩
    simp [h1, h2]
  · simp [h1]



/-! ### A ZOMBIE keeps its pid and its exit status until it is freed -/

theorem zombie_step {N : Nat} {s t : kernel} {c : Nat} (hk : kernel_inv N s) (hc0 : c ≠ 0)
    (hz : (s.proc c).state = ZOMBIE) (hst : Step N s t) (hz2 : (t.proc c).state = ZOMBIE) :
    (t.proc c).pid = (s.proc c).pid ∧ (t.proc c).xstate = (s.proc c).xstate := by
  rcases step_keeps_ids hst with h | ⟨kalloc, pt, uv, rfl⟩ | ⟨status, he⟩ | ⟨addr, ok, rfl⟩
  · exact h.2 c
  · rcases (fork_frame N s kalloc pt uv).2 c with e | e
    · rw [e]
      exact ⟨rfl, rfl⟩
    · have := (first_free_spec e).2.2
      rw [hz] at this
      exact absurd this (by decide)
  · obtain ⟨p, hp⟩ := exit_cur he
    have hf := exit_frame status hp he
    have hne : c ≠ p := by
      intro e
      subst e
      have := (hk.2 c hp).2 hc0
      rw [hz] at this
      exact absurd this (by decide)
    exact ⟨hf.2.1 c, hf.2.2.1 c hne⟩
  · rcases (wait_frame N s addr ok).2 c with e | ⟨_, e⟩
    · exact e
    · rw [e] at hz2
      have hz3 : UNUSED = ZOMBIE := hz2
      exact absurd hz3 (by decide)

/-- Along a run in which `c` stays ZOMBIE its pid and exit status stay, and
the states passed are reachable. -/
theorem zombie_run_stable {N : Nat} (hN : 0 < N) {s u : kernel} {c : Nat} (hc0 : c ≠ 0)
    (hs : Reachable N s) (hz : (s.proc c).state = ZOMBIE) (hrun : zombie_run N c s u) :
    Reachable N u ∧ (u.proc c).state = ZOMBIE ∧ (u.proc c).pid = (s.proc c).pid ∧
    (u.proc c).xstate = (s.proc c).xstate := by
  induction hrun with
  | refl => exact ⟨hs, hz, rfl, rfl⟩
  | step t u _ hst hz2 ih =>
    obtain ⟨h1, h2, h3, h4⟩ := ih
    have := zombie_step (kernel_inv_reachable hN h1) hc0 h2 hst hz2
    exact ⟨Reachable.step _ _ h1 hst, hz2, by rw [this.1, h3], by rw [this.2, h4]⟩

/-- What the pass of `wait(addr)` does that finds the ZOMBIE child `c` first,
the copy of the status succeeding. -/
theorem wait_reaps (N : Nat) (s : kernel) (p c : Nat) (addr : Nat) (hcur : s.cpu_proc = some p)
    (hc : c < N) (hpar : (s.proc c).parent = some p) (hz : (s.proc c).state = ZOMBIE)
    (hfirst : ∀ j, j < c → ¬ ((s.proc j).parent = some p ∧ (s.proc j).state = ZOMBIE)) :
    wait N s addr true =
      { ret := some (s.proc c).pid,
        copied := if addr ≠ 0 then some (s.proc c).xstate else none,
        k := freeproc s c } := by
  have hf := wait_first_zombie N s p c hc hpar hz hfirst
  unfold wait
  rw [hcur]
  simp only
  rw [hf]
  simp



/-! ### The collecting loop of `age_boost` -/

/-- The collecting loop over the positions `l`, started with `acc`: while the
list stays within `N` entries the bound `boost_count < NPROC` never cuts. -/
theorem collect_fold (N : Nat) (s : kernel) (q : mlfq_queue) (l : List Nat) :
    ∀ acc : List Nat, acc.length + l.length ≤ N →
      l.foldl
        (fun boost_list i =>
          if boost_list.length < N then
            match q.procs ((q.front + i) % N) with
            | some p =>
              if s.ticks - (s.proc p).entry_time > 200 then boost_list ++ [p] else boost_list
            | none => boost_list
          else boost_list) acc =
      acc ++ l.filterMap (fun i => boost_pick s (q.procs ((q.front + i) % N))) := by
  induction l with
  | nil => intro acc _; simp
  | cons i l ih =>
    intro acc hlen
    simp only [List.length_cons] at hlen
    have hacc : acc.length < N := by omega
    simp only [List.foldl_cons, if_pos hacc]
    cases hq : q.procs ((q.front + i) % N) with
    | none =>
      simp only
      rw [ih acc (by omega)]
      simp [List.filterMap_cons, hq, boost_pick]
    | some p =>
      simp only
      by_cases ha : s.ticks - (s.proc p).entry_time > 200
      · rw [if_pos ha, ih (acc ++ [p]) (by simp; omega)]
        have hb : boost_pick s (some p) = some p := by
          simp [boost_pick, aged, ha]
        simp [List.filterMap_cons, hq, hb]
      · rw [if_neg ha, ih acc (by omega)]
        have hb : boost_pick s (some p) = none := by
          simp only [boost_pick, aged]
          rw [if_neg ha]
        simp [List.filterMap_cons, hq, hb]

/-- The list that `age_boost` collects from a well-formed queue: the entries
that pass the test, in queue order. -/
theorem age_boost_collect_eq (N : Nat) (s : kernel) (prio : Nat)
    (hw : wf_queue N (s.mlfq_queues prio)) :
    age_boost_collect N s prio = (queue_entries N s prio).filterMap (boost_pick s) := by
  have h := collect_fold N s (s.mlfq_queues prio) (List.range (s.mlfq_queues prio).count) []
    (by simp; exact hw.2.2.1)
  refine Eq.trans h ?_
  simp only [List.nil_append, queue_entries, entries, List.filterMap_map]
  rfl

theorem filterMap_boost_pick (s : kernel) (l : List (Option Nat)) :
    (l.filterMap (boost_pick s)).map some = l.filter (aged_entry s) := by
  induction l with
  | nil => rfl
  | cons x l ih =>
    cases x with
    | none => simp [List.filterMap_cons, boost_pick, aged_entry, ih]
    | some p =>
      by_cases ha : aged s p
      · simp [List.filterMap_cons, boost_pick, aged_entry, ha, ih]
      · simp [List.filterMap_cons, boost_pick, aged_entry, ha, ih]

/-- The pointers collected, as queue entries: the entries that pass the
test. -/
theorem age_boost_collect_map (N : Nat) (s : kernel) (prio : Nat)
    (hw : wf_queue N (s.mlfq_queues prio)) :
    (age_boost_collect N s prio).map some = (queue_entries N s prio).filter (aged_entry s) := by
  rw [age_boost_collect_eq N s prio hw, filterMap_boost_pick]



/-! ### One move of `age_boost`: remove, then enqueue one level up -/

theorem entry_ok_some (N : Nat) (s : kernel) (k i : Nat) :
    entry_ok N s k (some i) ↔
      (i < N ∧ some i ≠ s.idleproc ∧ (s.proc i).state = RUNNABLE ∧
        (s.proc i).priority = (k : Int) ∧ (s.proc i).entry_time ≤ s.ticks) := Iff.rfl

theorem queues_ok_entry {N : Nat} {a : kernel} (h : queues_ok N a) {k p : Nat}
    (hk : k < NMLFQ) (hm : some p ∈ queue_entries N a k) :
    p < N ∧ some p ≠ a.idleproc ∧ (a.proc p).state = RUNNABLE ∧
    (a.proc p).priority = (k : Int) ∧ (a.proc p).entry_time ≤ a.ticks :=
  (h.2 k hk).2 (some p) hm

theorem queues_ok_some {N : Nat} {a : kernel} (h : queues_ok N a) {k : Nat} {x : Option Nat}
    (hk : k < NMLFQ) (hm : x ∈ queue_entries N a k) : ∃ p, x = some p := by
  cases x with
  | none => exact absurd ((h.2 k hk).2 none hm) (fun e => e)
  | some p => exact ⟨p, rfl⟩

/-- A descriptor is in the queue of its priority only. -/
theorem queues_ok_unique {N : Nat} {a : kernel} (h : queues_ok N a) {k j p : Nat}
    (hk : k < NMLFQ) (hj : j < NMLFQ) (hmk : some p ∈ queue_entries N a k)
    (hmj : some p ∈ queue_entries N a j) : k = j := by
  have h1 := (queues_ok_entry h hk hmk).2.2.2.1
  have h2 := (queues_ok_entry h hj hmj).2.2.2.1
  rw [h1] at h2
  exact_mod_cast h2

/-- A list without repetition of pointers to slots of the table has at most
`N` entries. -/
theorem nodup_some_length {N : Nat} (l : List (Option Nat)) (hnd : l.Nodup)
    (h : ∀ x ∈ l, ∃ i, x = some i ∧ i < N) : l.length ≤ N := by
  have hsub : l ⊆ (List.range N).map some := by
    intro x hx
    obtain ⟨i, rfl, hi⟩ := h x hx
    exact List.mem_map.mpr ⟨i, List.mem_range.mpr hi, rfl⟩
  have := (hnd.subperm hsub).length_le
  simpa using this

/-- Two different queues hold at most `N` entries together. -/
theorem queues_ok_room {N : Nat} {a : kernel} (h : queues_ok N a) {k j : Nat}
    (hk : k < NMLFQ) (hj : j < NMLFQ) (hkj : k ≠ j) :
    (a.mlfq_queues k).count + (a.mlfq_queues j).count ≤ N := by
  have hnd : (queue_entries N a k ++ queue_entries N a j).Nodup := by
    rw [List.nodup_append]
    refine ⟨(h.2 k hk).1, (h.2 j hj).1, ?_⟩
    intro x hx hx2
    obtain ⟨p, rfl⟩ := queues_ok_some h hk hx
    exact hkj (queues_ok_unique h hk hj hx hx2)
  have := nodup_some_length (N := N) _ hnd (by
    intro x hx
    rcases List.mem_append.mp hx with hx | hx
    · obtain ⟨p, rfl⟩ := queues_ok_some h hk hx
      exact ⟨p, rfl, (queues_ok_entry h hk hx).1⟩
    · obtain ⟨p, rfl⟩ := queues_ok_some h hj hx
      exact ⟨p, rfl, (queues_ok_entry h hj hx).1⟩)
  simpa [queue_entries] using this

/-- What one move of `age_boost` does to a descriptor `p` queued at `prio`:
`p` leaves queue `prio` and is appended to queue `prio - 1` with the new
priority and a fresh entry time; nothing else changes and the queues stay as
the scheduler keeps them. -/
theorem boost_move_spec {N : Nat} {a : kernel} (h : queues_ok N a) {prio p : Nat}
    (h1 : 1 ≤ prio) (h2 : prio < NMLFQ) (hm : some p ∈ queue_entries N a prio) :
    queues_ok N (mlfq_enqueue N (mlfq_remove N a (some p)) ((prio : Int) - 1) p) ∧
    (mlfq_enqueue N (mlfq_remove N a (some p)) ((prio : Int) - 1) p).ticks = a.ticks ∧
    (mlfq_enqueue N (mlfq_remove N a (some p)) ((prio : Int) - 1) p).idleproc = a.idleproc ∧
    queue_entries N (mlfq_enqueue N (mlfq_remove N a (some p)) ((prio : Int) - 1) p) prio =
      (queue_entries N a prio).erase (some p) ∧
    queue_entries N (mlfq_enqueue N (mlfq_remove N a (some p)) ((prio : Int) - 1) p) (prio - 1) =
      queue_entries N a (prio - 1) ++ [some p] ∧
    (∀ k, k ≠ prio → k ≠ prio - 1 →
      (mlfq_enqueue N (mlfq_remove N a (some p)) ((prio : Int) - 1) p).mlfq_queues k =
        a.mlfq_queues k) ∧
    (mlfq_enqueue N (mlfq_remove N a (some p)) ((prio : Int) - 1) p).proc p =
      { a.proc p with priority := (prio : Int) - 1, ticks_in_queue := 0,
                      entry_time := a.ticks } ∧
    (∀ j, j ≠ p →
      (mlfq_enqueue N (mlfq_remove N a (some p)) ((prio : Int) - 1) p).proc j = a.proc j) := by
  obtain ⟨hpN, hpidle, hprun, hpprio, _⟩ := queues_ok_entry h h2 hm
  have hN : 0 < N := by omega
  have h5 : ((NMLFQ : Nat) : Int) = 5 := rfl
  have h6 : NMLFQ = 5 := rfl
  have htn : (a.proc p).priority.toNat = prio := by rw [hpprio]; simp
  have hcl : clamp_priority ((prio : Int) - 1) = (prio : Int) - 1 :=
    clamp_priority_of_range (by omega) (by rw [h5]; omega)
  have hcn : (clamp_priority ((prio : Int) - 1)).toNat = prio - 1 := by
    rw [hcl]; omega
  have hlow : prio - 1 < NMLFQ := by omega
  have hne : prio - 1 ≠ prio := by omega
  -- the state after the removal
  have hrproc : (mlfq_remove N a (some p)).proc = a.proc := mlfq_remove_proc N a (some p)
  have hrent : queue_entries N (mlfq_remove N a (some p)) prio =
      (queue_entries N a prio).erase (some p) := by
    have := mlfq_remove_entries N a p hpidle (by rw [hpprio]; omega)
      (by rw [hpprio, h5]; omega) (by rw [htn]; exact h.1 prio h2)
    rw [htn] at this
    exact this
  have hrq : ∀ k, k ≠ prio → (mlfq_remove N a (some p)).mlfq_queues k = a.mlfq_queues k := by
    intro k hk
    exact mlfq_remove_queue_ne N a p (by rw [htn]; exact hk)
  have hrwf := mlfq_remove_wf_queues N hN a (some p) h.1
  have hrrun : ((mlfq_remove N a (some p)).proc p).state = RUNNABLE := by rw [hrproc]; exact hprun
  have hroom : ((mlfq_remove N a (some p)).mlfq_queues
      (clamp_priority ((prio : Int) - 1)).toNat).count < N := by
    rw [hcn, hrq _ hne]
    have := queues_ok_room h hlow h2 hne
    have hpos : 0 < (a.mlfq_queues prio).count := by
      have := List.length_pos_of_mem hm
      simpa [queue_entries] using this
    omega
  have hdone := mlfq_enqueue_done N (mlfq_remove N a (some p)) ((prio : Int) - 1) p hrrun hroom
  have hent : ∀ k, queue_entries N
      (mlfq_enqueue N (mlfq_remove N a (some p)) ((prio : Int) - 1) p) k =
      if k = prio - 1 then queue_entries N a (prio - 1) ++ [some p]
      else queue_entries N (mlfq_remove N a (some p)) k := by
    intro k
    rw [mlfq_enqueue_entries N _ _ p k (by rw [hcn]; exact hrwf _ hlow), hcn]
    by_cases hk : k = prio - 1
    · rw [if_pos ⟨hk, hrrun, by rw [← hcn]; exact hroom⟩, if_pos hk, hk]
      simp only [queue_entries, hrq _ hne]
    · rw [if_neg (fun hc => hk hc.1), if_neg hk]
  have hpp : (mlfq_enqueue N (mlfq_remove N a (some p)) ((prio : Int) - 1) p).proc p =
      { a.proc p with priority := (prio : Int) - 1, ticks_in_queue := 0,
                      entry_time := a.ticks } := by
    rw [hdone]
    simp only [setAt_same, hrproc, hcl, mlfq_remove_ticks]
  have hpj : ∀ j, j ≠ p →
      (mlfq_enqueue N (mlfq_remove N a (some p)) ((prio : Int) - 1) p).proc j = a.proc j := by
    intro j hj
    rw [mlfq_enqueue_proc_ne N _ _ hj, hrproc]
  have hticks : (mlfq_enqueue N (mlfq_remove N a (some p)) ((prio : Int) - 1) p).ticks = a.ticks := by
    rw [mlfq_enqueue_ticks, mlfq_remove_ticks]
  have hidle : (mlfq_enqueue N (mlfq_remove N a (some p)) ((prio : Int) - 1) p).idleproc
      = a.idleproc := by
    rw [mlfq_enqueue_idleproc, mlfq_remove_idleproc]
  have hprio_ent : queue_entries N
      (mlfq_enqueue N (mlfq_remove N a (some p)) ((prio : Int) - 1) p) prio =
      (queue_entries N a prio).erase (some p) := by
    rw [hent prio, if_neg (Ne.symm hne), hrent]
  have hlow_ent : queue_entries N
      (mlfq_enqueue N (mlfq_remove N a (some p)) ((prio : Int) - 1) p) (prio - 1) =
      queue_entries N a (prio - 1) ++ [some p] := by
    rw [hent (prio - 1), if_pos rfl]
  have hother : ∀ k, k ≠ prio → k ≠ prio - 1 →
      (mlfq_enqueue N (mlfq_remove N a (some p)) ((prio : Int) - 1) p).mlfq_queues k =
        a.mlfq_queues k := by
    intro k hk1 hk2
    rw [mlfq_enqueue_queue_ne N _ _ p (by rw [hcn]; exact hk2), hrq k hk1]
  -- an entry other than `p` is as before
  have hkeep : ∀ k x, x ≠ some p → entry_ok N a k x →
      entry_ok N (mlfq_enqueue N (mlfq_remove N a (some p)) ((prio : Int) - 1) p) k x := by
    intro k x hx hok
    cases x with
    | none => exact hok
    | some i =>
      have hi : i ≠ p := fun e => hx (by rw [e])
      rw [entry_ok_some] at hok ⊢
      rw [hpj i hi, hticks, hidle]
      exact hok
  have hnotlow : some p ∉ queue_entries N a (prio - 1) := by
    intro hc
    exact hne (queues_ok_unique h hlow h2 hc hm)
  refine ⟨⟨mlfq_enqueue_wf_queues N hN _ _ _ hrwf, ?_⟩, hticks, hidle, hprio_ent, hlow_ent,
    hother, hpp, hpj⟩
  intro k hk
  by_cases hk1 : k = prio
  · subst hk1
    rw [hprio_ent]
    refine ⟨(h.2 k hk).1.erase _, ?_⟩
    intro x hx
    have hx2 := ((h.2 k hk).1.mem_erase_iff).mp hx
    exact hkeep k x hx2.1 ((h.2 k hk).2 x hx2.2)
  · by_cases hk2 : k = prio - 1
    · subst hk2
      rw [hlow_ent]
      refine ⟨?_, ?_⟩
      · rw [List.nodup_append]
        refine ⟨(h.2 _ hk).1, List.nodup_singleton _, ?_⟩
        intro x hx hx2
        rw [List.mem_singleton] at hx2
        rw [hx2] at hx
        exact hnotlow hx
      · intro x hx
        rcases List.mem_append.mp hx with hx | hx
        · refine hkeep _ x ?_ ((h.2 _ hk).2 x hx)
          intro e
          rw [e] at hx
          exact hnotlow hx
        · rw [List.mem_singleton] at hx
          rw [hx]
          rw [entry_ok_some, hpp, hticks, hidle]
          refine ⟨hpN, hpidle, hprun, ?_, le_refl _⟩
          show (prio : Int) - 1 = ((prio - 1 : Nat) : Int)
          omega
    · have hq := hother k hk1 hk2
      have he : queue_entries N
          (mlfq_enqueue N (mlfq_remove N a (some p)) ((prio : Int) - 1) p) k =
          queue_entries N a k := by
        simp only [queue_entries, hq]
      rw [he]
      refine ⟨(h.2 k hk).1, ?_⟩
      intro x hx
      refine hkeep k x ?_ ((h.2 k hk).2 x hx)
      intro e
      rw [e] at hx
      exact hk1 (queues_ok_unique h hk h2 hx hm)



/-! ### One level of `age_boost` -/

/-- The moves of `age_boost` for distinct descriptors `L` of queue `prio`, one
after the other. -/
theorem boost_fold {N : Nat} {prio : Nat} (h1 : 1 ≤ prio) (h2 : prio < NMLFQ) (L : List Nat) :
    ∀ a : kernel, queues_ok N a → L.Nodup → (∀ p ∈ L, some p ∈ queue_entries N a prio) →
      queues_ok N
        (L.foldl (fun s p => mlfq_enqueue N (mlfq_remove N s (some p)) ((prio : Int) - 1) p) a) ∧
      (L.foldl (fun s p => mlfq_enqueue N (mlfq_remove N s (some p)) ((prio : Int) - 1) p)
        a).ticks = a.ticks ∧
      (L.foldl (fun s p => mlfq_enqueue N (mlfq_remove N s (some p)) ((prio : Int) - 1) p)
        a).idleproc = a.idleproc ∧
      queue_entries N
        (L.foldl (fun s p => mlfq_enqueue N (mlfq_remove N s (some p)) ((prio : Int) - 1) p) a)
        prio = (queue_entries N a prio).filter (fun x => decide (x ∉ L.map some)) ∧
      queue_entries N
        (L.foldl (fun s p => mlfq_enqueue N (mlfq_remove N s (some p)) ((prio : Int) - 1) p) a)
        (prio - 1) = queue_entries N a (prio - 1) ++ L.map some ∧
      (∀ k, k ≠ prio → k ≠ prio - 1 →
        (L.foldl (fun s p => mlfq_enqueue N (mlfq_remove N s (some p)) ((prio : Int) - 1) p)
          a).mlfq_queues k = a.mlfq_queues k) ∧
      (∀ p, p ∈ L →
        (L.foldl (fun s p => mlfq_enqueue N (mlfq_remove N s (some p)) ((prio : Int) - 1) p)
          a).proc p =
          { a.proc p with priority := (prio : Int) - 1, ticks_in_queue := 0,
                          entry_time := a.ticks }) ∧
      (∀ p, p ∉ L →
        (L.foldl (fun s p => mlfq_enqueue N (mlfq_remove N s (some p)) ((prio : Int) - 1) p)
          a).proc p = a.proc p) := by
  induction L with
  | nil =>
    intro a ha _ _
    refine ⟨ha, rfl, rfl, ?_, by simp, fun _ _ _ => rfl, fun p hp => by simp at hp,
      fun _ _ => rfl⟩
    simp
  | cons p L ih =>
    intro a ha hnd hmem
    have hpL : p ∉ L := (List.nodup_cons.mp hnd).1
    have hndL : L.Nodup := (List.nodup_cons.mp hnd).2
    obtain ⟨m1, m2, m3, m4, m5, m6, m7, m8⟩ :=
      boost_move_spec ha h1 h2 (hmem p (List.mem_cons_self _ _))
    have hmem1 : ∀ q ∈ L, some q ∈ queue_entries N
        (mlfq_enqueue N (mlfq_remove N a (some p)) ((prio : Int) - 1) p) prio := by
      intro q hq
      rw [m4]
      have hqp : q ≠ p := fun e => hpL (e ▸ hq)
      exact (List.mem_erase_of_ne (fun e => hqp (Option.some.inj e))).mpr
        (hmem q (List.mem_cons_of_mem _ hq))
    obtain ⟨i1, i2, i3, i4, i5, i6, i7, i8⟩ :=
      ih (mlfq_enqueue N (mlfq_remove N a (some p)) ((prio : Int) - 1) p) m1 hndL hmem1
    simp only [List.foldl_cons]
    refine ⟨i1, i2.trans m2, i3.trans m3, ?_, ?_, ?_, ?_, ?_⟩
    · rw [i4, m4, (ha.2 prio h2).1.erase_eq_filter, List.filter_filter]
      apply List.filter_congr
      intro x _
      by_cases hx : x = some p
      · simp [hx]
      · simp [hx]
    · rw [i5, m5]
      simp
    · intro k hk1 hk2
      rw [i6 k hk1 hk2, m6 k hk1 hk2]
    · intro q hq
      rcases List.mem_cons.mp hq with e | hq
      · rw [e, i8 p hpL, m7]
      · have hqp : q ≠ p := fun e => hpL (e ▸ hq)
        rw [i7 q hq, m8 q hqp, m2]
    · intro q hq
      have hqp : q ≠ p := fun e => hq (e ▸ List.mem_cons_self _ _)
      have hqL : q ∉ L := fun e => hq (List.mem_cons_of_mem _ e)
      rw [i8 q hqL, m8 q hqp]

/-- One pass of the outer loop of `age_boost`, for queue `prio`: the entries
that pass the test leave it, in their order, for the rear of queue
`prio - 1`, with the new priority and a fresh entry time. -/
theorem age_boost_level_spec {N : Nat} {a : kernel} (ha : queues_ok N a) {prio : Nat}
    (h1 : 1 ≤ prio) (h2 : prio < NMLFQ) :
    queues_ok N (age_boost_level N a prio) ∧
    (age_boost_level N a prio).ticks = a.ticks ∧
    (age_boost_level N a prio).idleproc = a.idleproc ∧
    queue_entries N (age_boost_level N a prio) prio =
      (queue_entries N a prio).filter (fun x => !aged_entry a x) ∧
    queue_entries N (age_boost_level N a prio) (prio - 1) =
      queue_entries N a (prio - 1) ++ (queue_entries N a prio).filter (aged_entry a) ∧
    (∀ k, k ≠ prio → k ≠ prio - 1 →
      (age_boost_level N a prio).mlfq_queues k = a.mlfq_queues k) ∧
    (∀ p, some p ∈ (queue_entries N a prio).filter (aged_entry a) →
      (age_boost_level N a prio).proc p =
        { a.proc p with priority := (prio : Int) - 1, ticks_in_queue := 0,
                        entry_time := a.ticks }) ∧
    (∀ p, some p ∉ (queue_entries N a prio).filter (aged_entry a) →
      (age_boost_level N a prio).proc p = a.proc p) := by
  have hw := ha.1 prio h2
  have hmap := age_boost_collect_map N a prio hw
  have hmemL : ∀ p, p ∈ age_boost_collect N a prio ↔
      some p ∈ (queue_entries N a prio).filter (aged_entry a) := by
    intro p
    rw [← hmap, List.mem_map]
    constructor
    · intro h; exact ⟨p, h, rfl⟩
    · rintro ⟨q, hq, e⟩
      cases Option.some.inj e
      exact hq
  have hnd : (age_boost_collect N a prio).Nodup := by
    apply List.Nodup.of_map some
    rw [hmap]
    exact (ha.2 prio h2).1.filter _
  have hmem : ∀ p ∈ age_boost_collect N a prio, some p ∈ queue_entries N a prio := by
    intro p hp
    exact (List.mem_filter.mp ((hmemL p).mp hp)).1
  obtain ⟨f1, f2, f3, f4, f5, f6, f7, f8⟩ :=
    boost_fold h1 h2 (age_boost_collect N a prio) a ha hnd hmem
  unfold age_boost_level
  refine ⟨f1, f2, f3, ?_, ?_, f6, ?_, ?_⟩
  · rw [f4]
    apply List.filter_congr
    intro x hx
    rw [hmap]
    simp only [List.mem_filter, hx, true_and]
    cases aged_entry a x <;> simp
  · rw [f5, hmap]
  · intro p hp
    exact f7 p ((hmemL p).mpr hp)
  · intro p hp
    exact f8 p (fun h => hp ((hmemL p).mp h))



/-! ### The whole of `age_boost` -/

theorem boosted_eq {N : Nat} {s : kernel} {k : Nat} (h1 : 1 ≤ k) (h2 : k < NMLFQ) :
    boosted N s k = (queue_entries N s k).filter (aged_entry s) := by
  unfold boosted
  rw [if_pos ⟨h1, h2⟩]

theorem boosted_top {N : Nat} {s : kernel} {k : Nat} (h : NMLFQ ≤ k) : boosted N s k = [] := by
  unfold boosted
  rw [if_neg (fun hc => by omega)]

theorem staying_eq {N : Nat} {s : kernel} {k : Nat} (h1 : 1 ≤ k) :
    staying N s k = (queue_entries N s k).filter (fun x => !aged_entry s x) := by
  unfold staying
  rw [if_neg (by omega)]

theorem mem_boosted {N : Nat} {s : kernel} {k : Nat} {x : Option Nat} (h : x ∈ boosted N s k) :
    1 ≤ k ∧ k < NMLFQ ∧ x ∈ queue_entries N s k ∧ aged_entry s x = true := by
  unfold boosted at h
  split_ifs at h with hk
  · exact ⟨hk.1, hk.2, (List.mem_filter.mp h).1, (List.mem_filter.mp h).2⟩
  · simp at h

theorem boost_upto_init {N : Nat} {s : kernel} (hs : queues_ok N s) :
    boost_upto N s (NMLFQ - 1) s := by
  have h6 : NMLFQ = 5 := rfl
  refine ⟨hs, rfl, rfl, fun k h1 h2 => by omega, ?_, fun _ _ => rfl,
    fun p k h1 h2 => by omega, fun _ _ => rfl⟩
  rw [boosted_top (by omega)]
  simp

theorem boost_upto_step {N : Nat} {s a : kernel} (hs : queues_ok N s) {m : Nat}
    (h1 : 1 ≤ m) (h2 : m < NMLFQ) (hP : boost_upto N s m a) :
    boost_upto N s (m - 1) (age_boost_level N a m) := by
  obtain ⟨l1, l2, l3, l4, l5, l6, l7, l8⟩ := age_boost_level_spec hP.ok h1 h2
  -- the descriptors of queue `m` at entry have not been written so far
  have hkeptm : ∀ i, some i ∈ queue_entries N s m → a.proc i = s.proc i := by
    intro i hi
    apply hP.kept
    intro k hk1 hk2 hb
    have := queues_ok_unique hs h2 hk2 hi (mem_boosted hb).2.2.1
    omega
  have hagedm : ∀ x ∈ queue_entries N s m, aged_entry a x = aged_entry s x := by
    intro x hx
    cases x with
    | none => rfl
    | some i =>
      have hiff : aged a i ↔ aged s i := by
        unfold aged
        rw [hkeptm i hx, hP.ticks]
      show decide (aged a i) = decide (aged s i)
      exact decide_eq_decide.mpr hiff
  -- the descriptors that came down from queue `m + 1` have a fresh entry time
  have hfresh : ∀ x ∈ boosted N s (m + 1), aged_entry a x = false := by
    intro x hx
    obtain ⟨_, hk2, hmem, _⟩ := mem_boosted hx
    obtain ⟨i, rfl⟩ := queues_ok_some hs hk2 hmem
    have hnot : ¬ aged a i := by
      unfold aged
      rw [hP.moved i (m + 1) (by omega) hk2 hx, hP.ticks]
      simp
    show decide (aged a i) = false
    exact decide_eq_false hnot
  have hstay : (queue_entries N a m).filter (fun x => !aged_entry a x) =
      staying N s m ++ boosted N s (m + 1) := by
    rw [hP.at_m, List.filter_append, staying_eq h1]
    congr 1
    · apply List.filter_congr
      intro x hx
      rw [hagedm x hx]
    · rw [List.filter_eq_self]
      intro x hx
      rw [hfresh x hx]
      rfl
  have hgo : (queue_entries N a m).filter (aged_entry a) = boosted N s m := by
    rw [hP.at_m, List.filter_append, boosted_eq h1 h2]
    have : (boosted N s (m + 1)).filter (aged_entry a) = [] := by
      rw [List.filter_eq_nil_iff]
      intro x hx
      rw [hfresh x hx]
      decide
    rw [this, List.append_nil]
    apply List.filter_congr
    intro x hx
    exact hagedm x hx
  refine ⟨l1, l2.trans hP.ticks, l3.trans hP.idle, ?_, ?_, ?_, ?_, ?_⟩
  · intro k hk1 hk2
    by_cases hkm : k = m
    · subst hkm
      rw [l4, hstay]
    · have hq := l6 k hkm (by omega)
      have := hP.above k (by omega) hk2
      simp only [queue_entries, hq] at this ⊢
      exact this
  · rw [l5, hgo]
    have hq := hP.below (m - 1) (by omega)
    have e : m - 1 + 1 = m := by omega
    rw [e]
    simp only [queue_entries, hq]
  · intro k hk
    rw [l6 k (by omega) (by omega)]
    exact hP.below k (by omega)
  · intro p k hk1 hk2 hb
    by_cases hkm : k = m
    · subst hkm
      rw [l7 p (by rw [hgo]; exact hb), hkeptm p (mem_boosted hb).2.2.1, hP.ticks]
    · have hnot : some p ∉ (queue_entries N a m).filter (aged_entry a) := by
        rw [hgo]
        intro hc
        exact hkm (queues_ok_unique hs hk2 h2 (mem_boosted hb).2.2.1 (mem_boosted hc).2.2.1)
      rw [l8 p hnot]
      exact hP.moved p k (by omega) hk2 hb
  · intro p hp
    have hnot : some p ∉ (queue_entries N a m).filter (aged_entry a) := by
      rw [hgo]
      exact hp m (by omega) h2
    rw [l8 p hnot]
    exact hP.kept p (fun k hk1 hk2 => hp k (by omega) hk2)

theorem age_boost_eq (N : Nat) (s : kernel) :
    age_boost N s =
      age_boost_level N (age_boost_level N (age_boost_level N (age_boost_level N s 4) 3) 2) 1 :=
  rfl

/-- The function `age_boost()` on queues that are as the scheduler keeps
them. -/
theorem age_boost_spec {N : Nat} {s : kernel} (hs : queues_ok N s) :
    boost_upto N s 0 (age_boost N s) := by
  have h6 : NMLFQ = 5 := rfl
  have p4 : boost_upto N s 4 s := boost_upto_init hs
  have p3 : boost_upto N s 3 (age_boost_level N s 4) :=
    boost_upto_step hs (by omega) (by omega) p4
  have p2 := boost_upto_step hs (m := 3) (by omega) (by omega) p3
  have p1 := boost_upto_step hs (m := 2) (by omega) (by omega) p2
  have p0 := boost_upto_step hs (m := 1) (by omega) (by omega) p1
  rw [age_boost_eq]
  exact p0



/-! ### Entry times are never in the future -/

theorem time_ok_of_eq {s t : kernel} (h : time_ok s) (hp : t.proc = s.proc)
    (ht : s.ticks ≤ t.ticks) : time_ok t := by
  intro i
  rw [hp]
  exact le_trans (h i) ht

theorem time_ok_set {s : kernel} (h : time_ok s) (p : Nat) (v : proc)
    (hv : v.entry_time ≤ s.ticks) : time_ok (set_proc s p v) := by
  intro i
  by_cases hi : i = p
  · subst hi
    rw [set_proc_proc_same]
    exact hv
  · rw [set_proc_proc_ne _ _ hi]
    exact h i

theorem time_ok_set_state {s : kernel} (h : time_ok s) (p : Nat) (st : procstate) :
    time_ok (set_state s p st) :=
  time_ok_set h p { s.proc p with state := st } (h p)

theorem time_ok_enqueue {N : Nat} {s : kernel} (h : time_ok s) (pr : Int) (p : Nat) :
    time_ok (mlfq_enqueue N s pr p) := by
  intro i
  rw [mlfq_enqueue_ticks]
  by_cases hip : i = p
  · subst hip
    rcases mlfq_enqueue_proc_same N s pr i with e | e
    · rw [e]
      exact h i
    · rw [e]
  · rw [mlfq_enqueue_proc_ne N s pr hip]
    exact h i

theorem time_ok_requeue {N : Nat} {s : kernel} (h : time_ok s) :
    time_ok (schedule_requeue N s) := by
  unfold schedule_requeue
  split
  · exact h
  · split_ifs
    · exact time_ok_enqueue (time_ok_set_state h _ RUNNABLE) _ _
    · exact h

theorem time_ok_switch {s : kernel} (h : time_ok s) (next : Option Nat) :
    time_ok (schedule_switch s next) := by
  intro j
  rw [schedule_switch_ticks]
  rcases schedule_switch_proc s next j with e | ⟨_, e, _⟩ <;> rw [e] <;> exact h j

theorem time_ok_schedule {N : Nat} {s : kernel} (h : time_ok s) : time_ok (schedule N s) := by
  unfold schedule
  simp only
  exact time_ok_switch
    (time_ok_of_eq (time_ok_requeue h) (schedule_pick_proc N _ _)
      (le_of_eq (schedule_pick_ticks N _ _).symm)) _

theorem time_ok_yield {N : Nat} {s : kernel} (h : time_ok s) : time_ok (yield N s) := by
  unfold yield
  split
  · exact h
  · split_ifs
    · simp only
      obtain ⟨Q, hQ⟩ := yield_pick_frame N (List.range NMLFQ) s
      exact time_ok_switch (time_ok_of_eq h (yield_pick_proc N _ _) (by rw [hQ])) _
    · exact time_ok_schedule h

theorem time_ok_wakeup_step {N : Nat} {s : kernel} (h : time_ok s) (chan : Chan) (p : Nat) :
    time_ok (wakeup_step N chan s p) := by
  by_cases hw : wakes s chan p
  · rw [wakeup_step_wake N chan s p hw]
    exact time_ok_enqueue (time_ok_set_state h p RUNNABLE) _ _
  · rw [wakeup_step_skip N chan s p hw]
    exact h

theorem time_ok_wakeup {N : Nat} {s : kernel} (h : time_ok s) (chan : Chan) :
    time_ok (wakeup N s chan) :=
  foldl_preserves time_ok (wakeup_step N chan) (List.range N)
    (fun _ x _ ha => time_ok_wakeup_step ha chan x) s h

theorem time_ok_reparent {N : Nat} {s : kernel} (h : time_ok s) (p : Nat) :
    time_ok (reparent N s p) := by
  rw [reparent_eq]
  refine foldl_preserves time_ok _ (List.range N) ?_ s h
  intro a pp _ ha
  simp only
  split_ifs
  · exact time_ok_wakeup (time_ok_set ha pp { a.proc pp with parent := a.initproc } (ha pp)) _
  · exact ha

theorem time_ok_kill {N : Nat} {s : kernel} (h : time_ok s) (pid : Int) :
    time_ok (kill N s pid).2 := by
  cases hf : (List.range N).find? (fun p => some p != s.idleproc && (s.proc p).pid == pid) with
  | none => rw [kill_not_found N s pid hf]; exact h
  | some p =>
    rw [kill_found N s pid p hf]
    have h1 : time_ok (set_proc s p { s.proc p with killed := 1 }) :=
      time_ok_set h p { s.proc p with killed := 1 } (h p)
    split_ifs
    · exact time_ok_enqueue (time_ok_set_state h1 p RUNNABLE) _ _
    · exact h1

theorem time_ok_sleep {N : Nat} {s : kernel} (h : time_ok s) (chan : Chan) :
    time_ok (sleep N s chan) := by
  unfold sleep
  split
  · exact h
  · rename_i p _
    exact time_ok_schedule
      (time_ok_set h p { s.proc p with chan := chan, state := SLEEPING } (h p))

theorem time_ok_sleep_resume {s : kernel} (h : time_ok s) : time_ok (sleep_resume s) := by
  unfold sleep_resume
  split
  · exact h
  · rename_i p _
    exact time_ok_set h p { s.proc p with chan := Chan.null } (h p)

theorem time_ok_freeproc {s : kernel} (h : time_ok s) (p : Nat) : time_ok (freeproc s p) := by
  unfold freeproc
  exact time_ok_set h p _ (h p)

theorem time_ok_exit {N : Nat} {s t : kernel} (h : time_ok s) (status : Int)
    (he : exit N s status = some t) : time_ok t := by
  unfold exit at he
  split at he
  · simp at he
  · rename_i p hp
    simp only at he
    split_ifs at he
    cases Option.some.inj he
    have h3 : time_ok (wakeup N (reparent N (mlfq_remove N s (some p)) p)
        (Chan.ofPtr ((reparent N (mlfq_remove N s (some p)) p).proc p).parent)) :=
      time_ok_wakeup (time_ok_reparent
        (time_ok_of_eq h (mlfq_remove_proc N s (some p))
          (le_of_eq (mlfq_remove_ticks N s (some p)).symm)) p) _
    exact time_ok_schedule (time_ok_set h3 p _ (h3 p))

theorem time_ok_wait {N : Nat} {s : kernel} (h : time_ok s) (addr : Nat) (copyout_ok : Bool) :
    time_ok (wait N s addr copyout_ok).k := by
  unfold wait
  split
  · exact h
  · split
    · by_cases hfail : addr ≠ 0 ∧ copyout_ok = false
      · rw [if_pos hfail]
        exact h
      · rw [if_neg hfail]
        exact time_ok_freeproc h _
    · simp only
      split_ifs
      · exact h
      · exact time_ok_sleep h _

theorem time_ok_allocproc {N : Nat} {s : kernel} (h : time_ok s) (kalloc : Option trapframe)
    (pagetable_ok : Bool) : time_ok (allocproc N s kalloc pagetable_ok).2 := by
  unfold allocproc
  split
  · exact h
  · rename_i p _
    have h0 : time_ok (allocpid s).2 := time_ok_of_eq h rfl (le_refl _)
    have h1 := time_ok_set h0 p
      { (allocpid s).2.proc p with pid := (allocpid s).1, state := USED } (h0 p)
    have h2 := time_ok_set h1 p
      { (set_proc (allocpid s).2 p
          { (allocpid s).2.proc p with pid := (allocpid s).1, state := USED }).proc p with
        trapframe := kalloc } (h1 p)
    have h3 := time_ok_set h2 p
      { (set_proc (set_proc (allocpid s).2 p
          { (allocpid s).2.proc p with pid := (allocpid s).1, state := USED }) p
          { (set_proc (allocpid s).2 p
              { (allocpid s).2.proc p with pid := (allocpid s).1, state := USED }).proc p with
            trapframe := kalloc }).proc p with pagetable := pagetable_ok } (h2 p)
    simp only
    split_ifs
    · exact time_ok_freeproc h2 p
    · exact time_ok_freeproc h3 p
    · exact time_ok_set h3 p _ (le_refl _)

theorem time_ok_fork {N : Nat} {s : kernel} (h : time_ok s) (kalloc : Option trapframe)
    (pagetable_ok uvmcopy_ok : Bool) : time_ok (fork N s kalloc pagetable_ok uvmcopy_ok).2 := by
  have h1 := time_ok_allocproc (N := N) h kalloc pagetable_ok
  unfold fork
  rcases ha : allocproc N s kalloc pagetable_ok with ⟨r, s1⟩
  rw [ha] at h1
  simp only at h1
  cases r with
  | none => exact h1
  | some np =>
    simp only
    split
    · exact h1
    · rename_i p _
      split_ifs
      · exact time_ok_freeproc h1 np
      · simp only
        have h4 := time_ok_set h1 np
          { s1.proc np with trapframe := some { a0 := 0 },
                            name := (s1.proc p).name,
                            priority := (s1.proc p).priority,
                            ticks_in_queue := 0,
                            entry_time := s1.ticks } (le_refl _)
        have h5 := time_ok_set h4 np
          { (set_proc s1 np
              { s1.proc np with trapframe := some { a0 := 0 },
                                name := (s1.proc p).name,
                                priority := (s1.proc p).priority,
                                ticks_in_queue := 0,
                                entry_time := s1.ticks }).proc np with parent := some p }
          (h4 np)
        exact time_ok_enqueue (time_ok_set_state h5 np RUNNABLE) _ _

theorem time_ok_userinit {N : Nat} {s : kernel} (h : time_ok s) (kalloc : Option trapframe)
    (pagetable_ok : Bool) : time_ok (userinit N s kalloc pagetable_ok) := by
  have h1 := time_ok_allocproc (N := N) h kalloc pagetable_ok
  unfold userinit
  rcases ha : allocproc N s kalloc pagetable_ok with ⟨r, s1⟩
  rw [ha] at h1
  simp only at h1
  cases r with
  | none => exact time_ok_of_eq h1 rfl (le_refl _)
  | some p =>
    simp only
    have h2 : time_ok ({ s1 with initproc := some p } : kernel) :=
      time_ok_of_eq h1 rfl (le_refl _)
    have h4 := time_ok_set h2 p
      { ({ s1 with initproc := some p } : kernel).proc p with name := "initcode" } (h2 p)
    exact time_ok_enqueue (time_ok_set_state h4 p RUNNABLE) _ _

theorem time_ok_age_boost {N : Nat} {s : kernel} (h : time_ok s) : time_ok (age_boost N s) := by
  unfold age_boost
  refine foldl_preserves time_ok _ _ ?_ s h
  intro a prio _ ha
  unfold age_boost_level
  refine foldl_preserves time_ok _ _ ?_ a ha
  intro b p _ hb
  exact time_ok_enqueue
    (time_ok_of_eq hb (mlfq_remove_proc N b (some p))
      (le_of_eq (mlfq_remove_ticks N b (some p)).symm)) _ _

theorem time_ok_scheduler_loop {s : kernel} (h : time_ok s) : time_ok (scheduler_loop s) := by
  unfold scheduler_loop
  split
  · exact h
  · split_ifs
    · exact time_ok_set_state h _ RUNNABLE
    · exact h

theorem time_ok_procinit (N : Nat) : time_ok (procinit N kernel_zero) := by
  have hreset : ∀ j, ((procinit_reset N kernel_zero).proc j).entry_time = 0 := by
    intro j
    unfold procinit_reset
    refine foldl_preserves (fun a : kernel => (a.proc j).entry_time = 0) _ (List.range N) ?_
      kernel_zero rfl
    intro a p _ ha
    simp only
    by_cases hjp : j = p
    · subst hjp; simp
    · rw [set_proc_proc_ne _ _ hjp]; exact ha
  have h0 : time_ok ({ procinit_reset N kernel_zero with idleproc := some 0 } : kernel) := by
    intro i
    show ((procinit_reset N kernel_zero).proc i).entry_time ≤ _
    rw [hreset i]
    exact Nat.zero_le _
  have h2 := time_ok_set h0 0
    { (procinit_reset N kernel_zero).proc 0 with
      state := RUNNABLE, pid := 0, priority := (NMLFQ : Int) - 1, name := "idle" }
    (by show ((procinit_reset N kernel_zero).proc 0).entry_time ≤ _
        rw [hreset 0]; exact Nat.zero_le _)
  have h3 := time_ok_enqueue (N := N) h2 ((NMLFQ : Int) - 1) 0
  rw [procinit_eq]
  refine time_ok_of_eq h3 (by simp) ?_
  unfold mlfq_init
  rw [range_NMLFQ]
  exact le_refl _

theorem time_ok_step {N : Nat} {s t : kernel} (h : time_ok s) (hst : Step N s t) :
    time_ok t := by
  cases hst with
  | scheduler_entry _ => exact time_ok_of_eq h rfl (le_refl _)
  | scheduler_loop _ => exact time_ok_scheduler_loop h
  | clock_tick => exact time_ok_of_eq h rfl (Nat.le_succ _)
  | fork kalloc pt uv _ => exact time_ok_fork h kalloc pt uv
  | sleep chan _ => exact time_ok_sleep h chan
  | sleep_resume _ => exact time_ok_sleep_resume h
  | wakeup chan => exact time_ok_wakeup h chan
  | kill pid => exact time_ok_kill h pid
  | exit _ status he => exact time_ok_exit h status he
  | wait addr ok _ => exact time_ok_wait h addr ok
  | yield _ => exact time_ok_yield h
  | schedule => exact time_ok_schedule h
  | age_boost => exact time_ok_age_boost h

theorem time_ok_reachable {N : Nat} {s : kernel} (h : Reachable N s) : time_ok s := by
  induction h with
  | boot tf => exact time_ok_userinit (time_ok_procinit N) _ _
  | step s t _ hst ih => exact time_ok_step ih hst

/-- In every state reachable from boot the queues are as the scheduler keeps
them, which is what the description of `age_boost` asks for. -/
theorem reachable_queues_ok {N : Nat} (hN : 0 < N) {s : kernel} (h : Reachable N s) :
    queues_ok N s := by
  have hk := (kernel_inv_reachable hN h).1
  have ht := time_ok_reachable h
  refine ⟨hk.wf, fun k hkq => ⟨hk.nodup k hkq, ?_⟩⟩
  intro x hx
  obtain ⟨i, rfl, hi, hi0, hr, hp⟩ := hk.entry k hkq x hx
  rw [entry_ok_some]
  refine ⟨hi, ?_, hr, hp, ht i⟩
  rw [hk.idle]
  exact fun e => hi0 (Option.some.inj e)



/-! ### The queues during `procinit` -/

theorem procinit_reset_queues (N : Nat) (s : kernel) :
    (procinit_reset N s).mlfq_queues = s.mlfq_queues := by
  unfold procinit_reset
  refine foldl_preserves (fun a : kernel => a.mlfq_queues = s.mlfq_queues) _ (List.range N) ?_
    s rfl
  intro a p _ ha
  exact ha

/-- The state of `procinit()` on the zeroed statics just before its last
statement, the call of `mlfq_init()`. -/
theorem procinit_before_init (N : Nat) :
    procinit N kernel_zero =
      mlfq_init
        (mlfq_enqueue N
          (set_proc { procinit_reset N kernel_zero with idleproc := some 0 } 0
            { (procinit_reset N kernel_zero).proc 0 with
              state := RUNNABLE, pid := 0, priority := (NMLFQ : Int) - 1, name := "idle" })
          ((NMLFQ : Int) - 1) 0) :=
  procinit_eq N kernel_zero

/-- The call `mlfq_enqueue(idleproc->priority, idleproc)` of `procinit()` puts
the idle descriptor into queue 4, as long as the table has a slot at all. -/
theorem procinit_enqueues_idle (N : Nat) :
    queue_entries N
      (mlfq_enqueue N
        (set_proc { procinit_reset N kernel_zero with idleproc := some 0 } 0
          { (procinit_reset N kernel_zero).proc 0 with
            state := RUNNABLE, pid := 0, priority := (NMLFQ : Int) - 1, name := "idle" })
        ((NMLFQ : Int) - 1) 0) 4 = if 0 < N then [some 0] else [] := by
  have hq : ∀ k, (set_proc { procinit_reset N kernel_zero with idleproc := some 0 } 0
          { (procinit_reset N kernel_zero).proc 0 with
            state := RUNNABLE, pid := 0, priority := (NMLFQ : Int) - 1,
            name := "idle" }).mlfq_queues k =
        { procs := fun _ => none, front := 0, rear := 0, count := 0 } := by
    intro k
    show (procinit_reset N kernel_zero).mlfq_queues k = _
    rw [procinit_reset_queues]
    rfl
  have hcl : (clamp_priority ((NMLFQ : Int) - 1)).toNat = 4 := by decide
  by_cases hN : 0 < N
  · rw [if_pos hN, mlfq_enqueue_entries _ _ _ _ _ (by
      rw [hcl, hq]; exact ⟨hN, hN, Nat.zero_le _, by simp⟩)]
    rw [hcl, if_pos ⟨rfl, by simp, by rw [hq]; exact hN⟩]
    simp [queue_entries, entries, hq]
  · rw [if_neg hN, mlfq_enqueue_full _ _ _ _ (by rw [hcl, hq]; simpa using hN)]
    simp [queue_entries, entries, hq]

/-- After `procinit()` every queue is empty. -/
theorem procinit_queues_empty (N : Nat) (k : Nat) (hk : k < NMLFQ) :
    ((procinit N kernel_zero).mlfq_queues k).front = 0 ∧
    ((procinit N kernel_zero).mlfq_queues k).rear = 0 ∧
    ((procinit N kernel_zero).mlfq_queues k).count = 0 ∧
    queue_entries N (procinit N kernel_zero) k = [] := by
  have h := mlfq_init_queues
    (mlfq_enqueue N
      (set_proc { procinit_reset N kernel_zero with idleproc := some 0 } 0
        { (procinit_reset N kernel_zero).proc 0 with
          state := RUNNABLE, pid := 0, priority := (NMLFQ : Int) - 1, name := "idle" })
      ((NMLFQ : Int) - 1) 0) k hk
  rw [← procinit_before_init] at h
  refine ⟨by rw [h], by rw [h], by rw [h], ?_⟩
  apply entries_eq_nil.mpr
  rw [h]

/-- The idle descriptor after `procinit()`. -/
theorem procinit_idle (N : Nat) :
    (procinit N kernel_zero).idleproc = some 0 ∧
    ((procinit N kernel_zero).proc 0).pid = 0 ∧
    ((procinit N kernel_zero).proc 0).name = "idle" ∧
    ((procinit N kernel_zero).proc 0).priority = 4 ∧
    ((procinit N kernel_zero).proc 0).state = RUNNABLE := by
  rw [procinit_before_init]
  refine ⟨by simp, ?_, ?_, ?_, by simp⟩
  all_goals
    rw [mlfq_init_proc]
    rcases mlfq_enqueue_proc_same N
      (set_proc { procinit_reset N kernel_zero with idleproc := some 0 } 0
        { (procinit_reset N kernel_zero).proc 0 with
          state := RUNNABLE, pid := 0, priority := (NMLFQ : Int) - 1, name := "idle" })
      ((NMLFQ : Int) - 1) 0 with h | h <;> rw [h] <;> simp <;> decide



/-! ### Stale entries in the selection loop of `schedule()` -/

/-- The selection loop of `schedule()` leaves alone the queues that it does
not scan. -/
theorem schedule_pick_queue_ne (N : Nat) (l : List Nat) :
    ∀ (s : kernel) (k : Nat), k ∉ l → (schedule_pick N l s).2.mlfq_queues k = s.mlfq_queues k := by
  induction l with
  | nil => intro s k _; rfl
  | cons j l ih =>
    intro s k hk
    have hkj : k ≠ j := fun e => hk (e ▸ List.mem_cons_self _ _)
    have hkl : k ∉ l := fun h => hk (List.mem_cons_of_mem _ h)
    rw [schedule_pick_cons]
    split_ifs
    · exact mlfq_dequeue_queue_ne N s j hkj
    · rw [ih _ k hkl]
      exact mlfq_dequeue_queue_ne N s j hkj

/-- What `mlfq_dequeue` returns depends on the queue it is called for only. -/
theorem mlfq_dequeue_fst_congr (N : Nat) (s t : kernel) (k : Nat)
    (h : t.mlfq_queues k = s.mlfq_queues k) : (mlfq_dequeue N t k).1 = (mlfq_dequeue N s k).1 := by
  simp only [mlfq_dequeue, h]
  split_ifs <;> rfl

/-- The selection loop of `schedule()` passes over the queues whose head is
missing or is not RUNNABLE. -/
theorem schedule_pick_skip (N : Nat) (l1 l2 : List Nat) :
    ∀ (s : kernel), l1.Nodup →
      (∀ j ∈ l1, ¬ entry_runnable s (mlfq_dequeue N s j).1) →
      schedule_pick N (l1 ++ l2) s = schedule_pick N l2 (schedule_pick N l1 s).2 := by
  induction l1 with
  | nil => intro s _ _; rfl
  | cons j l1 ih =>
    intro s hnd hst
    have hj : ¬ entry_runnable s (mlfq_dequeue N s j).1 := hst j (List.mem_cons_self _ _)
    have hnd2 := List.nodup_cons.mp hnd
    have hrest : ∀ i ∈ l1, ¬ entry_runnable (mlfq_dequeue N s j).2
        (mlfq_dequeue N (mlfq_dequeue N s j).2 i).1 := by
      intro i hi
      have hij : i ≠ j := fun e => hnd2.1 (e ▸ hi)
      rw [mlfq_dequeue_fst_congr N s _ i (mlfq_dequeue_queue_ne N s j hij)]
      have h := hst i (List.mem_cons_of_mem _ hi)
      cases hx : (mlfq_dequeue N s i).1 with
      | none => exact fun h => h
      | some x =>
        rw [hx] at h
        simp only [entry_runnable, mlfq_dequeue_proc] at h ⊢
        exact h
    rw [List.cons_append, schedule_pick_cons, if_neg hj, schedule_pick_cons, if_neg hj]
    exact ih _ hnd2.2 hrest

theorem range_split (k : Nat) (hk : k < NMLFQ) :
    List.range NMLFQ = List.range k ++ (k :: List.range' (k + 1) (NMLFQ - (k + 1))) := by
  rw [NMLFQ_eq] at hk ⊢
  interval_cases k <;> rfl

/-- A stale head of queue `k` that the selection loop of `schedule()` gets to
is dropped: the loop goes on with the priorities after `k` from the state that
`mlfq_dequeue(k)` left. -/
theorem schedule_pick_stale (N : Nat) (a : kernel) (k n : Nat) (rest : List (Option Nat))
    (hk : k < NMLFQ) (hw : wf_queue N (a.mlfq_queues k))
    (hreach : ∀ j, j < k → ¬ entry_runnable a (mlfq_dequeue N a j).1)
    (he : queue_entries N a k = some n :: rest) (hst : (a.proc n).state ≠ RUNNABLE) :
    ∃ a1 : kernel, a1.proc = a.proc ∧ (∀ j, k < j → a1.mlfq_queues j = a.mlfq_queues j) ∧
      queue_entries N a1 k = rest ∧
      schedule_pick N (List.range NMLFQ) a =
        schedule_pick N (List.range' (k + 1) (NMLFQ - (k + 1))) a1 ∧
      queue_entries N (schedule_pick N (List.range NMLFQ) a).2 k = rest := by
  have hskip := schedule_pick_skip N (List.range k)
    (k :: List.range' (k + 1) (NMLFQ - (k + 1))) a (List.nodup_range k)
    (fun j hj => hreach j (List.mem_range.mp hj))
  rw [← range_split k hk] at hskip
  have hq : (schedule_pick N (List.range k) a).2.mlfq_queues k = a.mlfq_queues k :=
    schedule_pick_queue_ne N _ a k (by simp)
  have hw1 : wf_queue N ((schedule_pick N (List.range k) a).2.mlfq_queues k) := by rw [hq]; exact hw
  have he1 : queue_entries N (schedule_pick N (List.range k) a).2 k = some n :: rest := by
    simp only [queue_entries, hq]
    exact he
  have hdq : (mlfq_dequeue N (schedule_pick N (List.range k) a).2 k).1 = some n ∧
      queue_entries N (mlfq_dequeue N (schedule_pick N (List.range k) a).2 k).2 k = rest := by
    rcases mlfq_dequeue_entries N _ k hw1 with ⟨h1, _⟩ | h1
    · rw [h1] at he1; simp at he1
    · rw [h1] at he1
      simp only [List.cons.injEq] at he1
      exact he1
  have hnr : ¬ entry_runnable (schedule_pick N (List.range k) a).2
      (mlfq_dequeue N (schedule_pick N (List.range k) a).2 k).1 := by
    rw [hdq.1]
    simp only [entry_runnable, schedule_pick_proc]
    exact hst
  rw [schedule_pick_cons, if_neg hnr] at hskip
  refine ⟨(mlfq_dequeue N (schedule_pick N (List.range k) a).2 k).2, by simp, ?_, hdq.2, hskip, ?_⟩
  · intro j hj
    rw [mlfq_dequeue_queue_ne N _ k (by omega), schedule_pick_queue_ne N _ a j (by simp; omega)]
  · rw [hskip]
    simp only [queue_entries]
    rw [schedule_pick_queue_ne N _ _ k (by simp [List.mem_range']; omega)]
    exact hdq.2



/-! ### `age_boost` with the scheduler lock -/

theorem foldl_bind_none {α β : Type} (f : α → β → Option α) (l : List β) :
    l.foldl (fun r x => r.bind fun a => f a x) none = none := by
  induction l with
  | nil => rfl
  | cons x l ih => rw [List.foldl_cons]; exact ih

/-- With the lock held, `mlfq_remove(p); mlfq_enqueue(prio - 1, p);` ends in
the panic of `acquire`: in `mlfq_remove` for a process other than the idle
one, and in `mlfq_enqueue` for the idle one, which `mlfq_remove` lets go. -/
theorem boost_move_with_lock_held (N : Nat) (prio : Nat) (s : kernel) (p : Nat) :
    boost_move_with_lock N prio (s, true) p = none := by
  unfold boost_move_with_lock mlfq_remove_with_lock
  by_cases h : some p = s.idleproc
  · simp [h, mlfq_enqueue_with_lock, acquire]
  · simp [h, acquire]

/-- One pass of the outer loop of `age_boost`, run with the lock held as
`age_boost` runs it: it comes through only when nothing was collected. -/
theorem age_boost_level_with_lock_held (N : Nat) (s : kernel) (prio : Nat) :
    age_boost_level_with_lock N (s, true) prio =
      if age_boost_collect N s prio = [] then some (s, true) else none := by
  unfold age_boost_level_with_lock
  cases hc : age_boost_collect N s prio with
  | nil => rfl
  | cons p l =>
    rw [if_neg (by simp)]
    simp only [hc, List.foldl_cons, Option.some_bind]
    rw [boost_move_with_lock_held]
    exact foldl_bind_none _ l

theorem boost_levels : (List.range (NMLFQ - 1)).reverse.map (fun j => j + 1) = [4, 3, 2, 1] := by
  decide

/-- The function `age_boost()` called with the lock free comes through, with
the state as it was and the lock free again, exactly when none of the queues
4, 3, 2, 1 holds a descriptor to boost; otherwise it ends in the panic of a
nested `acquire`. -/
theorem age_boost_with_lock_spec (N : Nat) (s : kernel) :
    age_boost_with_lock N s false =
      if age_boost_collect N s 4 = [] ∧ age_boost_collect N s 3 = [] ∧
          age_boost_collect N s 2 = [] ∧ age_boost_collect N s 1 = [] then some (s, false)
      else none := by
  unfold age_boost_with_lock
  rw [boost_levels]
  simp only [acquire, List.foldl_cons, List.foldl_nil, Bool.false_eq_true, if_false,
    Option.some_bind]
  rw [age_boost_level_with_lock_held]
  by_cases h4 : age_boost_collect N s 4 = []
  · rw [if_pos h4]
    simp only [Option.some_bind]
    rw [age_boost_level_with_lock_held]
    by_cases h3 : age_boost_collect N s 3 = []
    · rw [if_pos h3]
      simp only [Option.some_bind]
      rw [age_boost_level_with_lock_held]
      by_cases h2 : age_boost_collect N s 2 = []
      · rw [if_pos h2]
        simp only [Option.some_bind]
        rw [age_boost_level_with_lock_held]
        by_cases h1 : age_boost_collect N s 1 = []
        · rw [if_pos h1, if_pos ⟨h4, h3, h2, h1⟩]
          rfl
        · rw [if_neg h1, if_neg (fun h => h1 h.2.2.2)]
          rfl
      · rw [if_neg h2, if_neg (fun h => h2 h.2.2.1)]
        rfl
    · rw [if_neg h3, if_neg (fun h => h3 h.2.1)]
      rfl
  · rw [if_neg h4, if_neg (fun h => h4 h.1)]
    rfl

/-- Called with the lock already held, `age_boost()` ends in the panic of
its own `acquire`. -/
theorem age_boost_with_lock_held (N : Nat) (s : kernel) :
    age_boost_with_lock N s true = none := rfl



/-! ### The full-queue branch of `mlfq_enqueue` is not taken -/

/-- With room in the target queue the call does not take the branch. -/
theorem enqueue_drops_room (N : Nat) (s : kernel) (pr : Int) (p : Nat)
    (h : (s.mlfq_queues (clamp_priority pr).toNat).count < N) : enqueue_drops N s pr p = false := by
  simp only [enqueue_drops]
  split_ifs <;> rfl

/-- A descriptor that is not RUNNABLE does not get to the branch. -/
theorem enqueue_drops_not_runnable (N : Nat) (s : kernel) (pr : Int) (p : Nat)
    (h : (s.proc p).state ≠ RUNNABLE) : enqueue_drops N s pr p = false := by
  simp only [enqueue_drops]
  rw [if_pos h]

/-- The branch is taken exactly when the descriptor is RUNNABLE and the target
queue holds `NPROC` entries or more. -/
theorem enqueue_drops_iff (N : Nat) (s : kernel) (pr : Int) (p : Nat) :
    enqueue_drops N s pr p = true ↔
      (s.proc p).state = RUNNABLE ∧ N ≤ (s.mlfq_queues (clamp_priority pr).toNat).count := by
  simp only [enqueue_drops]
  split_ifs with h1 h2
  · simp [h1]
  · simp; intro _; omega
  · simp; exact ⟨not_not.mp h1, by omega⟩

/-- With room in every queue no call takes the branch. -/
theorem enqueue_drops_of_room (N : Nat) (s : kernel)
    (hroom : ∀ k, k < NMLFQ → (s.mlfq_queues k).count < N)
    (pr : Int) (p : Nat) : enqueue_drops N s pr p = false :=
  enqueue_drops_room N s pr p (hroom _ (clamp_priority_toNat_lt pr))

theorem loop_drops_false {β : Type} (P : kernel → Prop) (step : kernel → β → kernel)
    (drops : kernel → β → Bool) (l : List β)
    (hstep : ∀ a x, x ∈ l → P a → P (step a x))
    (hdrops : ∀ a x, x ∈ l → P a → drops a x = false) :
    ∀ a, P a → loop_drops step drops l a = false := by
  induction l with
  | nil => intro a _; rfl
  | cons x l ih =>
    intro a ha
    rw [loop_drops, hdrops a x (List.mem_cons_self _ _) ha, Bool.false_or]
    exact ih (fun b y hy => hstep b y (List.mem_cons_of_mem _ hy))
      (fun b y hy => hdrops b y (List.mem_cons_of_mem _ hy)) _
      (hstep a x (List.mem_cons_self _ _) ha)

/-- The re-enqueue of a stale entry in the selection loop of `schedule()` never
gets to the branch: the entry is not RUNNABLE. -/
theorem schedule_pick_drops_false (N : Nat) (l : List Nat) :
    ∀ s : kernel, schedule_pick_drops N l s = false := by
  induction l with
  | nil => intro s; rfl
  | cons k l ih =>
    intro s
    rw [schedule_pick_drops]
    rcases mlfq_dequeue N s k with ⟨next, s1⟩
    cases next with
    | none => exact ih s1
    | some n =>
      simp only
      split_ifs with h
      · rfl
      · rw [enqueue_drops_not_runnable N s1 _ n h, ih, Bool.false_or]

theorem schedule_requeue_drops_false (N : Nat) (s : kernel)
    (hroom : ∀ k, k < NMLFQ → (s.mlfq_queues k).count < N) :
    schedule_requeue_drops N s = false := by
  unfold schedule_requeue_drops
  split
  · rfl
  · split_ifs
    · dsimp only
      refine enqueue_drops_room N _ _ _ ?_
      exact hroom _ (clamp_priority_toNat_lt _)
    · rfl

theorem schedule_drops_false (N : Nat) (s : kernel)
    (hroom : ∀ k, k < NMLFQ → (s.mlfq_queues k).count < N) : schedule_drops N s = false := by
  unfold schedule_drops
  rw [schedule_requeue_drops_false N s hroom, schedule_pick_drops_false, Bool.false_or]

theorem kernel_inv_room {N : Nat} {s : kernel} (h : kernel_inv N s) :
    ∀ k, k < NMLFQ → (s.mlfq_queues k).count < N :=
  fun k hk => queue_room h.1 k hk

theorem yield_drops_false {N : Nat} {s : kernel} (h : kernel_inv N s) :
    yield_drops N s = false := by
  unfold yield_drops
  split
  · rfl
  · split_ifs
    · rfl
    · exact schedule_drops_false N s (kernel_inv_room h)

theorem sleep_drops_false {N : Nat} {s : kernel} (h : kernel_inv N s) (chan : Chan) :
    sleep_drops N s chan = false := by
  unfold sleep_drops
  split
  · rfl
  · exact schedule_drops_false N _ (fun k hk => kernel_inv_room h k hk)

theorem wait_drops_false {N : Nat} {s : kernel} (h : kernel_inv N s) :
    wait_drops N s = false := by
  unfold wait_drops
  split
  · rfl
  · split
    · rfl
    · simp only
      split_ifs
      · rfl
      · exact sleep_drops_false h _

theorem kill_drops_false {N : Nat} {s : kernel} (h : kernel_inv N s) (pid : Int) :
    kill_drops N s pid = false := by
  unfold kill_drops
  split
  · rfl
  · simp only
    split_ifs
    · refine enqueue_drops_room N _ _ _ ?_
      exact kernel_inv_room h _ (clamp_priority_toNat_lt _)
    · rfl

theorem fork_drops_false {N : Nat} {s : kernel} (h : kernel_inv N s)
    (kalloc : Option trapframe) (pagetable_ok uvmcopy_ok : Bool) :
    fork_drops N s kalloc pagetable_ok uvmcopy_ok = false := by
  have hq := (allocproc_frame N s kalloc pagetable_ok).2.2.1
  unfold fork_drops
  rcases ha : allocproc N s kalloc pagetable_ok with ⟨r, s1⟩
  rw [ha] at hq
  simp only at hq
  have hroom : ∀ k, k < NMLFQ → (s1.mlfq_queues k).count < N := by
    rw [hq]
    exact kernel_inv_room h
  cases r with
  | none => rfl
  | some np =>
    simp only
    split
    · rfl
    · split_ifs
      · rfl
      · refine enqueue_drops_room N _ _ _ ?_
        exact hroom _ (clamp_priority_toNat_lt _)

theorem userinit_drops_false {N : Nat} {s : kernel} (h : kernel_inv N s)
    (kalloc : Option trapframe) (pagetable_ok : Bool) :
    userinit_drops N s kalloc pagetable_ok = false := by
  have hq := (allocproc_frame N s kalloc pagetable_ok).2.2.1
  unfold userinit_drops
  rcases ha : allocproc N s kalloc pagetable_ok with ⟨r, s1⟩
  rw [ha] at hq
  simp only at hq
  have hroom : ∀ k, k < NMLFQ → (s1.mlfq_queues k).count < N := by
    rw [hq]
    exact kernel_inv_room h
  cases r with
  | none => rfl
  | some np =>
    simp only
    refine enqueue_drops_room N _ _ _ ?_
    exact hroom _ (clamp_priority_toNat_lt _)

theorem wakeup_step_drops_false {N : Nat} {s : kernel} (h : kernel_inv N s) (chan : Chan)
    (p : Nat) : wakeup_step_drops N chan s p = false := by
  unfold wakeup_step_drops
  split_ifs
  · refine enqueue_drops_room N _ _ _ ?_
    exact kernel_inv_room h _ (clamp_priority_toNat_lt _)
  · rfl
  · rfl

theorem wakeup_drops_false {N : Nat} {s : kernel} (h : kernel_inv N s) (chan : Chan) :
    wakeup_drops N s chan = false :=
  loop_drops_false (kernel_inv N) _ _ (List.range N)
    (fun _ x hx ha => kernel_inv_wakeup_step ha chan x (List.mem_range.mp hx))
    (fun _ x _ ha => wakeup_step_drops_false ha chan x) s h

theorem reparent_drops_false {N : Nat} {s : kernel} (h : kernel_inv N s) (p : Nat) :
    reparent_drops N s p = false := by
  unfold reparent_drops
  refine loop_drops_false (kernel_inv N) _ _ (List.range N) ?_ ?_ s h
  · intro a pp _ ha
    simp only
    split_ifs
    · exact kernel_inv_wakeup
        (kernel_inv_set_same ha pp { a.proc pp with parent := a.initproc } rfl rfl) _
    · exact ha
  · intro a pp _ ha
    simp only
    split_ifs
    · exact wakeup_drops_false
        (kernel_inv_set_same ha pp { a.proc pp with parent := a.initproc } rfl rfl) _
    · rfl

theorem exit_drops_false {N : Nat} {s : kernel} (h : kernel_inv N s) (status : Int) :
    exit_drops N s status = false := by
  unfold exit_drops
  split
  · rfl
  · rename_i p hp
    rw [mlfq_remove_cur h p hp]
    simp only
    split_ifs
    · rfl
    · have h2 := kernel_inv_reparent h p
      have h3 := kernel_inv_wakeup h2 (Chan.ofPtr ((reparent N s p).proc p).parent)
      rw [reparent_drops_false h p, wakeup_drops_false h2]
      simp only [Bool.or_self, Bool.false_or]
      exact schedule_drops_false N _ (fun k hk => kernel_inv_room h3 k hk)

theorem age_boost_level_drops_false {N : Nat} {s : kernel} (h : kernel_inv N s) (prio : Nat)
    (hprio : prio < NMLFQ) : age_boost_level_drops N s prio = false := by
  unfold age_boost_level_drops
  have hmem : ∀ p ∈ age_boost_collect N s prio, p < N ∧ p ≠ 0 := by
    intro p hp
    obtain ⟨i, hi, hi1, hi0, _, _⟩ := h.1.entry prio hprio _ (age_boost_collect_mem N s prio p hp)
    cases Option.some.inj hi
    exact ⟨hi1, hi0⟩
  refine loop_drops_false (kernel_inv N) _ _ _ ?_ ?_ s h
  · intro a p hp ha
    exact kernel_inv_move ha p (hmem p hp).1 (hmem p hp).2 _
  · intro a p hp ha
    exact enqueue_drops_room N _ _ p
      (queue_room (sched_inv_remove ha.1 p (hmem p hp).2) _ (clamp_priority_toNat_lt _))

theorem age_boost_drops_false {N : Nat} {s : kernel} (h : kernel_inv N s) :
    age_boost_drops N s = false := by
  unfold age_boost_drops
  have hl : ∀ prio ∈ (List.range (NMLFQ - 1)).reverse.map (fun j => j + 1), prio < NMLFQ := by
    decide
  refine loop_drops_false (kernel_inv N) _ _ _ ?_ ?_ s h
  · intro a prio hprio ha
    exact kernel_inv_age_boost_level ha prio (hl prio hprio)
  · intro a prio hprio ha
    exact age_boost_level_drops_false ha prio (hl prio hprio)

theorem procinit_drops_false {N : Nat} (hN : 0 < N) : procinit_drops N kernel_zero = false := by
  unfold procinit_drops
  simp only
  apply enqueue_drops_room
  show ((procinit_reset N kernel_zero).mlfq_queues _).count < N
  rw [procinit_reset_queues]
  exact hN



/-! ### The pid counter as a C `int` -/

theorem int_wrap_max : int_wrap (INT_MAX + 1) = -2147483648 := by decide

theorem int_wrap_range (x : Int) : -2147483648 ≤ int_wrap x ∧ int_wrap x ≤ 2147483647 := by
  unfold int_wrap
  omega

set_option maxRecDepth 8192

/-- C1: in every state reachable from boot (`procinit`, then `userinit`) by
steps of `fork`, `sleep`, `wakeup`, `kill`, `exit`, `wait`, `yield`,
`schedule` and `age_boost` (and of the timer and the idle loop) on one CPU,
every descriptor of the table other than the idle task is RUNNABLE if and only
if it occurs exactly once across the five queues; when it is RUNNABLE that
occurrence is in the queue whose index is its priority field, and when it is in
any other state it occurs in no queue. -/
theorem C1_runnable_iff_queued_once (NPROC : Nat) (s : kernel) (hr : Reachable NPROC s)
    (i : Nat) (hi : i < NPROC) (hidle : some i ≠ s.idleproc) :
    ((s.proc i).state = RUNNABLE ↔
      ((List.range NMLFQ).map (fun k => (queue_entries NPROC s k).count (some i))).sum = 1) ∧
    ((s.proc i).state = RUNNABLE →
      0 ≤ (s.proc i).priority ∧ (s.proc i).priority < (NMLFQ : Int) ∧
      (queue_entries NPROC s (s.proc i).priority.toNat).count (some i) = 1 ∧
      ∀ k, k < NMLFQ → k ≠ (s.proc i).priority.toNat → some i ∉ queue_entries NPROC s k) ∧
    ((s.proc i).state ≠ RUNNABLE → ∀ k, k < NMLFQ → some i ∉ queue_entries NPROC s k) := by
  have hinv := kernel_inv_reachable (by omega) hr
  have hi0 : i ≠ 0 := by
    intro e
    rw [hinv.1.idle, e] at hidle
    exact hidle rfl
  -- a queue that holds the descriptor is the queue of its priority
  have hprio : ∀ k, k < NMLFQ → some i ∈ queue_entries NPROC s k →
      (s.proc i).state = RUNNABLE ∧ (s.proc i).priority = (k : Int) := by
    intro k hk hm
    obtain ⟨j, hj, _, _, h1, h2⟩ := hinv.1.entry k hk _ hm
    cases Option.some.inj hj
    exact ⟨h1, h2⟩
  have hrun : (s.proc i).state = RUNNABLE →
      0 ≤ (s.proc i).priority ∧ (s.proc i).priority < (NMLFQ : Int) ∧
      (queue_entries NPROC s (s.proc i).priority.toNat).count (some i) = 1 ∧
      ∀ k, k < NMLFQ → k ≠ (s.proc i).priority.toNat → some i ∉ queue_entries NPROC s k := by
    intro hst
    obtain ⟨k, hk, hm⟩ := hinv.1.queued i hi hi0 hst (by simp)
    have hp := (hprio k hk hm).2
    have hk2 : (s.proc i).priority.toNat = k := by rw [hp]; simp
    refine ⟨by rw [hp]; omega, by rw [hp]; exact_mod_cast hk, ?_, ?_⟩
    · rw [hk2]
      exact count_eq_one_of_nodup _ _ (hinv.1.nodup k hk) hm
    · intro j hj hjk hmj
      have := (hprio j hj hmj).2
      rw [hp] at this
      exact hjk (by rw [hk2]; exact_mod_cast this.symm)
  have hsum : ((List.range NMLFQ).map (fun k => (queue_entries NPROC s k).count (some i))).sum =
      (queue_entries NPROC s 0).count (some i) + ((queue_entries NPROC s 1).count (some i) +
      ((queue_entries NPROC s 2).count (some i) + ((queue_entries NPROC s 3).count (some i) +
      ((queue_entries NPROC s 4).count (some i) + 0)))) := by
    rw [range_NMLFQ]
    rfl
  refine ⟨⟨?_, ?_⟩, hrun, ?_⟩
  · intro hst
    obtain ⟨h0, h1, h2, h3⟩ := hrun hst
    have hz : ∀ k, k < NMLFQ → k ≠ (s.proc i).priority.toNat →
        (queue_entries NPROC s k).count (some i) = 0 :=
      fun k hk hne => List.count_eq_zero_of_not_mem (h3 k hk hne)
    rw [hsum]
    have hlt : (s.proc i).priority.toNat < 5 := by
      rw [NMLFQ_eq] at h1; omega
    have e0 := hz 0 (by decide)
    have e1 := hz 1 (by decide)
    have e2 := hz 2 (by decide)
    have e3 := hz 3 (by decide)
    have e4 := hz 4 (by decide)
    generalize (s.proc i).priority.toNat = k at h2 hlt e0 e1 e2 e3 e4
    interval_cases k
    · rw [h2, e1 (by decide), e2 (by decide), e3 (by decide), e4 (by decide)]
    · rw [h2, e0 (by decide), e2 (by decide), e3 (by decide), e4 (by decide)]
    · rw [h2, e0 (by decide), e1 (by decide), e3 (by decide), e4 (by decide)]
    · rw [h2, e0 (by decide), e1 (by decide), e2 (by decide), e4 (by decide)]
    · rw [h2, e0 (by decide), e1 (by decide), e2 (by decide), e3 (by decide)]
  · intro h1
    rw [hsum] at h1
    by_contra hst
    have hz : ∀ k, k < NMLFQ → (queue_entries NPROC s k).count (some i) = 0 :=
      fun k hk => List.count_eq_zero_of_not_mem (fun hm => hst (hprio k hk hm).1)
    rw [hz 0 (by decide), hz 1 (by decide), hz 2 (by decide), hz 3 (by decide),
      hz 4 (by decide)] at h1
    omega
  · intro hst k hk hm
    exact hst (hprio k hk hm).1

/-- C1, witness: after boot with `NPROC = 64` and one `schedule()`, slot 1, the
first process, is RUNNING and in no queue. -/
theorem C1_runnable_iff_queued_once_witness :
    Reachable 64 (schedule 64 (boot 64 { a0 := 0 })) ∧ (1 : Nat) < 64 ∧
    some 1 ≠ (schedule 64 (boot 64 { a0 := 0 })).idleproc ∧
    (((schedule 64 (boot 64 { a0 := 0 })).proc 1).state = RUNNABLE ↔
      ((List.range NMLFQ).map
        (fun k => (queue_entries 64 (schedule 64 (boot 64 { a0 := 0 })) k).count (some 1))).sum = 1) :=
  ⟨Reachable.step _ _ (Reachable.boot _) (Step.schedule _), by decide, by decide,
   (C1_runnable_iff_queued_once 64 (schedule 64 (boot 64 { a0 := 0 }))
      (Reachable.step _ _ (Reachable.boot _) (Step.schedule _)) 1 (by decide) (by decide)).1⟩



/-- C2: in a state whose queues are well-formed rings and whose queued
descriptors are all RUNNABLE, `schedule()`, once it has re-enqueued the current
descriptor (the state `schedule_requeue`), selects the front entry of the
lowest-numbered non-empty queue among priorities 0..4: that descriptor becomes
the CPU's current process with state RUNNING and is removed from its queue,
the other queues and descriptors staying as the re-enqueue left them; when all
five queues are empty it selects the idle task instead. -/
theorem C2_schedule_selects (NPROC : Nat) (s : kernel) (hw : wf_queues NPROC s)
    (hq : queued_runnable NPROC s) :
    (∀ k n rest, k < NMLFQ →
      (∀ j, j < k → queue_entries NPROC (schedule_requeue NPROC s) j = []) →
      queue_entries NPROC (schedule_requeue NPROC s) k = some n :: rest →
      (schedule NPROC s).cpu_proc = some n ∧
      ((schedule NPROC s).proc n).state = RUNNING ∧
      queue_entries NPROC (schedule NPROC s) k = rest ∧
      (∀ j, j ≠ k →
        (schedule NPROC s).mlfq_queues j = (schedule_requeue NPROC s).mlfq_queues j) ∧
      (∀ i, i ≠ n → (schedule NPROC s).proc i = (schedule_requeue NPROC s).proc i)) ∧
    ((∀ k, k < NMLFQ → queue_entries NPROC (schedule_requeue NPROC s) k = []) →
      ∀ i, s.idleproc = some i →
        (schedule NPROC s).cpu_proc = some i ∧
        ((schedule NPROC s).proc i).state = RUNNING ∧
        (schedule NPROC s).mlfq_queues = (schedule_requeue NPROC s).mlfq_queues) := by
  have hw1 := schedule_requeue_wf NPROC s hw
  have hq1 := schedule_requeue_queued_runnable NPROC s hw hq
  constructor
  · intro k n rest hk hempty he
    have hrun : ((schedule_requeue NPROC s).proc n).state = RUNNABLE := by
      have := hq1 k hk (some n) (by rw [he]; exact List.mem_cons_self _ _)
      exact this
    have hpick := schedule_pick_first NPROC (List.range NMLFQ) (schedule_requeue NPROC s) k n rest
      (range_pairwise_lt _) (List.mem_range.mpr hk)
      (fun j _ hj => entries_eq_nil.mp (hempty j hj)) (hw1 k hk) he hrun
    unfold schedule
    simp only
    rw [hpick.1, schedule_switch_some]
    refine ⟨rfl, by simp, hpick.2, ?_, ?_⟩
    · intro j hj
      exact mlfq_dequeue_queue_ne NPROC _ k hj
    · intro i hi
      show (set_state _ n RUNNING).proc i = _
      rw [set_state_proc_ne _ _ hi, mlfq_dequeue_proc]
  · intro hempty i hi
    have hpick := schedule_pick_empty NPROC (List.range NMLFQ) (schedule_requeue NPROC s)
      (fun k hk => entries_eq_nil.mp (hempty k (List.mem_range.mp hk)))
    unfold schedule
    simp only
    rw [hpick, schedule_switch_none _ i (by simpa using hi)]
    exact ⟨rfl, by simp, rfl⟩

/-- C2, witness: in the example state, where the idle task is current and queue
0 holds slots 1, 2, 3, `schedule()` makes slot 1 current and RUNNING and leaves
slots 2 and 3 in queue 0. -/
theorem C2_schedule_selects_witness :
    wf_queues 4 demo_wrapped ∧ queued_runnable 4 demo_wrapped ∧
    (schedule 4 demo_wrapped).cpu_proc = some 1 ∧
    ((schedule 4 demo_wrapped).proc 1).state = RUNNING ∧
    queue_entries 4 (schedule 4 demo_wrapped) 0 = [some 2, some 3] :=
  ⟨by decide, by decide,
   ((C2_schedule_selects 4 demo_wrapped (by decide) (by decide)).1 0 1 [some 2, some 3]
      (by decide) (by decide) (by decide)).1,
   ((C2_schedule_selects 4 demo_wrapped (by decide) (by decide)).1 0 1 [some 2, some 3]
      (by decide) (by decide) (by decide)).2.1,
   ((C2_schedule_selects 4 demo_wrapped (by decide) (by decide)).1 0 1 [some 2, some 3]
      (by decide) (by decide) (by decide)).2.2.1⟩



theorem clamp_priority_eq (pr : Int) : clamp_priority pr = max 0 (min pr 4) := by
  unfold clamp_priority
  simp only [NMLFQ_eq]
  split_ifs <;> omega

/-- C3: for a RUNNABLE descriptor `pd`, any integer `priority` and a state
whose queue at `c = clamp(priority, 0, 4)` is a well-formed ring with fewer
than `NPROC` entries, `mlfq_enqueue(priority, pd)` appends `pd` as the last
entry of queue `c` (count one more, `front` and the earlier entries as they
were), sets `pd.priority = c`, `pd.ticks_in_queue = 0`, `pd.entry_time = ticks`
and leaves every other queue as it was. -/
theorem C3_mlfq_enqueue_appends (NPROC : Nat) (s : kernel) (priority : Int) (pd : Nat)
    (hrun : (s.proc pd).state = RUNNABLE)
    (hw : wf_queue NPROC (s.mlfq_queues (clamp_priority priority).toNat))
    (hroom : (s.mlfq_queues (clamp_priority priority).toNat).count < NPROC) :
    clamp_priority priority = max 0 (min priority 4) ∧
    queue_entries NPROC (mlfq_enqueue NPROC s priority pd) (clamp_priority priority).toNat =
      queue_entries NPROC s (clamp_priority priority).toNat ++ [some pd] ∧
    ((mlfq_enqueue NPROC s priority pd).mlfq_queues (clamp_priority priority).toNat).count =
      (s.mlfq_queues (clamp_priority priority).toNat).count + 1 ∧
    ((mlfq_enqueue NPROC s priority pd).mlfq_queues (clamp_priority priority).toNat).front =
      (s.mlfq_queues (clamp_priority priority).toNat).front ∧
    ((mlfq_enqueue NPROC s priority pd).proc pd).priority = clamp_priority priority ∧
    ((mlfq_enqueue NPROC s priority pd).proc pd).ticks_in_queue = 0 ∧
    ((mlfq_enqueue NPROC s priority pd).proc pd).entry_time = s.ticks ∧
    (∀ k, k ≠ (clamp_priority priority).toNat →
      (mlfq_enqueue NPROC s priority pd).mlfq_queues k = s.mlfq_queues k) := by
  refine ⟨clamp_priority_eq priority, ?_, ?_, ?_, ?_, ?_, ?_, ?_⟩
  · rw [mlfq_enqueue_entries NPROC s priority pd _ hw, if_pos ⟨rfl, hrun, hroom⟩]
  · rw [mlfq_enqueue_done NPROC s priority pd hrun hroom]
    simp
  · rw [mlfq_enqueue_done NPROC s priority pd hrun hroom]
    simp
  · rw [mlfq_enqueue_done NPROC s priority pd hrun hroom]
    simp
  · rw [mlfq_enqueue_done NPROC s priority pd hrun hroom]
    simp
  · rw [mlfq_enqueue_done NPROC s priority pd hrun hroom]
    simp
  · intro k hk
    exact mlfq_enqueue_queue_ne NPROC s priority pd hk

/-- C3, witness: in the example state, whose queue 0 wraps, enqueueing slot 2
with priority -3 (clamped to 0) appends it behind the three entries. -/
theorem C3_mlfq_enqueue_appends_witness :
    (demo_wrapped.proc 2).state = RUNNABLE ∧
    wf_queue 4 (demo_wrapped.mlfq_queues (clamp_priority (-3)).toNat) ∧
    (demo_wrapped.mlfq_queues (clamp_priority (-3)).toNat).count < 4 ∧
    queue_entries 4 (mlfq_enqueue 4 demo_wrapped (-3) 2) (clamp_priority (-3)).toNat =
      queue_entries 4 demo_wrapped (clamp_priority (-3)).toNat ++ [some 2] :=
  ⟨by decide, by decide, by decide,
   (C3_mlfq_enqueue_appends 4 demo_wrapped (-3) 2 (by decide) (by decide) (by decide)).2.1⟩



/-- C4: each priority level is FIFO.  For a well-formed queue `p`:
`mlfq_dequeue(p)` returns the oldest entry and leaves the others in their
order; `k` enqueues of RUNNABLE descriptors `d1..dk` onto the empty queue
followed by `k` dequeues return `d1..dk` in that order, for `d1..dk` distinct
descriptors of the table and more generally for any `k ≤ NPROC` descriptors;
on an empty queue `mlfq_dequeue(p)` returns null and changes nothing. -/
theorem C4_fifo (NPROC : Nat) (s : kernel) (p : Nat) (hp : p < NMLFQ)
    (hw : wf_queue NPROC (s.mlfq_queues p)) :
    (∀ x rest, queue_entries NPROC s p = x :: rest →
      (mlfq_dequeue NPROC s p).1 = x ∧
      queue_entries NPROC (mlfq_dequeue NPROC s p).2 p = rest ∧
      (∀ j, j ≠ p → (mlfq_dequeue NPROC s p).2.mlfq_queues j = s.mlfq_queues j)) ∧
    (∀ ds : List Nat, (s.mlfq_queues p).count = 0 →
      (∀ d ∈ ds, (s.proc d).state = RUNNABLE) →
      ((ds.Nodup ∧ ∀ d ∈ ds, d < NPROC) ∨ ds.length ≤ NPROC) →
      (dequeue_n NPROC p ds.length (enqueue_all NPROC s (p : Int) ds)).1 = ds.map some) ∧
    ((s.mlfq_queues p).count = 0 → mlfq_dequeue NPROC s p = (none, s)) := by
  refine ⟨?_, ?_, mlfq_dequeue_empty NPROC s p⟩
  · intro x rest h
    rcases mlfq_dequeue_entries NPROC s p hw with ⟨h1, _⟩ | h1
    · rw [h1] at h; simp at h
    · rw [h1] at h
      simp only [List.cons.injEq] at h
      exact ⟨h.1, h.2, fun j hj => mlfq_dequeue_queue_ne NPROC s p hj⟩
  · intro ds hc hrun hfit
    have hlen : ds.length ≤ NPROC := by
      rcases hfit with ⟨hnd, hlt⟩ | hlen
      · have hsub : ds ⊆ List.range NPROC := fun d hd => List.mem_range.mpr (hlt d hd)
        simpa using (hnd.subperm hsub).length_le
      · exact hlen
    have hN : 0 < NPROC := hw.1.trans_le' (Nat.zero_le _)
    have hcl : (clamp_priority (p : Int)).toNat = p := by
      rw [clamp_priority_natCast hp]; simp
    have h1 := enqueue_all_entries NPROC hN (p : Int) ds s (by rw [hcl]; exact hw) hrun
      (by rw [hcl, hc]; omega)
    rw [hcl] at h1
    have he : queue_entries NPROC s p = [] := entries_eq_nil.mpr hc
    rw [he, List.nil_append] at h1
    have h2 := dequeue_n_entries NPROC hN p (ds.map some) (enqueue_all NPROC s (p : Int) ds) []
      h1.1 (by rw [h1.2]; simp)
    simpa using h2.1

/-- C4, witness: on the example state, whose queue 0 wraps around the end of
the ring, a dequeue returns slot 1, the oldest entry, and leaves slots 2 and 3;
and slots 3, 1, 2 enqueued onto the empty queue 1 come back in that order. -/
theorem C4_fifo_witness :
    (0 : Nat) < NMLFQ ∧ wf_queue 4 (demo_wrapped.mlfq_queues 0) ∧
    (mlfq_dequeue 4 demo_wrapped 0).1 = some 1 ∧
    queue_entries 4 (mlfq_dequeue 4 demo_wrapped 0).2 0 = [some 2, some 3] ∧
    (1 : Nat) < NMLFQ ∧ wf_queue 4 (demo_wrapped.mlfq_queues 1) ∧
    (dequeue_n 4 1 [3, 1, 2].length (enqueue_all 4 demo_wrapped ((1 : Nat) : Int) [3, 1, 2])).1
      = [3, 1, 2].map some :=
  ⟨by decide, by decide,
   ((C4_fifo 4 demo_wrapped 0 (by decide) (by decide)).1 (some 1) [some 2, some 3]
      (by decide)).1,
   ((C4_fifo 4 demo_wrapped 0 (by decide) (by decide)).1 (some 1) [some 2, some 3]
      (by decide)).2.1,
   by decide, by decide,
   (C4_fifo 4 demo_wrapped 1 (by decide) (by decide)).2.1 [3, 1, 2] (by decide) (by decide)
      (Or.inl (by decide))⟩



/-- C5: in a state whose queues are well-formed rings, for a descriptor `pd`
that is not null, is not the idle task and occurs in the queue at
`pd.priority` (at any position, the ring wrapping or not), `mlfq_remove(pd)`
leaves that queue with the former entries without the first occurrence of
`pd`, in their order, `count` one less, `front` as it was and
`rear = (front + count) mod NPROC`, and leaves the other queues and every
descriptor as they were; when `pd` is null, is the idle task or does not occur
in that queue, the state is unchanged. -/
theorem C5_mlfq_remove (NPROC : Nat) (s : kernel) (hw : wf_queues NPROC s) :
    (∀ pd : Nat, some pd ≠ s.idleproc →
      0 ≤ (s.proc pd).priority → (s.proc pd).priority < (NMLFQ : Int) →
      some pd ∈ queue_entries NPROC s (s.proc pd).priority.toNat →
      queue_entries NPROC (mlfq_remove NPROC s (some pd)) (s.proc pd).priority.toNat =
        (queue_entries NPROC s (s.proc pd).priority.toNat).erase (some pd) ∧
      ((mlfq_remove NPROC s (some pd)).mlfq_queues (s.proc pd).priority.toNat).count + 1 =
        (s.mlfq_queues (s.proc pd).priority.toNat).count ∧
      ((mlfq_remove NPROC s (some pd)).mlfq_queues (s.proc pd).priority.toNat).front =
        (s.mlfq_queues (s.proc pd).priority.toNat).front ∧
      ((mlfq_remove NPROC s (some pd)).mlfq_queues (s.proc pd).priority.toNat).rear =
        (((mlfq_remove NPROC s (some pd)).mlfq_queues (s.proc pd).priority.toNat).front +
          ((mlfq_remove NPROC s (some pd)).mlfq_queues (s.proc pd).priority.toNat).count)
          % NPROC ∧
      (∀ k, k ≠ (s.proc pd).priority.toNat →
        (mlfq_remove NPROC s (some pd)).mlfq_queues k = s.mlfq_queues k) ∧
      (mlfq_remove NPROC s (some pd)).proc = s.proc) ∧
    mlfq_remove NPROC s none = s ∧
    (∀ pd : Nat, some pd = s.idleproc → mlfq_remove NPROC s (some pd) = s) ∧
    (∀ pd : Nat, some pd ∉ queue_entries NPROC s (s.proc pd).priority.toNat →
      mlfq_remove NPROC s (some pd) = s) := by
  refine ⟨?_, rfl, mlfq_remove_idle NPROC s, mlfq_remove_absent NPROC s⟩
  intro pd hi h0 h1 hm
  have hk : (s.proc pd).priority.toNat < NMLFQ := by omega
  have hwk := hw _ hk
  have hN : 0 < NPROC := hwk.1.trans_le' (Nat.zero_le _)
  have he := mlfq_remove_entries NPROC s pd hi h0 h1 hwk
  have hw2 := mlfq_remove_wf NPROC hN s (some pd) _ hwk
  have hlen := congrArg List.length he
  rw [List.length_erase_of_mem hm] at hlen
  simp only [queue_entries, entries_length] at hlen
  have hpos : 0 < (s.mlfq_queues (s.proc pd).priority.toNat).count := by
    have := List.length_pos_of_mem hm
    simpa [queue_entries] using this
  refine ⟨he, by omega, ?_, hw2.2.2.2, fun k hk => mlfq_remove_queue_ne NPROC s pd hk,
    mlfq_remove_proc NPROC s _⟩
  cases hf : (List.range (s.mlfq_queues (s.proc pd).priority.toNat).count).find?
            (fun k => (s.mlfq_queues (s.proc pd).priority.toNat).procs
              (((s.mlfq_queues (s.proc pd).priority.toNat).front + k) % NPROC) == some pd) with
  | none => exact absurd hm (search_none.mp hf)
  | some k =>
    rw [mlfq_remove_found NPROC s pd k hi h0 h1 hf]
    simp

/-- C5, witness: in the example state the ring of queue 0 holds slots 1, 2, 3
at indices 3, 0, 1; removing slot 2, the middle entry just after the wrap,
leaves slots 1 and 3. -/
theorem C5_mlfq_remove_witness :
    wf_queues 4 demo_wrapped ∧
    queue_entries 4 demo_wrapped (demo_wrapped.proc 2).priority.toNat
      = [some 1, some 2, some 3] ∧
    queue_entries 4 (mlfq_remove 4 demo_wrapped (some 2)) (demo_wrapped.proc 2).priority.toNat =
      (queue_entries 4 demo_wrapped (demo_wrapped.proc 2).priority.toNat).erase (some 2) :=
  ⟨by decide, by decide,
   ((C5_mlfq_remove 4 demo_wrapped (by decide)).1 2 (by decide) (by decide) (by decide)
      (by decide)).1⟩



/-- C6: `mlfq_enqueue(priority, pd)` returns the state as it was (every queue
and every field of `pd` included) when `pd.state` is not RUNNABLE, and also
when the queue at the clamped priority already holds `NPROC` entries; there is
no panic on either path. -/
theorem C6_mlfq_enqueue_noop (NPROC : Nat) (s : kernel) (priority : Int) (pd : Nat)
    (h : (s.proc pd).state ≠ RUNNABLE ∨
         NPROC ≤ (s.mlfq_queues (clamp_priority priority).toNat).count) :
    mlfq_enqueue NPROC s priority pd = s := by
  rcases h with h | h
  · exact mlfq_enqueue_not_runnable NPROC s priority pd h
  · exact mlfq_enqueue_full NPROC s priority pd (by omega)

/-- C6, witness: in the example state where slot 1 sleeps, enqueueing slot 1
leaves the state as it was; and with `NPROC = 3` queue 0 of the other example
state, which holds three entries, is full, so that enqueueing the RUNNABLE slot
2 there is dropped. -/
theorem C6_mlfq_enqueue_noop_witness :
    (demo_idle.proc 1).state ≠ RUNNABLE ∧
    queue_entries 4 (mlfq_enqueue 4 demo_idle 0 1) 0 = queue_entries 4 demo_idle 0 ∧
    (mlfq_enqueue 4 demo_idle 0 1).proc 1 = demo_idle.proc 1 ∧
    (demo_wrapped.proc 2).state = RUNNABLE ∧
    3 ≤ (demo_wrapped.mlfq_queues (clamp_priority 0).toNat).count ∧
    queue_entries 3 (mlfq_enqueue 3 demo_wrapped 0 2) 0 = queue_entries 3 demo_wrapped 0 ∧
    (mlfq_enqueue 3 demo_wrapped 0 2).proc 2 = demo_wrapped.proc 2 :=
  ⟨by decide,
   by rw [C6_mlfq_enqueue_noop 4 demo_idle 0 1 (Or.inl (by decide))],
   by rw [C6_mlfq_enqueue_noop 4 demo_idle 0 1 (Or.inl (by decide))],
   by decide, by decide,
   by rw [C6_mlfq_enqueue_noop 3 demo_wrapped 0 2 (Or.inr (by decide))],
   by rw [C6_mlfq_enqueue_noop 3 demo_wrapped 0 2 (Or.inr (by decide))]⟩



/-- C7, counterexample: in the example state the current descriptor, slot 1,
is RUNNING, not idle, at priority 0, with `ticks_in_queue = 5`, at least
`queue_time_slice[0] = 1`; `schedule()` enqueues it in queue 0, not in queue
`min(0+1, 4) = 1`, and after `schedule()` and after `yield()` its priority is
still 0. -/
theorem C7_counterexample :
    demo_running.cpu_proc = some 1 ∧ (demo_running.proc 1).state = RUNNING ∧
    some 1 ≠ demo_running.idleproc ∧ (demo_running.proc 1).priority = 0 ∧
    (demo_running.proc 1).ticks_in_queue ≥ (queue_time_slice.getD 0 0 : Nat) ∧
    queue_entries 64 (schedule_requeue 64 demo_running) 0 = [some 1] ∧
    queue_entries 64 (schedule_requeue 64 demo_running) 1 = [] ∧
    ((schedule 64 demo_running).proc 1).priority = 0 ∧
    ((schedule 64 demo_running).proc 1).priority ≠ min ((demo_running.proc 1).priority + 1) 4 ∧
    ((yield 64 demo_running).proc 1).priority = 0 := by
  decide

/-- C7, amended: for a current descriptor that is RUNNING and not idle, with
its priority in 0..4 and room in its queue, whatever its `ticks_in_queue` (at
least `queue_time_slice[priority]` or not), `schedule()` and `yield()` enqueue
it at the rear of the queue of its current priority and leave its priority
field as it was: they do not demote, so running and yielding alone never moves
a descriptor to another level. -/
theorem C7_schedule_keeps_priority (NPROC : Nat) (s : kernel) (p : Nat)
    (hcur : s.cpu_proc = some p) (hrun : (s.proc p).state = RUNNING)
    (hidle : some p ≠ s.idleproc)
    (h0 : 0 ≤ (s.proc p).priority) (h1 : (s.proc p).priority < (NMLFQ : Int))
    (hw : wf_queue NPROC (s.mlfq_queues (s.proc p).priority.toNat))
    (hroom : (s.mlfq_queues (s.proc p).priority.toNat).count < NPROC) :
    queue_entries NPROC (schedule_requeue NPROC s) (s.proc p).priority.toNat =
      queue_entries NPROC s (s.proc p).priority.toNat ++ [some p] ∧
    (∀ k, k ≠ (s.proc p).priority.toNat →
      (schedule_requeue NPROC s).mlfq_queues k = s.mlfq_queues k) ∧
    ((schedule NPROC s).proc p).priority = (s.proc p).priority ∧
    yield NPROC s = schedule NPROC s := by
  have h := schedule_requeue_appends NPROC s p hcur hrun hidle h0 h1 hw hroom
  refine ⟨h.1, h.2.1, ?_, ?_⟩
  · rw [schedule_proc_priority, h.2.2.1]
  · unfold yield
    rw [hcur]
    simp only
    rw [if_neg (by rw [hrun]; decide)]

/-- C7, witness of the amended claim, on the example state. -/
theorem C7_schedule_keeps_priority_witness :
    demo_running.cpu_proc = some 1 ∧ (demo_running.proc 1).state = RUNNING ∧
    some 1 ≠ demo_running.idleproc ∧
    ((schedule 64 demo_running).proc 1).priority = (demo_running.proc 1).priority :=
  ⟨by decide, by decide, by decide,
   (C7_schedule_keeps_priority 64 demo_running 1 (by decide) (by decide) (by decide)
      (by decide) (by decide) (by decide) (by decide)).2.2.1⟩



/-- C8, counterexample: in the example state the current descriptor is the
idle task, RUNNABLE, and every queue is empty; `schedule()` falls back to the
idle task and sets its state to RUNNING, so the state of the current
descriptor did change. -/
theorem C8_counterexample :
    demo_idle.cpu_proc = demo_idle.idleproc ∧ demo_idle.cpu_proc = some 0 ∧
    (demo_idle.proc 0).state = RUNNABLE ∧
    ((schedule 64 demo_idle).proc 0).state = RUNNING ∧
    ((schedule 64 demo_idle).proc 0).state ≠ (demo_idle.proc 0).state := by
  decide

/-- C8, amended: when `schedule()` is entered with a current descriptor `p`
that is RUNNING and not idle (priority in 0..4, room in its queue), its first
part, before any candidate is dequeued, sets `p` to RUNNABLE and appends it at
the rear of the queue of its own, unchanged priority, with `ticks_in_queue = 0`
and `entry_time = ticks`.  When `p` is the idle task or is not RUNNING, that
first part changes nothing and the rest of `schedule()` enqueues nothing (every
queue keeps a final segment of its entries); the state of `p` is then written
only if the selection chooses `p`, which sets it to RUNNING: a `p` that is not
idle and not RUNNABLE keeps its state, while the idle task chosen as the
fallback becomes RUNNING. -/
theorem C8_schedule_requeue (NPROC : Nat) (s : kernel) (p : Nat) (hcur : s.cpu_proc = some p)
    (hw : wf_queues NPROC s) :
    ((s.proc p).state = RUNNING → some p ≠ s.idleproc →
      0 ≤ (s.proc p).priority → (s.proc p).priority < (NMLFQ : Int) →
      (s.mlfq_queues (s.proc p).priority.toNat).count < NPROC →
      schedule NPROC s =
        schedule_switch
          (schedule_pick NPROC (List.range NMLFQ) (schedule_requeue NPROC s)).2
          (schedule_pick NPROC (List.range NMLFQ) (schedule_requeue NPROC s)).1 ∧
      queue_entries NPROC (schedule_requeue NPROC s) (s.proc p).priority.toNat =
        queue_entries NPROC s (s.proc p).priority.toNat ++ [some p] ∧
      (∀ k, k ≠ (s.proc p).priority.toNat →
        (schedule_requeue NPROC s).mlfq_queues k = s.mlfq_queues k) ∧
      (schedule_requeue NPROC s).proc p =
        { s.proc p with state := RUNNABLE, ticks_in_queue := 0, entry_time := s.ticks }) ∧
    (((s.proc p).state ≠ RUNNING ∨ some p = s.idleproc) →
      schedule_requeue NPROC s = s ∧
      (∀ k, queue_entries NPROC (schedule NPROC s) k <:+ queue_entries NPROC s k) ∧
      ((schedule NPROC s).proc p = s.proc p ∨
        ((schedule NPROC s).cpu_proc = some p ∧
         (schedule NPROC s).proc p = { s.proc p with state := RUNNING })) ∧
      ((s.proc p).state ≠ RUNNABLE → some p ≠ s.idleproc →
        (schedule NPROC s).proc p = s.proc p)) := by
  constructor
  · intro hrun hidle h0 h1 hroom
    have h := schedule_requeue_appends NPROC s p hcur hrun hidle h0 h1
      (hw _ (by omega)) hroom
    exact ⟨rfl, h.1, h.2.1, h.2.2.1⟩
  · intro hskip
    have hs : schedule_requeue NPROC s = s :=
      schedule_requeue_skip NPROC s (fun q hq => by
        rw [hcur] at hq
        cases Option.some.inj hq
        exact hskip)
    have hsw := schedule_switch_proc (schedule_pick NPROC (List.range NMLFQ) s).2
      (schedule_pick NPROC (List.range NMLFQ) s).1 p
    rw [schedule_pick_proc, schedule_pick_idleproc] at hsw
    refine ⟨hs, ?_, ?_, ?_⟩
    · intro k
      unfold schedule
      simp only
      rw [hs, schedule_switch_queue_entries]
      exact schedule_pick_suffix NPROC _ s hw (fun x hx => List.mem_range.mp hx) k
    · unfold schedule
      simp only
      rw [hs]
      rcases hsw with h | ⟨h1, h2, _⟩
      · exact Or.inl h
      · exact Or.inr ⟨h1, h2⟩
    · intro hnr hidle
      unfold schedule
      simp only
      rw [hs]
      rcases hsw with h | ⟨_, _, h3 | ⟨_, h4⟩⟩
      · exact h
      · exact absurd (schedule_pick_runnable NPROC _ s p h3) hnr
      · exact absurd h4.symm hidle

/-- C8, witness of the amended claim: in the example state with slot 1
current and RUNNING, the first part of `schedule()` puts slot 1 at the rear of
queue 0, RUNNABLE, with its tick count reset. -/
theorem C8_schedule_requeue_witness :
    demo_running.cpu_proc = some 1 ∧ wf_queues 64 demo_running ∧
    queue_entries 64 (schedule_requeue 64 demo_running) (demo_running.proc 1).priority.toNat =
      queue_entries 64 demo_running (demo_running.proc 1).priority.toNat ++ [some 1] ∧
    (schedule_requeue 64 demo_running).proc 1 =
      { demo_running.proc 1 with state := RUNNABLE, ticks_in_queue := 0,
                                 entry_time := demo_running.ticks } :=
  ⟨by decide, by decide,
   ((C8_schedule_requeue 64 demo_running 1 (by decide) (by decide)).1 (by decide) (by decide)
      (by decide) (by decide) (by decide)).2.1,
   ((C8_schedule_requeue 64 demo_running 1 (by decide) (by decide)).1 (by decide) (by decide)
      (by decide) (by decide) (by decide)).2.2.2⟩



/-- C9: in every state reachable from boot, and in every state whose queue 0
is a well-formed ring with room for them, after `wakeup(chan)` every descriptor
other than the caller and the idle task that was SLEEPING with `chan` as its
wait channel is RUNNABLE, has priority 0 (whatever it was before) and has been
appended to queue 0, in process-table order; every other descriptor is as it
was, and so are the queues other than queue 0 and the earlier entries of
queue 0. -/
theorem C9_wakeup (NPROC : Nat) (s : kernel) (chan : Chan)
    (hs : Reachable NPROC s ∨
      (wf_queue NPROC (s.mlfq_queues 0) ∧
       (s.mlfq_queues 0).count + (wakeup_targets NPROC s chan).length ≤ NPROC)) :
    (∀ p, (p ∈ wakeup_targets NPROC s chan ↔
        p < NPROC ∧ some p ≠ s.cpu_proc ∧ some p ≠ s.idleproc ∧
        (s.proc p).state = SLEEPING ∧ (s.proc p).chan = chan)) ∧
    (∀ p, p ∈ wakeup_targets NPROC s chan →
      ((wakeup NPROC s chan).proc p).state = RUNNABLE ∧
      ((wakeup NPROC s chan).proc p).priority = 0 ∧
      (wakeup NPROC s chan).proc p =
        { s.proc p with state := RUNNABLE, priority := 0, ticks_in_queue := 0,
                        entry_time := s.ticks }) ∧
    queue_entries NPROC (wakeup NPROC s chan) 0 =
      queue_entries NPROC s 0 ++ (wakeup_targets NPROC s chan).map some ∧
    (∀ k, k ≠ 0 → (wakeup NPROC s chan).mlfq_queues k = s.mlfq_queues k) ∧
    (∀ p, p ∉ wakeup_targets NPROC s chan → (wakeup NPROC s chan).proc p = s.proc p) := by
  rcases hs with hr | ⟨hw, hroom⟩
  · rcases Nat.eq_zero_or_pos NPROC with h0 | hN
    · subst h0
      have ht : wakeup_targets 0 s chan = [] := rfl
      have hwk : wakeup 0 s chan = s := rfl
      rw [hwk, ht]
      refine ⟨fun p => by simp, fun p hp => by simp at hp, by simp, fun _ _ => rfl,
        fun _ _ => rfl⟩
    · exact wakeup_spec NPROC s chan (reachable_wf_queues hN hr 0 (by decide))
        (reachable_wakeup_room hN hr chan)
  · exact wakeup_spec NPROC s chan hw hroom

/-- C9, witness: in the example state, where the idle task is current and
slot 1 sleeps on channel `addr 1` at priority 0, `wakeup(addr 1)` makes slot 1
RUNNABLE and puts it in queue 0. -/
theorem C9_wakeup_witness :
    wf_queue 4 (demo_idle.mlfq_queues 0) ∧
    (demo_idle.mlfq_queues 0).count + (wakeup_targets 4 demo_idle (Chan.addr 1)).length ≤ 4 ∧
    wakeup_targets 4 demo_idle (Chan.addr 1) = [1] ∧
    queue_entries 4 (wakeup 4 demo_idle (Chan.addr 1)) 0 =
      queue_entries 4 demo_idle 0 ++ (wakeup_targets 4 demo_idle (Chan.addr 1)).map some :=
  ⟨by decide, by decide, by decide,
   (C9_wakeup 4 demo_idle (Chan.addr 1) (Or.inr ⟨by decide, by decide⟩)).2.2.1⟩



/-- C11, the code at the failing input: after boot with `NPROC = 64` and the
first `schedule()`, the first process (slot 1, pid 1) is current, slot 2 is
UNUSED with pid 0, and no descriptor in use other than the idle one has pid 0.
There `kill(0)` does not return -1: its loop, which compares pids without
looking at the state, stops at the free slot 2, sets its `killed` flag and
returns 0.  `allocproc` does not clear the flag, so the next `fork()` hands out
slot 2 as a child that is born with `killed = 1`. -/
theorem C11_kill_zero_marks_free_slot :
    Reachable 64 (schedule 64 (scheduler_entry (boot 64 { a0 := 0 }))) ∧
    (∀ i, i < 64 →
      some i ≠ (schedule 64 (scheduler_entry (boot 64 { a0 := 0 }))).idleproc →
      ((schedule 64 (scheduler_entry (boot 64 { a0 := 0 }))).proc i).state ≠ UNUSED →
      ((schedule 64 (scheduler_entry (boot 64 { a0 := 0 }))).proc i).pid ≠ 0) ∧
    ((schedule 64 (scheduler_entry (boot 64 { a0 := 0 }))).proc 2).state = UNUSED ∧
    ((schedule 64 (scheduler_entry (boot 64 { a0 := 0 }))).proc 2).killed = 0 ∧
    (kill 64 (schedule 64 (scheduler_entry (boot 64 { a0 := 0 }))) 0).1 = 0 ∧
    ((kill 64 (schedule 64 (scheduler_entry (boot 64 { a0 := 0 }))) 0).2.proc 2).killed = 1 ∧
    (fork 64 (kill 64 (schedule 64 (scheduler_entry (boot 64 { a0 := 0 }))) 0).2
        (some { a0 := 0 }) true true).1 = 2 ∧
    ((fork 64 (kill 64 (schedule 64 (scheduler_entry (boot 64 { a0 := 0 }))) 0).2
        (some { a0 := 0 }) true true).2.proc 2).state = RUNNABLE ∧
    ((fork 64 (kill 64 (schedule 64 (scheduler_entry (boot 64 { a0 := 0 }))) 0).2
        (some { a0 := 0 }) true true).2.proc 2).killed = 1 := by
  refine ⟨?_, by decide, by decide, by decide, by decide, by decide, by decide, by decide,
    by decide⟩
  exact Reachable.step _ _ (Reachable.step _ _ (Reachable.boot _) (Step.scheduler_entry _ rfl))
    (Step.schedule _)



set_option maxRecDepth 16384

/-- C13: when no slot of the table other than the idle one has state UNUSED,
`fork()` returns -1 and the state after it is the state before it: every
descriptor, every queue and the pid counter `nextpid` are unchanged, whatever
the memory layer would have answered. -/
theorem C13_fork_table_full (NPROC : Nat) (s : kernel) (kalloc : Option trapframe)
    (pagetable_ok uvmcopy_ok : Bool)
    (hfull : ∀ i, i < NPROC → some i ≠ s.idleproc → (s.proc i).state ≠ UNUSED) :
    (fork NPROC s kalloc pagetable_ok uvmcopy_ok).1 = -1 ∧
    (fork NPROC s kalloc pagetable_ok uvmcopy_ok).2 = s ∧
    (fork NPROC s kalloc pagetable_ok uvmcopy_ok).2.proc = s.proc ∧
    (fork NPROC s kalloc pagetable_ok uvmcopy_ok).2.mlfq_queues = s.mlfq_queues ∧
    (fork NPROC s kalloc pagetable_ok uvmcopy_ok).2.nextpid = s.nextpid := by
  have hnone : (List.range NPROC).find?
      (fun p => some p != s.idleproc && (s.proc p).state == UNUSED) = none := by
    rw [List.find?_range_eq_none]
    intro j hj
    by_cases hi : some j = s.idleproc
    · simp [hi]
    · simp [hfull j hj hi]
  have hf : fork NPROC s kalloc pagetable_ok uvmcopy_ok = (-1, s) := by
    unfold fork allocproc
    rw [hnone]
  rw [hf]
  exact ⟨rfl, rfl, rfl, rfl, rfl⟩

/-- C13, witness: in the example state with `NPROC = 4` the three slots other
than the idle one are in use; `fork()` returns -1 and `nextpid` stays 4. -/
theorem C13_fork_table_full_witness :
    (∀ i, i < 4 → some i ≠ demo_wrapped.idleproc → (demo_wrapped.proc i).state ≠ UNUSED) ∧
    (fork 4 demo_wrapped (some { a0 := 0 }) true true).1 = -1 ∧
    (fork 4 demo_wrapped (some { a0 := 0 }) true true).2.nextpid = 4 :=
  ⟨by decide,
   (C13_fork_table_full 4 demo_wrapped (some { a0 := 0 }) true true (by decide)).1,
   (C13_fork_table_full 4 demo_wrapped (some { a0 := 0 }) true true (by decide)).2.2.2.2⟩



set_option maxRecDepth 16384

/-- C14: let the current process `c` of a reachable state `s`, not the idle
task, call `exit(status)`, and let `t` be the state after it.  Then in `t` the
descriptor `c` is ZOMBIE with `xstate = status`, keeps its pid and is in no
queue.  Let `u` be any state reached from `t` by steps that leave `c` a ZOMBIE,
in which the parent `par` of `c` is current and `c` is the ZOMBIE child that its
scan meets first.  Then `wait(addr)` of `par` with `addr ≠ 0` and a copy that
succeeds returns the pid of `c`, copies out `status`, and leaves the descriptor
of `c` UNUSED with pid, parent, chan, killed and xstate cleared, so that the
scan of `allocproc` accepts the slot again. -/
theorem C14_exit_then_wait (NPROC : Nat) (s t u : kernel) (c par : Nat) (status : Int)
    (addr : Nat) (hN : 0 < NPROC) (hs : Reachable NPROC s) (hcur : s.cpu_proc = some c)
    (hidle : some c ≠ s.idleproc) (hexit : exit NPROC s status = some t)
    (hrun : zombie_run NPROC c t u) (hpar : u.cpu_proc = some par)
    (hchild : (u.proc c).parent = some par)
    (hfirst : ∀ j, j < c → ¬ ((u.proc j).parent = some par ∧ (u.proc j).state = ZOMBIE))
    (haddr : addr ≠ 0) :
    (t.proc c).state = ZOMBIE ∧ (t.proc c).xstate = status ∧
    (t.proc c).pid = (s.proc c).pid ∧
    (∀ k, k < NMLFQ → some c ∉ queue_entries NPROC t k) ∧
    (wait NPROC u addr true).ret = some (s.proc c).pid ∧
    (wait NPROC u addr true).copied = some status ∧
    ((wait NPROC u addr true).k.proc c).state = UNUSED ∧
    ((wait NPROC u addr true).k.proc c).pid = 0 ∧
    ((wait NPROC u addr true).k.proc c).parent = none ∧
    ((wait NPROC u addr true).k.proc c).chan = Chan.null ∧
    ((wait NPROC u addr true).k.proc c).killed = 0 ∧
    ((wait NPROC u addr true).k.proc c).xstate = 0 ∧
    (some c != (wait NPROC u addr true).k.idleproc &&
      ((wait NPROC u addr true).k.proc c).state == UNUSED) = true ∧
    (∃ np, np ≤ c ∧ first_free NPROC (wait NPROC u addr true).k np) := by
  have hk := kernel_inv_reachable hN hs
  have hc0 : c ≠ 0 := by
    intro e
    rw [hk.1.idle, e] at hidle
    exact hidle rfl
  have hcN : c < NPROC := (hk.2 c hcur).1
  have hf := exit_frame status hcur hexit
  have hzt : (t.proc c).state = ZOMBIE := hf.2.2.2.2 hidle
  have hrt : Reachable NPROC t := Reachable.step _ _ hs (Step.exit _ _ status hexit)
  have hkt := kernel_inv_reachable hN hrt
  obtain ⟨hru, hzu, hpidu, hxu⟩ := zombie_run_stable hN hc0 hrt hzt hrun
  have hku := kernel_inv_reachable hN hru
  have hw := wait_reaps NPROC u par c addr hpar hcN hchild hzu hfirst
  have hidle_u : some c ≠ u.idleproc := by
    rw [hku.1.idle]
    exact fun e => hc0 (Option.some.inj e)
  have htest : (some c != (freeproc u c).idleproc && ((freeproc u c).proc c).state == UNUSED)
      = true := by
    have h1 : (freeproc u c).idleproc = u.idleproc := rfl
    have h2 : ((freeproc u c).proc c).state = UNUSED := by simp [freeproc]
    rw [h1, h2]
    simp [hidle_u]
  refine ⟨hzt, hf.2.2.2.1, hf.2.1 c, ?_, ?_, ?_, ?_, ?_, ?_, ?_, ?_, ?_, ?_, ?_⟩
  · intro k hkq hmem
    obtain ⟨i, hi, _, _, hr, _⟩ := hkt.1.entry k hkq (some c) hmem
    cases Option.some.inj hi
    rw [hzt] at hr
    exact absurd hr (by decide)
  · rw [hw, hpidu, hf.2.1 c]
  · rw [hw]
    simp only
    rw [if_pos haddr, hxu, hf.2.2.2.1]
  · rw [hw]; simp [freeproc]
  · rw [hw]; simp [freeproc]
  · rw [hw]; simp [freeproc]
  · rw [hw]; simp [freeproc]
  · rw [hw]; simp [freeproc]
  · rw [hw]; simp [freeproc]
  · rw [hw]; exact htest
  · rw [hw]
    simp only
    cases hfind : (List.range NPROC).find?
        (fun p => some p != (freeproc u c).idleproc && ((freeproc u c).proc p).state == UNUSED) with
    | none =>
      rw [List.find?_range_eq_none] at hfind
      have := hfind c hcN
      rw [htest] at this
      exact absurd this (by decide)
    | some np =>
      refine ⟨np, ?_, hfind⟩
      rw [List.find?_range_eq_some] at hfind
      by_contra hgt
      have := hfind.2.2 c (by omega)
      rw [htest] at this
      exact absurd this (by decide)

/-- C14, witness: in the example run the child of slot 2 is current; it calls
`exit(7)`, which wakes the parent that sleeps in `wait` and switches to it, and
the `wait(8)` of the parent then returns the pid 2 of the child and copies out
the status 7. -/
theorem C14_exit_then_wait_witness :
    0 < 64 ∧ Reachable 64 demo_child_running ∧ demo_child_running.cpu_proc = some 2 ∧
    exit 64 demo_child_running 7 = some demo_child_exited ∧
    demo_child_exited.cpu_proc = some 1 ∧
    (demo_child_exited.proc 2).parent = some 1 ∧
    (demo_child_exited.proc 2).state = ZOMBIE ∧
    (wait 64 demo_child_exited 8 true).ret = some 2 ∧
    (wait 64 demo_child_exited 8 true).copied = some 7 ∧
    ((wait 64 demo_child_exited 8 true).k.proc 2).state = UNUSED := by
  have hreach : Reachable 64 demo_child_running :=
    Reachable.step _ _
      (Reachable.step _ _
        (Reachable.step _ _ (Reachable.step _ _ (Reachable.boot _) (Step.scheduler_entry _ rfl))
          (Step.schedule _))
        (Step.fork _ _ _ _ (by decide)))
      (Step.wait _ _ _ (by decide))
  have hsome : (exit 64 demo_child_running 7).isSome = true := by decide
  have hexit : exit 64 demo_child_running 7 = some demo_child_exited := by
    unfold demo_child_exited
    cases he : exit 64 demo_child_running 7 with
    | none => rw [he] at hsome; exact absurd hsome (by decide)
    | some t => rfl
  have hthm := C14_exit_then_wait 64 demo_child_running demo_child_exited demo_child_exited
    2 1 7 8 (by decide) hreach (by decide) (by decide) hexit
    (zombie_run.refl _) (by decide) (by decide) (by decide) (by decide)
  exact ⟨by decide, hreach, by decide, hexit, by decide, by decide, hthm.1, hthm.2.2.2.2.1,
    hthm.2.2.2.2.2.1, hthm.2.2.2.2.2.2.1⟩



set_option maxRecDepth 16384

/-- C15 fails as stated: a call of `wait` that returns -1 may have modified
descriptors and a queue.  With `NPROC = 64`, in `demo_forked` the first
process (slot 1) is current with `killed = 0` and has one child, slot 2,
RUNNABLE and alone in queue 0.  Its call of `wait` finds no ZOMBIE on the
first pass of the loop and goes to sleep: `wait` sets the caller's `chan` and
state and `schedule()` takes the child off queue 0 and makes it RUNNING and
current (`demo_child_running`).  The child calls `kill(1)` and goes to sleep,
the caller is current again (`demo_wait_killed`), and the second pass of the
loop of the same call returns -1, its `killed` flag being set.  By then the
child is SLEEPING and queue 0 is empty. -/
theorem C15_counterexample :
    Reachable 64 demo_forked ∧
    demo_forked.cpu_proc = some 1 ∧
    (demo_forked.proc 1).killed = 0 ∧
    (demo_forked.proc 2).parent = some 1 ∧
    (wait 64 demo_forked 8 true).ret = none ∧
    (wait 64 demo_forked 8 true).k = demo_child_running ∧
    (demo_forked.proc 1).state = RUNNING ∧
    (demo_forked.proc 1).chan = Chan.null ∧
    (demo_child_running.proc 1).state = SLEEPING ∧
    (demo_child_running.proc 1).chan = Chan.procAddr 1 ∧
    (demo_forked.proc 2).state = RUNNABLE ∧
    (demo_child_running.proc 2).state = RUNNING ∧
    queue_entries 64 demo_forked 0 = [some 2] ∧
    queue_entries 64 demo_child_running 0 = [] ∧
    demo_child_running.cpu_proc = some 2 ∧
    Reachable 64 demo_wait_killed ∧
    demo_wait_killed.cpu_proc = some 1 ∧
    (wait 64 demo_wait_killed 8 true).ret = some (-1) ∧
    (demo_wait_killed.proc 1).killed = 1 ∧
    (demo_wait_killed.proc 2).state = SLEEPING ∧
    queue_entries 64 demo_wait_killed 0 = [] := by
  have h0 : Reachable 64 demo_forked :=
    Reachable.step _ _
      (Reachable.step _ _ (Reachable.step _ _ (Reachable.boot _) (Step.scheduler_entry _ rfl))
        (Step.schedule _))
      (Step.fork _ (some { a0 := 0 }) true true (by decide))
  have h1 : Reachable 64 demo_child_running :=
    Reachable.step _ _ h0 (Step.wait demo_forked 8 true (by decide))
  have h2 : Reachable 64 demo_wait_killed :=
    Reachable.step _ _
      (Reachable.step _ _ (Reachable.step _ _ h1 (Step.kill _ 1))
        (Step.sleep _ (Chan.addr 5) (by decide)))
      (Step.sleep_resume _ (by decide))
  exact ⟨h0, by decide, by decide, by decide, by decide, rfl, by decide, by decide, by decide,
    by decide, by decide, by decide, by decide, by decide, by decide, h2, by decide, by decide,
    by decide, by decide, by decide⟩

/-- C15, amended: the pass of the loop of `wait(addr)` on which the call
returns -1 changes nothing, in any state `s` in which the pass starts: when
it returns -1 and no ZOMBIE descriptor has pid -1 (so that -1 is not a pid
returned), the state after the pass is `s`, every descriptor and every queue,
and no status is copied out; so it is in every state reachable from boot in
which the pid counter has not overflowed.  The pass returns -1 so when the
caller `p` has no children, when it has no ZOMBIE child and its `killed` flag
is set, and when it has a ZOMBIE child, `addr` is not 0 and the copy of the
status to `addr` fails: that child stays ZOMBIE and is not freed.  A pass that
finds children, none of them ZOMBIE, and `killed` unset does not return: the
caller goes to sleep on its own address, which changes the caller and, through
`schedule()`, the descriptor dispatched and its queue, before a later pass of
the same call can return. -/
theorem C15_wait_fails_unchanged (NPROC : Nat) (s : kernel) (addr : Nat) (copyout_ok : Bool) :
    ((∀ pp, pp < NPROC → (s.proc pp).state = ZOMBIE → (s.proc pp).pid ≠ -1) →
      (wait NPROC s addr copyout_ok).ret = some (-1) →
      (wait NPROC s addr copyout_ok).k = s ∧ (wait NPROC s addr copyout_ok).copied = none) ∧
    (Reachable NPROC s → s.nextpid ≤ INT_MAX →
      (wait NPROC s addr copyout_ok).ret = some (-1) →
      (wait NPROC s addr copyout_ok).k = s ∧ (wait NPROC s addr copyout_ok).copied = none) ∧
    (∀ p, s.cpu_proc = some p → (∀ pp, pp < NPROC → (s.proc pp).parent ≠ some p) →
      (wait NPROC s addr copyout_ok).ret = some (-1) ∧ (wait NPROC s addr copyout_ok).k = s) ∧
    (∀ p, s.cpu_proc = some p →
      (∀ pp, pp < NPROC → (s.proc pp).parent = some p → (s.proc pp).state ≠ ZOMBIE) →
      (s.proc p).killed ≠ 0 →
      (wait NPROC s addr copyout_ok).ret = some (-1) ∧ (wait NPROC s addr copyout_ok).k = s) ∧
    (∀ p pp, s.cpu_proc = some p → pp < NPROC → (s.proc pp).parent = some p →
      (s.proc pp).state = ZOMBIE → addr ≠ 0 → copyout_ok = false →
      (wait NPROC s addr copyout_ok).ret = some (-1) ∧ (wait NPROC s addr copyout_ok).k = s ∧
      ((wait NPROC s addr copyout_ok).k.proc pp).state = ZOMBIE) ∧
    (∀ p c, s.cpu_proc = some p →
      (∀ pp, pp < NPROC → (s.proc pp).parent = some p → (s.proc pp).state ≠ ZOMBIE) →
      c < NPROC → (s.proc c).parent = some p → (s.proc p).killed = 0 →
      (wait NPROC s addr copyout_ok).ret = none ∧
      (wait NPROC s addr copyout_ok).k = sleep NPROC s (Chan.procAddr p)) := by
  have hfirst : (∀ pp, pp < NPROC → (s.proc pp).state = ZOMBIE → (s.proc pp).pid ≠ -1) →
      (wait NPROC s addr copyout_ok).ret = some (-1) →
      (wait NPROC s addr copyout_ok).k = s ∧ (wait NPROC s addr copyout_ok).copied = none := by
    intro hpid hret
    unfold wait at hret ⊢
    cases hc : s.cpu_proc with
    | none => rw [hc] at hret; simp at hret
    | some p =>
      rw [hc] at hret
      simp only at hret ⊢
      cases hf : (List.range NPROC).find?
          (fun pp => (s.proc pp).parent == some p && (s.proc pp).state == ZOMBIE) with
      | some pp =>
        rw [hf] at hret
        simp only at hret ⊢
        by_cases hfail : addr ≠ 0 ∧ copyout_ok = false
        · rw [if_pos hfail]
          exact ⟨rfl, rfl⟩
        · exfalso
          rw [if_neg hfail] at hret
          simp only [Option.some.injEq] at hret
          rw [List.find?_range_eq_some] at hf
          obtain ⟨hcond, hmem, _⟩ := hf
          have hpp : pp < NPROC := List.mem_range.mp hmem
          have hz : (s.proc pp).state = ZOMBIE := by
            simp only [Bool.and_eq_true, beq_iff_eq] at hcond
            exact hcond.2
          exact hpid pp hpp hz hret
      | none =>
        rw [hf] at hret
        simp only at hret ⊢
        split_ifs at hret ⊢ with hk
        exact ⟨rfl, rfl⟩
  refine ⟨hfirst, ?_, ?_, ?_, ?_, ?_⟩
  · intro hs _ hret
    refine hfirst ?_ hret
    intro pp hpp hz
    have hN : 0 < NPROC := by omega
    by_cases hp0 : pp = 0
    · have := reachable_idle_pid hN hs
      rw [hp0, this]
      omega
    · have := (table_inv_reachable hN hs).used_pid pp hpp hp0 (by rw [hz]; decide)
      omega
  · intro p hp hno
    have hf := wait_no_zombie NPROC s p (fun pp hpp hpar => absurd hpar (hno pp hpp))
    have hkids : (List.range NPROC).any (fun pp => (s.proc pp).parent == some p) = false := by
      rw [List.any_eq_false]
      intro pp hpp
      simp [hno pp (List.mem_range.mp hpp)]
    unfold wait
    rw [hp]
    simp only
    rw [hf]
    simp only
    rw [if_pos (Or.inl hkids)]
    exact ⟨rfl, rfl⟩
  · intro p hp hno hkilled
    have hf := wait_no_zombie NPROC s p hno
    unfold wait
    rw [hp]
    simp only
    rw [hf]
    simp only
    rw [if_pos (Or.inr hkilled)]
    exact ⟨rfl, rfl⟩
  · intro p pp hp hpp hpar hz haddr hcopy
    obtain ⟨c, hf⟩ := wait_some_zombie NPROC s p pp hpp hpar hz
    unfold wait
    rw [hp]
    simp only
    rw [hf]
    simp only
    rw [if_pos ⟨haddr, hcopy⟩]
    exact ⟨rfl, rfl, hz⟩
  · intro p c hp hno hc hpar hkilled
    have hf := wait_no_zombie NPROC s p hno
    have hkids : (List.range NPROC).any (fun pp => (s.proc pp).parent == some p) = true := by
      rw [List.any_eq_true]
      exact ⟨c, List.mem_range.mpr hc, by simp [hpar]⟩
    unfold wait
    rw [hp]
    simp only
    rw [hf]
    simp only
    rw [if_neg (by simp [hkids, hkilled])]
    exact ⟨rfl, rfl⟩

/-- C15, witness: with `NPROC = 64`, after boot and the first `schedule()` the
first process runs and has no children; its `wait` returns -1 and changes
nothing. -/
theorem C15_wait_fails_unchanged_witness :
    Reachable 64 (schedule 64 (scheduler_entry (boot 64 { a0 := 0 }))) ∧
    (schedule 64 (scheduler_entry (boot 64 { a0 := 0 }))).cpu_proc = some 1 ∧
    (wait 64 (schedule 64 (scheduler_entry (boot 64 { a0 := 0 }))) 8 true).ret = some (-1) ∧
    (wait 64 (schedule 64 (scheduler_entry (boot 64 { a0 := 0 }))) 8 true).k =
      schedule 64 (scheduler_entry (boot 64 { a0 := 0 })) ∧
    (wait 64 (schedule 64 (scheduler_entry (boot 64 { a0 := 0 }))) 8 true).copied = none :=
  ⟨Reachable.step _ _ (Reachable.step _ _ (Reachable.boot _) (Step.scheduler_entry _ rfl))
      (Step.schedule _),
   by decide,
   ((C15_wait_fails_unchanged 64 (schedule 64 (scheduler_entry (boot 64 { a0 := 0 }))) 8
      true).2.2.1 1 (by decide) (by decide)).1,
   ((C15_wait_fails_unchanged 64 (schedule 64 (scheduler_entry (boot 64 { a0 := 0 }))) 8
      true).2.2.1 1 (by decide) (by decide)).2,
   ((C15_wait_fails_unchanged 64 (schedule 64 (scheduler_entry (boot 64 { a0 := 0 }))) 8
      true).2.1
      (Reachable.step _ _ (Reachable.step _ _ (Reachable.boot _) (Step.scheduler_entry _ rfl))
        (Step.schedule _))
      (by decide) (by decide)).2⟩



/-- C16: on the queue state, for every state whose queues are as the scheduler
keeps them (well-formed rings without repetition, every entry a RUNNABLE
descriptor of the table other than the idle one, of the priority of its queue,
entered at a tick that has passed), after `age_boost()`:
every queue `k` holds the entries that stay, in their order, followed by the
entries that come down from queue `k + 1`, in their order;
a descriptor that was in a queue `k` in `1..4` with `ticks - entry_time > 200`
is in queue `k - 1` and in no other, with priority `k - 1`, `ticks_in_queue = 0`
and `entry_time = ticks`, one level up;
a descriptor of queue 0, and one of another queue with
`ticks - entry_time ≤ 200`, is in its queue and in no other, unchanged;
afterwards no descriptor queued at a priority above 0 has
`ticks - entry_time > 200`.  `ticks` is unchanged and the queues are again as
the scheduler keeps them. -/
theorem C16_age_boost (NPROC : Nat) (s : kernel) (hs : queues_ok NPROC s) :
    (∀ k, k < NMLFQ →
      queue_entries NPROC (age_boost NPROC s) k =
        staying NPROC s k ++ boosted NPROC s (k + 1)) ∧
    (∀ k p, 1 ≤ k → k < NMLFQ → some p ∈ queue_entries NPROC s k →
      s.ticks - (s.proc p).entry_time > 200 →
      some p ∈ queue_entries NPROC (age_boost NPROC s) (k - 1) ∧
      (∀ j, j < NMLFQ → j ≠ k - 1 → some p ∉ queue_entries NPROC (age_boost NPROC s) j) ∧
      (age_boost NPROC s).proc p =
        { s.proc p with priority := (k : Int) - 1, ticks_in_queue := 0,
                        entry_time := s.ticks }) ∧
    (∀ k p, k < NMLFQ → some p ∈ queue_entries NPROC s k →
      (k = 0 ∨ s.ticks - (s.proc p).entry_time ≤ 200) →
      some p ∈ queue_entries NPROC (age_boost NPROC s) k ∧
      (∀ j, j < NMLFQ → j ≠ k → some p ∉ queue_entries NPROC (age_boost NPROC s) j) ∧
      (age_boost NPROC s).proc p = s.proc p) ∧
    (∀ k p, 1 ≤ k → k < NMLFQ → some p ∈ queue_entries NPROC (age_boost NPROC s) k →
      ¬ ((age_boost NPROC s).ticks - ((age_boost NPROC s).proc p).entry_time > 200)) ∧
    (age_boost NPROC s).ticks = s.ticks ∧
    queues_ok NPROC (age_boost NPROC s) := by
  have hP := age_boost_spec hs
  have h6 : NMLFQ = 5 := rfl
  have hent : ∀ k, k < NMLFQ →
      queue_entries NPROC (age_boost NPROC s) k =
        staying NPROC s k ++ boosted NPROC s (k + 1) := by
    intro k hk
    rcases Nat.eq_zero_or_pos k with h0 | h0
    · subst h0
      rw [hP.at_m]
      unfold staying
      rw [if_pos rfl]
    · exact hP.above k h0 hk
  -- a descriptor that is not among the movers is not written
  have hkept : ∀ k p, k < NMLFQ → some p ∈ queue_entries NPROC s k →
      (k = 0 ∨ ¬ aged s p) → (age_boost NPROC s).proc p = s.proc p := by
    intro k p hk hm hstay
    apply hP.kept
    intro j _ hj hb
    obtain ⟨hj1, _, hmj, haj⟩ := mem_boosted hb
    have hkj := queues_ok_unique hs hk hj hm hmj
    rcases hstay with h0 | hna
    · omega
    · apply hna
      have : decide (aged s p) = true := haj
      exact of_decide_eq_true this
  have honly : ∀ k j p, k < NMLFQ → j < NMLFQ → j ≠ k →
      some p ∈ queue_entries NPROC (age_boost NPROC s) k →
      some p ∉ queue_entries NPROC (age_boost NPROC s) j := by
    intro k j p hk hj hjk hm hc
    exact hjk (queues_ok_unique hP.ok hj hk hc hm)
  refine ⟨hent, ?_, ?_, ?_, hP.ticks, hP.ok⟩
  · intro k p hk1 hk hm ha
    have hb : some p ∈ boosted NPROC s k := by
      rw [boosted_eq hk1 hk, List.mem_filter]
      refine ⟨hm, ?_⟩
      show decide (aged s p) = true
      exact decide_eq_true ha
    have hin : some p ∈ queue_entries NPROC (age_boost NPROC s) (k - 1) := by
      rw [hent (k - 1) (by omega)]
      have e : k - 1 + 1 = k := by omega
      rw [e]
      exact List.mem_append_right _ hb
    exact ⟨hin, fun j hj hjk => honly (k - 1) j p (by omega) hj hjk hin,
      hP.moved p k (by omega) hk hb⟩
  · intro k p hk hm hstay
    have hstay2 : k = 0 ∨ ¬ aged s p := by
      rcases hstay with h0 | h0
      · exact Or.inl h0
      · right
        unfold aged
        omega
    have hin : some p ∈ queue_entries NPROC (age_boost NPROC s) k := by
      rw [hent k hk]
      apply List.mem_append_left
      unfold staying
      split_ifs with h0
      · rw [← h0]
        exact hm
      · rw [List.mem_filter]
        refine ⟨hm, ?_⟩
        rcases hstay2 with e | e
        · exact absurd e h0
        · show (!decide (aged s p)) = true
          rw [decide_eq_false e]
          rfl
    exact ⟨hin, fun j hj hjk => honly k j p hk hj hjk hin, hkept k p hk hm hstay2⟩
  · intro k p hk1 hk hm
    rw [hent k hk] at hm
    rw [hP.ticks]
    rcases List.mem_append.mp hm with h | h
    · rw [staying_eq hk1, List.mem_filter] at h
      have hna : ¬ aged s p := by
        intro hc
        have h2 : (!decide (aged s p)) = true := h.2
        rw [decide_eq_true hc] at h2
        exact absurd h2 (by decide)
      rw [hkept k p hk h.1 (Or.inr hna)]
      exact hna
    · obtain ⟨_, hk2, _, _⟩ := mem_boosted h
      rw [hP.moved p (k + 1) (by omega) hk2 h]
      simp

/-- C16, witness: in the example state with `ticks = 500`, queue 2 holds slots
1, 2, 3 that wait for 400, exactly 200 and 201 ticks, queue 1 holds slot 4 and
queue 4 holds slot 5; after `age_boost()` slots 1 and 3 follow slot 4 in queue
1, slot 2 stays alone in queue 2, and slot 5 has moved from queue 4 to queue 3,
one level only. -/
theorem C16_age_boost_witness :
    queues_ok 64 demo_aged ∧
    queue_entries 64 demo_aged 2 = [some 1, some 2, some 3] ∧
    queue_entries 64 (age_boost 64 demo_aged) 1 = [some 4, some 1, some 3] ∧
    queue_entries 64 (age_boost 64 demo_aged) 2 = [some 2] ∧
    queue_entries 64 (age_boost 64 demo_aged) 3 = [some 5] ∧
    queue_entries 64 (age_boost 64 demo_aged) 4 = [] ∧
    ((age_boost 64 demo_aged).proc 5).priority = (4 : Int) - 1 :=
  ⟨by decide, by decide,
   (C16_age_boost 64 demo_aged (by decide)).1 1 (by decide),
   (C16_age_boost 64 demo_aged (by decide)).1 2 (by decide),
   (C16_age_boost 64 demo_aged (by decide)).1 3 (by decide),
   (C16_age_boost 64 demo_aged (by decide)).1 4 (by decide),
   congrArg proc.priority
     (((C16_age_boost 64 demo_aged (by decide)).2.1 4 5 (by decide) (by decide) (by decide)
       (by decide)).2.2)⟩



set_option maxRecDepth 8192

/-- C17, counterexample: with `NPROC = 64`, after boot the first process
(slot 1) runs and sleeps on a channel, so `schedule()` falls back to the idle
task (slot 0) and marks it RUNNING; an interrupt then wakes the sleeper.  In
that reachable state the idle task is current and RUNNING, and `schedule()`
leaves it so, because it puts back only a current process that is not the idle
one: after the call slot 1 is current and RUNNING and the idle slot 0 is
RUNNING as well, two RUNNING descriptors. -/
theorem C17_counterexample :
    Reachable 64
      (wakeup 64 (sleep 64 (schedule 64 (scheduler_entry (boot 64 { a0 := 0 }))) (Chan.addr 1))
        (Chan.addr 1)) ∧
    (schedule 64
      (wakeup 64 (sleep 64 (schedule 64 (scheduler_entry (boot 64 { a0 := 0 }))) (Chan.addr 1))
        (Chan.addr 1))).cpu_proc = some 1 ∧
    ((schedule 64
      (wakeup 64 (sleep 64 (schedule 64 (scheduler_entry (boot 64 { a0 := 0 }))) (Chan.addr 1))
        (Chan.addr 1))).proc 1).state = RUNNING ∧
    ((schedule 64
      (wakeup 64 (sleep 64 (schedule 64 (scheduler_entry (boot 64 { a0 := 0 }))) (Chan.addr 1))
        (Chan.addr 1))).proc 0).state = RUNNING ∧
    ¬ (∃ n, ∀ i, i < 64 →
      (((schedule 64
        (wakeup 64 (sleep 64 (schedule 64 (scheduler_entry (boot 64 { a0 := 0 }))) (Chan.addr 1))
          (Chan.addr 1))).proc i).state = RUNNING ↔ i = n)) := by
  have h0 : ((schedule 64
      (wakeup 64 (sleep 64 (schedule 64 (scheduler_entry (boot 64 { a0 := 0 }))) (Chan.addr 1))
        (Chan.addr 1))).proc 0).state = RUNNING := by decide
  have h1 : ((schedule 64
      (wakeup 64 (sleep 64 (schedule 64 (scheduler_entry (boot 64 { a0 := 0 }))) (Chan.addr 1))
        (Chan.addr 1))).proc 1).state = RUNNING := by decide
  refine ⟨?_, by decide, h1, h0, ?_⟩
  · exact Reachable.step _ _
      (Reachable.step _ _
        (Reachable.step _ _
          (Reachable.step _ _ (Reachable.boot _) (Step.scheduler_entry _ rfl))
          (Step.schedule _))
        (Step.sleep _ _ (by decide)))
      (Step.wakeup _ _)
  · rintro ⟨n, hn⟩
    have e0 := (hn 0 (by decide)).mp h0
    have e1 := (hn 1 (by decide)).mp h1
    omega

/-- C17, amended: in every state reached by a `schedule()` call from a
reachable state, the descriptor that the current pointer of the CPU references
is a slot of the table and is RUNNING, and every RUNNING descriptor of the table
is that one or the idle task.  When the idle task was not RUNNING on entry, or
is the one chosen, the current descriptor is the only RUNNING one. -/
theorem C17_schedule_running (NPROC : Nat) (s : kernel) (hN : 0 < NPROC)
    (hs : Reachable NPROC s) :
    ∃ n, n < NPROC ∧ (schedule NPROC s).cpu_proc = some n ∧
      ((schedule NPROC s).proc n).state = RUNNING ∧
      (∀ i, i < NPROC → ((schedule NPROC s).proc i).state = RUNNING →
        i = n ∨ some i = (schedule NPROC s).idleproc) ∧
      ((∀ i, s.idleproc = some i → (s.proc i).state ≠ RUNNING ∨ i = n) →
        ∀ i, i < NPROC → (((schedule NPROC s).proc i).state = RUNNING ↔ i = n)) := by
  have hst : Reachable NPROC (schedule NPROC s) := Reachable.step _ _ hs (Step.schedule _)
  have hk := kernel_inv_reachable hN hst
  have hk0 := kernel_inv_reachable hN hs
  have hr := running_reachable hst
  have hidle : (schedule NPROC s).idleproc = some 0 := hk.1.idle
  have hcur : ∃ n, (schedule NPROC s).cpu_proc = some n ∧
      ((schedule NPROC s).proc n).state = RUNNING := by
    unfold schedule
    simp only
    cases (schedule_pick NPROC (List.range NMLFQ) (schedule_requeue NPROC s)).1 with
    | some n => exact ⟨n, by rw [schedule_switch_some], by rw [schedule_switch_some]; simp⟩
    | none =>
      have hi : (schedule_pick NPROC (List.range NMLFQ) (schedule_requeue NPROC s)).2.idleproc
          = some 0 := by simpa using hk0.1.idle
      exact ⟨0, by rw [schedule_switch_none _ 0 hi], by rw [schedule_switch_none _ 0 hi]; simp⟩
  obtain ⟨n, hn1, hn2⟩ := hcur
  have hall : ∀ i, i < NPROC → ((schedule NPROC s).proc i).state = RUNNING →
      i = n ∨ some i = (schedule NPROC s).idleproc := by
    intro i hi hri
    by_cases hii : some i = (schedule NPROC s).idleproc
    · exact Or.inr hii
    · have := hr i hi hii hri
      rw [hn1] at this
      exact Or.inl (Option.some.inj this).symm
  refine ⟨n, (hk.2 n hn1).1, hn1, hn2, hall, ?_⟩
  intro hpre i hi
  constructor
  · intro hri
    rcases hall i hi hri with e | e
    · exact e
    · rw [hidle] at e
      have ei : i = 0 := Option.some.inj e
      subst ei
      rcases hpre 0 hk0.1.idle with h0 | h0
      · have hq := quiet_trans _ _ _ (quiet_requeue NPROC s)
          (quiet_pick NPROC (List.range NMLFQ) (schedule_requeue NPROC s))
        rcases schedule_switch_proc
          (schedule_pick NPROC (List.range NMLFQ) (schedule_requeue NPROC s)).2
          (schedule_pick NPROC (List.range NMLFQ) (schedule_requeue NPROC s)).1 0 with e2 | e2
        · exfalso
          apply h0
          have hri2 : ((schedule NPROC s).proc 0).state = RUNNING := hri
          unfold schedule at hri2
          simp only at hri2
          rw [e2] at hri2
          exact hq.2.2.1 0 hri2
        · have hc : (schedule NPROC s).cpu_proc = some 0 := e2.1
          rw [hn1] at hc
          exact (Option.some.inj hc).symm
      · exact h0
  · intro e
    rw [e]
    exact hn2

/-- C17, witness of the amended claim: with `NPROC = 64`, in the state after
boot where the scheduler has made the idle task current, `schedule()` makes
slot 1 current and RUNNING. -/
theorem C17_schedule_running_witness :
    0 < 64 ∧ Reachable 64 (scheduler_entry (boot 64 { a0 := 0 })) ∧
    (schedule 64 (scheduler_entry (boot 64 { a0 := 0 }))).cpu_proc = some 1 ∧
    ∃ n, n < 64 ∧ (schedule 64 (scheduler_entry (boot 64 { a0 := 0 }))).cpu_proc = some n ∧
      ((schedule 64 (scheduler_entry (boot 64 { a0 := 0 }))).proc n).state = RUNNING ∧
      (∀ i, i < 64 →
        ((schedule 64 (scheduler_entry (boot 64 { a0 := 0 }))).proc i).state = RUNNING →
        i = n ∨ some i = (schedule 64 (scheduler_entry (boot 64 { a0 := 0 }))).idleproc) ∧
      ((∀ i, (scheduler_entry (boot 64 { a0 := 0 })).idleproc = some i →
          ((scheduler_entry (boot 64 { a0 := 0 })).proc i).state ≠ RUNNING ∨ i = n) →
        ∀ i, i < 64 →
          (((schedule 64 (scheduler_entry (boot 64 { a0 := 0 }))).proc i).state = RUNNING ↔
            i = n)) :=
  ⟨by decide, Reachable.step _ _ (Reachable.boot _) (Step.scheduler_entry _ rfl), by decide,
   C17_schedule_running 64 (scheduler_entry (boot 64 { a0 := 0 })) (by decide)
     (Reachable.step _ _ (Reachable.boot _) (Step.scheduler_entry _ rfl))⟩



set_option maxRecDepth 8192

/-- C18, counterexample: with `NPROC = 64`, one `schedule()` right after
`procinit()` finds every queue empty, chooses the idle task (slot 0, pid 0) as
the fallback and sets its state to RUNNING.  After boot the same happens when
the first process sleeps; when an interrupt then wakes the sleeper and
`schedule()` switches away from the idle task to slot 1, the idle task is still
RUNNING, not RUNNABLE. -/
theorem C18_counterexample :
    (schedule 64 (procinit 64 kernel_zero)).idleproc = some 0 ∧
    ((schedule 64 (procinit 64 kernel_zero)).proc 0).pid = 0 ∧
    ((schedule 64 (procinit 64 kernel_zero)).proc 0).state = RUNNING ∧
    ProcReachable 64
      (schedule 64
        (wakeup 64
          (sleep 64 (schedule 64 (scheduler_entry (boot 64 { a0 := 0 }))) (Chan.addr 1))
          (Chan.addr 1))) ∧
    (schedule 64
      (wakeup 64 (sleep 64 (schedule 64 (scheduler_entry (boot 64 { a0 := 0 }))) (Chan.addr 1))
        (Chan.addr 1))).cpu_proc = some 1 ∧
    ((schedule 64
      (wakeup 64 (sleep 64 (schedule 64 (scheduler_entry (boot 64 { a0 := 0 }))) (Chan.addr 1))
        (Chan.addr 1))).proc 0).state = RUNNING ∧
    ((schedule 64
      (wakeup 64 (sleep 64 (schedule 64 (scheduler_entry (boot 64 { a0 := 0 }))) (Chan.addr 1))
        (Chan.addr 1))).proc 0).state ≠ RUNNABLE := by
  refine ⟨by decide, by decide, by decide, ?_, by decide, by decide, by decide⟩
  exact ProcReachable.step _ _
    (ProcReachable.step _ _
      (ProcReachable.step _ _
        (ProcReachable.step _ _
          (ProcReachable.step _ _ (ProcReachable.boot _) (ProcStep.scheduler_entry _ rfl))
          (ProcStep.schedule _))
        (ProcStep.sleep _ _ (by decide) (by decide)))
      (ProcStep.wakeup _ _))
    (ProcStep.schedule _)

/-- C18, amended: in every state reachable from boot by steps in which `fork`,
`sleep`, `exit` and `wait` are called by a process other than the idle task, the
idle descriptor is slot 0 with pid 0 and its state is RUNNABLE or RUNNING.
A `schedule()` that chooses it, as it does when every queue is empty, sets it
to RUNNING; a `schedule()` that chooses another descriptor leaves its state as
it is; the idle loop of `scheduler()` puts it back to RUNNABLE. -/
theorem C18_idle_runnable_or_running (NPROC : Nat) (s : kernel) (hN : 0 < NPROC)
    (hs : ProcReachable NPROC s) :
    s.idleproc = some 0 ∧ (s.proc 0).pid = 0 ∧
    ((s.proc 0).state = RUNNABLE ∨ (s.proc 0).state = RUNNING) ∧
    ((∀ k, k < NMLFQ → queue_entries NPROC (schedule_requeue NPROC s) k = []) →
      (schedule NPROC s).cpu_proc = some 0) ∧
    ((schedule NPROC s).cpu_proc = some 0 → ((schedule NPROC s).proc 0).state = RUNNING) ∧
    ((schedule NPROC s).cpu_proc ≠ some 0 →
      ((schedule NPROC s).proc 0).state = (s.proc 0).state) ∧
    ((scheduler_loop s).proc 0).state = RUNNABLE := by
  have hr := reachable_of_proc_reachable hs
  have hk := kernel_inv_reachable hN hr
  refine ⟨hk.1.idle, reachable_idle_pid hN hr, idle_reachable hN hs,
    schedule_fallback NPROC s 0 hk.1.idle, ?_, ?_, ?_⟩
  · intro hc
    obtain ⟨n, h1, h2⟩ := schedule_current NPROC s 0 hk.1.idle
    rw [h1] at hc
    cases Option.some.inj hc
    exact h2
  · intro hc
    rw [schedule_other NPROC s 0 hc]
    exact (quiet_requeue NPROC s).2.2.2 0 hk.1.idle
  · unfold scheduler_loop
    rw [hk.1.idle]
    simp only
    split_ifs with hc
    · simp
    · by_contra hcon
      exact hc hcon

/-- C18, witness of the amended claim: with `NPROC = 64`, once the first
process sleeps the idle task of slot 0 is RUNNING, and the idle loop puts it
back to RUNNABLE. -/
theorem C18_idle_runnable_or_running_witness :
    0 < 64 ∧
    ProcReachable 64
      (sleep 64 (schedule 64 (scheduler_entry (boot 64 { a0 := 0 }))) (Chan.addr 1)) ∧
    ((sleep 64 (schedule 64 (scheduler_entry (boot 64 { a0 := 0 }))) (Chan.addr 1)).proc
      0).state = RUNNING ∧
    ((scheduler_loop
      (sleep 64 (schedule 64 (scheduler_entry (boot 64 { a0 := 0 }))) (Chan.addr 1))).proc
      0).state = RUNNABLE :=
  ⟨by decide,
   ProcReachable.step _ _
      (ProcReachable.step _ _
        (ProcReachable.step _ _ (ProcReachable.boot _) (ProcStep.scheduler_entry _ rfl))
        (ProcStep.schedule _))
      (ProcStep.sleep _ _ (by decide) (by decide)),
   by decide,
   (C18_idle_runnable_or_running 64
      (sleep 64 (schedule 64 (scheduler_entry (boot 64 { a0 := 0 }))) (Chan.addr 1))
      (by decide)
      (ProcReachable.step _ _
        (ProcReachable.step _ _
          (ProcReachable.step _ _ (ProcReachable.boot _) (ProcStep.scheduler_entry _ rfl))
          (ProcStep.schedule _))
        (ProcStep.sleep _ _ (by decide) (by decide)))).2.2.2.2.2.2⟩



/-- C19: in every state reached from `procinit()` by `userinit`, `fork`,
`mlfq_enqueue` with any integer priority (negative or 5 and more included) and
any slot, `wakeup`, `kill`, `schedule`, `yield`, `sleep`, `age_boost`, `exit`,
`wait` and the other steps of the kernel, every descriptor `p` of the process
table has `0 ≤ p.priority < 5`. -/
theorem C19_priority_range (NPROC : Nat) (s : kernel) (hs : PrioReachable NPROC s) :
    ∀ p, p < NPROC → 0 ≤ (s.proc p).priority ∧ (s.proc p).priority < 5 := by
  intro p _
  have := prio_ok_reachable hs p
  have h5 : ((NMLFQ : Nat) : Int) = 5 := rfl
  rw [h5] at this
  exact this

/-- C19, witness: with `NPROC = 64`, after `procinit()` and `userinit()` a call
`mlfq_enqueue(7, &proc[1])` leaves slot 1 with the clamped priority 4, and a
further `mlfq_enqueue(-3, &proc[1])` with priority 0. -/
theorem C19_priority_range_witness :
    PrioReachable 64
      (mlfq_enqueue 64
        (mlfq_enqueue 64 (userinit 64 (procinit 64 kernel_zero) (some { a0 := 0 }) true) 7 1)
        (-3) 1) ∧
    ((mlfq_enqueue 64 (userinit 64 (procinit 64 kernel_zero) (some { a0 := 0 }) true) 7
      1).proc 1).priority = 4 ∧
    ((mlfq_enqueue 64
        (mlfq_enqueue 64 (userinit 64 (procinit 64 kernel_zero) (some { a0 := 0 }) true) 7 1)
        (-3) 1).proc 1).priority = 0 ∧
    ∀ p, p < 64 →
      0 ≤ ((mlfq_enqueue 64
        (mlfq_enqueue 64 (userinit 64 (procinit 64 kernel_zero) (some { a0 := 0 }) true) 7 1)
        (-3) 1).proc p).priority ∧
      ((mlfq_enqueue 64
        (mlfq_enqueue 64 (userinit 64 (procinit 64 kernel_zero) (some { a0 := 0 }) true) 7 1)
        (-3) 1).proc p).priority < 5 :=
  ⟨PrioReachable.step _ _
      (PrioReachable.step _ _
        (PrioReachable.step _ _ PrioReachable.procinit (PrioStep.userinit _ _ _))
        (PrioStep.mlfq_enqueue _ _ _))
      (PrioStep.mlfq_enqueue _ _ _),
   by decide, by decide,
   C19_priority_range 64 _
     (PrioReachable.step _ _
      (PrioReachable.step _ _
        (PrioReachable.step _ _ PrioReachable.procinit (PrioStep.userinit _ _ _))
        (PrioStep.mlfq_enqueue _ _ _))
      (PrioStep.mlfq_enqueue _ _ _))⟩



/-- C20: the first `allocpid()` returns 1, and in every reachable state `s` a
call of `allocpid()` returns the counter `nextpid` and the next call returns
one more; an `allocproc()` that fails after taking a pid (no trapframe page or
no page table) leaves the counter advanced, and every step of the kernel
leaves the counter as it is or advances it by one.  The embedding counts in
unbounded integers, which is the C `int` as long as it has not overflowed.
Consequently, in `s` every descriptor in use other than the idle one has a
pid in `1..nextpid-1`, no two descriptors in use of the table share a pid, and
a descriptor in use with pid 0 is the idle task, whose pid is 0. -/
theorem C20_pids (NPROC : Nat) (s : kernel) (hs : Reachable NPROC s) :
    (allocpid kernel_zero).1 = 1 ∧
    (allocpid s).1 = s.nextpid ∧
    (allocpid (allocpid s).2).1 = (allocpid s).1 + 1 ∧
    (∀ kalloc pagetable_ok np, first_free NPROC s np → kalloc = none ∨ pagetable_ok = false →
      (allocproc NPROC s kalloc pagetable_ok).1 = none ∧
      (allocproc NPROC s kalloc pagetable_ok).2.nextpid = s.nextpid + 1 ∧
      (allocpid (allocproc NPROC s kalloc pagetable_ok).2).1 = (allocpid s).1 + 1) ∧
    (∀ t, Step NPROC s t → t.nextpid = s.nextpid ∨ t.nextpid = s.nextpid + 1) ∧
    (∀ i, i < NPROC → some i ≠ s.idleproc → (s.proc i).state ≠ UNUSED →
      1 ≤ (s.proc i).pid ∧ (s.proc i).pid < s.nextpid) ∧
    (∀ i j, i < NPROC → j < NPROC → (s.proc i).state ≠ UNUSED → (s.proc j).state ≠ UNUSED →
      (s.proc i).pid = (s.proc j).pid → i = j) ∧
    (∀ i, i < NPROC → (s.proc i).state ≠ UNUSED → (s.proc i).pid = 0 → some i = s.idleproc) ∧
    (∀ i, i < NPROC → some i = s.idleproc → (s.proc i).pid = 0) := by
  refine ⟨rfl, rfl, rfl, ?_, fun t ht => step_nextpid ht, ?_⟩
  · intro kalloc pt np hff hfail
    have := allocproc_fail NPROC s kalloc pt np hff hfail
    refine ⟨this.1, this.2.1, ?_⟩
    show (allocproc NPROC s kalloc pt).2.nextpid = s.nextpid + 1
    exact this.2.1
  · rcases Nat.eq_zero_or_pos NPROC with h0 | hN
    · subst h0
      exact ⟨fun i hi => absurd hi (by omega), fun i j hi => absurd hi (by omega),
        fun i hi => absurd hi (by omega), fun i hi => absurd hi (by omega)⟩
    · have hk := kernel_inv_reachable hN hs
      have ht := table_inv_reachable hN hs
      have h0 := reachable_idle_pid hN hs
      have hused : ∀ i, i < NPROC → some i ≠ s.idleproc → (s.proc i).state ≠ UNUSED →
          1 ≤ (s.proc i).pid ∧ (s.proc i).pid < s.nextpid := by
        intro i hi hidle hu
        apply ht.used_pid i hi _ hu
        intro e
        rw [hk.1.idle, e] at hidle
        exact hidle rfl
      have hzero : ∀ i, i < NPROC → (s.proc i).state ≠ UNUSED → (s.proc i).pid = 0 →
          some i = s.idleproc := by
        intro i hi hu hp
        by_contra hne
        have := hused i hi hne hu
        omega
      refine ⟨hused, ?_, hzero, ?_⟩
      · intro i j hi hj hui huj hpid
        by_cases hi0 : i = 0
        · by_cases hj0 : j = 0
          · rw [hi0, hj0]
          · exfalso
            rw [hi0, h0] at hpid
            have := hzero j hj huj hpid.symm
            rw [hk.1.idle] at this
            exact hj0 (Option.some.inj this)
        · by_cases hj0 : j = 0
          · exfalso
            rw [hj0, h0] at hpid
            have := hzero i hi hui hpid
            rw [hk.1.idle] at this
            exact hi0 (Option.some.inj this)
          · exact ht.uniq i j hi hj hi0 hj0 hui huj hpid
      · intro i _ hidle
        rw [hk.1.idle] at hidle
        rw [Option.some.inj hidle]
        exact h0

/-- C20, witness: with `NPROC = 64`, after boot, the first `schedule()` and a
`fork()` whose trapframe allocation fails, the counter stands at 3 although
only pid 1 is in use: the next `allocpid()` returns 3. -/
theorem C20_pids_witness :
    Reachable 64
      (fork 64 (schedule 64 (scheduler_entry (boot 64 { a0 := 0 }))) none true true).2 ∧
    (fork 64 (schedule 64 (scheduler_entry (boot 64 { a0 := 0 }))) none true true).1 = -1 ∧
    (allocpid
      (fork 64 (schedule 64 (scheduler_entry (boot 64 { a0 := 0 }))) none true true).2).1 = 3 ∧
    (∀ i j, i < 64 → j < 64 →
      ((fork 64 (schedule 64 (scheduler_entry (boot 64 { a0 := 0 }))) none true true).2.proc
        i).state ≠ UNUSED →
      ((fork 64 (schedule 64 (scheduler_entry (boot 64 { a0 := 0 }))) none true true).2.proc
        j).state ≠ UNUSED →
      ((fork 64 (schedule 64 (scheduler_entry (boot 64 { a0 := 0 }))) none true true).2.proc
        i).pid =
      ((fork 64 (schedule 64 (scheduler_entry (boot 64 { a0 := 0 }))) none true true).2.proc
        j).pid → i = j) :=
  ⟨Reachable.step _ _
      (Reachable.step _ _ (Reachable.step _ _ (Reachable.boot _) (Step.scheduler_entry _ rfl))
        (Step.schedule _))
      (Step.fork _ none true true (by decide)),
   by decide, by decide,
   (C20_pids 64
      (fork 64 (schedule 64 (scheduler_entry (boot 64 { a0 := 0 }))) none true true).2
      (Reachable.step _ _
        (Reachable.step _ _ (Reachable.step _ _ (Reachable.boot _) (Step.scheduler_entry _ rfl))
          (Step.schedule _))
        (Step.fork _ none true true (by decide)))).2.2.2.2.2.2.1⟩



/-- C21: the full-queue branch of `mlfq_enqueue` is unreachable.  A call
`mlfq_enqueue(priority, p)` takes that branch (`enqueue_drops`) exactly when
`p` is RUNNABLE and the target queue holds `NPROC` entries or more, and the
call then returns with nothing changed.  For a table of `NPROC > 0` slots,
whose queues have the capacity `NPROC`, neither `procinit()` nor `userinit()`
takes it at boot, and in every state `s` reachable from boot every queue holds
fewer than `NPROC` entries, a call of `mlfq_enqueue` made in `s` does not take
it, and no call of `mlfq_enqueue` made in the course of `fork`, `sleep`,
`wakeup`, `kill`, `exit`, `wait`, `yield`, `schedule` or `age_boost` run from
`s` takes it, the calls inside the loops of `wakeup`, `reparent` and
`age_boost` included.  So no RUNNABLE descriptor is ever dropped: in `s` every
RUNNABLE descriptor of the table other than the idle one is in a queue. -/
theorem C21_full_queue_branch_unreachable (NPROC : Nat) (hN : 0 < NPROC) (s : kernel)
    (hs : Reachable NPROC s) :
    (∀ (a : kernel) (priority : Int) (p : Nat), enqueue_drops NPROC a priority p = true ↔
      (a.proc p).state = RUNNABLE ∧
        NPROC ≤ (a.mlfq_queues (clamp_priority priority).toNat).count) ∧
    (∀ (a : kernel) (priority : Int) (p : Nat), enqueue_drops NPROC a priority p = true →
      mlfq_enqueue NPROC a priority p = a) ∧
    procinit_drops NPROC kernel_zero = false ∧
    (∀ kalloc pagetable_ok,
      userinit_drops NPROC (procinit NPROC kernel_zero) kalloc pagetable_ok = false) ∧
    (∀ k, k < NMLFQ → (s.mlfq_queues k).count < NPROC) ∧
    (∀ (priority : Int) (p : Nat), enqueue_drops NPROC s priority p = false) ∧
    (∀ kalloc pagetable_ok uvmcopy_ok,
      fork_drops NPROC s kalloc pagetable_ok uvmcopy_ok = false) ∧
    (∀ chan, sleep_drops NPROC s chan = false) ∧
    (∀ chan, wakeup_drops NPROC s chan = false) ∧
    (∀ pid, kill_drops NPROC s pid = false) ∧
    (∀ status, exit_drops NPROC s status = false) ∧
    wait_drops NPROC s = false ∧
    yield_drops NPROC s = false ∧
    schedule_drops NPROC s = false ∧
    age_boost_drops NPROC s = false ∧
    (∀ i, i < NPROC → some i ≠ s.idleproc → (s.proc i).state = RUNNABLE →
      ∃ k, k < NMLFQ ∧ some i ∈ queue_entries NPROC s k) := by
  have h := kernel_inv_reachable hN hs
  refine ⟨fun a pr p => enqueue_drops_iff NPROC a pr p,
    fun a pr p hd => mlfq_enqueue_full NPROC a pr p
      (by have := ((enqueue_drops_iff NPROC a pr p).mp hd).2; omega),
    procinit_drops_false hN,
    fun kalloc pt => userinit_drops_false (kernel_inv_procinit hN) kalloc pt,
    kernel_inv_room h, fun pr p => enqueue_drops_of_room NPROC s (kernel_inv_room h) pr p,
    fun kalloc pt uv => fork_drops_false h kalloc pt uv, fun chan => sleep_drops_false h chan,
    fun chan => wakeup_drops_false h chan, fun pid => kill_drops_false h pid,
    fun status => exit_drops_false h status, wait_drops_false h, yield_drops_false h,
    schedule_drops_false NPROC s (kernel_inv_room h), age_boost_drops_false h, ?_⟩
  intro i hi hidle hr
  have hi0 : i ≠ 0 := by
    intro e
    rw [h.1.idle, e] at hidle
    exact hidle rfl
  exact h.1.queued i hi hi0 hr (by simp)

/-- The theorem `C21_full_queue_branch_unreachable` at `NPROC = 64` in the
state after boot and the first `schedule()`. -/
theorem C21_full_queue_branch_unreachable_witness :
    0 < 64 ∧
    Reachable 64 (schedule 64 (scheduler_entry (boot 64 { a0 := 0 }))) ∧
    (∀ k, k < NMLFQ →
      ((schedule 64 (scheduler_entry (boot 64 { a0 := 0 }))).mlfq_queues k).count < 64) ∧
    (∀ kalloc pagetable_ok uvmcopy_ok,
      fork_drops 64 (schedule 64 (scheduler_entry (boot 64 { a0 := 0 }))) kalloc pagetable_ok
        uvmcopy_ok = false) ∧
    schedule_drops 64 (schedule 64 (scheduler_entry (boot 64 { a0 := 0 }))) = false :=
  ⟨by decide,
   Reachable.step _ _ (Reachable.step _ _ (Reachable.boot _) (Step.scheduler_entry _ rfl))
     (Step.schedule _),
   (C21_full_queue_branch_unreachable 64 (by decide)
      (schedule 64 (scheduler_entry (boot 64 { a0 := 0 })))
      (Reachable.step _ _ (Reachable.step _ _ (Reachable.boot _) (Step.scheduler_entry _ rfl))
        (Step.schedule _))).2.2.2.2.1,
   (C21_full_queue_branch_unreachable 64 (by decide)
      (schedule 64 (scheduler_entry (boot 64 { a0 := 0 })))
      (Reachable.step _ _ (Reachable.step _ _ (Reachable.boot _) (Step.scheduler_entry _ rfl))
        (Step.schedule _))).2.2.2.2.2.2.1,
   (C21_full_queue_branch_unreachable 64 (by decide)
      (schedule 64 (scheduler_entry (boot 64 { a0 := 0 })))
      (Reachable.step _ _ (Reachable.step _ _ (Reachable.boot _) (Step.scheduler_entry _ rfl))
        (Step.schedule _))).2.2.2.2.2.2.2.2.2.2.2.2.2.1⟩



set_option maxRecDepth 8192

/-- C22 fails as stated: in the state `demo_stale` (`NPROC = 64`) queue 0 is
`[1, 2]` and its head, slot 1, is SLEEPING, a stale entry.  `schedule()`
dequeues it, and its call `mlfq_enqueue(next->priority, next)` returns at the
test `p->state != RUNNABLE` without queueing anything, so after `schedule()`
has made its selection (slot 3, from queue 1) queue 0 is `[2]` and slot 1 is
an entry of no queue. -/
theorem C22_counterexample :
    wf_queues 64 demo_stale ∧
    queue_entries 64 demo_stale 0 = [some 1, some 2] ∧
    (demo_stale.proc 1).state = SLEEPING ∧
    (demo_stale.proc 1).priority = 0 ∧
    (mlfq_dequeue 64 (schedule_requeue 64 demo_stale) 0).1 = some 1 ∧
    (schedule 64 demo_stale).cpu_proc = some 3 ∧
    queue_entries 64 (schedule 64 demo_stale) 0 = [some 2] ∧
    (∀ k, k < NMLFQ → some 1 ∉ queue_entries 64 (schedule 64 demo_stale) k) := by
  decide

/-- C22, amended: when the scan of `schedule()` gets to queue `k` (what it
dequeued from every queue before `k` was null or not RUNNABLE) and the head of
queue `k` is a descriptor `n` whose state is not RUNNABLE, the call
`mlfq_enqueue(n->priority, n)` is refused by the test `p->state != RUNNABLE`
and changes nothing, so the stale entry is dropped, not put back: when
`schedule()` has made its selection queue `k` holds the entries `rest` that
followed the stale head (and `n` is not among them unless it was queued
twice), no queue has gained an entry, the scan has gone on with the
priorities after `k` from a state that differs in the queues up to `k` only,
and the selection is not the stale descriptor. -/
theorem C22_stale_entry_dropped (NPROC : Nat) (s : kernel) (k n : Nat)
    (rest : List (Option Nat)) (hk : k < NMLFQ)
    (hw : wf_queues NPROC (schedule_requeue NPROC s))
    (hreach : ∀ j, j < k → ¬ entry_runnable (schedule_requeue NPROC s)
      (mlfq_dequeue NPROC (schedule_requeue NPROC s) j).1)
    (he : queue_entries NPROC (schedule_requeue NPROC s) k = some n :: rest)
    (hst : ((schedule_requeue NPROC s).proc n).state ≠ RUNNABLE) :
    (∀ a : kernel, a.proc = (schedule_requeue NPROC s).proc →
      mlfq_enqueue NPROC a (a.proc n).priority n = a) ∧
    queue_entries NPROC (schedule NPROC s) k = rest ∧
    (some n ∉ rest → some n ∉ queue_entries NPROC (schedule NPROC s) k) ∧
    (∀ j, queue_entries NPROC (schedule NPROC s) j <:+
      queue_entries NPROC (schedule_requeue NPROC s) j) ∧
    (∃ a1 : kernel, a1.proc = (schedule_requeue NPROC s).proc ∧
      (∀ j, k < j → a1.mlfq_queues j = (schedule_requeue NPROC s).mlfq_queues j) ∧
      queue_entries NPROC a1 k = rest ∧
      schedule_pick NPROC (List.range NMLFQ) (schedule_requeue NPROC s) =
        schedule_pick NPROC (List.range' (k + 1) (NMLFQ - (k + 1))) a1) ∧
    (schedule_pick NPROC (List.range NMLFQ) (schedule_requeue NPROC s)).1 ≠ some n := by
  obtain ⟨a1, hp, hq, hr, hpick, hent⟩ :=
    schedule_pick_stale NPROC (schedule_requeue NPROC s) k n rest hk (hw k hk) hreach he hst
  have hfin : queue_entries NPROC (schedule NPROC s) k = rest := by
    unfold schedule
    simp only [queue_entries, schedule_switch_queues]
    exact hent
  refine ⟨?_, hfin, fun h => by rw [hfin]; exact h, ?_, ⟨a1, hp, hq, hr, hpick⟩, ?_⟩
  · intro a ha
    exact mlfq_enqueue_not_runnable NPROC a _ n (by rw [ha]; exact hst)
  · intro j
    unfold schedule
    simp only [queue_entries, schedule_switch_queues]
    exact schedule_pick_suffix NPROC _ _ hw (fun x hx => List.mem_range.mp hx) j
  · intro h
    exact hst (schedule_pick_runnable NPROC _ _ n h)

/-- The theorem `C22_stale_entry_dropped` at the state `demo_stale`, whose
queue 0 has the SLEEPING slot 1 at its head. -/
theorem C22_stale_entry_dropped_witness :
    wf_queues 64 (schedule_requeue 64 demo_stale) ∧
    queue_entries 64 (schedule_requeue 64 demo_stale) 0 = [some 1, some 2] ∧
    ((schedule_requeue 64 demo_stale).proc 1).state ≠ RUNNABLE ∧
    queue_entries 64 (schedule 64 demo_stale) 0 = [some 2] ∧
    (schedule_pick 64 (List.range NMLFQ) (schedule_requeue 64 demo_stale)).1 ≠ some 1 :=
  ⟨by decide, by decide, by decide,
    (C22_stale_entry_dropped 64 demo_stale 0 1 [some 2] (by decide) (by decide)
      (fun j hj => absurd hj (Nat.not_lt_zero j)) (by decide) (by decide)).2.1,
    (C22_stale_entry_dropped 64 demo_stale 0 1 [some 2] (by decide) (by decide)
      (fun j hj => absurd hj (Nat.not_lt_zero j)) (by decide) (by decide)).2.2.2.2.2⟩



/-- C23, the code at boot, for every table size `NPROC`: `procinit()` on the
zeroed statics sets up the idle descriptor in slot 0 (pid 0, name "idle",
priority 4, state RUNNABLE) and calls `mlfq_enqueue(idleproc->priority,
idleproc)`, which does put it into queue 4 (for `0 < NPROC`), but the last
statement of `procinit()` is `mlfq_init()`, which resets `front`, `rear` and
`count` of every queue to 0.  So when `procinit()` returns queue 4 has
`count = 0`, not 1, the idle descriptor is an entry of no queue, and all five
queues are empty. -/
theorem C23_procinit_wipes_idle_entry (NPROC : Nat) :
    procinit NPROC kernel_zero =
      mlfq_init
        (mlfq_enqueue NPROC
          (set_proc { procinit_reset NPROC kernel_zero with idleproc := some 0 } 0
            { (procinit_reset NPROC kernel_zero).proc 0 with
              state := RUNNABLE, pid := 0, priority := (NMLFQ : Int) - 1, name := "idle" })
          ((NMLFQ : Int) - 1) 0) ∧
    queue_entries NPROC
        (mlfq_enqueue NPROC
          (set_proc { procinit_reset NPROC kernel_zero with idleproc := some 0 } 0
            { (procinit_reset NPROC kernel_zero).proc 0 with
              state := RUNNABLE, pid := 0, priority := (NMLFQ : Int) - 1, name := "idle" })
          ((NMLFQ : Int) - 1) 0) 4 = (if 0 < NPROC then [some 0] else []) ∧
    (procinit NPROC kernel_zero).idleproc = some 0 ∧
    ((procinit NPROC kernel_zero).proc 0).pid = 0 ∧
    ((procinit NPROC kernel_zero).proc 0).name = "idle" ∧
    ((procinit NPROC kernel_zero).proc 0).priority = 4 ∧
    ((procinit NPROC kernel_zero).proc 0).state = RUNNABLE ∧
    ((procinit NPROC kernel_zero).mlfq_queues 4).count = 0 ∧
    queue_entries NPROC (procinit NPROC kernel_zero) 4 = [] ∧
    (∀ k, k < NMLFQ → (procinit NPROC kernel_zero).idleproc ∉
      queue_entries NPROC (procinit NPROC kernel_zero) k) ∧
    (∀ k, k < NMLFQ → ((procinit NPROC kernel_zero).mlfq_queues k).count = 0) := by
  have hi := procinit_idle NPROC
  have h4 := procinit_queues_empty NPROC 4 (by decide)
  refine ⟨procinit_before_init NPROC, procinit_enqueues_idle NPROC, hi.1, hi.2.1, hi.2.2.1,
    hi.2.2.2.1, hi.2.2.2.2, h4.2.2.1, h4.2.2.2, ?_, ?_⟩
  · intro k hk
    rw [(procinit_queues_empty NPROC k hk).2.2.2]
    exact List.not_mem_nil _
  · intro k hk
    exact (procinit_queues_empty NPROC k hk).2.2.1



/-- C24: ring well-formedness is preserved by every queue operation.  If each
of the `NMLFQ = 5` queues of a state has `front < NPROC`, `rear < NPROC`,
`count ≤ NPROC` and `rear = (front + count) % NPROC`, then the same holds of
the state after `mlfq_init()`, after `mlfq_enqueue(priority, p)` for any
priority and descriptor, after `mlfq_dequeue(priority)` for any priority in
`0..4`, and after `mlfq_remove(p)` for any pointer `p`, null or not, queued
or not. -/
theorem C24_ring_wf_preserved (NPROC : Nat) (s : kernel) (hw : wf_queues NPROC s) :
    wf_queues NPROC (mlfq_init s) ∧
    (∀ (priority : Int) (p : Nat), wf_queues NPROC (mlfq_enqueue NPROC s priority p)) ∧
    (∀ priority : Nat, priority < NMLFQ → wf_queues NPROC (mlfq_dequeue NPROC s priority).2) ∧
    (∀ p : Option Nat, wf_queues NPROC (mlfq_remove NPROC s p)) := by
  have hN : 0 < NPROC := wf_queues_pos hw
  refine ⟨?_, fun pr p => mlfq_enqueue_wf_queues NPROC hN s pr p hw,
    fun k _ => mlfq_dequeue_wf_queues NPROC hN s k hw,
    fun p => mlfq_remove_wf_queues NPROC hN s p hw⟩
  intro k hk
  rw [mlfq_init_queues s k hk]
  exact ⟨hN, hN, Nat.zero_le _, by simp⟩

/-- The theorem `C24_ring_wf_preserved` at the state `demo_wrapped`, whose
queue 0 wraps around the end of the ring. -/
theorem C24_ring_wf_preserved_witness :
    wf_queues 4 demo_wrapped ∧
    (wf_queues 4 (mlfq_init demo_wrapped) ∧
    (∀ (priority : Int) (p : Nat), wf_queues 4 (mlfq_enqueue 4 demo_wrapped priority p)) ∧
    (∀ priority : Nat, priority < NMLFQ → wf_queues 4 (mlfq_dequeue 4 demo_wrapped priority).2) ∧
    (∀ p : Option Nat, wf_queues 4 (mlfq_remove 4 demo_wrapped p))) :=
  ⟨by decide, C24_ring_wf_preserved 4 demo_wrapped (by decide)⟩



set_option maxRecDepth 8192

/-- C25, the code with the lock as a held/free flag whose `acquire` fails when
the lock is held: `age_boost()` takes `mlfq_lock` and, still holding it, calls
`mlfq_remove(p)` and `mlfq_enqueue(prio - 1, p)` for each collected
descriptor, and each of the two takes `mlfq_lock` itself.  So for every table
size and every state, `age_boost()` called with the lock free comes through
(with the state unchanged and the lock free again) exactly when none of the
queues 4, 3, 2, 1 holds a descriptor with `ticks - entry_time > 200`, and ends
in the panic of a nested `acquire` otherwise.  The state `demo_aged`
(`NPROC = 64`, `ticks = 500`) is such an input: its queues satisfy the queue
invariant, queue 4 holds slot 5 with `entry_time = 0`, `age_boost()` collects
it, the call `mlfq_remove(p)` made with the lock held fails, and `age_boost()`
does not run to completion. -/
theorem C25_age_boost_nested_acquire (NPROC : Nat) (s : kernel) :
    age_boost_with_lock NPROC s false =
      (if age_boost_collect NPROC s 4 = [] ∧ age_boost_collect NPROC s 3 = [] ∧
          age_boost_collect NPROC s 2 = [] ∧ age_boost_collect NPROC s 1 = []
        then some (s, false) else none) ∧
    queues_ok 64 demo_aged ∧
    queue_entries 64 demo_aged 4 = [some 5] ∧
    (demo_aged.proc 5).priority = 4 ∧
    demo_aged.ticks - (demo_aged.proc 5).entry_time = 500 ∧
    age_boost_collect 64 demo_aged 4 = [5] ∧
    acquire false = some true ∧
    (mlfq_remove_with_lock 64 demo_aged true (some 5)).isNone = true ∧
    (age_boost_with_lock 64 demo_aged false).isNone = true := by
  refine ⟨age_boost_with_lock_spec NPROC s, by decide, by decide, by decide, by decide,
    by decide, rfl, by decide, ?_⟩
  rw [age_boost_with_lock_spec, if_neg (by decide)]
  rfl

end Mlfq
